import Mathlib

/-!
# Mat5: a MATLAB Level-5 MAT file codec

A shallow embedding of the lexer (`MatLexer`), the token parser (`MatParser`),
the structural reader (`MatReader`) and the writer (`MatWriter`) of the Mat5
library, and theorems about them.

Conventions of the embedding

* A byte is a natural number below 256; a byte sequence (`QByteArray`, the
  content of a device) is a `List Nat`.  A `QString` is the list of its UTF-16
  code units.
* Machine integers are naturals or integers with explicit wrap-around.
* What the C++ leaves to the platform is a parameter, `Host`: the byte order,
  the signedness of `char` and the size of `long`.
* What the C++ delegates to the Qt library and to zlib is a parameter, `Qt`:
  the zlib codec behind `QtIOCompressor`, the UTF codecs of `QString` and the
  conversions of `QVariant` that involve floating point or number formatting.
* Devices are read sequentially.  A device is the bytes it still delivers
  (`Dev.bytes`) and the number of bytes a frame promised beyond them
  (`Dev.missing`).  The read-ahead buffer of `QIODevice` is not modelled;
  the logical stream is.
-/

namespace Mat

/-! ## Platform and library parameters -/

/-- Platform facts the sources depend on. -/
structure Host where
  /-- True when `QSysInfo::BigEndian` holds. -/
  bigEndian : Bool
  /-- True when plain `char` is a signed type. -/
  charSigned : Bool
  /-- The value of `sizeof(long)`, 4 or 8. -/
  sizeofLong : Nat
deriving DecidableEq, Repr

/-- Library functions the sources call and do not define. -/
structure Qt where
  /-- Output of `QtIOCompressor` opened for reading over the given bytes. -/
  inflate : List Nat → List Nat
  /-- Output of `QtIOCompressor` opened for writing, once closed. -/
  deflate : List Nat → List Nat
  /-- The bytes of `QString::toUtf8`. -/
  toUtf8 : List Nat → List Nat
  /-- The code units of `QString::fromUtf8`. -/
  fromUtf8 : List Nat → List Nat
  /-- The code units of `QString::fromUtf16`. -/
  fromUtf16 : List Nat → List Nat
  /-- The code units of `QString::fromUcs4`. -/
  fromUcs4 : List Nat → List Nat
  /-- The value of `qRound64` on a `double` given by its bit pattern. -/
  roundDouble : Nat → Int
  /-- The value of `qRound64` on a `float` given by its bit pattern. -/
  roundFloat : Nat → Int
  /-- The text of `QString::number` on an integer. -/
  intText : Int → List Nat
  /-- The text of `QString::number` on a real given by its bit pattern
  (the flag says whether it is a `double`). -/
  realText : Bool → Nat → List Nat
  /-- The integer a text converts to (`QString::toLongLong`, 0 on failure). -/
  textToLongLong : List Nat → Int

/-! ## Bytes and machine integers -/

/-- The `n` low bytes of `v`, least significant first. -/
def leBytes : Nat → Nat → List Nat
  | 0, _ => []
  | n + 1, v => v % 256 :: leBytes n (v / 256)

/-- The number whose bytes, least significant first, are given. -/
def leValue : List Nat → Nat
  | [] => 0
  | b :: bs => b % 256 + 256 * leValue bs

/-- The object representation of the `n`-byte unsigned value `v` in memory
(what `memcpy` from `&i` yields). -/
def hostBytes (host : Host) (n v : Nat) : List Nat :=
  if host.bigEndian then (leBytes n v).reverse else leBytes n v

/-- The unsigned value of an object representation. -/
def hostValue (host : Host) (mem : List Nat) : Nat :=
  if host.bigEndian then leValue mem.reverse else leValue mem

/-- The two's complement reading of a `bits`-wide pattern. -/
def toSigned (bits : Nat) (v : Nat) : Int :=
  if v % 2 ^ bits < 2 ^ (bits - 1) then (v % 2 ^ bits : Nat) else (v % 2 ^ bits : Nat) - (2 ^ bits : Nat)

/-- The `bits`-wide pattern of an integer (conversion to an unsigned type). -/
def toUnsigned (bits : Nat) (v : Int) : Nat :=
  (v % (2 ^ bits : Nat)).toNat

/-! ## Devices -/

/-- A device opened for sequential reading. -/
structure Dev where
  /-- The bytes the device still delivers. -/
  bytes : List Nat
  /-- Bytes a frame announced that the enclosing device cannot supply: the
  device is not at its end while this is positive, and it delivers nothing
  for them. -/
  missing : Nat
deriving DecidableEq, Repr

/-- `QIODevice::atEnd`. -/
def Dev.atEnd (d : Dev) : Bool := d.bytes.isEmpty && d.missing == 0

/-- `QIODevice::read(maxSize)`: the bytes read and the device behind them. -/
def Dev.read (d : Dev) (maxSize : Nat) : List Nat × Dev :=
  (d.bytes.take maxSize, { d with bytes := d.bytes.drop maxSize })

/-- `QIODevice::peek(maxSize)`. -/
def Dev.peek (d : Dev) (maxSize : Nat) : List Nat := d.bytes.take maxSize

/-- `QIODevice::readAll`. -/
def Dev.readAll (d : Dev) : List Nat × Dev := (d.bytes, { d with bytes := [] })

/-- `MatLexer::swapByteOrder`: the buffer with its bytes in reverse order. -/
def swapByteOrder (buf : List Nat) : List Nat := buf.reverse

/-- `MatLexer::read<T>` on a device, for a `T` of `size` bytes: the count
returned, the unsigned pattern left in `i` (meaningful when the count is
`size`) and the device afterwards. -/
def MatLexer.read (host : Host) (d : Dev) (size : Nat) (swap : Bool) : Nat × Nat × Dev :=
  let r := d.read size
  if r.1.length != size then (r.1.length, 0, r.2)
  else (r.1.length, hostValue host (if swap then swapByteOrder r.1 else r.1), r.2)

/-- `calcPadding` of MatLexer.cpp. -/
def calcPadding (len boundary : Nat) : Nat :=
  let rem := len % boundary
  if rem != 0 then (boundary - rem) % 256 else 0

/-- `MatLexer::InStream`: a frame of `d_len` payload bytes and `d_padding`
padding bytes over the enclosing device `d_in`.  For a compressed frame the
decoder has taken the frame's bytes from `d_in` and `d_plain` is what it
still delivers. -/
structure InStream where
  d_in : Dev
  d_len : Nat
  d_padding : Nat
  d_compressed : Bool
  d_plain : List Nat
deriving DecidableEq, Repr

/-- The constructor `InStream(in, len, padding, compressed)`. -/
def InStream.new (qt : Qt) (dev : Dev) (len padding : Nat) (compressed : Bool) : InStream :=
  if compressed then
    let r := dev.read len
    { d_in := (r.2.read padding).2, d_len := 0, d_padding := 0, d_compressed := true,
      d_plain := qt.inflate r.1 }
  else
    { d_in := dev, d_len := len, d_padding := padding, d_compressed := false, d_plain := [] }

/-- `InStream::bytesAvailable`. -/
def InStream.bytesAvailable (s : InStream) : Nat :=
  if s.d_compressed then s.d_plain.length else s.d_len

/-- `QIODevice::atEnd` on an `InStream`. -/
def InStream.atEnd (s : InStream) : Bool := s.bytesAvailable == 0

/-- `InStream::eatPadding`. -/
def InStream.eatPadding (s : InStream) : InStream :=
  if s.d_padding != 0 then { s with d_in := (s.d_in.read s.d_padding).2, d_padding := 0 } else s

/-- `InStream::readData` behind `QIODevice::read(maxSize)`. -/
def InStream.read (s : InStream) (maxSize : Nat) : List Nat × InStream :=
  if s.d_compressed then
    (s.d_plain.take maxSize, { s with d_plain := s.d_plain.drop maxSize })
  else if s.d_len > 0 then
    let r := s.d_in.read (min maxSize s.d_len)
    let s1 := { s with d_in := r.2, d_len := s.d_len - r.1.length }
    (r.1, if s1.d_len == 0 then s1.eatPadding else s1)
  else ([], s)

/-- `QIODevice::readAll` on an `InStream`. -/
def InStream.readAll (s : InStream) : List Nat × InStream :=
  s.read (s.bytesAvailable)

/-- `MatLexer::read<T>` on an `InStream`. -/
def MatLexer.readStream (host : Host) (s : InStream) (size : Nat) (swap : Bool) :
    Nat × Nat × InStream :=
  let r := s.read size
  if r.1.length != size then (r.1.length, 0, r.2)
  else (r.1.length, hostValue host (if swap then swapByteOrder r.1 else r.1), r.2)

/-! ## MatLexer -/

/-- A `QIODevice` as `setDevice` receives it. -/
structure QIODevice where
  /-- The content, read from position 0 once the device is opened or reset. -/
  data : List Nat
  /-- The value of `isOpen()`. -/
  isOpen : Bool
  /-- Whether `open(mode)` succeeds. -/
  canOpen : Bool
deriving DecidableEq, Repr

/-- The state of a `MatLexer`. -/
structure MatLexer where
  d_in : Option Dev
  d_needByteSwap : Bool
  d_owner : Bool
deriving DecidableEq, Repr

/-- The constructor `MatLexer(byteSwap)`. -/
def MatLexer.new (byteSwap : Bool) : MatLexer :=
  { d_in := none, d_needByteSwap := byteSwap, d_owner := false }

/-- `MatLexer::needsByteSwap`. -/
def MatLexer.needsByteSwap (lex : MatLexer) : Bool := lex.d_needByteSwap

/-- A `char` holding the given byte, as an `int`. -/
def charValue (host : Host) (b : Nat) : Int :=
  if host.charSigned then toSigned 8 b else (b % 256 : Nat)

/-- The text `MATLAB 5.0 MAT-file`. -/
def magic : List Nat := "MATLAB 5.0 MAT-file".toList.map Char.toNat

/-- `QByteArray::startsWith`. -/
def startsWith (a pre : List Nat) : Bool := a.take pre.length == pre

/-- `MatLexer::setDevice(QIODevice*, own, expectHeader)`: the value returned
and the lexer afterwards. -/
def MatLexer.setDevice (host : Host) (lex : MatLexer) (dev : Option QIODevice)
    (own expectHeader : Bool) : Bool × MatLexer :=
  match dev with
  | none => (false, lex)
  | some q =>
    if !q.isOpen && !q.canOpen then (false, lex)
    else
      let d0 : Dev := { bytes := q.data, missing := 0 }
      if expectHeader then
        let header := d0.read 116
        if header.1.length < 116 then (false, lex)
        else if !startsWith header.1 magic then (false, lex)
        else
          let subsytemDataOffset := header.2.read 8
          if subsytemDataOffset.1.length < 8 then (false, lex)
          else
            let flags := subsytemDataOffset.2.read 4
            if flags.1.length < 4 then (false, lex)
            else
              let mi_ptr := hostBytes host 2 0x4d49
              let f := fun i => charValue host (flags.1.getD i 0)
              let m := fun i => charValue host (mi_ptr.getD i 0)
              let swap : Option Bool :=
                if f 2 == m 0 && f 3 == m 1 then some false
                else if f 2 == m 1 && f 3 == m 0 then some true
                else none
              match swap with
              | none => (false, lex)
              | some swap =>
                let version : Nat :=
                  if swap then toUnsigned 16 (f 1 + f 0 * 256)
                  else toUnsigned 16 (f 0 + f 1 * 256)
                if version != 0x0100 then (false, lex)
                else (true, { d_in := some flags.2, d_needByteSwap := swap, d_owner := own })
      else (true, { lex with d_in := some d0, d_owner := own })

/-- `MatLexer::DataElement`. -/
structure DataElement where
  d_type : Nat
  d_error : Bool
  d_end : Bool
  d_stream : Option InStream
deriving DecidableEq, Repr

/-- The constructor `DataElement()`. -/
def DataElement.new : DataElement :=
  { d_type := 0, d_error := false, d_end := true, d_stream := none }

/-- The constructor `DataElement(bool e)`. -/
def DataElement.ofError (e : Bool) : DataElement :=
  { d_type := 0, d_error := e, d_end := true, d_stream := none }

def miINT8 : Nat := 1
def miUINT8 : Nat := 2
def miINT16 : Nat := 3
def miUINT16 : Nat := 4
def miINT32 : Nat := 5
def miUINT32 : Nat := 6
def miSINGLE : Nat := 7
def miDOUBLE : Nat := 9
def miINT64 : Nat := 12
def miUINT64 : Nat := 13
def miMATRIX : Nat := 14
def miCOMPRESSED : Nat := 15
def miUTF8 : Nat := 16
def miUTF16 : Nat := 17
def miUTF32 : Nat := 18

/-- `MatLexer::nextElement`: the element and the lexer afterwards.  The
element's stream holds the lexer's device; who reads the stream hands the
device back to the lexer. -/
def MatLexer.nextElement (qt : Qt) (host : Host) (lex : MatLexer) : DataElement × MatLexer :=
  match lex.d_in with
  | none => (DataElement.new, lex)
  | some d =>
    if d.atEnd then (DataElement.new, lex)
    else
      let peek := d.peek 4
      if peek.length < 4 then (DataElement.ofError true, lex)
      else if peek.getD 1 0 != 0 || peek.getD 2 0 != 0 then
        -- small data element format: one 32 bit word
        let r := MatLexer.read host d 4 lex.d_needByteSwap
        if r.1 != 4 then (DataElement.ofError true, { lex with d_in := some r.2.2 })
        else
          let val := r.2.1
          let type : Int := toSigned 16 (val % 65536)
          let len : Int := toSigned 16 (val / 65536)
          if len > 4 then (DataElement.ofError true, { lex with d_in := some r.2.2 })
          else
            ({ d_type := toUnsigned 8 type, d_error := false, d_end := false,
               d_stream := some (InStream.new qt r.2.2 (toUnsigned 32 len)
                 (calcPadding (toUnsigned 32 len) 4) false) },
             { lex with d_in := some r.2.2 })
      else
        -- normal format: type word, length word
        let t := MatLexer.read host d 4 lex.d_needByteSwap
        if t.1 != 4 then (DataElement.ofError true, { lex with d_in := some t.2.2 })
        else
          let l := MatLexer.read host t.2.2 4 lex.d_needByteSwap
          if l.1 != 4 then (DataElement.ofError true, { lex with d_in := some l.2.2 })
          else if t.2.1 == miCOMPRESSED then
            let s := InStream.new qt l.2.2 l.2.1 0 true
            let t2 := MatLexer.readStream host s 4 lex.d_needByteSwap
            if t2.1 != 4 then (DataElement.ofError true, { lex with d_in := some t2.2.2.d_in })
            else
              let l2 := MatLexer.readStream host t2.2.2 4 lex.d_needByteSwap
              if l2.1 != 4 then (DataElement.ofError true, { lex with d_in := some l2.2.2.d_in })
              else
                ({ d_type := t2.2.1 % 256, d_error := false, d_end := false,
                   d_stream := some l2.2.2 },
                 { lex with d_in := some l2.2.2.d_in })
          else
            ({ d_type := t.2.1 % 256, d_error := false, d_end := false,
               d_stream := some (InStream.new qt l.2.2 l.2.1 (calcPadding l.2.1 8) false) },
             { lex with d_in := some l.2.2 })

/-- `MatLexer::readAll`. -/
def MatLexer.readAll (lex : MatLexer) : MatLexer :=
  { lex with d_in := lex.d_in.map (fun d => d.readAll.2) }

/-! ## QVariant and the data model of MatReader.h -/

/-- The type ids of `QVariant::type()` the sources distinguish. -/
inductive MetaType where
  | Invalid | Bool | Int | UInt | LongLong | ULongLong | Double | Char | List | String
  | ByteArray | Long | Short | ULong | UShort | UChar | Float | User
deriving DecidableEq, Repr

/-- The members of `struct Matrix`. -/
structure Matrix where
  d_name : List Nat
  d_logical : Bool
  d_global : Bool
  d_valid : Bool
deriving DecidableEq, Repr

/-- The constructor `Matrix()`. -/
def Matrix.new : Matrix :=
  { d_name := [], d_logical := false, d_global := false, d_valid := false }

/-- A `QVariant`.  Integers carry their value, reals their IEEE bit pattern,
strings their UTF-16 code units.  The last six constructors are the
registered types of MatReader.h; a `QMap` is the list of its entries in key
order.  `device` is a `QIODevice*`, given by the variants a `QDataStream`
reads from it. -/
inductive QVariant where
  | invalid
  | bool (b : Bool)
  | int (v : Int)
  | uint (v : Nat)
  | longLong (v : Int)
  | uLongLong (v : Nat)
  | double (bits : Nat)
  | char (c : Nat)
  | list (l : List QVariant)
  | string (s : List Nat)
  | byteArray (b : List Nat)
  | long (v : Int)
  | short (v : Int)
  | uLong (v : Nat)
  | uShort (v : Nat)
  | uChar (v : Nat)
  | float (bits : Nat)
  | device (l : List QVariant)
  | numericArray (m : Matrix) (d_dims : List Int) (d_real d_img : List QVariant)
  | matString (m : Matrix) (d_str : List Nat)
  | matStructure (m : Matrix) (d_className : List Nat)
      (d_fields : List (List Nat × List QVariant))
  | cellArray (m : Matrix) (d_dims : List Int) (d_cells : List QVariant)
  | sparseArray (m : Matrix)
  | undocumented (m : Matrix) (d_value d_sub : QVariant)

instance : Inhabited QVariant := ⟨QVariant.invalid⟩

/-- `QVariant::type`. -/
def QVariant.type : QVariant → MetaType
  | .invalid => .Invalid
  | .bool _ => .Bool
  | .int _ => .Int
  | .uint _ => .UInt
  | .longLong _ => .LongLong
  | .uLongLong _ => .ULongLong
  | .double _ => .Double
  | .char _ => .Char
  | .list _ => .List
  | .string _ => .String
  | .byteArray _ => .ByteArray
  | .long _ => .Long
  | .short _ => .Short
  | .uLong _ => .ULong
  | .uShort _ => .UShort
  | .uChar _ => .UChar
  | .float _ => .Float
  | _ => .User

/-- `QVariant::toList`. -/
def QVariant.toList : QVariant → List QVariant
  | .list l => l
  | _ => []

/-- `QVariant::toByteArray` (of a byte array). -/
def QVariant.toByteArray : QVariant → List Nat
  | .byteArray b => b
  | _ => []

/-- The `qlonglong` a variant converts to on its way to an integer type. -/
def QVariant.toLongLong (qt : Qt) : QVariant → Int
  | .bool b => if b then 1 else 0
  | .int v => v
  | .uint v => v
  | .longLong v => v
  | .uLongLong v => toSigned 64 v
  | .double b => qt.roundDouble b
  | .float b => qt.roundFloat b
  | .char c => c
  | .long v => v
  | .short v => v
  | .uLong v => v
  | .uShort v => v
  | .uChar v => v
  | .string s => qt.textToLongLong s
  | .byteArray b => qt.textToLongLong b
  | _ => 0

/-- `QVariant::toUInt`. -/
def QVariant.toUInt (qt : Qt) (v : QVariant) : Nat := toUnsigned 32 (v.toLongLong qt)

/-- `QVariant::toInt`. -/
def QVariant.toInt (qt : Qt) (v : QVariant) : Int := toSigned 32 (toUnsigned 32 (v.toLongLong qt))

/-- The text `true` or `false`. -/
def boolText (b : Bool) : List Nat := (if b then "true" else "false").toList.map Char.toNat

/-- `QVariant::toString`. -/
def QVariant.toString (qt : Qt) : QVariant → List Nat
  | .string s => s
  | .char c => [c]
  | .byteArray b => qt.fromUtf8 b
  | .bool b => boolText b
  | .int v => qt.intText v
  | .uint v => qt.intText v
  | .longLong v => qt.intText v
  | .uLongLong v => qt.intText v
  | .long v => qt.intText v
  | .short v => qt.intText v
  | .uLong v => qt.intText v
  | .uShort v => qt.intText v
  | .uChar v => qt.intText v
  | .double b => qt.realText true b
  | .float b => qt.realText false b
  | _ => []

/-- `QVariant::toBool` (of an invalid variant, the only use). -/
def QVariant.toBool : QVariant → Bool
  | .bool b => b
  | _ => false

/-- A string literal of the sources as a `QString`. -/
def qstr (s : String) : List Nat := s.toList.map Char.toNat

/-! ## MatParser -/

/-- `MatParser::TokenType`. -/
inductive TokenType where
  | Null | Value | BeginMatrix | EndMatrix | Error
deriving DecidableEq, Repr

/-- `MatParser::Token`. -/
structure Token where
  d_type : TokenType
  d_value : QVariant

/-- The constructor `Token()`. -/
def Token.new : Token := { d_type := .Null, d_value := .invalid }

/-- The constructor `Token(type)`. -/
def Token.ofType (t : TokenType) : Token := { d_type := t, d_value := .invalid }

/-- The constructor `Token(Error, "...")`. -/
def Token.error (msg : String) : Token := { d_type := .Error, d_value := .string (qstr msg) }

/-- The state of a `MatParser`.  `d_first` is `d_lex.first()`; `d_nested` holds
the other entries of `d_lex`, the last one (`d_lex.last()`) at the head. -/
structure MatParser where
  d_first : MatLexer
  d_nested : List MatLexer
  d_peek : Token
  d_limit : Nat

/-- `d_lex.last()`. -/
def MatParser.last (p : MatParser) : MatLexer :=
  match p.d_nested with
  | [] => p.d_first
  | lex :: _ => lex

/-- The parser with `d_lex.last()` replaced. -/
def MatParser.setLast (p : MatParser) (lex : MatLexer) : MatParser :=
  match p.d_nested with
  | [] => { p with d_first := lex }
  | _ :: rest => { p with d_nested := lex :: rest }

/-- The end of `_read<T>`: one value is returned as a scalar, any other
number of values as a list. -/
def _readResult (tmp : List QVariant) : Token :=
  match tmp with
  | [v] => { d_type := .Value, d_value := v }
  | _ => { d_type := .Value, d_value := .list tmp }

/-- The loop of `_read<T>`, run at most `fuel` times: `size` is `sizeof(T)`,
`mk` the conversion of a `T` to a `QVariant`. -/
def _readLoop (host : Host) (size : Nat) (mk : Nat → QVariant) (name : String) (swap : Bool)
    (limit : Nat) : Nat → InStream → Nat → List QVariant → Token × InStream
  | 0, s, _, tmp => (_readResult tmp, s)
  | fuel + 1, s, i, tmp =>
    if s.atEnd then (_readResult tmp, s)
    else if limit != 0 && i >= limit then (_readResult tmp, s.readAll.2)
    else
      let r := MatLexer.readStream host s size swap
      if r.1 != size then (Token.error name, r.2.2)
      else _readLoop host size mk name swap limit fuel r.2.2 (i + 1) (tmp ++ [mk r.2.1])

/-- `_read<T>` of MatParser.cpp.  Every turn of the loop that does not leave
it takes `size >= 1` bytes from the stream, so `bytesAvailable + 1` turns are
enough. -/
def _read (host : Host) (size : Nat) (mk : Nat → QVariant) (name : String) (s : InStream)
    (swap : Bool) (limit : Nat) : Token × InStream :=
  _readLoop host size mk name swap limit (s.bytesAvailable + 1) s 0 []

/-- The loop of the `miUTF16` and `miUTF32` cases of `readValue`: the code
units read, or nothing after a short read. -/
def _readUnits (host : Host) (size : Nat) (swap : Bool) :
    Nat → InStream → List Nat → Option (List Nat) × InStream
  | 0, s, tmp => (some tmp, s)
  | fuel + 1, s, tmp =>
    if s.atEnd then (some tmp, s)
    else
      let r := MatLexer.readStream host s size swap
      if r.1 != size then (none, r.2.2)
      else _readUnits host size swap fuel r.2.2 (tmp ++ [r.2.1])

/-- `MatParser::readValue`, given `d_lex.first()->needsByteSwap()` and
`d_limit`: the token and the stream as it is left. -/
def MatParser.readValue (qt : Qt) (host : Host) (swap : Bool) (d_limit : Nat)
    (s : InStream) (type : Nat) : Token × InStream :=
  if type == miINT8 then
    let r := s.readAll
    ({ d_type := .Value, d_value := .byteArray r.1 }, r.2)
  else if type == miUINT8 then
    _read host 1 (fun v => .int v) "miUINT8" s swap d_limit
  else if type == miINT16 then
    _read host 2 (fun v => .int (toSigned 16 v)) "miINT16" s swap d_limit
  else if type == miUINT16 then
    _read host 2 (fun v => .int v) "miUINT16" s swap d_limit
  else if type == miINT32 then
    _read host 4 (fun v => .int (toSigned 32 v)) "miINT32" s swap d_limit
  else if type == miUINT32 then
    _read host 4 (fun v => .uint v) "miUINT32" s swap d_limit
  else if type == miSINGLE then
    _read host 4 (fun v => .float v) "miSINGLE" s swap d_limit
  else if type == miDOUBLE then
    _read host 8 (fun v => .double v) "miDOUBLE" s swap d_limit
  else if type == miINT64 then
    _read host 8 (fun v => .longLong (toSigned 64 v)) "miINT64" s swap d_limit
  else if type == miUINT64 then
    _read host 8 (fun v => .uLongLong v) "miUINT64" s swap d_limit
  else if type == miUTF8 then
    let r := s.readAll
    ({ d_type := .Value, d_value := .string (qt.fromUtf8 r.1) }, r.2)
  else if type == miUTF16 then
    match _readUnits host 2 swap (s.bytesAvailable + 1) s [] with
    | (none, s1) => (Token.error "miUTF16", s1)
    | (some tmp, s1) => ({ d_type := .Value, d_value := .string (qt.fromUtf16 tmp) }, s1)
  else if type == miUTF32 then
    match _readUnits host 4 swap (s.bytesAvailable + 1) s [] with
    | (none, s1) => (Token.error "miUTF32", s1)
    | (some tmp, s1) => ({ d_type := .Value, d_value := .string (qt.fromUcs4 tmp) }, s1)
  else (Token.error "Invalid type", s)

/-- The device of a lexer bound to a stream by `setDevice(InStream*)`, and
the enclosing device once that lexer has read the stream to its end.  The
enclosing lexer is not read while the nested one is on the stack, so the frame
is split off when the nested lexer is bound. -/
def InStream.toDev (s : InStream) : Dev × Dev :=
  let r := s.readAll
  ({ bytes := r.1, missing := r.2.bytesAvailable }, r.2.d_in)

/-- `MatParser::nextToken`: the token and the parser afterwards. -/
def MatParser.nextToken (qt : Qt) (host : Host) (p : MatParser) : Token × MatParser :=
  if p.d_peek.d_type != TokenType.Null then (p.d_peek, { p with d_peek := Token.new })
  else
    let r := p.last.nextElement qt host
    let e := r.1
    let p1 := p.setLast r.2
    if e.d_end then
      match p1.d_nested with
      | _ :: rest => (Token.ofType .EndMatrix, { p1 with d_nested := rest })
      | [] => (Token.ofType .Null, p1)
    else if e.d_error then (Token.error "Lexer Error", p1)
    else
      match e.d_stream with
      | none => (Token.ofType .Error, p1)
      | some s =>
        if e.d_type == miMATRIX then
          let v := s.toDev
          let p2 := p1.setLast { r.2 with d_in := some v.2 }
          (Token.ofType .BeginMatrix,
            { p2 with d_nested :=
                { d_in := some v.1, d_needByteSwap := p.d_first.needsByteSwap, d_owner := false }
                  :: p2.d_nested })
        else if e.d_type == miCOMPRESSED then
          (Token.error "miCOMPRESSED", p1.setLast { r.2 with d_in := some s.d_in })
        else
          let t := MatParser.readValue qt host p.d_first.needsByteSwap p.d_limit s e.d_type
          (t.1, p1.setLast { r.2 with d_in := some t.2.d_in })

/-- `MatParser::peekToken`. -/
def MatParser.peekToken (qt : Qt) (host : Host) (p : MatParser) : Token × MatParser :=
  let r := MatParser.nextToken qt host { p with d_peek := Token.new }
  (r.1, { r.2 with d_peek := r.1 })

/-- `MatParser::skipLevel`. -/
def MatParser.skipLevel (p : MatParser) : MatParser :=
  match p.d_nested with
  | lex :: rest => { p with d_nested := lex.readAll :: rest }
  | [] => p

/-- `MatParser::setDevice` on a fresh parser. -/
def MatParser.setDevice (host : Host) (dev : Option QIODevice) (own : Bool) (limit : Nat) :
    Bool × MatParser :=
  let r := (MatLexer.new false).setDevice host dev own true
  (r.1, { d_first := r.2, d_nested := [], d_peek := Token.new, d_limit := limit })

/-! ## MatReader -/

def mxCELL_CLASS : Nat := 1
def mxSTRUCT_CLASS : Nat := 2
def mxOBJECT_CLASS : Nat := 3
def mxCHAR_CLASS : Nat := 4
def mxSPARSE_CLASS : Nat := 5
def mxDOUBLE_CLASS : Nat := 6
def mxSINGLE_CLASS : Nat := 7
def mxINT8_CLASS : Nat := 8
def mxUINT8_CLASS : Nat := 9
def mxINT16_CLASS : Nat := 10
def mxUINT16_CLASS : Nat := 11
def mxINT32_CLASS : Nat := 12
def mxUINT32_CLASS : Nat := 13
def mxINT64_CLASS : Nat := 14
def mxUINT64_CLASS : Nat := 15
def mxUndocumented16 : Nat := 16
def mxUndocumented17 : Nat := 17

/-- Why a run of the reader yields no result. -/
inductive Fault where
  /-- The step budget of the model ran out. -/
  | fuel
  /-- An integer division by zero was executed. -/
  | divisionByZero
deriving DecidableEq, Repr

/-- The state of a `MatReader`; `d_parser'` is the member `d_parser` (the parser the reader
owns), `d_error` the error text. -/
structure MatReader where
  d_parser' : MatParser
  d_error : List Nat

/-- `MatReader::error`. -/
def MatReader.error (r : MatReader) (msg : String) : QVariant × MatReader :=
  (.invalid, { r with d_error := qstr msg })

/-- `d_parser->nextToken()`. -/
def MatReader.nextToken (qt : Qt) (host : Host) (r : MatReader) : Token × MatReader :=
  let t := r.d_parser'.nextToken qt host
  (t.1, { r with d_parser' := t.2 })

/-- `d_parser->peekToken()`. -/
def MatReader.peekToken (qt : Qt) (host : Host) (r : MatReader) : Token × MatReader :=
  let t := r.d_parser'.peekToken qt host
  (t.1, { r with d_parser' := t.2 })

/-- `d_parser->skipLevel()`. -/
def MatReader.skipLevel (r : MatReader) : MatReader :=
  { r with d_parser' := r.d_parser'.skipLevel }

/-- A product in `qint32` arithmetic. -/
def mul32 (a b : Int) : Int := toSigned 32 (toUnsigned 32 (a * b))

/-- `_totalCount` of MatReader.cpp. -/
def _totalCount (v : List Int) : Int := v.foldl mul32 1

/-- `_toList` of MatReader.cpp. -/
def _toList (a : List Nat) (_signed : Bool) (limit : Nat) : List QVariant :=
  (if limit == 0 then a else a.take limit).map
    (fun b => if _signed then QVariant.int (toSigned 8 b) else QVariant.uint (b % 256))

/-- The loop of `_split`, run at most `fuel` times; `none` when the budget
runs out.  The position is an unbounded integer.  It is negative only after
a negative chunk length was added; from then on it only falls, the loop
returns no result for any budget (in C++ it runs until `pos` overflows), and
the names appended meanwhile, for which Qt counts a negative position from
the end of the array, are never returned. -/
def _splitLoop (str : List Nat) (chunkLen : Int) :
    Nat → Int → List (List Nat) → Option (List (List Nat))
  | 0, _, _ => none
  | fuel + 1, pos, res =>
    if pos < str.length then
      _splitLoop str chunkLen fuel (pos + chunkLen)
        (res ++ [(str.drop pos.toNat).takeWhile (fun b => b != 0)])
    else some res

/-- `_split` of MatReader.cpp with a step budget. -/
def _split (fuel : Nat) (str : List Nat) (chunkLen : Int) : Option (List (List Nat)) :=
  _splitLoop str chunkLen fuel 0 []

/-- `operator<` of `QByteArray`. -/
def bytesLt : List Nat → List Nat → Bool
  | [], [] => false
  | [], _ :: _ => true
  | _ :: _, [] => false
  | a :: as, b :: bs => a < b || (a == b && bytesLt as bs)

/-- The statement `map[key].append(v)` on a `QMap<QByteArray,QVariantList>`. -/
def qmapAppend (m : List (List Nat × List QVariant)) (key : List Nat) (v : QVariant) :
    List (List Nat × List QVariant) :=
  match m with
  | [] => [(key, [v])]
  | (k, l) :: rest =>
    if k == key then (k, l ++ [v]) :: rest
    else if bytesLt key k then (key, [v]) :: (k, l) :: rest
    else (k, l) :: qmapAppend rest key v

/-- `QMap::value(key)`. -/
def qmapValue (m : List (List Nat × List QVariant)) (key : List Nat) : List QVariant :=
  match m with
  | [] => []
  | (k, l) :: rest => if k == key then l else qmapValue rest key

/-- The payload normalisation of the numeric classes in `readMatrix`. -/
def payloadList (t : Token) (type limit : Nat) : List QVariant :=
  if t.d_value.type == MetaType.ByteArray then
    _toList t.d_value.toByteArray (type != mxUINT8_CLASS) limit
  else if t.d_value.type == MetaType.List then t.d_value.toList
  else [t.d_value]

/-- The do-while loop of the `mxCELL_CLASS` case of `readMatrix`, entered with
a `BeginMatrix` peeked; `rm` is `readMatrix`.  The result is `none` when the
loop returns from `readMatrix` with the empty value, else the cells. -/
def cellLoop (qt : Qt) (host : Host) (rm : MatReader → Except Fault (QVariant × MatReader))
    (limit : Nat) : Nat → MatReader → Nat → List QVariant →
    Except Fault (Option (List QVariant) × MatReader)
  | 0, _, _, _ => .error .fuel
  | fuel + 1, r, i, cells =>
    let t := r.nextToken qt host
    match rm t.2 with
    | .error f => .error f
    | .ok (v, r1) =>
      if r1.d_error != [] then .ok (none, r1)
      else
        let t2 := r1.nextToken qt host
        if t2.1.d_type != TokenType.EndMatrix then .ok (none, (t2.2.error "Invalid cell end").2)
        else if limit != 0 && i + 1 >= limit then .ok (some (cells ++ [v]), t2.2.skipLevel)
        else
          let t3 := t2.2.peekToken qt host
          if t3.1.d_type == TokenType.BeginMatrix then
            cellLoop qt host rm limit fuel t3.2 (i + 1) (cells ++ [v])
          else .ok (some (cells ++ [v]), t3.2)

/-- The do-while loop of `readFields`, entered with a `BeginMatrix` peeked.
The result is `none` when `readFields` returns false from inside the loop,
else the field map and the count `n`. -/
def fieldLoop (qt : Qt) (host : Host) (rm : MatReader → Except Fault (QVariant × MatReader))
    (names : List (List Nat)) (limit : Nat) : Nat → MatReader → Nat →
    List (List Nat × List QVariant) →
    Except Fault (Option (List (List Nat × List QVariant) × Nat) × MatReader)
  | 0, _, _, _ => .error .fuel
  | fuel + 1, r, n, fields =>
    let t := r.nextToken qt host
    match rm t.2 with
    | .error f => .error f
    | .ok (v, r1) =>
      if r1.d_error != [] then .ok (none, r1)
      else if names.length == 0 then .error .divisionByZero
      else
        let fields1 := qmapAppend fields (names.getD (n % names.length) []) v
        let t2 := r1.nextToken qt host
        if t2.1.d_type != TokenType.EndMatrix then .ok (none, (t2.2.error "Invalid field end").2)
        else if limit != 0 && (n + 1) % 2 ^ 32 >= limit then
          .ok (some (fields1, n + 1), t2.2.skipLevel)
        else
          let t3 := t2.2.peekToken qt host
          if t3.1.d_type == TokenType.BeginMatrix then
            fieldLoop qt host rm names limit fuel t3.2 (n + 1) fields1
          else .ok (some (fields1, n + 1), t3.2)

/-- `MatReader::readFields`: the value returned, the fields of `s` and the
reader afterwards. -/
def MatReader.readFields (qt : Qt) (host : Host)
    (rm : MatReader → Except Fault (QVariant × MatReader)) (fuel : Nat) (r : MatReader)
    (names : List (List Nat)) :
    Except Fault (Bool × List (List Nat × List QVariant) × MatReader) :=
  let limit := (r.d_parser'.d_limit * names.length) % 2 ^ 32
  let t := r.peekToken qt host
  let looped : Except Fault (Option (List (List Nat × List QVariant) × Nat) × MatReader) :=
    if t.1.d_type == TokenType.BeginMatrix then fieldLoop qt host rm names limit fuel t.2 0 []
    else .ok (some ([], 0), t.2)
  match looped with
  | .error f => .error f
  | .ok (none, r1) => .ok (false, [], r1)
  | .ok (some (fields, n), r1) =>
    if n != names.length then
      if names.length == 0 then .error .divisionByZero
      else if n % names.length != 0 then
        .ok (((r1.error "Fields and names not consistent").1).toBool, fields,
          (r1.error "Fields and names not consistent").2)
      else .ok (true, fields, r1)
    else .ok (true, fields, r1)

/-- The `switch( type )` statement of `MatReader::readMatrix`, entered with
the flags, the dimensions and the name read: `rm` is `readMatrix` for the
nested matrices, `hdr` holds the name and the flags, `r3` is the reader. -/
def MatReader.classSwitch (qt : Qt) (host : Host)
    (rm : MatReader → Except Fault (QVariant × MatReader)) (fuel limit type : Nat)
    (hdr : Matrix) (complex : Bool) (dims : List Int) (r3 : MatReader) :
    Except Fault (QVariant × MatReader) :=
  let totalCount := _totalCount dims
  if mxDOUBLE_CLASS <= type && type <= mxUINT64_CLASS then
    if dims.length < 2 then .ok (r3.error "At least two dimensions required")
    else
      let t4 := r3.nextToken qt host
      let re := payloadList t4.1 type limit
      if t4.1.d_type != TokenType.Value || (limit == 0 && (re.length : Int) != totalCount)
      then .ok (t4.2.error "Invalid array real part")
      else if complex then
        let t5 := t4.2.nextToken qt host
        let im := payloadList t5.1 type limit
        if t5.1.d_type != TokenType.Value ||
            (limit == 0 && (im.length : Int) != totalCount)
        then .ok (t5.2.error "Invalid array complex part")
        else .ok (.numericArray hdr dims re im, t5.2)
      else .ok (.numericArray hdr dims re [], t4.2)
  else if type == mxSPARSE_CLASS then
    if dims.length > 2 then .ok (r3.error "Invalid sparse array dimensions")
    else
      let t4 := r3.nextToken qt host
      let t5 := t4.2.nextToken qt host
      let t6 := t5.2.nextToken qt host
      let r7 := if complex then (t6.2.nextToken qt host).2 else t6.2
      .ok (.sparseArray hdr, r7)
  else if type == mxCELL_CLASS then
    if dims.length < 2 then .ok (r3.error "At least two dimensions required")
    else
      let t4 := r3.peekToken qt host
      if t4.1.d_type == TokenType.BeginMatrix then
        match cellLoop qt host rm limit fuel t4.2 0 [] with
        | .error e => .error e
        | .ok (none, r5) => .ok (.invalid, r5)
        | .ok (some cells, r5) => .ok (.cellArray hdr dims cells, r5)
      else .ok (.cellArray hdr dims [], t4.2)
  else if type == mxCHAR_CLASS then
    let t4 := r3.nextToken qt host
    if t4.1.d_type != TokenType.Value ||
        (((t4.1.d_value.toString qt).length : Nat) : Int) != totalCount
    then .ok (t4.2.error "Invalid char array")
    else .ok (.matString hdr (t4.1.d_value.toString qt), t4.2)
  else if type == mxSTRUCT_CLASS then
    let t4 := r3.nextToken qt host
    if t4.1.d_type != TokenType.Value || t4.1.d_value.type != MetaType.Int then
      .ok (t4.2.error "Invalid struct format")
    else
      let nameLength := t4.1.d_value.toInt qt
      let t5 := t4.2.nextToken qt host
      if t5.1.d_type != TokenType.Value || t5.1.d_value.type != MetaType.ByteArray then
        .ok (t5.2.error "Invalid struct format")
      else
        match _split fuel t5.1.d_value.toByteArray nameLength with
        | none => .error .fuel
        | some names =>
          match MatReader.readFields qt host rm fuel t5.2 names with
          | .error e => .error e
          | .ok (false, _, r6) => .ok (.invalid, r6)
          | .ok (true, fields, r6) => .ok (.matStructure hdr [] fields, r6)
  else if type == mxUndocumented17 || type == mxUndocumented16 then
    let u : Option (QVariant × MatReader) :=
      if type == mxUndocumented17 then
        let t4 := r3.nextToken qt host
        if t4.1.d_type != TokenType.Value then none else some (t4.1.d_value, t4.2)
      else some (.invalid, r3)
    match u with
    | none => .ok ((r3.nextToken qt host).2.error "Invalid type 17 format")
    | some (d_value, r4) =>
      let t5 := r4.nextToken qt host
      if t5.1.d_type != TokenType.BeginMatrix then .ok (t5.2.error "Invalid type 17 start")
      else
        match rm t5.2 with
        | .error e => .error e
        | .ok (d_sub, r6) =>
          if r6.d_error != [] then .ok (.invalid, r6)
          else
            let t7 := r6.nextToken qt host
            if t7.1.d_type != TokenType.EndMatrix then
              .ok (t7.2.error "Invalid type 17 end")
            else .ok (.undocumented hdr d_value d_sub, t7.2)
  else if type == mxOBJECT_CLASS then
    let t4 := r3.nextToken qt host
    if t4.1.d_type != TokenType.Value || t4.1.d_value.type != MetaType.ByteArray then
      .ok (t4.2.error "Invalid class format")
    else
      let className := t4.1.d_value.toByteArray
      let t5 := t4.2.nextToken qt host
      if t5.1.d_type != TokenType.Value || t5.1.d_value.type != MetaType.Int then
        .ok (t5.2.error "Invalid class format")
      else
        let nameLength := t5.1.d_value.toInt qt
        let t6 := t5.2.nextToken qt host
        if t6.1.d_type != TokenType.Value || t6.1.d_value.type != MetaType.ByteArray then
          .ok (t6.2.error "Invalid class format")
        else
          match _split fuel t6.1.d_value.toByteArray nameLength with
          | none => .error .fuel
          | some names =>
            match MatReader.readFields qt host rm fuel t6.2 names with
            | .error e => .error e
            | .ok (false, _, r7) => .ok (.invalid, r7)
            | .ok (true, fields, r7) => .ok (.matStructure hdr className fields, r7)
  else .ok (r3.error "Invalid array type")

/-- `MatReader::readMatrix` with a step budget: the value returned and the
reader afterwards. -/
def MatReader.readMatrix (qt : Qt) (host : Host) :
    Nat → MatReader → Except Fault (QVariant × MatReader)
  | 0, _ => .error .fuel
  | fuel + 1, r =>
    let limit := r.d_parser'.d_limit
    let pk := r.peekToken qt host
    if pk.1.d_type == TokenType.EndMatrix then .ok (.invalid, pk.2)
    else
      let t1 := pk.2.nextToken qt host
      let l := t1.1.d_value.toList
      if t1.1.d_type != TokenType.Value || l.length != 2 then .ok (t1.2.error "Invalid array flags")
      else
        let f := (l.headD default).toUInt qt
        let logical := f &&& 0x200 != 0
        let global := f &&& 0x400 != 0
        let complex := f &&& 0x800 != 0
        let type := f &&& 0xff
        let t2 := t1.2.nextToken qt host
        let l2 := t2.1.d_value.toList
        if type <= 15 && (t2.1.d_type != TokenType.Value || l2.isEmpty) then
          .ok (t2.2.error "Invalid array dimensions")
        else
          let dims := l2.map (fun v => v.toInt qt)
          let t3 := t2.2.nextToken qt host
          if t3.1.d_type != TokenType.Value || t3.1.d_value.type != MetaType.ByteArray then
            .ok (t3.2.error "Invalid array name")
          else
            MatReader.classSwitch qt host (MatReader.readMatrix qt host fuel) fuel limit type
              { d_name := t3.1.d_value.toByteArray, d_logical := logical, d_global := global,
                d_valid := true }
              complex dims t3.2

/-- `MatReader::nextElement` with a step budget.  `Q_ASSERT` is the no-op of a
release build. -/
def MatReader.nextElement (qt : Qt) (host : Host) (fuel : Nat) (r : MatReader) :
    Except Fault (QVariant × MatReader) :=
  let r0 := { r with d_error := [] }
  let t := r0.nextToken qt host
  match t.1.d_type with
  | .Value => .ok (t.1.d_value, t.2)
  | .BeginMatrix =>
    match MatReader.readMatrix qt host fuel t.2 with
    | .error e => .error e
    | .ok (v, r1) =>
      if r1.d_error != [] then .ok (.invalid, r1)
      else
        let t2 := r1.nextToken qt host
        if t2.1.d_type == TokenType.EndMatrix then .ok (v, t2.2)
        else .ok (t2.2.error "Invalid matrix end")
  | .EndMatrix => .ok (.invalid, t.2)
  | .Error => .ok (.invalid, { t.2 with d_error := t.1.d_value.toString qt })
  | .Null => .ok (.invalid, t.2)

/-- `MatReader::setDevice` on a fresh reader. -/
def MatReader.setDevice (host : Host) (dev : Option QIODevice) (own : Bool) (limit : Nat) :
    Bool × MatReader :=
  let r := MatParser.setDevice host dev own limit
  (r.1, { d_parser' := r.2, d_error := [] })

/-- `MatReader::hasError`. -/
def MatReader.hasError (r : MatReader) : Bool := r.d_error != []

/-! ## MatWriter -/

/-- A value in `qint32` arithmetic. -/
def wrap32 (x : Int) : Int := toSigned 32 (toUnsigned 32 x)

/-- `MatWriter::TypeLen`. -/
structure TypeLen where
  d_miType : Nat
  d_mxType : Nat
  d_len : Nat
deriving DecidableEq, Repr

/-- `MatWriter::TypeLen::isNumArray`. -/
def TypeLen.isNumArray (t : TypeLen) : Bool :=
  t.d_mxType >= mxDOUBLE_CLASS && t.d_mxType <= mxUINT64_CLASS

/-- `MatWriter::Level`; `d_out` is what has been written to the level's
device. -/
structure Level where
  d_out : List Nat
  d_type : TypeLen
  d_dims : List Int
deriving DecidableEq, Repr

/-- The constructor `Level(out, mxType)` on an empty device. -/
def Level.new : Level := { d_out := [], d_type := { d_miType := 0, d_mxType := 0, d_len := 0 }, d_dims := [] }

/-- The state of a `MatWriter`; `d_level.last()` is at the head of `d_level`. -/
structure MatWriter where
  d_level : List Level
  d_owner : Bool
deriving DecidableEq, Repr

/-- The writer with `f` applied to `d_level.last()`. -/
def MatWriter.onLast (w : MatWriter) (f : Level → Level) : MatWriter :=
  match w.d_level with
  | [] => w
  | l :: rest => { w with d_level := f l :: rest }

/-- The template `MatWriter::write<T>` for a `T` of `size` bytes holding
the pattern `v`. -/
def MatWriter.write (host : Host) (out : List Nat) (size v : Nat) : List Nat :=
  out ++ hostBytes host size v

/-- `QByteArray(size, char(0))`; an array of negative size is empty. -/
def zeros (size : Int) : List Nat := List.replicate size.toNat 0

/-- `MatWriter::writeTag`. -/
def MatWriter.writeTag (host : Host) (out : List Nat) (miType byteLen : Nat) : List Nat :=
  let miType := miType % 256
  let byteLen := byteLen % 2 ^ 32
  if byteLen <= 4 then
    MatWriter.write host out 4 ((miType + byteLen * 2 ^ 16) % 2 ^ 32)
  else
    MatWriter.write host (MatWriter.write host out 4 miType) 4 byteLen

/-- `MatWriter::writePadding`. -/
def MatWriter.writePadding (out : List Nat) (len : Int) : List Nat :=
  if len <= 4 then out ++ zeros (4 - len)
  else out ++ zeros ((8 - len % 8) % 8)

/-- `MatWriter::writeDataElement`. -/
def MatWriter.writeDataElement (host : Host) (out : List Nat) (miType : Nat) (data : List Nat) :
    List Nat :=
  let len : Int := toSigned 32 data.length
  MatWriter.writePadding (MatWriter.writeTag host out (miType % 2 ^ 16) (toUnsigned 32 len) ++ data) len

/-- `MatWriter::writeData`. -/
def MatWriter.writeData (qt : Qt) (host : Host) (out : List Nat) (v : QVariant) : List Nat :=
  match v with
  | .byteArray b => out ++ b
  | .char c => out ++ qt.toUtf8 [c]
  | .string s => out ++ qt.toUtf8 s
  | .double b => MatWriter.write host out 8 b
  | .int i => MatWriter.write host out 4 (toUnsigned 32 i)
  | .longLong i => MatWriter.write host out 8 (toUnsigned 64 i)
  | .uint u => MatWriter.write host out 4 u
  | .uLongLong u => MatWriter.write host out 8 u
  | .bool b => MatWriter.write host out 1 (if b then 1 else 0)
  | .uChar u => MatWriter.write host out 1 (u % 256)
  | .float b => MatWriter.write host out 4 b
  | .short i => MatWriter.write host out 2 (toUnsigned 16 i)
  | .uShort u => MatWriter.write host out 2 u
  | .long i => MatWriter.write host out host.sizeofLong (toUnsigned (8 * host.sizeofLong) i)
  | .uLong u => MatWriter.write host out host.sizeofLong u
  | _ => out

/-- `MatWriter::writeArrayDims`. -/
def MatWriter.writeArrayDims (host : Host) (out : List Nat) (dims : List Int) : List Nat :=
  let len : Int := wrap32 (4 * dims.length)
  MatWriter.writePadding
    (dims.foldl (fun o d => MatWriter.write host o 4 (toUnsigned 32 d))
      (MatWriter.writeTag host out miINT32 (toUnsigned 32 len))) len

/-- `MatWriter::writeArrayFlags`. -/
def MatWriter.writeArrayFlags (host : Host) (out : List Nat) (type : Nat) : List Nat :=
  MatWriter.write host (MatWriter.write host (MatWriter.writeTag host out miUINT32 (2 * 4)) 4
    (type % 2 ^ 16)) 4 0

/-- `MatWriter::writeArrayName`. -/
def MatWriter.writeArrayName (host : Host) (out : List Nat) (name : List Nat) : List Nat :=
  MatWriter.writeDataElement host out miINT8 name

/-- `MatWriter::matTypeFromMetaType`. -/
def MatWriter.matTypeFromMetaType : MetaType → TypeLen
  | .ByteArray => ⟨miUINT8, mxUINT8_CLASS, 0⟩
  | .Char => ⟨miUTF8, mxCHAR_CLASS, 0⟩
  | .String => ⟨miUTF8, mxCHAR_CLASS, 0⟩
  | .Double => ⟨miDOUBLE, mxDOUBLE_CLASS, 8⟩
  | .Int => ⟨miINT32, mxINT32_CLASS, 4⟩
  | .Long => ⟨miINT32, mxINT32_CLASS, 4⟩
  | .LongLong => ⟨miINT64, mxINT64_CLASS, 8⟩
  | .UInt => ⟨miUINT32, mxUINT32_CLASS, 4⟩
  | .ULong => ⟨miUINT32, mxUINT32_CLASS, 4⟩
  | .ULongLong => ⟨miUINT64, mxUINT64_CLASS, 8⟩
  | .Bool => ⟨miUINT8, mxUINT8_CLASS, 1⟩
  | .UChar => ⟨miUINT8, mxUINT8_CLASS, 1⟩
  | .Float => ⟨miSINGLE, mxSINGLE_CLASS, 4⟩
  | .Short => ⟨miINT16, mxINT16_CLASS, 2⟩
  | .UShort => ⟨miUINT16, mxUINT16_CLASS, 2⟩
  | _ => ⟨0, 0, 0⟩

/-- `MatWriter::isNumeric`. -/
def MatWriter.isNumeric : MetaType → Bool
  | .Double | .Int | .LongLong | .UInt | .ULongLong | .Bool | .UChar | .Float | .Short
  | .UShort | .Long | .ULong => true
  | _ => false

/-- `MatWriter::isString`. -/
def MatWriter.isString : MetaType → Bool
  | .Char | .String => true
  | _ => false

/-- `_totalCount` of MatWriter.cpp. -/
def MatWriter._totalCount (v : List Int) : Int :=
  if v.isEmpty then 0 else v.foldl mul32 1

/-- The text `header` of `MatWriter::writeHeader`.  `osName` is the text the
preprocessor branch selects (with the word size appended on Linux), `now` the
formatted current date; the literal parts of the banner are ASCII. -/
def MatWriter.banner (qt : Qt) (host : Host) (osName now : List Nat) : List Nat :=
  let platform := osName ++ qstr " " ++ (if host.bigEndian then qstr "BE" else qstr "LE")
  qstr "MATLAB 5.0 MAT-file, Platform: " ++ qt.toUtf8 platform ++
    qstr ", Created on: " ++ qt.toUtf8 now

/-- `MatWriter::writeHeader`. -/
def MatWriter.writeHeader (qt : Qt) (host : Host) (osName now : List Nat) (w : MatWriter) :
    MatWriter :=
  let header := MatWriter.banner qt host osName now
  w.onLast (fun l =>
    { l with d_out :=
        MatWriter.write host (MatWriter.write host
          (l.d_out ++ header ++ zeros (116 - header.length) ++ zeros 8) 2 0x0100) 2 0x4d49 })

/-- `MatWriter::release`. -/
def MatWriter.release (w : MatWriter) : MatWriter := { w with d_level := [], d_owner := false }

/-- `MatWriter::setDevice`: the value returned and the writer afterwards. -/
def MatWriter.setDevice (qt : Qt) (host : Host) (osName now : List Nat) (w : MatWriter)
    (out : Option QIODevice) (own _writeHeader : Bool) : Bool × MatWriter :=
  match out with
  | none => (true, w)
  | some q =>
    if !q.isOpen && !q.canOpen then (false, w)
    else
      let w1 : MatWriter := { d_level := [Level.new], d_owner := own }
      (true, if _writeHeader then MatWriter.writeHeader qt host osName now w1 else w1)

/-- `MatWriter::beginMatrix`. -/
def MatWriter.beginMatrix (w : MatWriter) : MatWriter :=
  if w.d_level.isEmpty then w else { w with d_level := Level.new :: w.d_level }

/-- `MatWriter::endMatrix`. -/
def MatWriter.endMatrix (qt : Qt) (host : Host) (w : MatWriter) (compress : Bool) : MatWriter :=
  match w.d_level with
  | src :: dst :: rest =>
    let len : Int := toSigned 32 src.d_out.length
    let out :=
      if compress then
        let temp := qt.deflate
          (MatWriter.writePadding (MatWriter.writeTag host [] miMATRIX (toUnsigned 32 len) ++ src.d_out) len)
        let len2 : Int := toSigned 32 temp.length
        MatWriter.writeTag host dst.d_out miCOMPRESSED (toUnsigned 32 len2) ++ temp
      else
        MatWriter.writePadding (MatWriter.writeTag host dst.d_out miMATRIX (toUnsigned 32 len) ++ src.d_out) len
    { w with d_level := { dst with d_out := out } :: rest }
  | _ => w

/-- `QByteArray::left`. -/
def left (a : List Nat) (len : Nat) : List Nat := a.take len

/-- `MatWriter::beginStructure`. -/
def MatWriter.beginStructure (host : Host) (w : MatWriter) (fieldNames : List (List Nat))
    (rowCount : Int) (name : List Nat) : MatWriter :=
  (MatWriter.beginMatrix w).onLast (fun l =>
    let d_dims := l.d_dims ++ [rowCount, 1]
    let out1 := MatWriter.writeArrayFlags host l.d_out mxSTRUCT_CLASS
    let out2 := MatWriter.writeArrayDims host out1 d_dims
    let d_dims2 := d_dims.set 1 (fieldNames.length : Int)
    let out3 := MatWriter.writeArrayName host out2 name
    let nameLen0 : Int := fieldNames.foldl (fun m n => if (n.length : Int) > m then (n.length : Int) else m) 0
    let nameLen : Int := min nameLen0 31 + 1
    let names : List Nat :=
      fieldNames.foldl (fun acc n => acc ++ left n 31 ++ zeros (nameLen - n.length)) []
    let out4 := MatWriter.writeTag host out3 miINT32 4
    let out5 := MatWriter.write host out4 4 (toUnsigned 32 nameLen)
    let out6 := MatWriter.writeDataElement host out5 miINT8 names
    { d_out := out6, d_type := { l.d_type with d_mxType := mxSTRUCT_CLASS }, d_dims := d_dims2 })

/-- `MatWriter::beginNumArray`. -/
def MatWriter.beginNumArray (host : Host) (w : MatWriter) (dims : List Int) (numType : MetaType)
    (name : List Nat) : MatWriter :=
  (MatWriter.beginMatrix w).onLast (fun l =>
    let t0 := MatWriter.matTypeFromMetaType numType
    let count := MatWriter._totalCount dims
    let t : TypeLen := { t0 with d_len := toUnsigned 32 (t0.d_len * count) }
    let out1 := MatWriter.writeArrayFlags host l.d_out t.d_mxType
    let out2 := MatWriter.writeArrayDims host out1 dims
    let out3 := MatWriter.writeDataElement host out2 miINT8 name
    let out4 := MatWriter.writeTag host out3 t.d_miType t.d_len
    { d_out := out4, d_type := t, d_dims := l.d_dims ++ [count] })

/-- The loop over a list in `MatWriter::addNumArrayElement`: the device after
the elements written, and whether every element was compatible. -/
def addListElements (qt : Qt) (host : Host) (mxType : Nat) :
    List QVariant → List Nat → List Nat × Bool
  | [], out => (out, true)
  | v :: rest, out =>
    if (MatWriter.matTypeFromMetaType v.type).d_mxType != mxType then (out, false)
    else addListElements qt host mxType rest (MatWriter.writeData qt host out v)

/-- `d_dims[0] -= k` on `d_level.last()`. -/
def Level.countDown (l : Level) (k : Int) : Level :=
  { l with d_dims := l.d_dims.set 0 (wrap32 (l.d_dims.headD 0 - k)) }

/-- `MatWriter::addNumArrayElement`. -/
def MatWriter.addNumArrayElement (qt : Qt) (host : Host) (w : MatWriter) (v : QVariant) :
    MatWriter :=
  w.onLast (fun l =>
    if !l.d_type.isNumArray then l
    else if v.type == MetaType.List then
      let r := addListElements qt host l.d_type.d_mxType v.toList l.d_out
      if r.2 then ({ l with d_out := r.1 }).countDown (v.toList.length : Int)
      else { l with d_out := r.1 }
    else if v.type == MetaType.ByteArray then
      if l.d_type.d_mxType == mxUINT8_CLASS then
        ({ l with d_out := MatWriter.writeData qt host l.d_out v }).countDown
          (v.toByteArray.length : Int)
      else l
    else if (MatWriter.matTypeFromMetaType v.type).d_mxType != l.d_type.d_mxType then l
    else ({ l with d_out := MatWriter.writeData qt host l.d_out v }).countDown 1)

/-- `MatWriter::endNumArray`. -/
def MatWriter.endNumArray (qt : Qt) (host : Host) (w : MatWriter) (compress : Bool) : MatWriter :=
  match w.d_level with
  | [] => w
  | l :: _ =>
    if !l.d_type.isNumArray then w
    else if l.d_dims.headD 0 > 0 then w
    else
      MatWriter.endMatrix qt host
        (w.onLast (fun l => { l with d_out := MatWriter.writePadding l.d_out (toSigned 32 l.d_type.d_len) }))
        compress

/-- `MatWriter::addCharArray`. -/
def MatWriter.addCharArray (qt : Qt) (host : Host) (w : MatWriter) (str name : List Nat) :
    MatWriter :=
  let utf8 := qt.toUtf8 str
  let dims : List Int := [1, (str.length : Int)]
  let w1 := (MatWriter.beginMatrix w).onLast (fun l =>
    let out1 := MatWriter.writeArrayFlags host l.d_out mxCHAR_CLASS
    let out2 := MatWriter.writeArrayDims host out1 dims
    let out3 := MatWriter.writeDataElement host out2 miINT8 name
    { l with d_out := MatWriter.writeDataElement host out3 miUTF8 utf8 })
  MatWriter.endMatrix qt host w1 false

/-- The loop of `writeCell` over the variants of a data stream: the variants
collected and whether they are of one type. -/
def collectStream : List QVariant → MetaType → List QVariant → List QVariant × MetaType × Bool
  | [], type, l => (l, type, true)
  | v :: rest, type, l =>
    if type == MetaType.Invalid then collectStream rest v.type (l ++ [v])
    else if v.type != type then (l, type, false)
    else collectStream rest type (l ++ [v])

/-- `MatWriter::writeCell`. -/
def MatWriter.writeCell (qt : Qt) (host : Host) (w : MatWriter) (val : QVariant)
    (name : List Nat) : MatWriter :=
  if MatWriter.isString val.type then MatWriter.addCharArray qt host w (val.toString qt) name
  else if MatWriter.isNumeric val.type then
    MatWriter.endNumArray qt host
      (MatWriter.addNumArrayElement qt host (MatWriter.beginNumArray host w [1, 1] val.type name) val)
      false
  else if val.type == MetaType.ByteArray then
    MatWriter.endNumArray qt host
      (MatWriter.addNumArrayElement qt host
        (MatWriter.beginNumArray host w [1, (val.toByteArray.length : Int)] MetaType.UChar name) val)
      false
  else if val.type == MetaType.List then
    let l := val.toList
    match l with
    | [] => w
    | first :: rest =>
      let type := first.type
      let homogeneous := rest.all (fun v => v.type == type)
      if !homogeneous || !MatWriter.isNumeric type then w
      else
        MatWriter.endNumArray qt host
          (MatWriter.addNumArrayElement qt host
            (MatWriter.beginNumArray host w [(l.length : Int), 1] type name) val)
          false
  else
    match val with
    | .device content =>
      if content.isEmpty then w
      else
        let c := collectStream content MetaType.Invalid []
        if !c.2.2 || !MatWriter.isNumeric c.2.1 then w
        else
          MatWriter.endNumArray qt host
            (MatWriter.addNumArrayElement qt host
              (MatWriter.beginNumArray host w [(c.1.length : Int), 1] c.2.1 name) (.list c.1))
            false
    | _ => w

/-- The loop of `MatWriter::addStructureRow`. -/
def writeCells (qt : Qt) (host : Host) : List QVariant → MatWriter → MatWriter
  | [], w => w
  | v :: rest, w => writeCells qt host rest (MatWriter.writeCell qt host w v [])

/-- `MatWriter::addStructureRow`. -/
def MatWriter.addStructureRow (qt : Qt) (host : Host) (w : MatWriter) (l : List QVariant) :
    MatWriter :=
  match w.d_level with
  | [] => w
  | lv :: _ =>
    if lv.d_type.d_mxType != mxSTRUCT_CLASS || lv.d_dims.length < 2 then w
    else if (l.length : Int) != lv.d_dims.getD 1 0 then w
    else if lv.d_dims.headD 0 <= 0 then w
    else (writeCells qt host l w).onLast (fun lv => lv.countDown 1)

/-- `MatWriter::endStructure`. -/
def MatWriter.endStructure (qt : Qt) (host : Host) (w : MatWriter) (compress : Bool) : MatWriter :=
  match w.d_level with
  | [] => w
  | lv :: _ =>
    if lv.d_type.d_mxType != mxSTRUCT_CLASS then w
    else if lv.d_dims.headD 0 > 0 then w
    else MatWriter.endMatrix qt host w compress

/-! ## The wire format

The byte sequences the theorems speak about: words in file byte order, the
two tag layouts, padding, and the scalars a payload holds. -/

/-- The bytes of the `size`-byte word `v` in the file, for a reader on `host`
that was told to swap or not. -/
def wireWord (host : Host) (swap : Bool) (size v : Nat) : List Nat :=
  if swap then swapByteOrder (hostBytes host size v) else hostBytes host size v

/-- The value of a `size`-byte word of the file. -/
def wireValue (host : Host) (swap : Bool) (word : List Nat) : Nat :=
  hostValue host (if swap then swapByteOrder word else word)

/-- The two tag layouts. -/
inductive TagForm where
  | normal
  | small
deriving DecidableEq, Repr

/-- The payload lengths a tag layout can announce. -/
def TagForm.fits : TagForm → Nat → Bool
  | .normal, len => len < 2 ^ 32
  | .small, len => 1 <= len && len <= 4

/-- A tag: type and length words, or one word holding both. -/
def wireTag (host : Host) (swap : Bool) : TagForm → Nat → Nat → List Nat
  | .normal, type, len => wireWord host swap 4 type ++ wireWord host swap 4 len
  | .small, type, len => wireWord host swap 4 (type + len * 65536)

/-- The zero bytes behind a payload of `len` bytes. -/
def wirePadding : TagForm → Nat → List Nat
  | .normal, len => List.replicate ((8 - len % 8) % 8) 0
  | .small, len => List.replicate (4 - len) 0

/-- An element: tag, payload, padding. -/
def wireElement (host : Host) (swap : Bool) (form : TagForm) (type : Nat) (payload : List Nat) :
    List Nat :=
  wireTag host swap form type payload.length ++ payload ++ wirePadding form payload.length

/-- `sizeof(T)` for the scalar type of a numeric element type other than
`miINT8`; 0 for the other type codes. -/
def wireSize (type : Nat) : Nat :=
  if type == miUINT8 then 1
  else if type == miINT16 || type == miUINT16 then 2
  else if type == miINT32 || type == miUINT32 || type == miSINGLE then 4
  else if type == miDOUBLE || type == miINT64 || type == miUINT64 then 8
  else 0

/-- The scalar a word of a numeric element denotes, as the `QVariant` a C++
value of its type converts to. -/
def wireScalar (type : Nat) (v : Nat) : QVariant :=
  if type == miUINT8 then .int v
  else if type == miINT16 then .int (toSigned 16 v)
  else if type == miUINT16 then .int v
  else if type == miINT32 then .int (toSigned 32 v)
  else if type == miUINT32 then .uint v
  else if type == miSINGLE then .float v
  else if type == miDOUBLE then .double v
  else if type == miINT64 then .longLong (toSigned 64 v)
  else .uLongLong v

/-- The `i`-th `size`-byte chunk of a payload. -/
def chunk (size : Nat) (payload : List Nat) (i : Nat) : List Nat :=
  (payload.drop (i * size)).take size

/-- The words of a payload in file order, each converted by `mk`: the `i`-th
is the decode of the bytes `[i * size, (i + 1) * size)`. -/
def scalarsOf (host : Host) (swap : Bool) (size : Nat) (mk : Nat → QVariant)
    (payload : List Nat) : List QVariant :=
  (List.range (payload.length / size)).map
    (fun i => mk (wireValue host swap (chunk size payload i)))

/-- The scalars of a numeric payload of element type `type`, in file order. -/
def wireScalars (host : Host) (swap : Bool) (type : Nat) (payload : List Nat) : List QVariant :=
  scalarsOf host swap (wireSize type) (wireScalar type) payload

/-- The values the parser keeps of `vals` under the limit `limit`. -/
def limited (limit : Nat) (vals : List QVariant) : List QVariant :=
  if limit == 0 then vals else vals.take limit

/-- The stream of an element whose payload `payload` and padding `pad` are
wholly in the enclosing device, in front of `rest`. -/
def InStream.framed (payload pad rest : List Nat) (missing : Nat) : InStream :=
  { d_in := { bytes := payload ++ (pad ++ rest), missing := missing }, d_len := payload.length,
    d_padding := pad.length, d_compressed := false, d_plain := [] }

/-- A matrix element: a normal tag of type `miMATRIX` around the body. -/
def wireMatrix (host : Host) (swap : Bool) (body : List Nat) : List Nat :=
  wireElement host swap .normal miMATRIX body

/-- The array flags sub-element: two 32 bit words. -/
def wireFlags (host : Host) (swap : Bool) (f0 f1 : Nat) : List Nat :=
  wireElement host swap .normal miUINT32 (wireWord host swap 4 f0 ++ wireWord host swap 4 f1)

/-- The words of a sequence of `qint32` values. -/
def wireInts (host : Host) (swap : Bool) (vals : List Int) : List Nat :=
  vals.flatMap (fun d => wireWord host swap 4 (toUnsigned 32 d))

/-- The dimensions sub-element: `qint32` values. -/
def wireDims (host : Host) (swap : Bool) (dims : List Int) : List Nat :=
  wireElement host swap .normal miINT32 (wireInts host swap dims)

/-- The three sub-elements every matrix begins with: flags, dimensions, name. -/
def wireMatrixHead (host : Host) (swap : Bool) (f0 f1 : Nat) (dims : List Int)
    (nameForm : TagForm) (name : List Nat) : List Nat :=
  wireFlags host swap f0 f1 ++ (wireDims host swap dims ++ wireElement host swap nameForm miINT8 name)

/-- The values the reader makes of a numeric payload element of type `ptype`
in a matrix of class `cls`, with no limit: the bytes of an `miINT8` element
(unsigned for class UINT8, signed otherwise), the scalars of any other. -/
def payloadValues (host : Host) (swap : Bool) (cls ptype : Nat) (payload : List Nat) :
    List QVariant :=
  if ptype == miINT8 then _toList payload (cls != mxUINT8_CLASS) 0
  else wireScalars host swap ptype payload

/-- A payload sub-element: its tag layout, its element type and its bytes. -/
structure WirePayload where
  form : TagForm
  type : Nat
  bytes : List Nat
deriving DecidableEq, Repr

/-- The bytes of a payload sub-element. -/
def WirePayload.wire (host : Host) (swap : Bool) (e : WirePayload) : List Nat :=
  wireElement host swap e.form e.type e.bytes

/-- A payload sub-element is numeric and whole: its layout can carry its
length, and it is of type `miINT8` or of another numeric type with a whole
number of scalars. -/
def WirePayload.wellFormed (e : WirePayload) : Bool :=
  e.form.fits e.bytes.length &&
    (e.type == miINT8 || (wireSize e.type != 0 && e.bytes.length % wireSize e.type == 0))

/-- The body of a numeric matrix: head, real part and, if there is one,
imaginary part. -/
def numericBody (host : Host) (swap : Bool) (f0 f1 : Nat) (dims : List Int) (nameForm : TagForm)
    (name : List Nat) (re : WirePayload) (im : Option WirePayload) : List Nat :=
  wireMatrixHead host swap f0 f1 dims nameForm name ++
    (re.wire host swap ++ (match im with
      | none => []
      | some e => e.wire host swap))

/-- The parser once `BeginMatrix` is returned for a matrix with the given
body: a lexer over the body is on top of the stack. -/
def MatParser.enter (p : MatParser) (body : List Nat) : MatParser :=
  { p with d_nested :=
      { d_in := some { bytes := body, missing := 0 }, d_needByteSwap := p.d_first.needsByteSwap,
        d_owner := false } :: p.d_nested }

/-- With `k` steps or more, the body of a matrix denotes `v`: wherever a
parser that swaps bytes as `swap` says has just entered the matrix, with no
limit set and no error pending, `readMatrix` returns `v` and sets no error,
and the next token is the `EndMatrix` that leads back to where the parser
was. -/
def DecodesAt (qt : Qt) (host : Host) (swap : Bool) (k : Nat) (body : List Nat) (v : QVariant) :
    Prop :=
  ∀ fuel, k ≤ fuel → ∀ p : MatParser,
    p.d_peek = Token.new → p.d_limit = 0 → p.d_first.d_needByteSwap = swap →
      ∃ p', MatReader.readMatrix qt host fuel { d_parser' := p.enter body, d_error := [] } =
          .ok (v, { d_parser' := p', d_error := [] }) ∧
        MatParser.nextToken qt host p' = (Token.ofType .EndMatrix, p)

/-- The body of a matrix is well-formed and denotes `v`: given enough steps,
`readMatrix` returns `v` for it. -/
def Decodes (qt : Qt) (host : Host) (swap : Bool) (body : List Nat) (v : QVariant) : Prop :=
  ∃ k, DecodesAt qt host swap k body v

/-- A sequence of matrix elements, one behind the other. -/
def wireMatrices (host : Host) (swap : Bool) (bodies : List (List Nat)) : List Nat :=
  bodies.flatMap (wireMatrix host swap)

/-- The field names block of a structure: each name padded with NUL bytes to
`n` bytes. -/
def namesBlock (n : Nat) (names : List (List Nat)) : List Nat :=
  names.flatMap (fun f => f ++ List.replicate (n - f.length) 0)

/-- The body of a STRUCT matrix: head, field name length, field names block
and the nested matrices. -/
def structBody (host : Host) (swap : Bool) (f0 f1 : Nat) (dims : List Int) (nameForm : TagForm)
    (name : List Nat) (lenForm : TagForm) (n : Nat) (blockForm : TagForm)
    (names : List (List Nat)) (bodies : List (List Nat)) : List Nat :=
  wireMatrixHead host swap f0 f1 dims nameForm name ++
    (wireElement host swap lenForm miINT32 (wireWord host swap 4 n) ++
      (wireElement host swap blockForm miINT8 (namesBlock n names) ++
        wireMatrices host swap bodies))

/-- The body of an OBJECT matrix: head, class name, field name length, field
names block and the nested matrices. -/
def objectBody (host : Host) (swap : Bool) (f0 f1 : Nat) (dims : List Int) (nameForm : TagForm)
    (name : List Nat) (classForm : TagForm) (className : List Nat) (lenForm : TagForm) (n : Nat)
    (blockForm : TagForm) (names : List (List Nat)) (bodies : List (List Nat)) : List Nat :=
  wireMatrixHead host swap f0 f1 dims nameForm name ++
    (wireElement host swap classForm miINT8 className ++
      (wireElement host swap lenForm miINT32 (wireWord host swap 4 n) ++
        (wireElement host swap blockForm miINT8 (namesBlock n names) ++
          wireMatrices host swap bodies)))

/-- The first flags word of the matrix a reader has just entered, as
`readMatrix` takes it from the first token of the body. -/
def MatReader.flagsWord (qt : Qt) (host : Host) (r : MatReader) : Nat :=
  (((r.peekToken qt host).2.nextToken qt host).1.d_value.toList.headD default).toUInt qt

/-- The field map after `map[names[n % k]].append(v)` for each of the values
in turn, counting from `n`. -/
def fillFields (names : List (List Nat)) :
    List QVariant → Nat → List (List Nat × List QVariant) → List (List Nat × List QVariant)
  | [], _, m => m
  | v :: vs, n, m => fillFields names vs (n + 1) (qmapAppend m (names.getD (n % names.length) []) v)

/-- The keys of a field map are in ascending order, as `QMap` keeps them. -/
def Ascending (m : List (List Nat × List QVariant)) : Prop :=
  m.Pairwise (fun a b => bytesLt a.1 b.1 = true)

/-- The values that `fillFields` appends under `key`, counting from `n`. -/
def fieldPick (names : List (List Nat)) (key : List Nat) : Nat → List QVariant → List QVariant
  | _, [] => []
  | n, v :: vs =>
    (if names.getD (n % names.length) [] = key then [v] else []) ++ fieldPick names key (n + 1) vs

/-- Every `k`-th of the values, from the `j`-th on: the cells of field `j` in
a sequence of rows of `k` cells. -/
def fieldColumn (vals : List QVariant) (k j : Nat) : List QVariant :=
  (List.range (vals.length / k)).filterMap (fun i => vals[j + i * k]?)

/-- A codec instance for evaluating examples: stored (identity) compression,
one byte per character, no floating point conversion. -/
def Qt.plain : Qt :=
  { inflate := id, deflate := id, toUtf8 := id, fromUtf8 := id, fromUtf16 := id, fromUcs4 := id,
    roundDouble := fun _ => 0, roundFloat := fun _ => 0, intText := fun _ => [],
    realText := fun _ _ => [], textToLongLong := fun _ => 0 }

/-- A little-endian host with signed `char` and 8-byte `long` (Linux, x86-64). -/
def Host.linux64 : Host := { bigEndian := false, charSigned := true, sizeofLong := 8 }

/-- A big-endian host with unsigned `char` and 8-byte `long` (Linux, s390x). -/
def Host.bigEndian64 : Host := { bigEndian := true, charSigned := false, sizeofLong := 8 }

/-- A header as the concrete scenarios of the specification give it: the
magic text, 97 spaces, 8 zero bytes and the four bytes `tail`. -/
def scenarioHeader (tail : List Nat) : List Nat :=
  magic ++ List.replicate 97 32 ++ List.replicate 8 0 ++ tail

/-- A closed device holding `data` that can be opened. -/
def QIODevice.closed (data : List Nat) : QIODevice :=
  { data := data, isOpen := false, canOpen := true }

/-- What a writer has written to its target device. -/
def MatWriter.sink (w : MatWriter) : List Nat :=
  match w.d_level.getLast? with
  | some l => l.d_out
  | none => []

/-- A writer bound to an empty target device, no header written. -/
def MatWriter.fresh : MatWriter := { d_level := [Level.new], d_owner := false }

/-- The error text a run of the reader leaves, when the run has a result. -/
def errorOf (x : Except Fault (QVariant × MatReader)) : Option (List Nat) :=
  match x with
  | .ok (_, r) => some r.d_error
  | .error _ => none

/-- The value a run of the reader returns, when the run has a result. -/
def valueOf (x : Except Fault (QVariant × MatReader)) : Option QVariant :=
  match x with
  | .ok (v, _) => some v
  | .error _ => none

/-- A lexer bound to a device that delivers `bytes`. -/
def MatLexer.over (bytes : List Nat) (swap : Bool) : MatLexer :=
  { d_in := some { bytes := bytes, missing := 0 }, d_needByteSwap := swap, d_owner := false }

/-- A reader whose parser sits at nesting level 0 in front of `bytes`, as
`setDevice` leaves it behind the header. -/
def MatReader.over (bytes : List Nat) (swap : Bool) (limit : Nat) : MatReader :=
  { d_parser' := { d_first := MatLexer.over bytes swap, d_nested := [], d_peek := Token.new,
                   d_limit := limit },
    d_error := [] }


/-- Successive `read` calls on a stream, one for each requested size: the
bytes delivered in all and the stream afterwards. -/
def InStream.reads (s : InStream) : List Nat → List Nat × InStream
  | [] => ([], s)
  | n :: ns => ((s.read n).1 ++ ((s.read n).2.reads ns).1, ((s.read n).2.reads ns).2)

/-- The tokens successive `nextToken` calls return up to the first `Null`, at
most `fuel` of them. -/
def MatParser.tokens (qt : Qt) (host : Host) : Nat → MatParser → List Token
  | 0, _ => []
  | fuel + 1, p =>
    if (p.nextToken qt host).1.d_type == TokenType.Null then []
    else (p.nextToken qt host).1 :: MatParser.tokens qt host fuel (p.nextToken qt host).2

/-- `sizeof(T)` for the scalars of a primitive element: one byte for byte
arrays and UTF-8 text, the code unit for UTF-16 and UTF-32 text, the number
otherwise; 0 for the type codes that are no primitive element. -/
def scalarSize (type : Nat) : Nat :=
  if type == miINT8 || type == miUTF8 then 1
  else if type == miUTF16 then 2
  else if type == miUTF32 then 4
  else wireSize type

/-- An element stream: primitive elements, given by tag layout, type and
scalars (as unsigned patterns), and matrices, given by the stream they hold. -/
inductive Elems where
  | done
  | prim (form : TagForm) (type : Nat) (vals : List Nat) (next : Elems)
  | matrix (body : Elems) (next : Elems)
deriving DecidableEq, Repr

/-- The bytes of an element with a payload of `len` bytes: tag, payload,
padding. -/
def elementSize : TagForm → Nat → Nat
  | .normal, len => 8 + len + (8 - len % 8) % 8
  | .small, len => 4 + len + (4 - len)

/-- The number of bytes an element stream is encoded in. -/
def Elems.size : Elems → Nat
  | .done => 0
  | .prim form type vals next => elementSize form (vals.length * scalarSize type) + next.size
  | .matrix body next => elementSize .normal body.size + next.size

/-- The encoding of an element stream for a reader on `host` that swaps or
does not: every tag word and every scalar is written in the byte order of
the host when `swap` is false, and byte-reversed when it is true. -/
def Elems.encode (host : Host) (swap : Bool) : Elems → List Nat
  | .done => []
  | .prim form type vals next =>
    wireElement host swap form type (vals.flatMap (wireWord host swap (scalarSize type))) ++
      next.encode host swap
  | .matrix body next => wireMatrix host swap (body.encode host swap) ++ next.encode host swap

/-- An element stream is well formed: every primitive element has a type
with scalars, scalars that fit that type and a tag layout that can carry its
length, and every matrix body is shorter than 4 GiB. -/
def Elems.wellFormed : Elems → Bool
  | .done => true
  | .prim form type vals next =>
    scalarSize type != 0 && form.fits (vals.length * scalarSize type) &&
      vals.all (fun v => v < 2 ^ (8 * scalarSize type)) && next.wellFormed
  | .matrix body next => body.wellFormed && decide (body.size < 2 ^ 32) && next.wellFormed

/-- The token of a primitive element holding the given scalars, under the
limit `limit`. -/
def primToken (qt : Qt) (limit type : Nat) (vals : List Nat) : Token :=
  if type == miINT8 then { d_type := .Value, d_value := .byteArray vals }
  else if type == miUTF8 then { d_type := .Value, d_value := .string (qt.fromUtf8 vals) }
  else if type == miUTF16 then { d_type := .Value, d_value := .string (qt.fromUtf16 vals) }
  else if type == miUTF32 then { d_type := .Value, d_value := .string (qt.fromUcs4 vals) }
  else _readResult (limited limit (vals.map (wireScalar type)))

/-- The tokens of an element stream. -/
def Elems.tokens (qt : Qt) (limit : Nat) : Elems → List Token
  | .done => []
  | .prim _ type vals next => primToken qt limit type vals :: next.tokens qt limit
  | .matrix body next =>
    Token.ofType .BeginMatrix ::
      (body.tokens qt limit ++ Token.ofType .EndMatrix :: next.tokens qt limit)

/-- The size of the tag `MatLexer::nextElement` reads in front of the given
bytes: one word when one of the two middle bytes of the first word is not
zero (the small layout), two words otherwise.  It is also the boundary the
element is padded to. -/
def tagSize (bytes : List Nat) : Nat :=
  if bytes.getD 1 0 != 0 || bytes.getD 2 0 != 0 then 4 else 8

/-- A compressed element: a normal tag of type `miCOMPRESSED` around the
deflated bytes of `plain`, with no padding behind them. -/
def wireCompressed (qt : Qt) (host : Host) (swap : Bool) (plain : List Nat) : List Nat :=
  wireTag host swap .normal miCOMPRESSED (qt.deflate plain).length ++ qt.deflate plain

/-- The parser with its current lexer in front of `bytes`, `missing` more
bytes being announced than the device holds. -/
def MatParser.before (p : MatParser) (bytes : List Nat) (missing : Nat) : MatParser :=
  p.setLast { p.last with d_in := some { bytes := bytes, missing := missing } }

/-- The values of a payload of raw bytes in a numeric matrix of class `cls`,
under the limit `limit`: the first `limit` bytes (all of them for limit 0),
each as the unsigned value 0..255 for class UINT8 and as the two's
complement value -128..127 for the other classes. -/
def byteValues (cls limit : Nat) (bytes : List Nat) : List QVariant :=
  (if limit = 0 then bytes else bytes.take limit).map
    (fun b => if cls = mxUINT8_CLASS then QVariant.uint b
      else QVariant.int (if b < 128 then (b : Int) else (b : Int) - 256))

/-! ## A byte source that delivers in chunks

`QIODevice::read(maxSize)` returns what the source has at hand, which for a
file or a memory buffer is everything asked for, and for a sequential source
(a pipe, a socket) may be less.  A delivery rule says how many bytes a read
call gets, given the bytes that remain and the bytes asked for.  The
definitions below are those of the lexer and the parser with every single
`read` and `peek` call on a device served by the rule.  `QIODevice::readAll`
and the decoder of a compressed frame call `read` until nothing comes, so
they are served as before. -/

/-- `QIODevice::read(maxSize)` on a source that delivers by `rule`. -/
def Dev.readOn (rule : Nat → Nat → Nat) (d : Dev) (maxSize : Nat) : List Nat × Dev :=
  d.read (min maxSize (rule d.bytes.length maxSize))

/-- `QIODevice::peek(maxSize)` on a source that delivers by `rule`. -/
def Dev.peekOn (rule : Nat → Nat → Nat) (d : Dev) (maxSize : Nat) : List Nat :=
  (d.readOn rule maxSize).1

/-- `MatLexer::read<T>` on a device that delivers by `rule`. -/
def MatLexer.readOn (rule : Nat → Nat → Nat) (host : Host) (d : Dev) (size : Nat)
    (swap : Bool) : Nat × Nat × Dev :=
  let r := d.readOn rule size
  if r.1.length != size then (r.1.length, 0, r.2)
  else (r.1.length, hostValue host (if swap then swapByteOrder r.1 else r.1), r.2)

/-- `InStream::eatPadding` over a device that delivers by `rule`. -/
def InStream.eatPaddingOn (rule : Nat → Nat → Nat) (s : InStream) : InStream :=
  if s.d_padding != 0 then
    { s with d_in := (s.d_in.readOn rule s.d_padding).2, d_padding := 0 }
  else s

/-- `InStream::readData` over a device that delivers by `rule`. -/
def InStream.readOn (rule : Nat → Nat → Nat) (s : InStream) (maxSize : Nat) :
    List Nat × InStream :=
  if s.d_compressed then
    (s.d_plain.take maxSize, { s with d_plain := s.d_plain.drop maxSize })
  else if s.d_len > 0 then
    let r := s.d_in.readOn rule (min maxSize s.d_len)
    let s1 := { s with d_in := r.2, d_len := s.d_len - r.1.length }
    (r.1, if s1.d_len == 0 then s1.eatPaddingOn rule else s1)
  else ([], s)

/-- `QIODevice::readAll` on an `InStream` over a device that delivers by
`rule`: the read calls it makes deliver the frame, and the padding is eaten
by the one `read` call of `eatPadding`. -/
def InStream.readAllOn (rule : Nat → Nat → Nat) (s : InStream) : List Nat × InStream :=
  if s.d_compressed then s.readAll
  else if s.d_len > 0 then
    let r := s.d_in.read s.d_len
    let s1 := { s with d_in := r.2, d_len := s.d_len - r.1.length }
    (r.1, if s1.d_len == 0 then s1.eatPaddingOn rule else s1)
  else ([], s)

/-- `MatLexer::read<T>` on an `InStream` over a device that delivers by `rule`. -/
def MatLexer.readStreamOn (rule : Nat → Nat → Nat) (host : Host) (s : InStream) (size : Nat)
    (swap : Bool) : Nat × Nat × InStream :=
  let r := s.readOn rule size
  if r.1.length != size then (r.1.length, 0, r.2)
  else (r.1.length, hostValue host (if swap then swapByteOrder r.1 else r.1), r.2)

/-- `MatLexer::nextElement` on a device that delivers by `rule`. -/
def MatLexer.nextElementOn (rule : Nat → Nat → Nat) (qt : Qt) (host : Host) (lex : MatLexer) :
    DataElement × MatLexer :=
  match lex.d_in with
  | none => (DataElement.new, lex)
  | some d =>
    if d.atEnd then (DataElement.new, lex)
    else
      let peek := d.peekOn rule 4
      if peek.length < 4 then (DataElement.ofError true, lex)
      else if peek.getD 1 0 != 0 || peek.getD 2 0 != 0 then
        let r := MatLexer.readOn rule host d 4 lex.d_needByteSwap
        if r.1 != 4 then (DataElement.ofError true, { lex with d_in := some r.2.2 })
        else
          let val := r.2.1
          let type : Int := toSigned 16 (val % 65536)
          let len : Int := toSigned 16 (val / 65536)
          if len > 4 then (DataElement.ofError true, { lex with d_in := some r.2.2 })
          else
            ({ d_type := toUnsigned 8 type, d_error := false, d_end := false,
               d_stream := some (InStream.new qt r.2.2 (toUnsigned 32 len)
                 (calcPadding (toUnsigned 32 len) 4) false) },
             { lex with d_in := some r.2.2 })
      else
        let t := MatLexer.readOn rule host d 4 lex.d_needByteSwap
        if t.1 != 4 then (DataElement.ofError true, { lex with d_in := some t.2.2 })
        else
          let l := MatLexer.readOn rule host t.2.2 4 lex.d_needByteSwap
          if l.1 != 4 then (DataElement.ofError true, { lex with d_in := some l.2.2 })
          else if t.2.1 == miCOMPRESSED then
            let s := InStream.new qt l.2.2 l.2.1 0 true
            let t2 := MatLexer.readStreamOn rule host s 4 lex.d_needByteSwap
            if t2.1 != 4 then (DataElement.ofError true, { lex with d_in := some t2.2.2.d_in })
            else
              let l2 := MatLexer.readStreamOn rule host t2.2.2 4 lex.d_needByteSwap
              if l2.1 != 4 then (DataElement.ofError true, { lex with d_in := some l2.2.2.d_in })
              else
                ({ d_type := t2.2.1 % 256, d_error := false, d_end := false,
                   d_stream := some l2.2.2 },
                 { lex with d_in := some l2.2.2.d_in })
          else
            ({ d_type := t.2.1 % 256, d_error := false, d_end := false,
               d_stream := some (InStream.new qt l.2.2 l.2.1 (calcPadding l.2.1 8) false) },
             { lex with d_in := some l.2.2 })

/-- The loop of `_read<T>` over a device that delivers by `rule`. -/
def _readLoopOn (rule : Nat → Nat → Nat) (host : Host) (size : Nat) (mk : Nat → QVariant)
    (name : String) (swap : Bool) (limit : Nat) :
    Nat → InStream → Nat → List QVariant → Token × InStream
  | 0, s, _, tmp => (_readResult tmp, s)
  | fuel + 1, s, i, tmp =>
    if s.atEnd then (_readResult tmp, s)
    else if limit != 0 && i >= limit then (_readResult tmp, (s.readAllOn rule).2)
    else
      let r := MatLexer.readStreamOn rule host s size swap
      if r.1 != size then (Token.error name, r.2.2)
      else _readLoopOn rule host size mk name swap limit fuel r.2.2 (i + 1) (tmp ++ [mk r.2.1])

/-- `_read<T>` over a device that delivers by `rule`. -/
def _readOn (rule : Nat → Nat → Nat) (host : Host) (size : Nat) (mk : Nat → QVariant)
    (name : String) (s : InStream) (swap : Bool) (limit : Nat) : Token × InStream :=
  _readLoopOn rule host size mk name swap limit (s.bytesAvailable + 1) s 0 []

/-- The loop of the `miUTF16` and `miUTF32` cases of `readValue` over a device
that delivers by `rule`. -/
def _readUnitsOn (rule : Nat → Nat → Nat) (host : Host) (size : Nat) (swap : Bool) :
    Nat → InStream → List Nat → Option (List Nat) × InStream
  | 0, s, tmp => (some tmp, s)
  | fuel + 1, s, tmp =>
    if s.atEnd then (some tmp, s)
    else
      let r := MatLexer.readStreamOn rule host s size swap
      if r.1 != size then (none, r.2.2)
      else _readUnitsOn rule host size swap fuel r.2.2 (tmp ++ [r.2.1])

/-- `MatParser::readValue` over a device that delivers by `rule`. -/
def MatParser.readValueOn (rule : Nat → Nat → Nat) (qt : Qt) (host : Host) (swap : Bool)
    (d_limit : Nat) (s : InStream) (type : Nat) : Token × InStream :=
  if type == miINT8 then
    let r := s.readAllOn rule
    ({ d_type := .Value, d_value := .byteArray r.1 }, r.2)
  else if type == miUINT8 then
    _readOn rule host 1 (fun v => .int v) "miUINT8" s swap d_limit
  else if type == miINT16 then
    _readOn rule host 2 (fun v => .int (toSigned 16 v)) "miINT16" s swap d_limit
  else if type == miUINT16 then
    _readOn rule host 2 (fun v => .int v) "miUINT16" s swap d_limit
  else if type == miINT32 then
    _readOn rule host 4 (fun v => .int (toSigned 32 v)) "miINT32" s swap d_limit
  else if type == miUINT32 then
    _readOn rule host 4 (fun v => .uint v) "miUINT32" s swap d_limit
  else if type == miSINGLE then
    _readOn rule host 4 (fun v => .float v) "miSINGLE" s swap d_limit
  else if type == miDOUBLE then
    _readOn rule host 8 (fun v => .double v) "miDOUBLE" s swap d_limit
  else if type == miINT64 then
    _readOn rule host 8 (fun v => .longLong (toSigned 64 v)) "miINT64" s swap d_limit
  else if type == miUINT64 then
    _readOn rule host 8 (fun v => .uLongLong v) "miUINT64" s swap d_limit
  else if type == miUTF8 then
    let r := s.readAllOn rule
    ({ d_type := .Value, d_value := .string (qt.fromUtf8 r.1) }, r.2)
  else if type == miUTF16 then
    match _readUnitsOn rule host 2 swap (s.bytesAvailable + 1) s [] with
    | (none, s1) => (Token.error "miUTF16", s1)
    | (some tmp, s1) => ({ d_type := .Value, d_value := .string (qt.fromUtf16 tmp) }, s1)
  else if type == miUTF32 then
    match _readUnitsOn rule host 4 swap (s.bytesAvailable + 1) s [] with
    | (none, s1) => (Token.error "miUTF32", s1)
    | (some tmp, s1) => ({ d_type := .Value, d_value := .string (qt.fromUcs4 tmp) }, s1)
  else (Token.error "Invalid type", s)

/-- The device of a lexer bound to a stream, and the enclosing device once
that lexer has read the stream to its end, over a device that delivers by
`rule`. -/
def InStream.toDevOn (rule : Nat → Nat → Nat) (s : InStream) : Dev × Dev :=
  let r := s.readAllOn rule
  ({ bytes := r.1, missing := r.2.bytesAvailable }, r.2.d_in)

/-- `MatParser::nextToken` over a device that delivers by `rule`. -/
def MatParser.nextTokenOn (rule : Nat → Nat → Nat) (qt : Qt) (host : Host) (p : MatParser) :
    Token × MatParser :=
  if p.d_peek.d_type != TokenType.Null then (p.d_peek, { p with d_peek := Token.new })
  else
    let r := p.last.nextElementOn rule qt host
    let e := r.1
    let p1 := p.setLast r.2
    if e.d_end then
      match p1.d_nested with
      | _ :: rest => (Token.ofType .EndMatrix, { p1 with d_nested := rest })
      | [] => (Token.ofType .Null, p1)
    else if e.d_error then (Token.error "Lexer Error", p1)
    else
      match e.d_stream with
      | none => (Token.ofType .Error, p1)
      | some s =>
        if e.d_type == miMATRIX then
          let v := s.toDevOn rule
          let p2 := p1.setLast { r.2 with d_in := some v.2 }
          (Token.ofType .BeginMatrix,
            { p2 with d_nested :=
                { d_in := some v.1, d_needByteSwap := p.d_first.needsByteSwap, d_owner := false }
                  :: p2.d_nested })
        else if e.d_type == miCOMPRESSED then
          (Token.error "miCOMPRESSED", p1.setLast { r.2 with d_in := some s.d_in })
        else
          let t := MatParser.readValueOn rule qt host p.d_first.needsByteSwap p.d_limit s e.d_type
          (t.1, p1.setLast { r.2 with d_in := some t.2.d_in })

/-- The tokens successive `nextToken` calls return up to the first `Null`, at
most `fuel` of them, over a device that delivers by `rule`. -/
def MatParser.tokensOn (rule : Nat → Nat → Nat) (qt : Qt) (host : Host) :
    Nat → MatParser → List Token
  | 0, _ => []
  | fuel + 1, p =>
    if (p.nextTokenOn rule qt host).1.d_type == TokenType.Null then []
    else (p.nextTokenOn rule qt host).1 ::
      MatParser.tokensOn rule qt host fuel (p.nextTokenOn rule qt host).2

/-- The rule of a source that delivers all the bytes asked for. -/
def wholeReads : Nat → Nat → Nat := fun _ maxSize => maxSize

/-- A stream the lexer builds: compressed, or with a padding of at most 8 bytes. -/
def InStream.small (s : InStream) : Prop := s.d_compressed = true ∨ s.d_padding ≤ 8

/-! ## The accessors of MatReader.h -/

/-- `struct NumericArray` of MatReader.h; `base` holds the members inherited
from `Matrix`. -/
structure NumericArray where
  base : Matrix
  d_dims : List Int
  d_real : List QVariant
  d_img : List QVariant

/-- `struct CellArray` of MatReader.h; `base` holds the members inherited from
`Matrix`. -/
structure CellArray where
  base : Matrix
  d_dims : List Int
  d_cells : List QVariant

/-- `QList::operator[]` with an `int` index: no value when the index is
outside the list, where the C++ code reads memory that is not an element. -/
def qlistAt (l : List QVariant) (i : Int) : Option QVariant :=
  if 0 ≤ i ∧ i < l.length then l[i.toNat]? else none

/-- `NumericArray::getReal(int i)`. -/
def NumericArray.getReal (a : NumericArray) (i : Int) : Option QVariant :=
  if i ≥ a.d_real.length then some .invalid else qlistAt a.d_real i

/-- `CellArray::getValue(quint32 i)`: the test is made on `int(i)`, and
`d_cells[i]` takes its index as an `int`. -/
def CellArray.getValue (a : CellArray) (i : Nat) : Option QVariant :=
  if toSigned 32 (i % 2 ^ 32) < a.d_cells.length then qlistAt a.d_cells (toSigned 32 (i % 2 ^ 32))
  else some .invalid

/-- `CellArray::getValue(quint32 row, quint32 col)`: the index is computed in
`quint32` arithmetic, `d_dims[0]` converted to `quint32`. -/
def CellArray.getValue2 (a : CellArray) (row col : Nat) : Option QVariant :=
  if a.d_dims.length != 2 then some .invalid
  else a.getValue ((row + col * toUnsigned 32 (a.d_dims.getD 0 0)) % 2 ^ 32)

/-! ## Runs of the parser -/

/-- The calls a client makes on a `MatParser` that is bound to a device. -/
inductive ParserCall where
  | nextToken | peekToken | skipLevel
deriving DecidableEq, Repr

/-- The nesting level of a parser: the size of `d_lex` minus 1. -/
def MatParser.level (p : MatParser) : Nat := p.d_nested.length

/-- One call on a parser: the token the call produces from the lexers, if it
produces one, and the parser afterwards.  `nextToken` with a token in the
buffer hands that token out and produces none; `peekToken` always produces
one. -/
def MatParser.call (qt : Qt) (host : Host) (c : ParserCall) (p : MatParser) :
    Option Token × MatParser :=
  match c with
  | .nextToken =>
    if p.d_peek.d_type != TokenType.Null then (none, (p.nextToken qt host).2)
    else (some (p.nextToken qt host).1, (p.nextToken qt host).2)
  | .peekToken => (some (p.peekToken qt host).1, (p.peekToken qt host).2)
  | .skipLevel => (none, p.skipLevel)

/-- A run of calls on a parser: the tokens produced, each with the nesting
level the parser was at when the call was made, and the parser afterwards. -/
def MatParser.run (qt : Qt) (host : Host) : List ParserCall → MatParser →
    List (Nat × Token) × MatParser
  | [], p => ([], p)
  | c :: cs, p =>
    ((match (p.call qt host c).1 with
      | some t => [(p.level, t)]
      | none => []) ++ (MatParser.run qt host cs (p.call qt host c).2).1,
     (MatParser.run qt host cs (p.call qt host c).2).2)

/-- The number of tokens of one type among the tokens produced. -/
def producedOf (type : TokenType) (trace : List (Nat × Token)) : Nat :=
  trace.countP (fun x => x.2.d_type == type)

/-! ## The cell values of a structure row -/

/-- The cell values `writeCell` writes a matrix for: texts, scalars of the
numeric kinds, byte sequences, and the lists and data streams that are not
empty and hold scalars of one numeric kind. -/
def MatWriter.writesCell (v : QVariant) : Bool :=
  match v with
  | .list (first :: rest) =>
    MatWriter.isNumeric first.type && rest.all (fun x => x.type == first.type)
  | .device (first :: rest) =>
    MatWriter.isNumeric first.type && rest.all (fun x => x.type == first.type)
  | v => MatWriter.isString v.type || MatWriter.isNumeric v.type || v.type == MetaType.ByteArray

/-- The cell values `writeCell` refuses with a warning: empty lists and data
streams, lists and data streams of mixed or non-numeric types, and values of
any other type than a text, a numeric scalar or a byte sequence. -/
def MatWriter.refusesCell (v : QVariant) : Bool :=
  match v with
  | .list [] => true
  | .list (first :: rest) =>
    !rest.all (fun x => x.type == first.type) || !MatWriter.isNumeric first.type
  | .device content =>
    content.isEmpty || !(collectStream content MetaType.Invalid []).2.2 ||
      !MatWriter.isNumeric (collectStream content MetaType.Invalid []).2.1
  | v =>
    !(MatWriter.isString v.type || MatWriter.isNumeric v.type || v.type == MetaType.ByteArray)

/-- The size of a cell value in units of its payload: the characters and
the UTF-8 bytes of a text, the bytes of a byte sequence, the elements of a
list or of a data stream; 1 for a scalar. -/
def MatWriter.cellUnits (qt : Qt) (v : QVariant) : Nat :=
  match v with
  | .string s => max s.length (qt.toUtf8 s).length
  | .char c => (qt.toUtf8 [c]).length
  | .byteArray b => b.length
  | .list l => l.length
  | .device l => l.length
  | _ => 1

/-! ## Matrices decoded under a limit -/

/-- As `DecodesAt`, for a parser with the limit `limit`: with `k` steps or
more, wherever such a parser has just entered the matrix, `readMatrix` returns
`v` and sets no error, and the next token is the `EndMatrix` that leads back
to where the parser was. -/
def DecodesUnder (qt : Qt) (host : Host) (swap : Bool) (limit k : Nat) (body : List Nat)
    (v : QVariant) : Prop :=
  ∀ fuel, k ≤ fuel → ∀ p : MatParser,
    p.d_peek = Token.new → p.d_limit = limit → p.d_first.d_needByteSwap = swap →
      ∃ p', MatReader.readMatrix qt host fuel { d_parser' := p.enter body, d_error := [] } =
          .ok (v, { d_parser' := p', d_error := [] }) ∧
        MatParser.nextToken qt host p' = (Token.ofType .EndMatrix, p)

/-- The body of a CELL matrix: head and nested matrices. -/
def cellBody (host : Host) (swap : Bool) (f0 f1 : Nat) (dims : List Int) (nameForm : TagForm)
    (name : List Nat) (bodies : List (List Nat)) : List Nat :=
  wireMatrixHead host swap f0 f1 dims nameForm name ++ wireMatrices host swap bodies

/-- The cells the reader keeps under a limit: all of them with limit 0, the
first `limit` otherwise. -/
def limitedCells (limit : Nat) (vals : List QVariant) : List QVariant :=
  if limit = 0 then vals else vals.take limit

/-- A codec instance for evaluating examples with texts that hold U+0000: as
`Qt.plain`, one byte per character, but `fromUtf8` ends the text at the first
zero byte of the array, as `QString::fromUtf8` does in Qt 4 and Qt 5 when it
is given a `QByteArray`. -/
def Qt.nulTerminated : Qt :=
  { Qt.plain with fromUtf8 := fun b => b.takeWhile (fun c => c != 0) }

/-! # Theorems -/

/-! ## Bytes -/

theorem leBytes_length (n v : Nat) : (leBytes n v).length = n := by
  induction n generalizing v with
  | zero => rfl
  | succ n ih => simp [leBytes, ih]

theorem leValue_leBytes (n v : Nat) : leValue (leBytes n v) = v % 256 ^ n := by
  induction n generalizing v with
  | zero => simp [leBytes, leValue, Nat.mod_one]
  | succ n ih =>
    simp only [leBytes, leValue, ih, Nat.mod_mod]
    rw [pow_succ, Nat.mul_comm (256 ^ n) 256, Nat.mod_mul]

theorem hostBytes_length (host : Host) (n v : Nat) : (hostBytes host n v).length = n := by
  unfold hostBytes; split <;> simp [leBytes_length]

theorem wireWord_length (host : Host) (swap : Bool) (n v : Nat) :
    (wireWord host swap n v).length = n := by
  unfold wireWord swapByteOrder; split <;> simp [hostBytes_length]

theorem hostValue_hostBytes (host : Host) (n v : Nat) :
    hostValue host (hostBytes host n v) = v % 256 ^ n := by
  unfold hostValue hostBytes
  split <;> simp [leValue_leBytes]

theorem wireValue_wireWord (host : Host) (swap : Bool) (n v : Nat) :
    wireValue host swap (wireWord host swap n v) = v % 256 ^ n := by
  unfold wireValue wireWord swapByteOrder
  split <;> simp [hostValue_hostBytes]

theorem wireValue_wireWord_of_lt (host : Host) (swap : Bool) (n v : Nat) (h : v < 256 ^ n) :
    wireValue host swap (wireWord host swap n v) = v := by
  rw [wireValue_wireWord, Nat.mod_eq_of_lt h]

theorem toUnsigned_lt (bits : Nat) (v : Int) : toUnsigned bits v < 2 ^ bits := by
  unfold toUnsigned
  have hpos : (0 : Int) < ((2 ^ bits : Nat) : Int) := by positivity
  have h1 := Int.emod_nonneg v (ne_of_gt hpos)
  have h2 := Int.emod_lt_of_pos v hpos
  have : ((v % ((2 ^ bits : Nat) : Int)).toNat : Int) < ((2 ^ bits : Nat) : Int) := by
    rw [Int.toNat_of_nonneg h1]; exact h2
  exact_mod_cast this

theorem toUnsigned_cast (bits : Nat) (v : Int) :
    ((toUnsigned bits v : Nat) : Int) = v % ((2 ^ bits : Nat) : Int) := by
  unfold toUnsigned
  have hpos : (0 : Int) < ((2 ^ bits : Nat) : Int) := by positivity
  exact Int.toNat_of_nonneg (Int.emod_nonneg v (ne_of_gt hpos))

theorem toSigned_toUnsigned (bits : Nat) (hb : 0 < bits) (v : Int)
    (h1 : -(2 ^ (bits - 1) : Int) ≤ v) (h2 : v < (2 ^ (bits - 1) : Int)) :
    toSigned bits (toUnsigned bits v) = v := by
  have hlt := toUnsigned_lt bits v
  have hc := toUnsigned_cast bits v
  have hpn : (2 : Nat) ^ bits = 2 * 2 ^ (bits - 1) := by
    rw [← pow_succ']; congr 1; omega
  have hpos : (0 : Int) < 2 ^ (bits - 1) := by positivity
  generalize toUnsigned bits v = u at hlt hc
  unfold toSigned
  rw [Nat.mod_eq_of_lt hlt]
  have hpi : ((2 ^ bits : Nat) : Int) = 2 * 2 ^ (bits - 1) := by
    rw [hpn]; push_cast; ring
  rw [hpi] at hc ⊢
  rcases le_or_lt 0 v with hv | hv
  · have e : v % (2 * 2 ^ (bits - 1) : Int) = v := Int.emod_eq_of_lt hv (by omega)
    rw [e] at hc
    have : u < 2 ^ (bits - 1) := by
      have : (u : Int) < ((2 ^ (bits - 1) : Nat) : Int) := by push_cast; omega
      exact_mod_cast this
    simp [this, hc]
  · have e : v % (2 * 2 ^ (bits - 1) : Int) = v + 2 * 2 ^ (bits - 1) := by
      rw [← Int.add_emod_self]; exact Int.emod_eq_of_lt (by omega) (by omega)
    rw [e] at hc
    have : ¬ u < 2 ^ (bits - 1) := by
      intro hlt2
      have : (u : Int) < ((2 ^ (bits - 1) : Nat) : Int) := by exact_mod_cast hlt2
      push_cast at this; omega
    simp only [this, if_false]
    omega

theorem toUnsigned_ofNat (bits : Nat) (n : Nat) (h : n < 2 ^ bits) :
    toUnsigned bits (n : Int) = n := by
  have hc := toUnsigned_cast bits (n : Int)
  have : ((n : Int)) % ((2 ^ bits : Nat) : Int) = n := by
    apply Int.emod_eq_of_lt (by positivity); exact_mod_cast h
  rw [this] at hc
  exact_mod_cast hc

theorem toSigned_of_lt (bits : Nat) (n : Nat) (h : n < 2 ^ (bits - 1)) :
    toSigned bits n = n := by
  unfold toSigned
  have : n < 2 ^ bits := lt_of_lt_of_le h (Nat.pow_le_pow_right (by norm_num) (by omega))
  rw [Nat.mod_eq_of_lt this]
  simp [h]

theorem charValue_inj (host : Host) (x y : Nat) (hx : x < 256) (hy : y < 256) :
    (charValue host x == charValue host y) = (x == y) := by
  unfold charValue toSigned
  rw [Bool.eq_iff_iff]
  simp only [beq_iff_eq]
  rw [Nat.mod_eq_of_lt (show x < 2 ^ 8 by simpa using hx),
    Nat.mod_eq_of_lt (show y < 2 ^ 8 by simpa using hy)]
  rw [Nat.mod_eq_of_lt hx, Nat.mod_eq_of_lt hy]
  norm_num
  split
  · split_ifs <;> omega
  · omega

theorem charValue_range (host : Host) (x : Nat) :
    -128 ≤ charValue host x ∧ charValue host x < 256 ∧
    (charValue host x = (x % 256 : Nat) ∨ charValue host x = (x % 256 : Nat) - 256) := by
  unfold charValue toSigned
  have e : x % 2 ^ 8 = x % 256 := by norm_num
  rw [e]
  have hlt : x % 256 < 256 := Nat.mod_lt _ (by norm_num)
  generalize x % 256 = y at hlt ⊢
  cases host.charSigned
  · simp only [Bool.false_eq_true, if_false]
    exact ⟨by omega, by omega, Or.inl trivial⟩
  · simp only [if_true]
    by_cases h : y < 2 ^ (8 - 1)
    · simp only [h, if_true]
      exact ⟨by omega, by omega, Or.inl trivial⟩
    · simp only [h, if_false]
      norm_num at h
      refine ⟨?_, ?_, Or.inr ?_⟩ <;> norm_num <;> omega

theorem version_check (host : Host) (x y : Nat) (hx : x < 256) (hy : y < 256) :
    (toUnsigned 16 (charValue host x + charValue host y * 256) != 256) = !(x == 0 && y == 1) := by
  have h1 := charValue_range host x
  have h2 := charValue_range host y
  rw [Nat.mod_eq_of_lt hx] at h1
  rw [Nat.mod_eq_of_lt hy] at h2
  generalize charValue host x = a at h1
  generalize charValue host y = b at h2
  unfold toUnsigned
  rw [Bool.eq_iff_iff]
  simp only [bne_iff_ne, ne_eq, Bool.not_eq_true', Bool.and_eq_false_iff, beq_eq_false_iff_ne]
  norm_num
  omega


theorem hostBytes_mi (host : Host) :
    hostBytes host 2 0x4d49 = if host.bigEndian then [0x4d, 0x49] else [0x49, 0x4d] := by
  unfold hostBytes
  cases host.bigEndian <;> simp [leBytes]

/-- `setDevice` on a device that holds at least a whole header. -/
theorem setDevice_of_bytes (host : Host) (lex : MatLexer) (q : QIODevice) (own : Bool)
    (hd sub rest : List Nat) (a b c d : Nat)
    (hopen : q.isOpen = true ∨ q.canOpen = true)
    (hdata : q.data = hd ++ (sub ++ (a :: b :: c :: d :: rest)))
    (hhd : hd.length = 116) (hsub : sub.length = 8)
    (ha : a < 256) (hb : b < 256) (hc : c < 256) (hd' : d < 256) :
    MatLexer.setDevice host lex (some q) own true =
      if !startsWith hd magic then (false, lex)
      else if (c == (if host.bigEndian then 0x4d else 0x49)) &&
          (d == (if host.bigEndian then 0x49 else 0x4d)) then
        if a == 0 && b == 1 then
          (true, { d_in := some { bytes := rest, missing := 0 }, d_needByteSwap := false,
                   d_owner := own })
        else (false, lex)
      else if (c == (if host.bigEndian then 0x49 else 0x4d)) &&
          (d == (if host.bigEndian then 0x4d else 0x49)) then
        if b == 0 && a == 1 then
          (true, { d_in := some { bytes := rest, missing := 0 }, d_needByteSwap := true,
                   d_owner := own })
        else (false, lex)
      else (false, lex) := by
  have hopen' : (!q.isOpen && !q.canOpen) = false := by
    rcases hopen with h | h <;> simp [h]
  unfold MatLexer.setDevice
  simp only [hopen', Bool.false_eq_true, if_false, if_true, Dev.read, hdata]
  have t1 : List.take 116 (hd ++ (sub ++ a :: b :: c :: d :: rest)) = hd := by
    rw [List.take_append_of_le_length (by omega), List.take_of_length_le (by omega)]
  have d1 : List.drop 116 (hd ++ (sub ++ a :: b :: c :: d :: rest)) =
      sub ++ a :: b :: c :: d :: rest := by
    rw [List.drop_append_of_le_length (by omega), List.drop_of_length_le (by omega)]; rfl
  have t2 : List.take 8 (sub ++ a :: b :: c :: d :: rest) = sub := by
    rw [List.take_append_of_le_length (by omega), List.take_of_length_le (by omega)]
  have d2 : List.drop 8 (sub ++ a :: b :: c :: d :: rest) = a :: b :: c :: d :: rest := by
    rw [List.drop_append_of_le_length (by omega), List.drop_of_length_le (by omega)]; rfl
  simp only [t1, d1, t2, d2, hhd, hsub, lt_irrefl, if_false, List.take_succ_cons, List.take_zero,
    List.length_cons, List.length_nil, List.drop_succ_cons, List.drop_zero, hostBytes_mi]
  by_cases hm : startsWith hd magic = true
  swap
  · simp [hm]
  simp only [hm, Bool.not_true, Bool.false_eq_true, if_false]
  have eq0 : ∀ x : Nat, x < 256 → ∀ y : Nat, y < 256 →
      (charValue host x == charValue host y) = (x == y) :=
    fun x hx y hy => charValue_inj host x y hx hy
  have v1 := version_check host a b ha hb
  have v2 := version_check host b a hb ha
  cases hbe : host.bigEndian <;>
    simp only [List.getD_cons_zero, List.getD_cons_succ, Bool.false_eq_true, if_false, if_true,
      eq0 c hc 0x49 (by norm_num), eq0 c hc 0x4d (by norm_num), eq0 d hd' 0x49 (by norm_num),
      eq0 d hd' 0x4d (by norm_num), v1, v2, Nat.reduceLT, show (256 : Nat) = 0x0100 from rfl] <;>
    (by_cases h1 : (c == 73 && d == 77) = true <;> by_cases h2 : (c == 77 && d == 73) = true <;>
      by_cases h3 : (a == 0 && b == 1) = true <;> by_cases h4 : (b == 0 && a == 1) = true <;>
      simp [h1, h2, h3, h4, v1, v2])


/-- `setDevice` fails, and leaves the lexer alone, on a device with fewer than 128 bytes. -/
theorem setDevice_short (host : Host) (lex : MatLexer) (q : QIODevice) (own : Bool)
    (h : q.data.length < 128) :
    MatLexer.setDevice host lex (some q) own true = (false, lex) := by
  unfold MatLexer.setDevice
  simp only [Dev.read, List.length_take, List.length_drop]
  split_ifs <;> first | rfl | omega

theorem setDevice_true_or (host : Host) (lex : MatLexer) (dev : Option QIODevice)
    (own expectHeader : Bool) :
    (MatLexer.setDevice host lex dev own expectHeader).1 = true ∨
      MatLexer.setDevice host lex dev own expectHeader = (false, lex) := by
  unfold MatLexer.setDevice
  dsimp only
  repeat' split
  all_goals first | exact Or.inr rfl | exact Or.inl rfl

/-- A failing `setDevice` leaves the lexer as it was. -/
theorem setDevice_failure_unchanged (host : Host) (lex : MatLexer) (dev : Option QIODevice)
    (own expectHeader : Bool) (h : (MatLexer.setDevice host lex dev own expectHeader).1 = false) :
    (MatLexer.setDevice host lex dev own expectHeader).2 = lex := by
  rcases setDevice_true_or host lex dev own expectHeader with h1 | h1
  · rw [h1] at h; cases h
  · rw [h1]

theorem list_split_header (l : List Nat) (h : 128 ≤ l.length) :
    ∃ hd sub rest, l = hd ++ (sub ++ (l.getD 124 0 :: l.getD 125 0 :: l.getD 126 0 ::
        l.getD 127 0 :: rest)) ∧ hd.length = 116 ∧ sub.length = 8 ∧
      rest = l.drop 128 ∧ hd = l.take 116 := by
  have e1 : l = l.take 116 ++ l.drop 116 := (List.take_append_drop 116 l).symm
  have e2 : l.drop 116 = (l.drop 116).take 8 ++ l.drop 124 := by
    have := (List.take_append_drop 8 (l.drop 116)).symm
    rwa [List.drop_drop] at this
  have e3 : l.drop 124 = l.getD 124 0 :: l.getD 125 0 :: l.getD 126 0 :: l.getD 127 0 ::
      l.drop 128 := by
    rw [List.drop_eq_getElem_cons (show 124 < l.length by omega),
      List.drop_eq_getElem_cons (show 125 < l.length by omega),
      List.drop_eq_getElem_cons (show 126 < l.length by omega),
      List.drop_eq_getElem_cons (show 127 < l.length by omega),
      List.getD_eq_getElem _ _ (show 124 < l.length by omega),
      List.getD_eq_getElem _ _ (show 125 < l.length by omega),
      List.getD_eq_getElem _ _ (show 126 < l.length by omega),
      List.getD_eq_getElem _ _ (show 127 < l.length by omega)]
  refine ⟨l.take 116, (l.drop 116).take 8, l.drop 128, ?_, ?_, ?_, rfl, rfl⟩
  · rw [← e3, ← e2]; exact e1
  · rw [List.length_take]; omega
  · rw [List.length_take, List.length_drop]; omega


theorem setDevice_cases (host : Host) (lex : MatLexer) (q : QIODevice) (own : Bool) :
    MatLexer.setDevice host lex (some q) own true =
        (true, { d_in := some { bytes := q.data.drop 128, missing := 0 },
                 d_needByteSwap := (MatLexer.setDevice host lex (some q) own true).2.d_needByteSwap,
                 d_owner := own }) ∨
      MatLexer.setDevice host lex (some q) own true = (false, lex) := by
  unfold MatLexer.setDevice
  dsimp only
  repeat' split
  all_goals first
    | exact Or.inr rfl
    | (rename_i h; exact absurd rfl h)
    | exact Or.inl (by simp only [Dev.read, List.drop_drop])


theorem startsWith_take (l : List Nat) (n : Nat) (pre : List Nat) (h : pre.length ≤ n) :
    startsWith (l.take n) pre = startsWith l pre := by
  unfold startsWith
  rw [List.take_take, min_eq_left h]

/-- On a little-endian host `setDevice` accepts exactly the well-formed headers, takes exactly
128 bytes when it accepts, and changes nothing when it refuses. -/
theorem setDevice_littleEndian_iff (host : Host) (hle : host.bigEndian = false) (lex : MatLexer)
    (q : QIODevice) (own : Bool) (hopen : q.isOpen = true ∨ q.canOpen = true)
    (hbytes : ∀ b ∈ q.data, b < 256) :
    ((MatLexer.setDevice host lex (some q) own true).1 = true ↔
      128 ≤ q.data.length ∧ q.data.take 19 = magic ∧
      ((q.data.getD 126 0 = 0x49 ∧ q.data.getD 127 0 = 0x4D ∧
          q.data.getD 124 0 + 256 * q.data.getD 125 0 = 0x0100) ∨
       (q.data.getD 126 0 = 0x4D ∧ q.data.getD 127 0 = 0x49 ∧
          256 * q.data.getD 124 0 + q.data.getD 125 0 = 0x0100))) ∧
    ((MatLexer.setDevice host lex (some q) own true).1 = true →
      (MatLexer.setDevice host lex (some q) own true).2.d_in =
        some { bytes := q.data.drop 128, missing := 0 }) ∧
    ((MatLexer.setDevice host lex (some q) own true).1 = false →
      (MatLexer.setDevice host lex (some q) own true).2 = lex) := by
  refine ⟨?_, ?_, setDevice_failure_unchanged host lex _ own true⟩
  · by_cases h128 : 128 ≤ q.data.length
    swap
    · rw [setDevice_short host lex q own (by omega)]
      simp [h128]
    obtain ⟨hd, sub, rest, hdata, hhd, hsub, -, hhd2⟩ := list_split_header q.data h128
    have hget : ∀ i, q.data.getD i 0 < 256 := by
      intro i
      by_cases hi : i < q.data.length
      · rw [List.getD_eq_getElem _ _ hi]; exact hbytes _ (List.getElem_mem _)
      · rw [List.getD_eq_default _ _ (by omega)]; norm_num
    have ha := hget 124
    have hb := hget 125
    have hc := hget 126
    have hd' := hget 127
    rw [setDevice_of_bytes host lex q own hd sub rest _ _ _ _ hopen hdata hhd hsub ha hb hc hd']
    have hm : startsWith hd magic = decide (q.data.take 19 = magic) := by
      rw [hhd2, startsWith_take _ _ _ (by decide)]
      unfold startsWith
      rw [show magic.length = 19 by decide]
      rw [Bool.eq_iff_iff]; simp
    rw [hm]
    generalize q.data.getD 124 0 = a at *
    generalize q.data.getD 125 0 = b at *
    generalize q.data.getD 126 0 = c at *
    generalize q.data.getD 127 0 = d at *
    simp only [hle, Bool.false_eq_true, if_false, h128, true_and]
    by_cases hmag : q.data.take 19 = magic
    swap
    · simp [hmag]
    simp only [hmag, decide_True, Bool.not_true, Bool.false_eq_true, if_false, true_and]
    by_cases h1 : c = 73 <;> by_cases h2 : d = 77 <;> by_cases h3 : c = 77 <;>
      by_cases h4 : d = 73 <;> by_cases h5 : a = 0 <;> by_cases h6 : b = 1 <;>
      by_cases h7 : b = 0 <;> by_cases h8 : a = 1 <;>
      simp [h1, h2, h3, h4, h5, h6, h7, h8] <;> omega
  · intro h
    rcases setDevice_cases host lex q own with h1 | h1
    · rw [h1]
    · rw [h1] at h; cases h


theorem drop_124 (l : List Nat) (h : 128 ≤ l.length) :
    l.drop 124 = l.getD 124 0 :: l.getD 125 0 :: l.getD 126 0 :: l.getD 127 0 :: l.drop 128 := by
  rw [List.drop_eq_getElem_cons (show 124 < l.length by omega),
    List.drop_eq_getElem_cons (show 125 < l.length by omega),
    List.drop_eq_getElem_cons (show 126 < l.length by omega),
    List.drop_eq_getElem_cons (show 127 < l.length by omega),
    List.getD_eq_getElem _ _ (show 124 < l.length by omega),
    List.getD_eq_getElem _ _ (show 125 < l.length by omega),
    List.getD_eq_getElem _ _ (show 126 < l.length by omega),
    List.getD_eq_getElem _ _ (show 127 < l.length by omega)]

/-- At the end of the top-level stream `nextElement` returns the empty value and no error. -/
theorem nextElement_at_end (qt : Qt) (host : Host) (fuel : Nat) (r : MatReader)
    (h1 : r.d_parser'.d_nested = []) (h2 : r.d_parser'.d_peek.d_type = TokenType.Null)
    (h3 : ∀ d, r.d_parser'.d_first.d_in = some d → d.atEnd = true) :
    ∃ r', MatReader.nextElement qt host fuel r = .ok (.invalid, r') ∧ r'.hasError = false := by
  have hne : (MatLexer.nextElement qt host r.d_parser'.d_first) =
      (DataElement.new, r.d_parser'.d_first) := by
    unfold MatLexer.nextElement
    cases hd : r.d_parser'.d_first.d_in with
    | none => rfl
    | some d => simp [h3 d hd]
  unfold MatReader.nextElement MatReader.nextToken MatParser.nextToken
  simp only [h2, MatParser.last, h1, hne, MatParser.setLast, DataElement.new, Token.ofType,
    bne_self_eq_false, Bool.false_eq_true, if_false, if_true]
  exact ⟨_, rfl, rfl⟩

/-- C6.  After `setDevice` accepts a header, `needsByteSwap()` is false when the last four header
bytes are 00 01 49 4D and true when they are 01 00 4D 49; if no element follows the header, the
reader's first `nextElement` returns the empty value and reports no error. -/
theorem C6_header_negotiates_byte_swap (qt : Qt) (host : Host) (q : QIODevice) (own : Bool)
    (limit fuel : Nat) (h : (MatReader.setDevice host (some q) own limit).1 = true) :
    ((q.data.drop 124).take 4 = [0x00, 0x01, 0x49, 0x4D] →
      (MatReader.setDevice host (some q) own limit).2.d_parser'.d_first.needsByteSwap = false) ∧
    ((q.data.drop 124).take 4 = [0x01, 0x00, 0x4D, 0x49] →
      (MatReader.setDevice host (some q) own limit).2.d_parser'.d_first.needsByteSwap = true) ∧
    (q.data.length = 128 →
      ∃ r', MatReader.nextElement qt host fuel (MatReader.setDevice host (some q) own limit).2 =
        .ok (.invalid, r') ∧ r'.hasError = false) := by
  have h' : (MatLexer.setDevice host (MatLexer.new false) (some q) own true).1 = true := h
  have h128 : 128 ≤ q.data.length := by
    by_contra hlt
    rw [setDevice_short host _ q own (by omega)] at h'
    cases h'
  have hopen : q.isOpen = true ∨ q.canOpen = true := by
    by_contra hno
    have : (!q.isOpen && !q.canOpen) = true := by
      cases h1 : q.isOpen <;> cases h2 : q.canOpen <;> simp_all
    unfold MatLexer.setDevice at h'
    simp [this] at h'
  obtain ⟨hd, sub, rest, hdata, hhd, hsub, -, -⟩ := list_split_header q.data h128
  have key : ∀ a b c d : Nat, (q.data.drop 124).take 4 = [a, b, c, d] →
      a < 256 → b < 256 → c < 256 → d < 256 →
      q.data.getD 124 0 = a ∧ q.data.getD 125 0 = b ∧ q.data.getD 126 0 = c ∧
        q.data.getD 127 0 = d := by
    intro a b c d hp _ _ _ _
    rw [drop_124 _ h128] at hp
    simpa using hp
  show (_ → (MatLexer.setDevice host (MatLexer.new false) (some q) own true).2.needsByteSwap = false)
    ∧ (_ → (MatLexer.setDevice host (MatLexer.new false) (some q) own true).2.needsByteSwap = true)
    ∧ _
  refine ⟨?_, ?_, ?_⟩
  · intro hp
    obtain ⟨e1, e2, e3, e4⟩ := key _ _ _ _ hp (by norm_num) (by norm_num) (by norm_num) (by norm_num)
    rw [e1, e2, e3, e4] at hdata
    rw [setDevice_of_bytes host _ q own hd sub rest _ _ _ _ hopen hdata hhd hsub (by norm_num)
      (by norm_num) (by norm_num) (by norm_num)] at h' ⊢
    cases hbe : host.bigEndian <;> simp [hbe] at h' ⊢ <;> split_ifs at h' ⊢ <;> simp_all [MatLexer.needsByteSwap]
  · intro hp
    obtain ⟨e1, e2, e3, e4⟩ := key _ _ _ _ hp (by norm_num) (by norm_num) (by norm_num) (by norm_num)
    rw [e1, e2, e3, e4] at hdata
    rw [setDevice_of_bytes host _ q own hd sub rest _ _ _ _ hopen hdata hhd hsub (by norm_num)
      (by norm_num) (by norm_num) (by norm_num)] at h' ⊢
    cases hbe : host.bigEndian <;> simp [hbe] at h' ⊢ <;> split_ifs at h' ⊢ <;> simp_all [MatLexer.needsByteSwap]
  · intro hlen
    apply nextElement_at_end
    · rfl
    · rfl
    · intro d hdev
      change (MatLexer.setDevice host (MatLexer.new false) (some q) own true).2.d_in = some d at hdev
      rcases setDevice_cases host (MatLexer.new false) q own with h1 | h1
      · rw [h1] at hdev
        simp only [Option.some.injEq] at hdev
        rw [← hdev, List.drop_of_length_le (by omega)]
        rfl
      · rw [h1] at h'; cases h'

theorem zeros_length (n : Int) : (zeros n).length = n.toNat := by
  unfold zeros; simp

theorem zeros_getD (n : Int) (i : Nat) : (zeros n).getD i 0 = 0 := by
  unfold zeros
  by_cases h : i < n.toNat
  · rw [List.getD_eq_getElem _ _ (by simpa using h)]; simp
  · rw [List.getD_eq_default _ _ (by simpa using h)]

/-- The bytes `writeHeader` emits through `setDevice`. -/
theorem setDevice_sink (qt : Qt) (host : Host) (osName now : List Nat) (w : MatWriter) (own : Bool) :
    (MatWriter.setDevice qt host osName now w (some (QIODevice.closed [])) own true).2.sink =
      MatWriter.banner qt host osName now ++
        (zeros (116 - (MatWriter.banner qt host osName now).length) ++
          (zeros 8 ++ (hostBytes host 2 0x0100 ++ hostBytes host 2 0x4d49))) := by
  simp [MatWriter.setDevice, QIODevice.closed, MatWriter.writeHeader, MatWriter.onLast,
    MatWriter.sink, Level.new, MatWriter.write]

theorem hostBytes_version (host : Host) :
    hostBytes host 2 0x0100 = if host.bigEndian then [0x01, 0x00] else [0x00, 0x01] := by
  unfold hostBytes
  cases host.bigEndian <;> simp [leBytes]

theorem banner_startsWith (qt : Qt) (host : Host) (osName now : List Nat) (tail : List Nat) :
    startsWith (MatWriter.banner qt host osName now ++ tail) magic = true := by
  unfold startsWith MatWriter.banner
  simp only [List.append_assoc]
  rw [List.take_append_of_le_length (by decide)]
  decide

/-- The header `writeHeader` emits is 128 bytes long and laid out as the format prescribes. -/
theorem writeHeader_layout (qt : Qt) (host : Host) (osName now : List Nat) (w : MatWriter)
    (own : Bool) (hlen : (MatWriter.banner qt host osName now).length ≤ 116) :
    let out := (MatWriter.setDevice qt host osName now w (some (QIODevice.closed [])) own true).2.sink
    out.length = 128 ∧ out.take 19 = magic ∧
      out.take (MatWriter.banner qt host osName now).length = MatWriter.banner qt host osName now ∧
      (∀ i, (MatWriter.banner qt host osName now).length ≤ i → i < 124 → out.getD i 0 = 0) ∧
      (out.drop 124).take 2 = hostBytes host 2 0x0100 ∧ out.drop 126 = hostBytes host 2 0x4d49 := by
  intro out
  have hout : out = _ := setDevice_sink qt host osName now w own
  generalize hB : MatWriter.banner qt host osName now = B at *
  have hz : (zeros (116 - (B.length : Int))).length = 116 - B.length := by
    rw [zeros_length]; omega
  have hz8 : (zeros 8).length = 8 := by rw [zeros_length]; rfl
  have hv := hostBytes_length host 2 0x0100
  have hm := hostBytes_length host 2 0x4d49
  have hsw := banner_startsWith qt host osName now
    (zeros (116 - (B.length : Int)) ++ (zeros 8 ++ (hostBytes host 2 0x0100 ++ hostBytes host 2 0x4d49)))
  rw [hB] at hsw
  refine ⟨?_, ?_, ?_, ?_, ?_, ?_⟩
  · rw [hout]; simp only [List.length_append, hz, hz8, hv, hm]; omega
  · rw [hout]
    unfold startsWith at hsw
    simpa using hsw
  · rw [hout, List.take_append_of_le_length (le_refl _), List.take_length]
  · intro i h1 h2
    rw [hout, List.getD_append_right _ _ _ _ h1]
    by_cases h3 : i - B.length < 116 - B.length
    · rw [List.getD_append _ _ _ _ (by rw [hz]; exact h3), zeros_getD]
    · rw [List.getD_append_right _ _ _ _ (by rw [hz]; omega)]
      rw [List.getD_append _ _ _ _ (by rw [hz, hz8]; omega), zeros_getD]
  · rw [hout]
    rw [← List.append_assoc, ← List.append_assoc, List.drop_append_of_le_length (by
      simp only [List.length_append, hz, hz8]; omega)]
    rw [List.drop_of_length_le (by simp only [List.length_append, hz, hz8]; omega)]
    rw [List.nil_append, List.take_append_of_le_length (by omega), List.take_of_length_le (by omega)]
  · rw [hout]
    rw [← List.append_assoc, ← List.append_assoc, ← List.append_assoc,
      List.drop_append_of_le_length (by simp only [List.length_append, hz, hz8, hv]; omega)]
    rw [List.drop_of_length_le (by simp only [List.length_append, hz, hz8, hv]; omega)]
    rfl

/-- How `setDevice` of the lexer treats the header `writeHeader` emits: it is accepted on a
little-endian host, without byte-swap, and refused on a big-endian host. -/
theorem setDevice_writeHeader (qt : Qt) (host : Host) (osName now : List Nat) (w : MatWriter)
    (own : Bool) (lex : MatLexer) (own2 : Bool)
    (hlen : (MatWriter.banner qt host osName now).length ≤ 116) :
    MatLexer.setDevice host lex
        (some (QIODevice.closed
          (MatWriter.setDevice qt host osName now w (some (QIODevice.closed [])) own true).2.sink))
        own2 true =
      if host.bigEndian then (false, lex)
      else (true, { d_in := some { bytes := [], missing := 0 }, d_needByteSwap := false,
                    d_owner := own2 }) := by
  have hz : (zeros (116 - ((MatWriter.banner qt host osName now).length : Int))).length =
      116 - (MatWriter.banner qt host osName now).length := by
    rw [zeros_length]; omega
  have hz8 : (zeros 8).length = 8 := by rw [zeros_length]; rfl
  have hdata : (QIODevice.closed
      (MatWriter.setDevice qt host osName now w (some (QIODevice.closed [])) own true).2.sink).data =
      (MatWriter.banner qt host osName now ++
          zeros (116 - (MatWriter.banner qt host osName now).length)) ++
        (zeros 8 ++ ((hostBytes host 2 0x0100).getD 0 0 :: (hostBytes host 2 0x0100).getD 1 0 ::
          (hostBytes host 2 0x4d49).getD 0 0 :: (hostBytes host 2 0x4d49).getD 1 0 :: [])) := by
    show (MatWriter.setDevice qt host osName now w (some (QIODevice.closed [])) own true).2.sink = _
    rw [setDevice_sink, hostBytes_version, hostBytes_mi]
    cases host.bigEndian <;> simp
  have hsw := banner_startsWith qt host osName now
    (zeros (116 - ((MatWriter.banner qt host osName now).length : Int)))
  rw [setDevice_of_bytes host lex _ own2 _ _ [] _ _ _ _ (Or.inr rfl) hdata
    (by rw [List.length_append, hz]; omega) hz8
    (by rw [hostBytes_version]; cases host.bigEndian <;> simp)
    (by rw [hostBytes_version]; cases host.bigEndian <;> simp)
    (by rw [hostBytes_mi]; cases host.bigEndian <;> simp)
    (by rw [hostBytes_mi]; cases host.bigEndian <;> simp)]
  rw [hsw, hostBytes_version, hostBytes_mi]
  cases host.bigEndian <;> simp

/-! ## Words and tags -/

theorem leBytes_four (v : Nat) :
    leBytes 4 v = [v % 256, v / 256 % 256, v / 256 / 256 % 256, v / 256 / 256 / 256 % 256] := rfl

theorem wireWord_four (host : Host) (swap : Bool) (v : Nat) :
    wireWord host swap 4 v =
      if host.bigEndian != swap then
        [v / 256 / 256 / 256 % 256, v / 256 / 256 % 256, v / 256 % 256, v % 256]
      else [v % 256, v / 256 % 256, v / 256 / 256 % 256, v / 256 / 256 / 256 % 256] := by
  unfold wireWord hostBytes swapByteOrder
  rw [leBytes_four]
  cases host.bigEndian <;> cases swap <;> rfl

/-- `MatLexer::read` of a 4-byte word in file order. -/
theorem read_wireWord (host : Host) (swap : Bool) (v : Nat) (hv : v < 2 ^ 32) (rest : List Nat)
    (m : Nat) :
    MatLexer.read host { bytes := wireWord host swap 4 v ++ rest, missing := m } 4 swap =
      (4, v, { bytes := rest, missing := m }) := by
  have hl := wireWord_length host swap 4 v
  unfold MatLexer.read Dev.read
  simp only [List.take_left' hl, List.drop_left' hl, hl, bne_self_eq_false, Bool.false_eq_true,
    if_false]
  have := wireValue_wireWord_of_lt host swap 4 v (by simpa using hv)
  unfold wireValue at this
  rw [this]

theorem peek_word (host : Host) (swap : Bool) (v : Nat) (rest : List Nat) (m : Nat) :
    Dev.peek { bytes := wireWord host swap 4 v ++ rest, missing := m } 4 = wireWord host swap 4 v := by
  unfold Dev.peek
  exact List.take_left' (wireWord_length host swap 4 v)

theorem calcPadding_eight (len : Nat) : calcPadding len 8 = (8 - len % 8) % 8 := by
  unfold calcPadding
  have : len % 8 < 8 := Nat.mod_lt _ (by norm_num)
  by_cases h : len % 8 = 0
  · simp [h]
  · simp only [bne_iff_ne, ne_eq, h, not_false_eq_true, if_true]
    omega

theorem calcPadding_four (len : Nat) (h1 : 1 ≤ len) (h : len ≤ 4) :
    calcPadding len 4 = 4 - len := by
  unfold calcPadding
  interval_cases len <;> rfl

theorem wirePadding_length_normal (len : Nat) :
    (wirePadding .normal len).length = calcPadding len 8 := by
  rw [calcPadding_eight]; simp [wirePadding]

theorem wirePadding_length_small (len : Nat) (h1 : 1 ≤ len) (h : len ≤ 4) :
    (wirePadding .small len).length = calcPadding len 4 := by
  rw [calcPadding_four len h1 h]; simp [wirePadding]

/-- The stream the lexer builds over a whole element. -/
theorem InStream_new_framed (qt : Qt) (payload pad rest : List Nat) (m : Nat) :
    InStream.new qt { bytes := payload ++ (pad ++ rest), missing := m } payload.length pad.length
      false = InStream.framed payload pad rest m := rfl

/-- `MatLexer::nextElement` in front of an element in the normal layout. -/
theorem nextElement_normal (qt : Qt) (host : Host) (lex : MatLexer) (type : Nat)
    (payload rest : List Nat) (m : Nat) (ht : type < 256) (hc : type ≠ miCOMPRESSED)
    (hlen : payload.length < 2 ^ 32)
    (hin : lex.d_in = some { bytes := wireElement host lex.d_needByteSwap .normal type payload ++ rest,
                             missing := m }) :
    MatLexer.nextElement qt host lex =
      ({ d_type := type, d_error := false, d_end := false,
         d_stream := some (InStream.framed payload (wirePadding .normal payload.length) rest m) },
       { lex with d_in := some { bytes := payload ++ (wirePadding .normal payload.length ++ rest),
                                 missing := m } }) := by
  unfold MatLexer.nextElement
  simp only [hin, wireElement, wireTag, List.append_assoc]
  have hne : Dev.atEnd { bytes := wireWord host lex.d_needByteSwap 4 type ++
      (wireWord host lex.d_needByteSwap 4 payload.length ++
        (payload ++ (wirePadding .normal payload.length ++ rest))), missing := m } = false := by
    unfold Dev.atEnd
    rw [wireWord_four]
    split <;> simp
  rw [hne, peek_word]
  have hpk : (wireWord host lex.d_needByteSwap 4 type).length = 4 := wireWord_length _ _ _ _
  have hb1 : (wireWord host lex.d_needByteSwap 4 type).getD 1 0 = 0 := by
    rw [wireWord_four]; split <;> simp <;> omega
  have hb2 : (wireWord host lex.d_needByteSwap 4 type).getD 2 0 = 0 := by
    rw [wireWord_four]; split <;> simp <;> omega
  simp only [hpk, hb1, hb2, lt_irrefl, if_false, bne_self_eq_false, Bool.false_eq_true, Bool.or_self]
  rw [read_wireWord host _ type (by omega)]
  simp only [bne_self_eq_false, Bool.false_eq_true, if_false]
  rw [read_wireWord host _ payload.length hlen]
  have hc' : (type == miCOMPRESSED) = false := by simpa using hc
  simp only [bne_self_eq_false, Bool.false_eq_true, if_false, hc', Nat.mod_eq_of_lt ht]
  rw [← wirePadding_length_normal, InStream_new_framed]

/-- `MatLexer::nextElement` in front of an element in the small layout. -/
theorem nextElement_small (qt : Qt) (host : Host) (lex : MatLexer) (type : Nat)
    (payload rest : List Nat) (m : Nat) (ht : type < 256)
    (h1 : 1 ≤ payload.length) (h4 : payload.length ≤ 4)
    (hin : lex.d_in = some { bytes := wireElement host lex.d_needByteSwap .small type payload ++ rest,
                             missing := m }) :
    MatLexer.nextElement qt host lex =
      ({ d_type := type, d_error := false, d_end := false,
         d_stream := some (InStream.framed payload (wirePadding .small payload.length) rest m) },
       { lex with d_in := some { bytes := payload ++ (wirePadding .small payload.length ++ rest),
                                 missing := m } }) := by
  unfold MatLexer.nextElement
  simp only [hin, wireElement, wireTag, List.append_assoc]
  have hne : Dev.atEnd { bytes := wireWord host lex.d_needByteSwap 4 (type + payload.length * 65536) ++
        (payload ++ (wirePadding .small payload.length ++ rest)), missing := m } = false := by
    unfold Dev.atEnd
    rw [wireWord_four]
    split <;> simp
  rw [hne, peek_word]
  have hpk : (wireWord host lex.d_needByteSwap 4 (type + payload.length * 65536)).length = 4 :=
    wireWord_length _ _ _ _
  have hb : ((wireWord host lex.d_needByteSwap 4 (type + payload.length * 65536)).getD 1 0 != 0 ||
      (wireWord host lex.d_needByteSwap 4 (type + payload.length * 65536)).getD 2 0 != 0) = true := by
    rw [wireWord_four]
    split <;> simp <;> omega
  simp only [hpk, hb, lt_irrefl, if_false, if_true, Bool.false_eq_true]
  rw [read_wireWord host _ _ (by omega)]
  have e1 : (type + payload.length * 65536) % 65536 = type := by omega
  have e2 : (type + payload.length * 65536) / 65536 = payload.length := by omega
  have s1 : toSigned 16 type = (type : Int) := toSigned_of_lt 16 type (by norm_num; omega)
  have s2 : toSigned 16 payload.length = (payload.length : Int) :=
    toSigned_of_lt 16 _ (by norm_num; omega)
  have u1 : toUnsigned 8 (type : Int) = type := toUnsigned_ofNat 8 type (by norm_num; omega)
  have u2 : toUnsigned 32 (payload.length : Int) = payload.length :=
    toUnsigned_ofNat 32 _ (by norm_num; omega)
  have hgt : ¬ ((payload.length : Int) > 4) := by omega
  simp only [bne_self_eq_false, Bool.false_eq_true, if_false, e1, e2, s1, s2, u1, u2, hgt]
  rw [← wirePadding_length_small _ h1 h4, InStream_new_framed]

/-! ## Streams -/

theorem framed_atEnd (p pad rest : List Nat) (m : Nat) :
    (InStream.framed p pad rest m).atEnd = p.isEmpty := by
  unfold InStream.atEnd InStream.bytesAvailable InStream.framed
  cases p <;> simp

theorem framed_bytesAvailable (p pad rest : List Nat) (m : Nat) :
    (InStream.framed p pad rest m).bytesAvailable = p.length := rfl

theorem framed_d_in_nil (rest : List Nat) (m : Nat) :
    (InStream.framed [] [] rest m).d_in = { bytes := rest, missing := m } := rfl

/-- Reading from the stream of a whole element: the bytes come from the payload, and the
padding goes with the last of them. -/
theorem framed_read (p pad rest : List Nat) (m n : Nat) (hp : p ≠ []) :
    (InStream.framed p pad rest m).read n =
      (p.take n, if n < p.length then InStream.framed (p.drop n) pad rest m
                 else InStream.framed [] [] rest m) := by
  have hpos : 0 < p.length := List.length_pos.mpr hp
  unfold InStream.read InStream.framed
  simp only [Bool.false_eq_true, if_false, hpos, gt_iff_lt, if_true, Dev.read]
  by_cases hn : n < p.length
  · have hmin : min n p.length = n := min_eq_left (le_of_lt hn)
    rw [hmin, List.take_append_of_le_length (le_of_lt hn),
      List.drop_append_of_le_length (le_of_lt hn)]
    have hl : (List.take n p).length = n := by rw [List.length_take]; omega
    have hne : (p.length - n == 0) = false := by
      rw [beq_eq_false_iff_ne]; omega
    simp only [hl, hne, hn, if_true, Bool.false_eq_true, if_false, List.length_drop]
  · have hmin : min n p.length = p.length := min_eq_right (by omega)
    rw [hmin, List.take_left, List.drop_left, List.take_of_length_le (by omega)]
    simp only [Nat.sub_self, beq_self_eq_true, if_true, hn, if_false]
    unfold InStream.eatPadding
    by_cases hpad : pad.length = 0
    · have : pad = [] := List.length_eq_zero.mp hpad
      subst this
      simp
    · have : (pad.length != 0) = true := by simpa using hpad
      simp only [this, if_true, Dev.read, List.drop_left, List.nil_append, List.length_nil]

/-- Reading the stream of a whole element to its end yields the payload and leaves the
enclosing device behind the padding. -/
theorem framed_readAll (p pad rest : List Nat) (m : Nat) (h0 : p = [] → pad = []) :
    (InStream.framed p pad rest m).readAll = (p, InStream.framed [] [] rest m) := by
  unfold InStream.readAll
  rw [framed_bytesAvailable]
  by_cases hp : p = []
  · subst hp
    rw [h0 rfl]
    rfl
  · rw [framed_read _ _ _ _ _ hp]
    simp

theorem framed_toDev (p pad rest : List Nat) (m : Nat) (h0 : p = [] → pad = []) :
    (InStream.framed p pad rest m).toDev = ({ bytes := p, missing := 0 }, { bytes := rest, missing := m }) := by
  unfold InStream.toDev
  rw [framed_readAll _ _ _ _ h0]
  rfl

theorem framed_readStream (host : Host) (swap : Bool) (p pad rest : List Nat) (m size : Nat)
    (hs : 1 ≤ size) (hle : size ≤ p.length) :
    MatLexer.readStream host (InStream.framed p pad rest m) size swap =
      (size, wireValue host swap (p.take size),
        if size < p.length then InStream.framed (p.drop size) pad rest m
        else InStream.framed [] [] rest m) := by
  have hp : p ≠ [] := by
    intro h; subst h; simp at hle; omega
  unfold MatLexer.readStream
  rw [framed_read _ _ _ _ _ hp]
  have hl : (List.take size p).length = size := by rw [List.length_take]; omega
  simp only [hl, bne_self_eq_false, Bool.false_eq_true, if_false]
  rfl

theorem framed_readStream_short (host : Host) (swap : Bool) (p pad rest : List Nat) (m size : Nat)
    (hp : p ≠ []) (hlt : p.length < size) :
    MatLexer.readStream host (InStream.framed p pad rest m) size swap =
      (p.length, 0, InStream.framed [] [] rest m) := by
  unfold MatLexer.readStream
  rw [framed_read _ _ _ _ _ hp]
  have hl : (List.take size p).length = p.length := by rw [List.length_take]; omega
  have hne : (p.length != size) = true := by simp; omega
  have hn : ¬ size < p.length := by omega
  simp only [hl, hne, if_true, hn, if_false]

/-! ## The scalars of a payload -/

theorem chunk_zero (size : Nat) (p : List Nat) : chunk size p 0 = p.take size := by
  simp [chunk]

theorem chunk_succ (size : Nat) (p : List Nat) (i : Nat) :
    chunk size p (i + 1) = chunk size (p.drop size) i := by
  simp only [chunk, List.drop_drop]
  congr 2
  ring

theorem scalarsOf_step (host : Host) (swap : Bool) (size : Nat) (mk : Nat → QVariant)
    (p : List Nat) (hs : 1 ≤ size) (hle : size ≤ p.length) :
    scalarsOf host swap size mk p =
      mk (wireValue host swap (p.take size)) :: scalarsOf host swap size mk (p.drop size) := by
  unfold scalarsOf
  have hd : p.length / size = (p.drop size).length / size + 1 := by
    rw [List.length_drop]
    have : p.length = (p.length - size) + size := by omega
    conv_lhs => rw [this]
    rw [Nat.add_div_right _ (by omega)]
  rw [hd, List.range_succ_eq_map, List.map_cons, List.map_map, chunk_zero]
  congr 1
  apply List.map_congr_left
  intro i _
  simp only [Function.comp, chunk_succ]

theorem scalarsOf_short (host : Host) (swap : Bool) (size : Nat) (mk : Nat → QVariant)
    (p : List Nat) (hlt : p.length < size) : scalarsOf host swap size mk p = [] := by
  unfold scalarsOf
  rw [Nat.div_eq_of_lt hlt]
  rfl

theorem scalarsOf_length (host : Host) (swap : Bool) (size : Nat) (mk : Nat → QVariant)
    (p : List Nat) : (scalarsOf host swap size mk p).length = p.length / size := by
  simp [scalarsOf]

/-- The loop of `_read<T>` over a payload of `k` whole scalars: it yields the scalars in file
order, cut at the limit, and leaves the stream read to its end. -/
theorem readLoop_framed (host : Host) (size : Nat) (mk : Nat → QVariant) (name : String)
    (swap : Bool) (limit : Nat) (hs : 1 ≤ size) (rest : List Nat) (m : Nat) :
    ∀ (k fuel : Nat) (p pad : List Nat) (i : Nat) (tmp : List QVariant),
      p.length = k * size → k + 1 ≤ fuel → (p = [] → pad = []) →
      _readLoop host size mk name swap limit fuel (InStream.framed p pad rest m) i tmp =
        (_readResult (tmp ++ (if limit = 0 then scalarsOf host swap size mk p
                              else (scalarsOf host swap size mk p).take (limit - i))),
          InStream.framed [] [] rest m) := by
  intro k
  induction k with
  | zero =>
    intro fuel p pad i tmp hlen hfuel h0
    have hp : p = [] := List.length_eq_zero.mp (by simpa using hlen)
    subst hp
    rw [h0 rfl]
    obtain ⟨f, rfl⟩ : ∃ f, fuel = f + 1 := ⟨fuel - 1, by omega⟩
    unfold _readLoop
    rw [framed_atEnd]
    simp [scalarsOf]
  | succ k ih =>
    intro fuel p pad i tmp hlen hfuel h0
    obtain ⟨f, rfl⟩ : ∃ f, fuel = f + 1 := ⟨fuel - 1, by omega⟩
    have hsz : size ≤ p.length := by
      rw [hlen]; exact Nat.le_mul_of_pos_left _ (by omega)
    have hp : p ≠ [] := by
      intro h; subst h; simp at hsz; omega
    unfold _readLoop
    rw [framed_atEnd]
    have hemp : p.isEmpty = false := by
      cases p with
      | nil => exact absurd rfl hp
      | cons _ _ => rfl
    simp only [hemp, Bool.false_eq_true, if_false]
    by_cases hlim : (limit != 0 && decide (i ≥ limit)) = true
    · simp only [hlim, if_true]
      rw [framed_readAll _ _ _ _ h0]
      simp only [Bool.and_eq_true, bne_iff_ne, ne_eq, decide_eq_true_eq] at hlim
      have : limit - i = 0 := by omega
      simp [hlim.1, this]
    · simp only [hlim, Bool.false_eq_true, if_false]
      rw [framed_readStream host swap p pad rest m size hs hsz]
      simp only [bne_self_eq_false, Bool.false_eq_true, if_false]
      have hdl : (p.drop size).length = k * size := by
        rw [List.length_drop, hlen]; rw [Nat.succ_mul]; omega
      have hstep := scalarsOf_step host swap size mk p hs hsz
      have hres : ∀ S : List QVariant,
          (tmp ++ [mk (wireValue host swap (List.take size p))] ++
            (if limit = 0 then S else S.take (limit - (i + 1)))) =
          tmp ++ (if limit = 0 then mk (wireValue host swap (List.take size p)) :: S
                  else (mk (wireValue host swap (List.take size p)) :: S).take (limit - i)) := by
        intro S
        by_cases hl0 : limit = 0
        · simp [hl0]
        · have hi : ¬ i ≥ limit := by
            intro hge
            apply hlim
            simp [hl0, hge]
          have : limit - i = (limit - (i + 1)) + 1 := by omega
          simp only [hl0, if_false, this, List.take_succ_cons]
          simp
      by_cases hlt : size < p.length
      · simp only [hlt, if_true]
        rw [ih f (p.drop size) pad (i + 1) _ hdl (by omega)
          (by intro h; have := congrArg List.length h; rw [List.length_drop] at this; simp at this; omega), hstep, hres]
      · simp only [hlt, if_false]
        have hk0 : (p.drop size) = [] := List.drop_of_length_le (by omega)
        rw [hk0] at hdl
        rw [ih f [] [] (i + 1) _ hdl (by omega) (fun _ => rfl), hstep, hk0, hres]

/-- `_read<T>` over a payload of whole scalars. -/
theorem read_framed (host : Host) (size : Nat) (mk : Nat → QVariant) (name : String)
    (swap : Bool) (limit : Nat) (hs : 1 ≤ size) (p pad rest : List Nat) (m : Nat)
    (hdiv : size ∣ p.length) (h0 : p = [] → pad = []) :
    _read host size mk name (InStream.framed p pad rest m) swap limit =
      (_readResult (limited limit (scalarsOf host swap size mk p)), InStream.framed [] [] rest m) := by
  obtain ⟨k, hk⟩ := hdiv
  unfold _read
  rw [framed_bytesAvailable]
  have hkl : k ≤ p.length := by
    rw [hk]; exact Nat.le_mul_of_pos_left _ (by omega)
  rw [readLoop_framed host size mk name swap limit hs rest m k _ p pad 0 [] (by rw [hk, Nat.mul_comm])
    (by omega) h0]
  unfold limited
  by_cases hl : limit = 0 <;> simp [hl]

/-! ## Elements and tokens -/

theorem wirePadding_nil (form : TagForm) (payload : List Nat)
    (hfit : form.fits payload.length = true) (h : payload = []) :
    wirePadding form payload.length = [] := by
  subst h
  cases form
  · rfl
  · simp [TagForm.fits] at hfit

/-- `MatLexer::nextElement` in front of an element in either layout. -/
theorem nextElement_wire (qt : Qt) (host : Host) (lex : MatLexer) (form : TagForm) (type : Nat)
    (payload rest : List Nat) (m : Nat) (ht : type < 256)
    (hc : form = .normal → type ≠ miCOMPRESSED) (hfit : form.fits payload.length = true)
    (hin : lex.d_in = some { bytes := wireElement host lex.d_needByteSwap form type payload ++ rest,
                             missing := m }) :
    MatLexer.nextElement qt host lex =
      ({ d_type := type, d_error := false, d_end := false,
         d_stream := some (InStream.framed payload (wirePadding form payload.length) rest m) },
       { lex with d_in := some { bytes := payload ++ (wirePadding form payload.length ++ rest),
                                 missing := m } }) := by
  cases form with
  | normal =>
    exact nextElement_normal qt host lex type payload rest m ht (hc rfl)
      (by simpa [TagForm.fits] using hfit) hin
  | small =>
    simp only [TagForm.fits, Bool.and_eq_true, decide_eq_true_eq] at hfit
    exact nextElement_small qt host lex type payload rest m ht hfit.1 hfit.2 hin

/-- `readValue` on a numeric element other than `miINT8` whose payload holds whole scalars. -/
theorem readValue_numeric (qt : Qt) (host : Host) (swap : Bool) (limit type : Nat)
    (p pad rest : List Nat) (m : Nat) (ht : wireSize type ≠ 0) (hdiv : wireSize type ∣ p.length)
    (h0 : p = [] → pad = []) :
    MatParser.readValue qt host swap limit (InStream.framed p pad rest m) type =
      (_readResult (limited limit (wireScalars host swap type p)), InStream.framed [] [] rest m) := by
  have hcases : type = 2 ∨ type = 3 ∨ type = 4 ∨ type = 5 ∨ type = 6 ∨ type = 7 ∨ type = 9 ∨
      type = 12 ∨ type = 13 := by
    unfold wireSize at ht
    simp only [miUINT8, miINT16, miUINT16, miINT32, miUINT32, miSINGLE, miDOUBLE, miINT64,
      miUINT64, beq_iff_eq, Bool.or_eq_true] at ht
    by_contra hne
    simp only [not_or] at hne
    obtain ⟨h2, h3, h4, h5, h6, h7, h9, h12, h13⟩ := hne
    simp [h2, h3, h4, h5, h6, h7, h9, h12, h13] at ht
  rcases hcases with h | h | h | h | h | h | h | h | h <;> subst h
  · exact read_framed host 1 _ _ swap limit (by norm_num) p pad rest m hdiv h0
  · exact read_framed host 2 _ _ swap limit (by norm_num) p pad rest m hdiv h0
  · exact read_framed host 2 _ _ swap limit (by norm_num) p pad rest m hdiv h0
  · exact read_framed host 4 _ _ swap limit (by norm_num) p pad rest m hdiv h0
  · exact read_framed host 4 _ _ swap limit (by norm_num) p pad rest m hdiv h0
  · exact read_framed host 4 _ _ swap limit (by norm_num) p pad rest m hdiv h0
  · exact read_framed host 8 _ _ swap limit (by norm_num) p pad rest m hdiv h0
  · exact read_framed host 8 _ _ swap limit (by norm_num) p pad rest m hdiv h0
  · exact read_framed host 8 _ _ swap limit (by norm_num) p pad rest m hdiv h0

/-- `readValue` on an `miINT8` element: the payload as a byte array. -/
theorem readValue_int8 (qt : Qt) (host : Host) (swap : Bool) (limit : Nat)
    (p pad rest : List Nat) (m : Nat) (h0 : p = [] → pad = []) :
    MatParser.readValue qt host swap limit (InStream.framed p pad rest m) miINT8 =
      ({ d_type := .Value, d_value := .byteArray p }, InStream.framed [] [] rest m) := by
  unfold MatParser.readValue
  simp only [beq_self_eq_true, if_true, framed_readAll _ _ _ _ h0]

/-- `readValue` on an `miUTF8` element: the decoded payload. -/
theorem readValue_utf8 (qt : Qt) (host : Host) (swap : Bool) (limit : Nat)
    (p pad rest : List Nat) (m : Nat) (h0 : p = [] → pad = []) :
    MatParser.readValue qt host swap limit (InStream.framed p pad rest m) miUTF8 =
      ({ d_type := .Value, d_value := .string (qt.fromUtf8 p) }, InStream.framed [] [] rest m) := by
  unfold MatParser.readValue
  simp only [framed_readAll _ _ _ _ h0]
  rfl

theorem setLast_last (p : MatParser) (lex : MatLexer) : (p.setLast lex).last = lex := by
  unfold MatParser.setLast MatParser.last
  cases p.d_nested <;> rfl

theorem setLast_setLast (p : MatParser) (a b : MatLexer) :
    (p.setLast a).setLast b = p.setLast b := by
  unfold MatParser.setLast
  cases h : p.d_nested <;> simp

/-- `nextToken` in front of a primitive element: the token `readValue` builds from the
payload, and the current lexer left behind the element. -/
theorem nextToken_primitive (qt : Qt) (host : Host) (p : MatParser) (form : TagForm)
    (type : Nat) (payload rest : List Nat) (m : Nat) (tok : Token)
    (hpeek : p.d_peek.d_type = TokenType.Null) (ht : type < 256) (hm : type ≠ miMATRIX)
    (hc : type ≠ miCOMPRESSED) (hfit : form.fits payload.length = true)
    (hin : p.last.d_in = some
      { bytes := wireElement host p.last.d_needByteSwap form type payload ++ rest, missing := m })
    (hval : MatParser.readValue qt host p.d_first.needsByteSwap p.d_limit
        (InStream.framed payload (wirePadding form payload.length) rest m) type =
      (tok, InStream.framed [] [] rest m)) :
    MatParser.nextToken qt host p =
      (tok, p.setLast { p.last with d_in := some { bytes := rest, missing := m } }) := by
  unfold MatParser.nextToken
  rw [nextElement_wire qt host p.last form type payload rest m ht (fun _ => hc) hfit hin]
  have hm' : (type == miMATRIX) = false := by simpa using hm
  have hc' : (type == miCOMPRESSED) = false := by simpa using hc
  simp only [hpeek, bne_self_eq_false, Bool.false_eq_true, if_false, hm', hc', hval,
    setLast_setLast, framed_d_in_nil]

/-- `nextToken` in front of a matrix element: `BeginMatrix`, with a lexer for the body of the
matrix on the stack and the enclosing lexer left behind the element. -/
theorem nextToken_matrix (qt : Qt) (host : Host) (p : MatParser) (body rest : List Nat) (m : Nat)
    (hpeek : p.d_peek.d_type = TokenType.Null) (hlen : body.length < 2 ^ 32)
    (hin : p.last.d_in = some
      { bytes := wireElement host p.last.d_needByteSwap .normal miMATRIX body ++ rest,
        missing := m }) :
    MatParser.nextToken qt host p =
      (Token.ofType .BeginMatrix,
        { (p.setLast { p.last with d_in := some { bytes := rest, missing := m } }) with
          d_nested := { d_in := some { bytes := body, missing := 0 },
                        d_needByteSwap := p.d_first.needsByteSwap, d_owner := false } ::
            (p.setLast { p.last with d_in := some { bytes := rest, missing := m } }).d_nested }) := by
  unfold MatParser.nextToken
  rw [nextElement_normal qt host p.last miMATRIX body rest m (by decide) (by decide) hlen hin]
  simp only [hpeek, bne_self_eq_false, Bool.false_eq_true, if_false, beq_self_eq_true, if_true,
    setLast_setLast]
  rw [framed_toDev _ _ _ _ (fun h => by subst h; rfl)]

/-- `nextToken` at the end of a nested lexer's device: `EndMatrix`, and the lexer is popped. -/
theorem nextToken_endMatrix (qt : Qt) (host : Host) (p : MatParser) (top : MatLexer)
    (below : List MatLexer) (hpeek : p.d_peek.d_type = TokenType.Null)
    (hn : p.d_nested = top :: below) (hin : top.d_in = some { bytes := [], missing := 0 }) :
    MatParser.nextToken qt host p = (Token.ofType .EndMatrix, { p with d_nested := below }) := by
  unfold MatParser.nextToken
  have hl : p.last = top := by unfold MatParser.last; rw [hn]
  have hne : MatLexer.nextElement qt host top = (DataElement.new, top) := by
    unfold MatLexer.nextElement; rw [hin]; rfl
  rw [hl, hne]
  simp only [hpeek, bne_self_eq_false, Bool.false_eq_true, if_false, DataElement.new, if_true,
    MatParser.setLast, hn]

theorem readResult_type (tmp : List QVariant) : (_readResult tmp).d_type = TokenType.Value := by
  unfold _readResult
  split <;> rfl

theorem limited_zero (vals : List QVariant) : limited 0 vals = vals := rfl

/-- C8.  For every numeric element type other than `miINT8` and every element of that type (in
either tag layout) whose payload is `n * sizeof(T)` bytes, with limit 0 `nextToken` returns a
`Value` token holding exactly `n` values, the `i`-th being the decode in file byte order of the
payload bytes `[i * sizeof(T), (i + 1) * sizeof(T))`; for `n = 1` the token carries the scalar
itself, otherwise the list.  The current lexer is left right behind the element. -/
theorem C8_numeric_element_token (qt : Qt) (host : Host) (p : MatParser) (form : TagForm)
    (type n : Nat) (payload rest : List Nat) (m : Nat)
    (hpeek : p.d_peek.d_type = TokenType.Null) (hlimit : p.d_limit = 0)
    (htype : type ∈ [miUINT8, miINT16, miUINT16, miINT32, miUINT32, miSINGLE, miDOUBLE, miINT64,
      miUINT64])
    (hlen : payload.length = n * wireSize type) (hfit : form.fits payload.length = true)
    (hin : p.last.d_in = some
      { bytes := wireElement host p.last.d_needByteSwap form type payload ++ rest, missing := m }) :
    (MatParser.nextToken qt host p).1.d_type = TokenType.Value ∧
    (wireScalars host p.d_first.needsByteSwap type payload).length = n ∧
    (∀ i, i < n → (wireScalars host p.d_first.needsByteSwap type payload)[i]? =
      some (wireScalar type (wireValue host p.d_first.needsByteSwap
        ((payload.drop (i * wireSize type)).take (wireSize type))))) ∧
    (n = 1 → (MatParser.nextToken qt host p).1.d_value =
      wireScalar type (wireValue host p.d_first.needsByteSwap payload)) ∧
    (n ≠ 1 → (MatParser.nextToken qt host p).1.d_value =
      .list (wireScalars host p.d_first.needsByteSwap type payload)) ∧
    (MatParser.nextToken qt host p).2 =
      p.setLast { p.last with d_in := some { bytes := rest, missing := m } } := by
  have hsz : wireSize type ≠ 0 := by
    simp only [List.mem_cons, List.mem_singleton, List.not_mem_nil, or_false] at htype
    rcases htype with h | h | h | h | h | h | h | h | h <;> subst h <;> decide
  have ht : type < 256 := by
    simp only [List.mem_cons, List.mem_singleton, List.not_mem_nil, or_false] at htype
    rcases htype with h | h | h | h | h | h | h | h | h <;> subst h <;> decide
  have hm : type ≠ miMATRIX := by
    intro h; rw [h] at hsz; exact hsz rfl
  have hc : type ≠ miCOMPRESSED := by
    intro h; rw [h] at hsz; exact hsz rfl
  have hval := readValue_numeric qt host p.d_first.needsByteSwap p.d_limit type payload
    (wirePadding form payload.length) rest m hsz ⟨n, by rw [hlen, Nat.mul_comm]⟩
    (wirePadding_nil form payload hfit)
  have hnt := nextToken_primitive qt host p form type payload rest m _ hpeek ht hm hc hfit hin hval
  rw [hnt, hlimit, limited_zero]
  have hlenS : (wireScalars host p.d_first.needsByteSwap type payload).length = n := by
    unfold wireScalars
    rw [scalarsOf_length, hlen, Nat.mul_div_cancel _ (Nat.pos_of_ne_zero hsz)]
  refine ⟨readResult_type _, hlenS, ?_, ?_, ?_, rfl⟩
  · intro i hi
    unfold wireScalars scalarsOf
    rw [List.getElem?_map, List.getElem?_range (by
      rw [hlen, Nat.mul_div_cancel _ (Nat.pos_of_ne_zero hsz)]; exact hi)]
    rfl
  · intro h1
    subst h1
    have hS : wireScalars host p.d_first.needsByteSwap type payload =
        [wireScalar type (wireValue host p.d_first.needsByteSwap payload)] := by
      unfold wireScalars
      rw [scalarsOf_step host _ _ _ payload (Nat.pos_of_ne_zero hsz) (by omega),
        scalarsOf_short _ _ _ _ _ (by rw [List.length_drop]; omega),
        List.take_of_length_le (by omega)]
    rw [hS]
    rfl
  · intro hn
    generalize hS : wireScalars host p.d_first.needsByteSwap type payload = S at hlenS ⊢
    unfold _readResult
    split
    · simp at hlenS; omega
    · rfl

/-- C8 at a concrete input: the small-tag `miINT32` element of length 4 that holds 42, read
on a little-endian host without byte-swap, yields the scalar 42. -/
theorem C8_numeric_element_token_witness :
    (MatParser.nextToken Qt.plain Host.linux64
      { d_first := MatLexer.over [5, 0, 4, 0, 42, 0, 0, 0] false, d_nested := [],
        d_peek := Token.new, d_limit := 0 }).1.d_value = QVariant.int 42 :=
  (C8_numeric_element_token Qt.plain Host.linux64
    { d_first := MatLexer.over [5, 0, 4, 0, 42, 0, 0, 0] false, d_nested := [],
      d_peek := Token.new, d_limit := 0 } TagForm.small miINT32 1 [42, 0, 0, 0] [] 0
    rfl rfl (by decide) (by decide) (by decide) (by decide)).2.2.2.1 rfl

/-! ## What the writer emits, as wire format -/

theorem hostBytes_zero (host : Host) : hostBytes host 4 0 = [0, 0, 0, 0] := by
  unfold hostBytes
  cases host.bigEndian <;> rfl

theorem wireWord_false (host : Host) (size v : Nat) :
    wireWord host false size v = hostBytes host size v := rfl

theorem zeros_ofNat (n : Nat) : zeros (n : Int) = List.replicate n 0 := by
  unfold zeros; simp

/-- `writeTag` followed by the payload and `writePadding` is an element of the wire format: in
the small layout for 1 to 4 payload bytes, in the normal layout otherwise. -/
theorem writeTag_payload_padding (host : Host) (out : List Nat) (t : Nat) (data : List Nat)
    (ht : t < 256) (hlen : data.length < 2 ^ 31) :
    MatWriter.writePadding (MatWriter.writeTag host out t data.length ++ data) data.length =
      out ++ wireElement host false
        (if 1 ≤ data.length ∧ data.length ≤ 4 then TagForm.small else TagForm.normal) t data := by
  unfold MatWriter.writePadding MatWriter.writeTag MatWriter.write wireElement
  have e1 : t % 256 = t := Nat.mod_eq_of_lt ht
  have e2 : data.length % 2 ^ 32 = data.length := Nat.mod_eq_of_lt (by omega)
  simp only [e1, e2]
  by_cases h0 : data.length = 0
  · have hd : data = [] := List.length_eq_zero.mp h0
    subst hd
    simp [wireTag, wirePadding, wireWord_false, hostBytes_zero, zeros, Nat.mod_eq_of_lt
      (show t < 4294967296 by omega)]
  by_cases h4 : data.length ≤ 4
  · have hc : 1 ≤ data.length ∧ data.length ≤ 4 := ⟨by omega, h4⟩
    have hi : ((data.length : Int) ≤ 4) := by omega
    have hz : zeros (4 - (data.length : Int)) = List.replicate (4 - data.length) 0 := by
      unfold zeros; congr 1; omega
    have hv : (t + data.length * 2 ^ 16) % 2 ^ 32 = t + data.length * 65536 := by
      norm_num; omega
    rw [if_pos hc]
    simp only [h4, hi, if_true, hz, hv, wireTag, wirePadding, wireWord_false,
      List.append_assoc]
  · have hc : ¬ (1 ≤ data.length ∧ data.length ≤ 4) := by omega
    have hi : ¬ ((data.length : Int) ≤ 4) := by omega
    have hz : zeros ((8 - (data.length : Int) % 8) % 8) =
        List.replicate ((8 - data.length % 8) % 8) 0 := by
      unfold zeros; congr 1; omega
    rw [if_neg hc]
    simp only [h4, hi, if_false, hz, wireTag, wirePadding, wireWord_false, List.append_assoc]

theorem toSigned_length (data : List Nat) (hlen : data.length < 2 ^ 31) :
    toSigned 32 data.length = (data.length : Int) := toSigned_of_lt 32 _ (by simpa using hlen)

theorem toUnsigned_length (data : List Nat) (hlen : data.length < 2 ^ 31) :
    toUnsigned 32 (data.length : Int) = data.length :=
  toUnsigned_ofNat 32 _ (by omega)

/-- `writeDataElement` emits an element of the wire format. -/
theorem writeDataElement_wire (host : Host) (out : List Nat) (t : Nat) (data : List Nat)
    (ht : t < 256) (hlen : data.length < 2 ^ 31) :
    MatWriter.writeDataElement host out t data =
      out ++ wireElement host false
        (if 1 ≤ data.length ∧ data.length ≤ 4 then TagForm.small else TagForm.normal) t data := by
  unfold MatWriter.writeDataElement
  simp only [toSigned_length data hlen, toUnsigned_length data hlen,
    Nat.mod_eq_of_lt (show t < 2 ^ 16 by omega)]
  exact writeTag_payload_padding host out t data ht hlen

/-- C4, as amended.  For every defined element type code `t` in 1..18 and every payload `p`,
provided `t` is not `miCOMPRESSED` (15) or `p` has 1 to 4 bytes, the bytes `writeDataElement`
emits are read by `nextElement` (no byte-swap) as one non-error element of type `t`; reading its
sub-stream to the end yields exactly `p` and leaves the enclosing device right behind the
emitted bytes (tag, payload and padding). -/
theorem C4_writeDataElement_nextElement (qt : Qt) (host : Host) (t : Nat) (p rest : List Nat)
    (m : Nat) (own : Bool) (ht1 : 1 ≤ t) (ht2 : t ≤ 18)
    (hc : t ≠ miCOMPRESSED ∨ (1 ≤ p.length ∧ p.length ≤ 4)) (hlen : p.length < 2 ^ 31) :
    let e := MatLexer.nextElement qt host
      { d_in := some { bytes := MatWriter.writeDataElement host [] t p ++ rest, missing := m },
        d_needByteSwap := false, d_owner := own }
    e.1.d_type = t ∧ e.1.d_error = false ∧ e.1.d_end = false ∧
      ∃ s, e.1.d_stream = some s ∧ s.readAll.1 = p ∧ s.readAll.2.atEnd = true ∧
        s.readAll.2.d_in = { bytes := rest, missing := m } := by
  intro e
  have hfit : (if 1 ≤ p.length ∧ p.length ≤ 4 then TagForm.small else TagForm.normal).fits
      p.length = true := by
    split
    · rename_i h; simp [TagForm.fits, h.1, h.2]
    · simp [TagForm.fits]; omega
  have hform : (if 1 ≤ p.length ∧ p.length ≤ 4 then TagForm.small else TagForm.normal) =
      TagForm.normal → t ≠ miCOMPRESSED := by
    intro hf
    rcases hc with h | h
    · exact h
    · rw [if_pos h] at hf; cases hf
  have he := nextElement_wire qt host
    { d_in := some { bytes := MatWriter.writeDataElement host [] t p ++ rest, missing := m },
      d_needByteSwap := false, d_owner := own }
    (if 1 ≤ p.length ∧ p.length ≤ 4 then TagForm.small else TagForm.normal) t p rest m
    (by omega) hform hfit (by rw [writeDataElement_wire host [] t p (by omega) hlen]; rfl)
  have he' : e = _ := he
  rw [he']
  refine ⟨rfl, rfl, rfl, _, rfl, ?_⟩
  rw [framed_readAll _ _ _ _ (wirePadding_nil _ p hfit)]
  exact ⟨rfl, rfl, rfl⟩

/-- C4 at a concrete input: a 5-byte `miUTF8` payload. -/
theorem C4_writeDataElement_nextElement_witness :
    (MatLexer.nextElement Qt.plain Host.linux64
      { d_in := some { bytes := MatWriter.writeDataElement Host.linux64 [] miUTF8
                         [104, 101, 108, 108, 111] ++ [7], missing := 0 },
        d_needByteSwap := false, d_owner := false }).1.d_type = miUTF8 :=
  (C4_writeDataElement_nextElement Qt.plain Host.linux64 miUTF8 [104, 101, 108, 108, 111] [7] 0
    false (by decide) (by decide) (Or.inl (by decide)) (by decide)).1

/-- C4 as stated fails for `t = miCOMPRESSED`: whatever the zlib codec does, the bytes
`writeDataElement` emits for a 5-byte payload of type 15 (16 bytes, the last three padding) are
not read back as a non-error element whose drained stream leaves the device behind them: the
lexer frames a compressed element without padding. -/
theorem C4_compressed_counterexample :
    ¬ ∃ qt : Qt,
      let e := MatLexer.nextElement qt Host.linux64
        { d_in := some { bytes := MatWriter.writeDataElement Host.linux64 [] miCOMPRESSED
                           [1, 2, 3, 4, 5] ++ [9], missing := 0 },
          d_needByteSwap := false, d_owner := false }
      e.1.d_type = miCOMPRESSED ∧ e.1.d_error = false ∧ e.1.d_end = false ∧
        ∃ s, e.1.d_stream = some s ∧ s.readAll.1 = [1, 2, 3, 4, 5] ∧ s.readAll.2.atEnd = true ∧
          s.readAll.2.d_in = { bytes := [9], missing := 0 } := by
  rintro ⟨qt, h⟩
  have hb : MatWriter.writeDataElement Host.linux64 [] miCOMPRESSED [1, 2, 3, 4, 5] ++ [9] =
      [15, 0, 0, 0, 5, 0, 0, 0, 1, 2, 3, 4, 5, 0, 0, 0, 9] := by decide
  rw [hb] at h
  generalize hout : qt.inflate [1, 2, 3, 4, 5] = out at h
  have hstep : ∀ e : DataElement × MatLexer,
      (e.1.d_error = true ∨ ∃ s, e.1.d_stream = some s ∧ s.d_compressed = true ∧
        s.d_in = { bytes := [0, 0, 0, 9], missing := 0 }) →
      ¬ (e.1.d_type = miCOMPRESSED ∧ e.1.d_error = false ∧ e.1.d_end = false ∧
        ∃ s, e.1.d_stream = some s ∧ s.readAll.1 = [1, 2, 3, 4, 5] ∧ s.readAll.2.atEnd = true ∧
          s.readAll.2.d_in = { bytes := [9], missing := 0 }) := by
    rintro e (he | ⟨s, hs, hcomp, hdin⟩) ⟨-, herr, -, s', hs', -, -, hd⟩
    · rw [he] at herr; cases herr
    · rw [hs] at hs'
      cases hs'
      have : s.readAll.2.d_in = s.d_in := by
        unfold InStream.readAll InStream.read
        simp [hcomp]
      rw [this, hdin] at hd
      cases hd
  refine hstep _ ?_ h
  simp only [MatLexer.nextElement, Dev.atEnd, Dev.peek, MatLexer.read, Dev.read, hostValue,
    Host.linux64, leValue, miCOMPRESSED, InStream.new, MatLexer.readStream, InStream.read,
    List.take, List.drop, List.isEmpty, List.getD_cons_zero, List.getD_cons_succ, List.length,
    Bool.false_eq_true, if_false, if_true, bne_self_eq_false, Bool.false_and, Bool.or_self,
    Nat.reduceMod, Nat.reduceMul, Nat.reduceAdd, Nat.reduceLT, beq_self_eq_true,
    Nat.reduceBEq, Nat.reduceBNe, hout]
  rcases out with _ | ⟨a1, _ | ⟨a2, _ | ⟨a3, _ | ⟨a4, _ | ⟨a5, _ | ⟨a6, _ | ⟨a7, _ | ⟨a8, tl⟩⟩⟩⟩⟩⟩⟩⟩ <;>
    simp [DataElement.ofError]

/-! ## Reading the head of a matrix -/

theorem enter_last (p : MatParser) (body : List Nat) :
    (p.enter body).last =
      { d_in := some { bytes := body, missing := 0 }, d_needByteSwap := p.d_first.needsByteSwap,
        d_owner := false } := rfl

theorem enter_setLast (p : MatParser) (body rest : List Nat) :
    (p.enter body).setLast { (p.enter body).last with d_in := some { bytes := rest, missing := 0 } }
      = p.enter rest := rfl

theorem enter_peek (p : MatParser) (body : List Nat) : (p.enter body).d_peek = p.d_peek := rfl

theorem enter_first (p : MatParser) (body : List Nat) : (p.enter body).d_first = p.d_first := rfl

theorem enter_limit (p : MatParser) (body : List Nat) : (p.enter body).d_limit = p.d_limit := rfl

/-- `nextToken` of a parser inside a matrix, in front of a primitive element. -/
theorem nextToken_enter_primitive (qt : Qt) (host : Host) (p : MatParser) (form : TagForm)
    (type : Nat) (payload tl : List Nat) (tok : Token)
    (hpeek : p.d_peek = Token.new) (ht : type < 256) (hm : type ≠ miMATRIX)
    (hc : type ≠ miCOMPRESSED) (hfit : form.fits payload.length = true)
    (hval : MatParser.readValue qt host p.d_first.needsByteSwap p.d_limit
        (InStream.framed payload (wirePadding form payload.length) tl 0) type =
      (tok, InStream.framed [] [] tl 0)) :
    MatParser.nextToken qt host
        (p.enter (wireElement host p.d_first.needsByteSwap form type payload ++ tl)) =
      (tok, p.enter tl) := by
  have h := nextToken_primitive qt host
    (p.enter (wireElement host p.d_first.needsByteSwap form type payload ++ tl)) form type payload
    tl 0 tok (by rw [enter_peek, hpeek]; rfl) ht hm hc hfit rfl hval
  rw [h]
  rfl

/-- `nextToken` hands out a buffered token and empties the buffer. -/
theorem nextToken_peeked (qt : Qt) (host : Host) (p : MatParser)
    (h : p.d_peek.d_type ≠ TokenType.Null) :
    MatParser.nextToken qt host p = (p.d_peek, { p with d_peek := Token.new }) := by
  unfold MatParser.nextToken
  have : (p.d_peek.d_type != TokenType.Null) = true := by simpa using h
  rw [if_pos this]

theorem peekToken_eq (qt : Qt) (host : Host) (p : MatParser) (hpeek : p.d_peek = Token.new) :
    MatParser.peekToken qt host p =
      ((MatParser.nextToken qt host p).1,
        { (MatParser.nextToken qt host p).2 with d_peek := (MatParser.nextToken qt host p).1 }) := by
  unfold MatParser.peekToken
  have hp : { p with d_peek := Token.new } = p := by
    cases p; simp only at hpeek; rw [hpeek]
  rw [hp]

/-- `peekToken` followed by `nextToken` is `nextToken`, for a parser with an empty buffer in
front of anything but the end of the top-level stream. -/
theorem nextToken_peekToken (qt : Qt) (host : Host) (p : MatParser) (hpeek : p.d_peek = Token.new)
    (h : (MatParser.nextToken qt host p).1.d_type ≠ TokenType.Null)
    (h2 : (MatParser.nextToken qt host p).2.d_peek = Token.new) :
    MatParser.nextToken qt host (MatParser.peekToken qt host p).2 = MatParser.nextToken qt host p := by
  rw [peekToken_eq qt host p hpeek]
  generalize MatParser.nextToken qt host p = r at h h2
  obtain ⟨t, q⟩ := r
  rw [nextToken_peeked qt host _ h]
  cases q
  simp only at h2 ⊢
  rw [h2]

/-! ## The scalars of the flags and the dimensions -/

theorem wireWord_take (host : Host) (swap : Bool) (v : Nat) (tl : List Nat) :
    (wireWord host swap 4 v ++ tl).take 4 = wireWord host swap 4 v :=
  List.take_left' (wireWord_length host swap 4 v)

theorem wireWord_drop (host : Host) (swap : Bool) (v : Nat) (tl : List Nat) :
    (wireWord host swap 4 v ++ tl).drop 4 = tl :=
  List.drop_left' (wireWord_length host swap 4 v)

theorem wireScalars_uint32_cons (host : Host) (swap : Bool) (v : Nat) (hv : v < 2 ^ 32)
    (tl : List Nat) :
    wireScalars host swap miUINT32 (wireWord host swap 4 v ++ tl) =
      .uint v :: wireScalars host swap miUINT32 tl := by
  unfold wireScalars
  rw [show wireSize miUINT32 = 4 from rfl,
    scalarsOf_step host swap 4 _ _ (by norm_num) (by
      rw [List.length_append, wireWord_length]; omega),
    wireWord_take, wireWord_drop, wireValue_wireWord_of_lt host swap 4 v (by simpa using hv)]
  rfl

theorem wireScalars_flags (host : Host) (swap : Bool) (f0 f1 : Nat) (h0 : f0 < 2 ^ 32)
    (h1 : f1 < 2 ^ 32) :
    wireScalars host swap miUINT32 (wireWord host swap 4 f0 ++ wireWord host swap 4 f1) =
      [.uint f0, .uint f1] := by
  rw [wireScalars_uint32_cons host swap f0 h0]
  have := wireScalars_uint32_cons host swap f1 h1 []
  rw [List.append_nil] at this
  rw [this]
  rfl

theorem wireInts_length (host : Host) (swap : Bool) (vals : List Int) :
    (wireInts host swap vals).length = 4 * vals.length := by
  induction vals with
  | nil => rfl
  | cons d ds ih =>
    simp only [wireInts, List.flatMap_cons, List.length_append, wireWord_length, List.length_cons]
      at ih ⊢
    rw [ih]; ring

theorem wireScalars_ints (host : Host) (swap : Bool) (vals : List Int)
    (hr : ∀ d ∈ vals, -(2 ^ 31 : Int) ≤ d ∧ d < 2 ^ 31) :
    wireScalars host swap miINT32 (wireInts host swap vals) = vals.map QVariant.int := by
  induction vals with
  | nil => simp [wireScalars, wireInts, scalarsOf]
  | cons d ds ih =>
    have hd := hr d (List.mem_cons_self _ _)
    unfold wireScalars at ih ⊢
    rw [show wireSize miINT32 = 4 from rfl] at ih ⊢
    simp only [wireInts, List.flatMap_cons] at ih ⊢
    rw [scalarsOf_step host swap 4 _ _ (by norm_num) (by
        rw [List.length_append, wireWord_length]; omega),
      wireWord_take, wireWord_drop, ih (fun x hx => hr x (List.mem_cons_of_mem _ hx)),
      wireValue_wireWord_of_lt host swap 4 _ (by
        have := toUnsigned_lt 32 d; simpa using this)]
    simp only [List.map_cons, List.cons.injEq, and_true]
    show QVariant.int (toSigned 32 (toUnsigned 32 d)) = QVariant.int d
    rw [toSigned_toUnsigned 32 (by norm_num) d (by simpa using hd.1) (by simpa using hd.2)]

theorem readResult_list (tmp : List QVariant) (h : tmp.length ≠ 1) :
    _readResult tmp = { d_type := .Value, d_value := .list tmp } := by
  unfold _readResult
  split
  · simp at h
  · rfl


theorem fits_normal (len : Nat) (h : len < 2 ^ 32) : TagForm.normal.fits len = true := by
  simp only [TagForm.fits, decide_eq_true_eq]; exact h

/-- The token of the array flags sub-element. -/
theorem nextToken_flags (qt : Qt) (host : Host) (p : MatParser) (f0 f1 : Nat) (tl : List Nat)
    (hpeek : p.d_peek = Token.new) (hlimit : p.d_limit = 0) (h0 : f0 < 2 ^ 32)
    (h1 : f1 < 2 ^ 32) :
    MatParser.nextToken qt host (p.enter (wireFlags host p.d_first.needsByteSwap f0 f1 ++ tl)) =
      ({ d_type := .Value, d_value := .list [.uint f0, .uint f1] }, p.enter tl) := by
  have hl : (wireWord host p.d_first.needsByteSwap 4 f0 ++
      wireWord host p.d_first.needsByteSwap 4 f1).length = 8 := by
    rw [List.length_append, wireWord_length, wireWord_length]
  apply nextToken_enter_primitive qt host p .normal miUINT32 _ tl _ hpeek (by decide) (by decide)
    (by decide) (fits_normal _ (by rw [hl]; norm_num))
  rw [readValue_numeric qt host _ _ miUINT32 _ _ tl 0 (by decide) ⟨2, by rw [hl]; rfl⟩
    (fun h => by rw [h] at hl; cases hl)]
  rw [hlimit, limited_zero, wireScalars_flags host _ f0 f1 h0 h1]
  rfl

/-- The token of a dimensions sub-element with at least two entries. -/
theorem nextToken_dims (qt : Qt) (host : Host) (p : MatParser) (dims : List Int) (tl : List Nat)
    (hpeek : p.d_peek = Token.new) (hlimit : p.d_limit = 0) (hd : 2 ≤ dims.length)
    (hdl : dims.length < 2 ^ 30) (hr : ∀ d ∈ dims, -(2 ^ 31 : Int) ≤ d ∧ d < 2 ^ 31) :
    MatParser.nextToken qt host (p.enter (wireDims host p.d_first.needsByteSwap dims ++ tl)) =
      ({ d_type := .Value, d_value := .list (dims.map QVariant.int) }, p.enter tl) := by
  have hl := wireInts_length host p.d_first.needsByteSwap dims
  apply nextToken_enter_primitive qt host p .normal miINT32 _ tl _ hpeek (by decide) (by decide)
    (by decide) (fits_normal _ (by rw [hl]; norm_num at hdl ⊢; omega))
  rw [readValue_numeric qt host _ _ miINT32 _ _ tl 0 (by decide) ⟨dims.length, by rw [hl]; rfl⟩
    (fun h => by rw [h] at hl; simp only [List.length_nil] at hl; omega)]
  rw [hlimit, limited_zero, wireScalars_ints host _ dims hr, readResult_list _ (by
    rw [List.length_map]; omega)]

/-- The token of an `miINT8` sub-element (a name). -/
theorem nextToken_bytes (qt : Qt) (host : Host) (p : MatParser) (form : TagForm)
    (name tl : List Nat) (hpeek : p.d_peek = Token.new)
    (hfit : form.fits name.length = true) :
    MatParser.nextToken qt host
        (p.enter (wireElement host p.d_first.needsByteSwap form miINT8 name ++ tl)) =
      ({ d_type := .Value, d_value := .byteArray name }, p.enter tl) := by
  apply nextToken_enter_primitive qt host p form miINT8 _ tl _ hpeek (by decide) (by decide)
    (by decide) hfit
  exact readValue_int8 qt host _ _ name _ tl 0 (wirePadding_nil form name hfit)

theorem uint_toUInt (qt : Qt) (v : Nat) (h : v < 2 ^ 32) : (QVariant.uint v).toUInt qt = v := by
  unfold QVariant.toUInt QVariant.toLongLong
  exact toUnsigned_ofNat 32 v h

theorem int_toInt (qt : Qt) (d : Int) (h1 : -(2 ^ 31 : Int) ≤ d) (h2 : d < 2 ^ 31) :
    (QVariant.int d).toInt qt = d := by
  unfold QVariant.toInt QVariant.toLongLong
  exact toSigned_toUnsigned 32 (by norm_num) d (by simpa using h1) (by simpa using h2)

theorem map_int_toInt (qt : Qt) (dims : List Int)
    (hr : ∀ d ∈ dims, -(2 ^ 31 : Int) ≤ d ∧ d < 2 ^ 31) :
    (dims.map QVariant.int).map (fun v => v.toInt qt) = dims := by
  induction dims with
  | nil => rfl
  | cons d ds ih =>
    have hd := hr d (List.mem_cons_self _ _)
    simp only [List.map_cons, int_toInt qt d hd.1 hd.2,
      ih (fun x hx => hr x (List.mem_cons_of_mem _ hx))]

/-- `readMatrix` in front of a well-formed head -- flags, at least two dimensions, name -- reads
the three sub-elements and enters the switch over the class code. -/
theorem readMatrix_head (qt : Qt) (host : Host) (p : MatParser) (err : List Nat) (fuel : Nat)
    (f0 f1 : Nat) (dims : List Int) (nf : TagForm) (name tl : List Nat)
    (hpeek : p.d_peek = Token.new) (hlimit : p.d_limit = 0) (h0 : f0 < 2 ^ 32)
    (h1 : f1 < 2 ^ 32) (hd : 2 ≤ dims.length) (hdl : dims.length < 2 ^ 30)
    (hr : ∀ d ∈ dims, -(2 ^ 31 : Int) ≤ d ∧ d < 2 ^ 31) (hnf : nf.fits name.length = true) :
    MatReader.readMatrix qt host (fuel + 1)
        { d_parser' := p.enter (wireMatrixHead host p.d_first.needsByteSwap f0 f1 dims nf name ++ tl),
          d_error := err } =
      MatReader.classSwitch qt host (MatReader.readMatrix qt host fuel) fuel 0 (f0 &&& 0xff)
        { d_name := name, d_logical := f0 &&& 0x200 != 0, d_global := f0 &&& 0x400 != 0,
          d_valid := true }
        (f0 &&& 0x800 != 0) dims { d_parser' := p.enter tl, d_error := err } := by
  have e1 := nextToken_flags qt host p f0 f1
    (wireDims host p.d_first.needsByteSwap dims ++
      (wireElement host p.d_first.needsByteSwap nf miINT8 name ++ tl)) hpeek hlimit h0 h1
  have e2 := nextToken_dims qt host p dims
    (wireElement host p.d_first.needsByteSwap nf miINT8 name ++ tl) hpeek hlimit hd hdl hr
  have e3 := nextToken_bytes qt host p nf name tl hpeek hnf
  have hassoc : wireMatrixHead host p.d_first.needsByteSwap f0 f1 dims nf name ++ tl =
      wireFlags host p.d_first.needsByteSwap f0 f1 ++
        (wireDims host p.d_first.needsByteSwap dims ++
          (wireElement host p.d_first.needsByteSwap nf miINT8 name ++ tl)) := by
    simp only [wireMatrixHead, List.append_assoc]
  rw [hassoc]
  obtain ⟨first, nested, peek, limit⟩ := p
  simp only at hpeek hlimit
  subst hpeek
  subst hlimit
  simp only [MatParser.enter] at e1 e2 e3 ⊢
  have hne : (dims.map QVariant.int).isEmpty = false := by
    cases dims with
    | nil => simp at hd
    | cons _ _ => rfl
  unfold MatReader.readMatrix
  simp only [MatReader.peekToken, MatReader.nextToken, MatParser.peekToken, e1]
  rw [nextToken_peeked qt host _ (by simp)]
  simp only [e2, e3, QVariant.toList, List.length_cons, List.length_nil, List.headD_cons,
    uint_toUInt qt f0 h0, map_int_toInt qt dims hr, QVariant.type, QVariant.toByteArray, hne]
  simp

/-! ## Numeric matrices -/

theorem wrap32_emod (x : Int) : wrap32 x % (2 ^ 32 : Int) = x % (2 ^ 32 : Int) := by
  unfold wrap32 toSigned
  have hlt := toUnsigned_lt 32 x
  have hc := toUnsigned_cast 32 x
  generalize toUnsigned 32 x = u at hlt hc
  rw [Nat.mod_eq_of_lt hlt]
  have hc' : (u : Int) = x % 2 ^ 32 := by rw [hc]; norm_num
  split
  · rw [hc']; exact Int.emod_emod_of_dvd x (dvd_refl _)
  · have : ((u : Int) - ((2 ^ 32 : Nat) : Int)) % 2 ^ 32 = (u : Int) % 2 ^ 32 := by
      have : ((2 ^ 32 : Nat) : Int) = 2 ^ 32 := by norm_num
      rw [this, Int.sub_emod, Int.emod_self, sub_zero, Int.emod_emod_of_dvd _ (dvd_refl _)]
    rw [this, hc']
    exact Int.emod_emod_of_dvd x (dvd_refl _)

theorem wrap32_of_range (x : Int) (h1 : -(2 ^ 31 : Int) ≤ x) (h2 : x < 2 ^ 31) : wrap32 x = x :=
  toSigned_toUnsigned 32 (by norm_num) x (by simpa using h1) (by simpa using h2)

theorem wrap32_congr (x y : Int) (h : x % (2 ^ 32 : Int) = y % (2 ^ 32 : Int)) :
    wrap32 x = wrap32 y := by
  unfold wrap32 toUnsigned
  have : ((2 ^ 32 : Nat) : Int) = 2 ^ 32 := by norm_num
  rw [this, h]

theorem foldl_mul32 (dims : List Int) (a : Int) :
    dims.foldl mul32 (wrap32 a) = wrap32 (a * dims.prod) := by
  induction dims generalizing a with
  | nil => simp
  | cons d ds ih =>
    simp only [List.foldl_cons, List.prod_cons]
    have : mul32 (wrap32 a) d = wrap32 (a * d) := by
      unfold mul32
      apply wrap32_congr
      rw [Int.mul_emod, wrap32_emod, ← Int.mul_emod]
    rw [this, ih, mul_assoc]

/-- `_totalCount` is the product of the dimensions reduced to 32 bits. -/
theorem totalCount_eq_wrap (dims : List Int) : _totalCount dims = wrap32 dims.prod := by
  unfold _totalCount
  have h1 : (1 : Int) = wrap32 1 := (wrap32_of_range 1 (by norm_num) (by norm_num)).symm
  rw [h1, foldl_mul32, one_mul]

theorem totalCount_of_prod (dims : List Int) (n : Nat) (h : dims.prod = n) (hn : n < 2 ^ 31) :
    _totalCount dims = n := by
  rw [totalCount_eq_wrap, h]
  exact wrap32_of_range _ (by have : (0 : Int) ≤ (n : Int) := Int.natCast_nonneg n; linarith) (by exact_mod_cast hn)

theorem wireScalar_type (type v : Nat) :
    (wireScalar type v).type ≠ MetaType.ByteArray ∧ (wireScalar type v).type ≠ MetaType.List := by
  unfold wireScalar
  split_ifs <;> refine ⟨?_, ?_⟩ <;> simp [QVariant.type]

theorem payloadList_readResult (host : Host) (swap : Bool) (ptype cls limit : Nat)
    (payload : List Nat) :
    payloadList (_readResult (wireScalars host swap ptype payload)) cls limit =
      wireScalars host swap ptype payload := by
  unfold _readResult
  split
  · rename_i v hv
    have hmem : v ∈ wireScalars host swap ptype payload := by rw [hv]; exact List.mem_singleton_self _
    unfold wireScalars scalarsOf at hmem
    rw [List.mem_map] at hmem
    obtain ⟨i, -, hi⟩ := hmem
    have ht := wireScalar_type ptype (wireValue host swap (chunk (wireSize ptype) payload i))
    rw [hi] at ht
    unfold payloadList
    have h1 : (v.type == MetaType.ByteArray) = false := by simpa using ht.1
    have h2 : (v.type == MetaType.List) = false := by simpa using ht.2
    simp only [h1, h2, Bool.false_eq_true, if_false]
    exact hv.symm
  · rfl

/-- The token of a well-formed numeric payload sub-element, and what the numeric branch of
`readMatrix` makes of it. -/
theorem nextToken_payload (qt : Qt) (host : Host) (p : MatParser) (e : WirePayload)
    (tl : List Nat) (cls : Nat) (hpeek : p.d_peek = Token.new) (hlimit : p.d_limit = 0)
    (hwf : e.wellFormed = true) :
    ∃ tok, MatParser.nextToken qt host (p.enter (e.wire host p.d_first.needsByteSwap ++ tl)) =
        (tok, p.enter tl) ∧ tok.d_type = TokenType.Value ∧
      payloadList tok cls 0 = payloadValues host p.d_first.needsByteSwap cls e.type e.bytes := by
  unfold WirePayload.wellFormed at hwf
  simp only [Bool.and_eq_true, Bool.or_eq_true, beq_iff_eq, bne_iff_ne, ne_eq] at hwf
  obtain ⟨hfit, ht⟩ := hwf
  unfold WirePayload.wire
  rcases ht with h8 | ⟨hsz, hdiv⟩
  · rw [h8]
    refine ⟨_, nextToken_bytes qt host p e.form e.bytes tl hpeek hfit, rfl, ?_⟩
    unfold payloadValues
    rfl
  · have ht256 : e.type < 256 := by
      by_contra hge
      apply hsz
      unfold wireSize
      simp only [miUINT8, miINT16, miUINT16, miINT32, miUINT32, miSINGLE, miDOUBLE, miINT64,
        miUINT64]
      have : ∀ k : Nat, k < 256 → (e.type == k) = false := by
        intro k hk; rw [beq_eq_false_iff_ne]; omega
      simp [this]
    have hm : e.type ≠ miMATRIX := by intro h; rw [h] at hsz; exact hsz rfl
    have hc : e.type ≠ miCOMPRESSED := by intro h; rw [h] at hsz; exact hsz rfl
    have h8 : e.type ≠ miINT8 := by intro h; rw [h] at hsz; exact hsz rfl
    have hval := readValue_numeric qt host p.d_first.needsByteSwap p.d_limit e.type e.bytes
      (wirePadding e.form e.bytes.length) tl 0 hsz (Nat.dvd_of_mod_eq_zero hdiv)
      (wirePadding_nil e.form e.bytes hfit)
    refine ⟨_, nextToken_enter_primitive qt host p e.form e.type e.bytes tl _ hpeek ht256 hm hc
      hfit hval, readResult_type _, ?_⟩
    rw [hlimit, limited_zero, payloadList_readResult]
    unfold payloadValues
    have : (e.type == miINT8) = false := by simpa using h8
    rw [this]
    rfl


/-- The values of the imaginary part of a numeric matrix. -/
theorem readMatrix_numeric (qt : Qt) (host : Host) (p : MatParser) (err : List Nat) (fuel : Nat)
    (f0 f1 : Nat) (dims : List Int) (nf : TagForm) (name : List Nat) (re : WirePayload)
    (im : Option WirePayload)
    (hpeek : p.d_peek = Token.new) (hlimit : p.d_limit = 0) (h0 : f0 < 2 ^ 32)
    (h1 : f1 < 2 ^ 32) (hd : 2 ≤ dims.length) (hdl : dims.length < 2 ^ 30)
    (hr : ∀ d ∈ dims, -(2 ^ 31 : Int) ≤ d ∧ d < 2 ^ 31) (hnf : nf.fits name.length = true)
    (hcls : 6 ≤ f0 &&& 0xff ∧ f0 &&& 0xff ≤ 15)
    (hre : re.wellFormed = true) (him : ∀ e, im = some e → e.wellFormed = true)
    (hcomplex : (f0 &&& 0x800 != 0) = im.isSome)
    (hcount : ((payloadValues host p.d_first.needsByteSwap (f0 &&& 0xff) re.type re.bytes).length
      : Int) = _totalCount dims)
    (hicount : ∀ e, im = some e →
      ((payloadValues host p.d_first.needsByteSwap (f0 &&& 0xff) e.type e.bytes).length : Int) =
        _totalCount dims) :
    MatReader.readMatrix qt host (fuel + 1)
        { d_parser' := p.enter (numericBody host p.d_first.needsByteSwap f0 f1 dims nf name re im),
          d_error := err } =
      .ok (.numericArray
            { d_name := name, d_logical := f0 &&& 0x200 != 0, d_global := f0 &&& 0x400 != 0,
              d_valid := true }
            dims (payloadValues host p.d_first.needsByteSwap (f0 &&& 0xff) re.type re.bytes)
            ((im.map fun e =>
              payloadValues host p.d_first.needsByteSwap (f0 &&& 0xff) e.type e.bytes).getD []),
           { d_parser' := p.enter [], d_error := err }) := by
  unfold numericBody
  rw [readMatrix_head qt host p err fuel f0 f1 dims nf name _ hpeek hlimit h0 h1 hd hdl hr hnf]
  unfold MatReader.classSwitch
  have hc1 : (decide (mxDOUBLE_CLASS ≤ f0 &&& 0xff) && decide (f0 &&& 0xff ≤ mxUINT64_CLASS)) =
      true := by
    simp only [mxDOUBLE_CLASS, mxUINT64_CLASS, Bool.and_eq_true, decide_eq_true_eq]
    exact hcls
  have hd2 : ¬ dims.length < 2 := by omega
  simp only [hc1, if_true, hd2, if_false, MatReader.nextToken]
  cases im with
  | none =>
    obtain ⟨tok, htok, htype, hpl⟩ := nextToken_payload qt host p re [] (f0 &&& 0xff) hpeek
      hlimit hre
    simp only [htok, htype, hpl, hcount, bne_self_eq_false, Bool.and_false, Bool.or_self,
      Bool.false_eq_true, if_false, hcomplex, Option.isSome_none, Option.map_none', Option.getD_none]
  | some e =>
    obtain ⟨tok, htok, htype, hpl⟩ := nextToken_payload qt host p re
      (e.wire host p.d_first.needsByteSwap) (f0 &&& 0xff) hpeek hlimit hre
    obtain ⟨tok2, htok2, htype2, hpl2⟩ := nextToken_payload qt host p e [] (f0 &&& 0xff) hpeek
      hlimit (him e rfl)
    rw [List.append_nil] at htok2
    simp only [htok, htype, hpl, hcount, hcomplex, Option.isSome_some, if_true, htok2, htype2,
      hpl2, hicount e rfl, bne_self_eq_false, Bool.and_false, Bool.or_self, Bool.false_eq_true,
      if_false, Option.map_some', Option.getD_some]

/-- A well-formed numeric matrix body denotes the numeric array of its parts. -/
theorem Decodes_numeric (qt : Qt) (host : Host) (swap : Bool)
    (f0 f1 : Nat) (dims : List Int) (nf : TagForm) (name : List Nat) (re : WirePayload)
    (im : Option WirePayload)
    (h0 : f0 < 2 ^ 32) (h1 : f1 < 2 ^ 32) (hd : 2 ≤ dims.length) (hdl : dims.length < 2 ^ 30)
    (hr : ∀ d ∈ dims, -(2 ^ 31 : Int) ≤ d ∧ d < 2 ^ 31) (hnf : nf.fits name.length = true)
    (hcls : 6 ≤ f0 &&& 0xff ∧ f0 &&& 0xff ≤ 15)
    (hre : re.wellFormed = true) (him : ∀ e, im = some e → e.wellFormed = true)
    (hcomplex : (f0 &&& 0x800 != 0) = im.isSome)
    (hcount : ((payloadValues host swap (f0 &&& 0xff) re.type re.bytes).length : Int) =
      _totalCount dims)
    (hicount : ∀ e, im = some e →
      ((payloadValues host swap (f0 &&& 0xff) e.type e.bytes).length : Int) = _totalCount dims) :
    Decodes qt host swap (numericBody host swap f0 f1 dims nf name re im)
      (.numericArray
        { d_name := name, d_logical := f0 &&& 0x200 != 0, d_global := f0 &&& 0x400 != 0,
          d_valid := true }
        dims (payloadValues host swap (f0 &&& 0xff) re.type re.bytes)
        ((im.map fun e => payloadValues host swap (f0 &&& 0xff) e.type e.bytes).getD [])) := by
  refine ⟨1, ?_⟩
  intro fuel hfuel p hpeek hlimit hswap
  obtain ⟨f, rfl⟩ : ∃ f, fuel = f + 1 := ⟨fuel - 1, by omega⟩
  have hsw : p.d_first.needsByteSwap = swap := hswap
  subst hsw
  refine ⟨p.enter [], readMatrix_numeric qt host p [] f f0 f1 dims nf name re im hpeek hlimit h0
    h1 hd hdl hr hnf hcls hre him hcomplex hcount hicount, ?_⟩
  rw [nextToken_endMatrix qt host (p.enter []) _ p.d_nested (by rw [enter_peek, hpeek]; rfl) rfl rfl]
  simp only [MatParser.enter, Prod.mk.injEq, true_and]

/-- At nesting level 0 in front of a matrix element, `nextToken` returns `BeginMatrix` and
enters the body. -/
theorem nextToken_over_matrix (qt : Qt) (host : Host) (swap : Bool) (body rest : List Nat)
    (hlen : body.length < 2 ^ 32) :
    MatParser.nextToken qt host
        { d_first := MatLexer.over (wireMatrix host swap body ++ rest) swap, d_nested := [],
          d_peek := Token.new, d_limit := 0 } =
      (Token.ofType .BeginMatrix,
        MatParser.enter { d_first := MatLexer.over rest swap, d_nested := [], d_peek := Token.new,
                          d_limit := 0 } body) := by
  rw [nextToken_matrix qt host
    { d_first := MatLexer.over (wireMatrix host swap body ++ rest) swap, d_nested := [],
      d_peek := Token.new, d_limit := 0 } body rest 0 rfl hlen rfl]
  rfl

/-- `nextElement` in front of a top-level matrix element whose body is well-formed returns the
value the body denotes, without error, and leaves the reader right behind the element. -/
theorem nextElement_matrix (qt : Qt) (host : Host) (swap : Bool) (body rest : List Nat)
    (v : QVariant) (hdec : Decodes qt host swap body v) (hlen : body.length < 2 ^ 32) :
    ∃ k, ∀ fuel, k ≤ fuel →
      MatReader.nextElement qt host fuel (MatReader.over (wireMatrix host swap body ++ rest) swap 0) =
        .ok (v, MatReader.over rest swap 0) := by
  obtain ⟨k, hk⟩ := hdec
  refine ⟨k, fun fuel hfuel => ?_⟩
  obtain ⟨p', hread, hend⟩ := hk fuel hfuel
    { d_first := MatLexer.over rest swap, d_nested := [], d_peek := Token.new, d_limit := 0 }
    rfl rfl rfl
  simp only [MatReader.nextElement, MatReader.over, MatReader.nextToken,
    nextToken_over_matrix qt host swap body rest hlen, Token.ofType, hread, hend,
    bne_self_eq_false, Bool.false_eq_true, if_false, beq_self_eq_true, if_true]


/-- `nextElement` in front of a top-level matrix element returns what `readMatrix` makes of the
body, if that is followed by the end of the matrix, and leaves the reader behind the element. -/
theorem nextElement_matrix_at (qt : Qt) (host : Host) (swap : Bool) (body rest : List Nat)
    (v : QVariant) (fuel : Nat) (p' : MatParser) (hlen : body.length < 2 ^ 32)
    (hread : MatReader.readMatrix qt host fuel
        { d_parser' := MatParser.enter { d_first := MatLexer.over rest swap, d_nested := [],
                                         d_peek := Token.new, d_limit := 0 } body,
          d_error := [] } = .ok (v, { d_parser' := p', d_error := [] }))
    (hend : MatParser.nextToken qt host p' = (Token.ofType .EndMatrix,
      { d_first := MatLexer.over rest swap, d_nested := [], d_peek := Token.new, d_limit := 0 })) :
    MatReader.nextElement qt host fuel (MatReader.over (wireMatrix host swap body ++ rest) swap 0) =
      .ok (v, MatReader.over rest swap 0) := by
  simp only [MatReader.nextElement, MatReader.over, MatReader.nextToken,
    nextToken_over_matrix qt host swap body rest hlen, Token.ofType, hread, hend,
    bne_self_eq_false, Bool.false_eq_true, if_false, beq_self_eq_true, if_true]

/-- The body of a numeric matrix holds the words of its dimensions. -/
theorem numericBody_length (host : Host) (swap : Bool) (f0 f1 : Nat) (dims : List Int)
    (nf : TagForm) (name : List Nat) (re : WirePayload) (im : Option WirePayload) :
    4 * dims.length ≤ (numericBody host swap f0 f1 dims nf name re im).length := by
  simp only [numericBody, wireMatrixHead, wireDims, wireElement, List.length_append,
    wireInts_length]
  omega

/-- C9.  For every MATRIX element whose sub-elements are a two-word flags element with a numeric
class code (6..15), a dimensions element with at least two integers `dims`, a name element
`name`, one real payload element holding `product(dims)` values and, exactly when bit 0x800 of
the first flags word is set, one further payload element holding as many values,
`MatReader::nextElement` (limit 0) returns a valid NumericArray with that name, those dims, the
real part equal to the payload values in order, the imaginary part equal to the values of the
further element (empty when bit 0x800 is clear), and logical/global flags equal to bits
0x200/0x400 of the first flags word; no error is set and the reader is left right behind the
element. -/
theorem C9_numeric_matrix (qt : Qt) (host : Host) (swap : Bool) (fuel : Nat)
    (f0 f1 : Nat) (dims : List Int) (nf : TagForm) (name : List Nat) (re : WirePayload)
    (im : Option WirePayload) (rest : List Nat)
    (h0 : f0 < 2 ^ 32) (h1 : f1 < 2 ^ 32)
    (hcls : 6 ≤ f0 &&& 0xff ∧ f0 &&& 0xff ≤ 15)
    (hd : 2 ≤ dims.length)
    (hr : ∀ d ∈ dims, -(2 ^ 31 : Int) ≤ d ∧ d < 2 ^ 31)
    (hnf : nf.fits name.length = true)
    (hre : re.wellFormed = true)
    (hcount : ((payloadValues host swap (f0 &&& 0xff) re.type re.bytes).length : Int) = dims.prod)
    (hlt : (payloadValues host swap (f0 &&& 0xff) re.type re.bytes).length < 2 ^ 31)
    (hcomplex : (f0 &&& 0x800 != 0) = im.isSome)
    (him : ∀ e, im = some e → e.wellFormed = true ∧
      ((payloadValues host swap (f0 &&& 0xff) e.type e.bytes).length : Int) = dims.prod)
    (hlen : (numericBody host swap f0 f1 dims nf name re im).length < 2 ^ 32) :
    MatReader.nextElement qt host (fuel + 1)
        (MatReader.over (wireMatrix host swap (numericBody host swap f0 f1 dims nf name re im) ++
          rest) swap 0) =
      .ok (.numericArray
            { d_name := name, d_logical := f0 &&& 0x200 != 0, d_global := f0 &&& 0x400 != 0,
              d_valid := true }
            dims (payloadValues host swap (f0 &&& 0xff) re.type re.bytes)
            ((im.map fun e => payloadValues host swap (f0 &&& 0xff) e.type e.bytes).getD []),
           MatReader.over rest swap 0) := by
  have hdl : dims.length < 2 ^ 30 := by
    have := numericBody_length host swap f0 f1 dims nf name re im
    norm_num at hlen ⊢
    omega
  have htot : _totalCount dims =
      ((payloadValues host swap (f0 &&& 0xff) re.type re.bytes).length : Int) :=
    totalCount_of_prod dims _ hcount.symm hlt
  refine nextElement_matrix_at qt host swap _ rest _ (fuel + 1)
    (MatParser.enter { d_first := MatLexer.over rest swap, d_nested := [], d_peek := Token.new,
                       d_limit := 0 } []) hlen ?_ ?_
  · exact readMatrix_numeric qt host
      { d_first := MatLexer.over rest swap, d_nested := [], d_peek := Token.new, d_limit := 0 }
      [] fuel f0 f1 dims nf name re im rfl rfl h0 h1 hd hdl hr hnf hcls hre
      (fun e he => (him e he).1) hcomplex htot.symm
      (fun e he => ((him e he).2).trans (hcount.symm.trans htot.symm))
  · rw [nextToken_endMatrix qt host _ _ [] rfl rfl rfl]
    rfl

/-- C9 at a concrete input: a DOUBLE matrix (class 6, no flag bits) of dims `[2, 2]` with an
empty name and the real payload 1.0, 2.0, 3.0, 4.0 (as IEEE-754 bit patterns), read on a
little-endian host, is the NumericArray of dims `[2, 2]` with those four values and an empty
imaginary part. -/
theorem C9_numeric_matrix_witness :
    MatReader.nextElement Qt.plain Host.linux64 1
        (MatReader.over (wireMatrix Host.linux64 false
          (numericBody Host.linux64 false 6 0 [2, 2] TagForm.normal []
            { form := TagForm.normal, type := miDOUBLE,
              bytes := [0, 0, 0, 0, 0, 0, 0xF0, 0x3F, 0, 0, 0, 0, 0, 0, 0, 0x40,
                        0, 0, 0, 0, 0, 0, 0x08, 0x40, 0, 0, 0, 0, 0, 0, 0x10, 0x40] }
            none) ++ []) false 0) =
      .ok (.numericArray
            { d_name := [], d_logical := false, d_global := false, d_valid := true }
            [2, 2]
            [.double 0x3FF0000000000000, .double 0x4000000000000000,
             .double 0x4008000000000000, .double 0x4010000000000000]
            [],
           MatReader.over [] false 0) :=
  C9_numeric_matrix Qt.plain Host.linux64 false 0 6 0 [2, 2] TagForm.normal []
    { form := TagForm.normal, type := miDOUBLE,
      bytes := [0, 0, 0, 0, 0, 0, 0xF0, 0x3F, 0, 0, 0, 0, 0, 0, 0, 0x40,
                0, 0, 0, 0, 0, 0, 0x08, 0x40, 0, 0, 0, 0, 0, 0, 0x10, 0x40] }
    none [] (by decide) (by decide) (by decide) (by decide) (by decide) (by decide) (by decide)
    (by decide) (by decide) (by decide) (by simp) (by decide)

/-! ## Char arrays -/

/-- `writeArrayFlags` emits the flags sub-element of the wire format. -/
theorem writeArrayFlags_wire (host : Host) (out : List Nat) (type : Nat) (h : type < 2 ^ 16) :
    MatWriter.writeArrayFlags host out type = out ++ wireFlags host false type 0 := by
  unfold MatWriter.writeArrayFlags MatWriter.writeTag MatWriter.write wireFlags wireElement
  have e : type % 65536 = type := Nat.mod_eq_of_lt (by norm_num at h ⊢; exact h)
  simp [wireTag, wirePadding, wireWord_false, e, miUINT32, hostBytes_length]

/-- The words `writeArrayDims` writes in its loop. -/
theorem foldl_write_dims (host : Host) (dims : List Int) (out : List Nat) :
    dims.foldl (fun o d => MatWriter.write host o 4 (toUnsigned 32 d)) out =
      out ++ wireInts host false dims := by
  induction dims generalizing out with
  | nil => simp [wireInts]
  | cons d ds ih =>
    rw [List.foldl_cons, ih]
    simp [wireInts, MatWriter.write, wireWord_false]

/-- `writeArrayDims` emits the dimensions sub-element of the wire format. -/
theorem writeArrayDims_wire (host : Host) (out : List Nat) (dims : List Int)
    (hd : 2 ≤ dims.length) (hdl : dims.length < 2 ^ 29) :
    MatWriter.writeArrayDims host out dims = out ++ wireDims host false dims := by
  unfold MatWriter.writeArrayDims wireDims
  have hl := wireInts_length host false dims
  have hw : wrap32 (4 * (dims.length : Int)) = ((wireInts host false dims).length : Int) := by
    rw [hl, wrap32_of_range _ (by omega) (by norm_num at hdl ⊢; omega)]
    push_cast
    ring
  have hu : toUnsigned 32 ((wireInts host false dims).length : Int) =
      (wireInts host false dims).length :=
    toUnsigned_ofNat 32 _ (by rw [hl]; norm_num at hdl ⊢; omega)
  rw [hw]
  dsimp only
  rw [hu, foldl_write_dims]
  have h := writeTag_payload_padding host out miINT32 (wireInts host false dims) (by decide)
    (by rw [hl]; norm_num at hdl ⊢; omega)
  have hc : ¬ (1 ≤ (wireInts host false dims).length ∧ (wireInts host false dims).length ≤ 4) := by
    rw [hl]; omega
  rw [if_neg hc] at h
  exact h


/-- `endMatrix` without compression wraps what the inner level holds into a matrix element
behind what the outer level holds. -/
theorem endMatrix_wire (qt : Qt) (host : Host) (src dst : Level) (rest : List Level)
    (own : Bool) (h5 : 5 ≤ src.d_out.length) (hlen : src.d_out.length < 2 ^ 31) :
    MatWriter.endMatrix qt host { d_level := src :: dst :: rest, d_owner := own } false =
      { d_level := { dst with
          d_out := dst.d_out ++ wireMatrix host false src.d_out } :: rest,
        d_owner := own } := by
  unfold MatWriter.endMatrix
  simp only [toSigned_length _ hlen, toUnsigned_length _ hlen, Bool.false_eq_true, if_false]
  have h := writeTag_payload_padding host dst.d_out miMATRIX src.d_out (by decide) hlen
  have hc : ¬ (1 ≤ src.d_out.length ∧ src.d_out.length ≤ 4) := by omega
  rw [if_neg hc] at h
  rw [h]
  rfl

/-- The length of an element of the wire format. -/
theorem wireElement_length (host : Host) (swap : Bool) (form : TagForm) (type : Nat)
    (payload : List Nat) :
    payload.length ≤ (wireElement host swap form type payload).length ∧
      (wireElement host swap form type payload).length ≤ payload.length + 15 := by
  cases form <;>
    simp only [wireElement, wireTag, wirePadding, List.length_append, wireWord_length,
      List.length_replicate] <;> omega

/-- The length of the flags sub-element. -/
theorem wireFlags_length (host : Host) (swap : Bool) (f0 f1 : Nat) :
    (wireFlags host swap f0 f1).length = 16 := by
  simp [wireFlags, wireElement, wireTag, wirePadding, wireWord_length]

/-- The length of the dimensions sub-element. -/
theorem wireDims_length (host : Host) (swap : Bool) (dims : List Int) :
    4 * dims.length + 8 ≤ (wireDims host swap dims).length ∧
      (wireDims host swap dims).length ≤ 4 * dims.length + 15 := by
  simp only [wireDims, wireElement, wireTag, wirePadding, List.length_append, wireWord_length,
    List.length_replicate, wireInts_length]
  omega

/-- What `addCharArray` writes at the top level: behind what is already there, a matrix element
with the CHAR flags, the dims `[1, length]`, the name and the UTF-8 payload. -/
theorem addCharArray_wire (qt : Qt) (host : Host) (l : Level) (own : Bool) (str name : List Nat)
    (hn : name.length + (qt.toUtf8 str).length + 72 ≤ 2 ^ 31) :
    MatWriter.addCharArray qt host { d_level := [l], d_owner := own } str name =
      { d_level := [{ l with
          d_out := l.d_out ++ wireMatrix host false
            (wireMatrixHead host false mxCHAR_CLASS 0 [1, (str.length : Int)]
                (if 1 ≤ name.length ∧ name.length ≤ 4 then TagForm.small else TagForm.normal)
                name ++
              wireElement host false
                (if 1 ≤ (qt.toUtf8 str).length ∧ (qt.toUtf8 str).length ≤ 4 then TagForm.small
                  else TagForm.normal) miUTF8 (qt.toUtf8 str)) }],
        d_owner := own } := by
  unfold MatWriter.addCharArray
  simp only [MatWriter.beginMatrix, MatWriter.onLast, List.isEmpty_cons, Bool.false_eq_true,
    if_false, Level.new]
  rw [writeArrayFlags_wire host [] mxCHAR_CLASS (by decide),
    writeArrayDims_wire host _ [1, (str.length : Int)] (by simp) (by simp),
    writeDataElement_wire host _ miINT8 name (by decide) (by norm_num at hn ⊢; omega),
    writeDataElement_wire host _ miUTF8 (qt.toUtf8 str) (by decide) (by norm_num at hn ⊢; omega)]
  have e1 := wireElement_length host false
    (if 1 ≤ name.length ∧ name.length ≤ 4 then TagForm.small else TagForm.normal) miINT8 name
  have e2 := wireElement_length host false
    (if 1 ≤ (qt.toUtf8 str).length ∧ (qt.toUtf8 str).length ≤ 4 then TagForm.small
      else TagForm.normal) miUTF8 (qt.toUtf8 str)
  have e3 := wireFlags_length host false mxCHAR_CLASS 0
  have e4 := wireDims_length host false [1, (str.length : Int)]
  rw [endMatrix_wire qt host _ l [] own
    (by simp only [List.nil_append, List.length_append, e3]; omega)
    (by
      simp only [List.nil_append, List.length_append, e3, List.length_cons, List.length_nil] at e4 ⊢
      norm_num at hn ⊢
      omega)]
  simp only [wireMatrixHead, List.nil_append, List.append_assoc]


/-- The token of an `miUTF8` sub-element: the decoded text. -/
theorem nextToken_utf8 (qt : Qt) (host : Host) (p : MatParser) (form : TagForm)
    (utf8 tl : List Nat) (hpeek : p.d_peek = Token.new)
    (hfit : form.fits utf8.length = true) :
    MatParser.nextToken qt host
        (p.enter (wireElement host p.d_first.needsByteSwap form miUTF8 utf8 ++ tl)) =
      ({ d_type := .Value, d_value := .string (qt.fromUtf8 utf8) }, p.enter tl) := by
  apply nextToken_enter_primitive qt host p form miUTF8 _ tl _ hpeek (by decide) (by decide)
    (by decide) hfit
  exact readValue_utf8 qt host _ _ utf8 _ tl 0 (wirePadding_nil form utf8 hfit)

/-- `readMatrix` on the body of a CHAR matrix whose text has as many characters as the
dimensions announce. -/
theorem readMatrix_char (qt : Qt) (host : Host) (p : MatParser) (err : List Nat) (fuel : Nat)
    (f0 f1 : Nat) (dims : List Int) (nf : TagForm) (name : List Nat) (pf : TagForm)
    (utf8 : List Nat)
    (hpeek : p.d_peek = Token.new) (hlimit : p.d_limit = 0) (h0 : f0 < 2 ^ 32)
    (h1 : f1 < 2 ^ 32) (hd : 2 ≤ dims.length) (hdl : dims.length < 2 ^ 30)
    (hr : ∀ d ∈ dims, -(2 ^ 31 : Int) ≤ d ∧ d < 2 ^ 31) (hnf : nf.fits name.length = true)
    (hcls : f0 &&& 0xff = mxCHAR_CLASS) (hpf : pf.fits utf8.length = true)
    (hcount : ((qt.fromUtf8 utf8).length : Int) = _totalCount dims) :
    MatReader.readMatrix qt host (fuel + 1)
        { d_parser' := p.enter (wireMatrixHead host p.d_first.needsByteSwap f0 f1 dims nf name ++
            (wireElement host p.d_first.needsByteSwap pf miUTF8 utf8 ++ [])),
          d_error := err } =
      .ok (.matString
            { d_name := name, d_logical := f0 &&& 0x200 != 0, d_global := f0 &&& 0x400 != 0,
              d_valid := true }
            (qt.fromUtf8 utf8),
           { d_parser' := p.enter [], d_error := err }) := by
  rw [readMatrix_head qt host p err fuel f0 f1 dims nf name _ hpeek hlimit h0 h1 hd hdl hr hnf]
  unfold MatReader.classSwitch
  rw [hcls]
  have hA : (decide (mxDOUBLE_CLASS ≤ mxCHAR_CLASS) && decide (mxCHAR_CLASS ≤ mxUINT64_CLASS)) =
      false := by decide
  have hB : (mxCHAR_CLASS == mxSPARSE_CLASS) = false := by decide
  have hC : (mxCHAR_CLASS == mxCELL_CLASS) = false := by decide
  simp only [hA, hB, hC, Bool.false_eq_true, if_false, beq_self_eq_true, if_true,
    MatReader.nextToken, nextToken_utf8 qt host p pf utf8 [] hpeek hpf, QVariant.toString,
    hcount, bne_self_eq_false, Bool.or_self]


/-- The tag layout `writeDataElement` chooses can carry the length of the payload. -/
theorem fits_chosen (len : Nat) (h : len < 2 ^ 32) :
    (if 1 ≤ len ∧ len ≤ 4 then TagForm.small else TagForm.normal).fits len = true := by
  by_cases hc : 1 ≤ len ∧ len ≤ 4
  · rw [if_pos hc]
    simp only [TagForm.fits, Bool.and_eq_true, decide_eq_true_eq]
    exact hc
  · rw [if_neg hc]
    exact fits_normal len h

/-- For every text `s` (the empty text included) that the UTF-8 codec of the library returns
unchanged from its own encoding, and every name, the matrix written by `addCharArray(s, name)`
is decoded by `MatReader::nextElement` (limit 0) without error into a valid String whose text
equals `s` and whose name equals `name`, and the dims product `[1, length]` the writer
announces equals the character count of the decoded payload; the reader is left right behind
the matrix.  Text and name fit a matrix of less than 2 GiB. -/
theorem addCharArray_nextElement (qt : Qt) (host : Host) (s name rest : List Nat) (fuel : Nat)
    (hcodec : qt.fromUtf8 (qt.toUtf8 s) = s) (hs : s.length < 2 ^ 31)
    (hn : name.length + (qt.toUtf8 s).length + 72 ≤ 2 ^ 31) :
    MatReader.nextElement qt host (fuel + 1)
        (MatReader.over ((MatWriter.addCharArray qt host MatWriter.fresh s name).sink ++ rest)
          false 0) =
      .ok (.matString { d_name := name, d_logical := false, d_global := false, d_valid := true } s,
           MatReader.over rest false 0) ∧
    _totalCount [1, (s.length : Int)] = ((qt.fromUtf8 (qt.toUtf8 s)).length : Int) := by
  have htot : _totalCount [1, (s.length : Int)] = (s.length : Int) :=
    totalCount_of_prod [1, (s.length : Int)] s.length (by simp) hs
  refine ⟨?_, by rw [hcodec, htot]⟩
  have hw : (MatWriter.addCharArray qt host MatWriter.fresh s name).sink =
      wireMatrix host false
        (wireMatrixHead host false mxCHAR_CLASS 0 [1, (s.length : Int)]
            (if 1 ≤ name.length ∧ name.length ≤ 4 then TagForm.small else TagForm.normal) name ++
          (wireElement host false
            (if 1 ≤ (qt.toUtf8 s).length ∧ (qt.toUtf8 s).length ≤ 4 then TagForm.small
              else TagForm.normal) miUTF8 (qt.toUtf8 s) ++ [])) := by
    unfold MatWriter.fresh
    rw [addCharArray_wire qt host Level.new false s name hn]
    simp [MatWriter.sink, Level.new]
  rw [hw]
  have e1 := wireElement_length host false
    (if 1 ≤ name.length ∧ name.length ≤ 4 then TagForm.small else TagForm.normal) miINT8 name
  have e2 := wireElement_length host false
    (if 1 ≤ (qt.toUtf8 s).length ∧ (qt.toUtf8 s).length ≤ 4 then TagForm.small
      else TagForm.normal) miUTF8 (qt.toUtf8 s)
  have e3 := wireFlags_length host false mxCHAR_CLASS 0
  have e4 := wireDims_length host false [1, (s.length : Int)]
  refine nextElement_matrix_at qt host false _ rest _ (fuel + 1)
    (MatParser.enter { d_first := MatLexer.over rest false, d_nested := [], d_peek := Token.new,
                       d_limit := 0 } []) ?_ ?_ ?_
  · simp only [wireMatrixHead, List.length_append, e3, List.length_cons, List.length_nil] at e4 ⊢
    norm_num at hn ⊢
    omega
  · have h := readMatrix_char qt host
      { d_first := MatLexer.over rest false, d_nested := [], d_peek := Token.new, d_limit := 0 }
      [] fuel mxCHAR_CLASS 0 [1, (s.length : Int)] _ name _ (qt.toUtf8 s) rfl rfl (by decide)
      (by decide) (by simp) (by simp)
      (by
        intro d hd
        simp only [List.mem_cons, List.mem_singleton, List.not_mem_nil, or_false] at hd
        rcases hd with h | h <;> subst h
        · constructor <;> norm_num
        · constructor
          · have : (0 : Int) ≤ (s.length : Int) := Int.natCast_nonneg _
            linarith
          · exact_mod_cast hs)
      (fits_chosen _ (by norm_num at hn ⊢; omega)) (by decide)
      (fits_chosen _ (by norm_num at hn ⊢; omega)) (by rw [hcodec, htot])
    rw [hcodec] at h
    exact h
  · rw [nextToken_endMatrix qt host _ _ [] rfl rfl rfl]
    rfl

/-! ## The field map -/

theorem bytesLt_irrefl (a : List Nat) : bytesLt a a = false := by
  induction a with
  | nil => rfl
  | cons x xs ih => simp [bytesLt, ih]

theorem bytesLt_trans (a b c : List Nat) (h1 : bytesLt a b = true) (h2 : bytesLt b c = true) :
    bytesLt a c = true := by
  induction a generalizing b c with
  | nil =>
    cases b with
    | nil => simp [bytesLt] at h1
    | cons y ys =>
      cases c with
      | nil => simp [bytesLt] at h2
      | cons z zs => simp [bytesLt]
  | cons x xs ih =>
    cases b with
    | nil => simp [bytesLt] at h1
    | cons y ys =>
      cases c with
      | nil => simp [bytesLt] at h2
      | cons z zs =>
        simp only [bytesLt, Bool.or_eq_true, decide_eq_true_eq, Bool.and_eq_true,
          beq_iff_eq] at h1 h2 ⊢
        rcases h1 with h1 | ⟨e1, h1⟩
        · rcases h2 with h2 | ⟨e2, _⟩
          · exact Or.inl (by omega)
          · exact Or.inl (by omega)
        · rcases h2 with h2 | ⟨e2, h2⟩
          · exact Or.inl (by omega)
          · exact Or.inr ⟨by omega, ih ys zs h1 h2⟩

theorem bytesLt_total (a b : List Nat) (hne : a ≠ b) (h : bytesLt a b = false) :
    bytesLt b a = true := by
  induction a generalizing b with
  | nil =>
    cases b with
    | nil => exact absurd rfl hne
    | cons y ys => simp [bytesLt] at h
  | cons x xs ih =>
    cases b with
    | nil => simp [bytesLt]
    | cons y ys =>
      simp only [bytesLt, Bool.or_eq_false_iff, decide_eq_false_iff_not, Bool.and_eq_false_imp,
        beq_iff_eq, Bool.or_eq_true, decide_eq_true_eq, Bool.and_eq_true] at h ⊢
      by_cases hxy : x = y
      · subst hxy
        refine Or.inr ⟨rfl, ih ys (fun e => hne (by rw [e])) (h.2 rfl)⟩
      · exact Or.inl (by omega)


/-- A key below the first key of an ascending map is not in the map. -/
theorem qmapValue_below (m : List (List Nat × List QVariant)) (k key : List Nat)
    (l : List QVariant) (hm : Ascending ((k, l) :: m)) (hlt : bytesLt key k = true) :
    qmapValue ((k, l) :: m) key = [] := by
  have hall : ∀ e ∈ (k, l) :: m, bytesLt key e.1 = true := by
    intro e he
    rcases List.mem_cons.mp he with h | h
    · rw [h]; exact hlt
    · exact bytesLt_trans key k e.1 hlt ((List.pairwise_cons.mp hm).1 e h)
  clear hm hlt
  generalize (k, l) :: m = m' at hall
  induction m' with
  | nil => rfl
  | cons e es ih =>
    obtain ⟨k', l'⟩ := e
    have hk := hall (k', l') (List.mem_cons_self _ _)
    have hne : (k' == key) = false := by
      rw [beq_eq_false_iff_ne]
      intro h
      simp only at hk
      rw [h, bytesLt_irrefl] at hk
      cases hk
    simp only [qmapValue, hne, Bool.false_eq_true, if_false]
    exact ih (fun e he => hall e (List.mem_cons_of_mem _ he))

/-- The keys of a map after `map[key].append(v)`. -/
theorem qmapAppend_keys (m : List (List Nat × List QVariant)) (key : List Nat) (v : QVariant) :
    ∀ e ∈ qmapAppend m key v, e.1 = key ∨ ∃ e' ∈ m, e'.1 = e.1 := by
  induction m with
  | nil =>
    intro e he
    simp only [qmapAppend, List.mem_singleton] at he
    exact Or.inl (by rw [he])
  | cons a as ih =>
    obtain ⟨k, l⟩ := a
    intro e he
    unfold qmapAppend at he
    split_ifs at he with h1 h2
    · rcases List.mem_cons.mp he with h | h
      · exact Or.inr ⟨(k, l), List.mem_cons_self _ _, by rw [h]⟩
      · exact Or.inr ⟨e, List.mem_cons_of_mem _ h, rfl⟩
    · rcases List.mem_cons.mp he with h | h
      · exact Or.inl (by rw [h])
      · exact Or.inr ⟨e, h, rfl⟩
    · rcases List.mem_cons.mp he with h | h
      · exact Or.inr ⟨(k, l), List.mem_cons_self _ _, by rw [h]⟩
      · rcases ih e h with h' | ⟨e', he', h'⟩
        · exact Or.inl h'
        · exact Or.inr ⟨e', List.mem_cons_of_mem _ he', h'⟩

/-- `map[key].append(v)` keeps the keys in ascending order. -/
theorem qmapAppend_ascending (m : List (List Nat × List QVariant)) (key : List Nat)
    (v : QVariant) (hm : Ascending m) : Ascending (qmapAppend m key v) := by
  induction m with
  | nil => simp [qmapAppend, Ascending]
  | cons a as ih =>
    obtain ⟨k, l⟩ := a
    have hp := List.pairwise_cons.mp hm
    unfold qmapAppend
    split_ifs with h1 h2
    · exact List.pairwise_cons.mpr ⟨hp.1, hp.2⟩
    · refine List.pairwise_cons.mpr ⟨?_, hm⟩
      intro e he
      rcases List.mem_cons.mp he with h | h
      · rw [h]; exact h2
      · exact bytesLt_trans key k e.1 h2 (hp.1 e h)
    · refine List.pairwise_cons.mpr ⟨?_, ih hp.2⟩
      intro e he
      rcases qmapAppend_keys as key v e he with h | ⟨e', he', h⟩
      · rw [h]
        exact bytesLt_total key k (fun e => h1 (by rw [e]; exact beq_self_eq_true _))
          (by simpa using h2)
      · rw [← h]
        exact hp.1 e' he'

/-- Looking up a key after `map[key].append(v)`. -/
theorem qmapValue_qmapAppend (m : List (List Nat × List QVariant)) (key key' : List Nat)
    (v : QVariant) (hm : Ascending m) :
    qmapValue (qmapAppend m key v) key' =
      if key = key' then qmapValue m key' ++ [v] else qmapValue m key' := by
  induction m with
  | nil =>
    by_cases h : key = key'
    · simp [qmapAppend, qmapValue, h]
    · have : (key == key') = false := by rw [beq_eq_false_iff_ne]; exact h
      simp [qmapAppend, qmapValue, h, this]
  | cons a as ih =>
    obtain ⟨k, l⟩ := a
    have hp := List.pairwise_cons.mp hm
    unfold qmapAppend
    split_ifs with h1 h2 h3 h4 h5
    · have e1 : k = key := by simpa using h1
      have e2 : (k == key') = true := by rw [e1, h2]; exact beq_self_eq_true _
      simp [qmapValue, e2]
    · have e1 : k = key := by simpa using h1
      have e2 : (k == key') = false := by rw [e1, beq_eq_false_iff_ne]; exact h2
      simp [qmapValue, e2]
    · subst h4
      rw [qmapValue_below as k key l hm h3]
      simp [qmapValue]
    · have e2 : (key == key') = false := by rw [beq_eq_false_iff_ne]; exact h4
      simp only [qmapValue, e2, Bool.false_eq_true, if_false]
    · subst h5
      have e2 : (k == key) = false := by simpa using h1
      simp only [qmapValue, e2, Bool.false_eq_true, if_false]
      rw [ih hp.2, if_pos rfl]
    · by_cases e2 : (k == key') = true
      · simp only [qmapValue, e2, if_true]
      · simp only [qmapValue, e2, if_false]
        rw [ih hp.2, if_neg h5]

/-- What `fillFields` leaves under a key. -/
theorem qmapValue_fillFields (names : List (List Nat)) (key : List Nat) (vals : List QVariant)
    (n : Nat) (m : List (List Nat × List QVariant)) (hm : Ascending m) :
    qmapValue (fillFields names vals n m) key = qmapValue m key ++ fieldPick names key n vals := by
  induction vals generalizing n m with
  | nil => simp [fillFields, fieldPick]
  | cons v vs ih =>
    unfold fillFields fieldPick
    rw [ih _ _ (qmapAppend_ascending m _ v hm), qmapValue_qmapAppend m _ key v hm]
    split_ifs <;> simp

/-- The keys `fillFields` adds are field names. -/
theorem fillFields_keys (names : List (List Nat)) (vals : List QVariant) (n : Nat)
    (m : List (List Nat × List QVariant)) (hk : names ≠ []) :
    ∀ e ∈ fillFields names vals n m, e.1 ∈ names ∨ ∃ e' ∈ m, e'.1 = e.1 := by
  induction vals generalizing n m with
  | nil =>
    intro e he
    exact Or.inr ⟨e, he, rfl⟩
  | cons v vs ih =>
    intro e he
    unfold fillFields at he
    rcases ih _ _ e he with h | ⟨e', he', h⟩
    · exact Or.inl h
    · rcases qmapAppend_keys m _ v e' he' with h' | ⟨e'', he'', h'⟩
      · left
        rw [← h, h']
        have hlen : n % names.length < names.length :=
          Nat.mod_lt _ (List.length_pos.mpr hk)
        rw [List.getD_eq_getElem _ _ hlen]
        exact List.getElem_mem _
      · exact Or.inr ⟨e'', he'', by rw [h', h]⟩

/-! ## The cells of a field -/

theorem fieldPick_append (names : List (List Nat)) (key : List Nat) (n : Nat)
    (a b : List QVariant) :
    fieldPick names key n (a ++ b) =
      fieldPick names key n a ++ fieldPick names key (n + a.length) b := by
  induction a generalizing n with
  | nil => simp [fieldPick]
  | cons v vs ih =>
    show fieldPick names key n (v :: (vs ++ b)) = _
    rw [fieldPick.eq_2, fieldPick.eq_2, ih (n + 1), List.length_cons, List.append_assoc,
      show n + 1 + vs.length = n + (vs.length + 1) by omega]

theorem fieldPick_shift (names : List (List Nat)) (key : List Nat) (n : Nat)
    (vals : List QVariant) :
    fieldPick names key (n + names.length) vals = fieldPick names key n vals := by
  induction vals generalizing n with
  | nil => simp [fieldPick]
  | cons v vs ih =>
    rw [fieldPick.eq_2, fieldPick.eq_2, Nat.add_mod_right,
      show n + names.length + 1 = n + 1 + names.length by omega, ih]

/-- Within one row, the cell of the `j`-th field is the `j`-th. -/
theorem fieldPick_row (names : List (List Nat)) (j n : Nat) (row : List QVariant)
    (hnd : names.Nodup) (hj : j < names.length) (hn : n + row.length ≤ names.length) :
    fieldPick names (names.getD j []) n row = if n ≤ j then (row[j - n]?).toList else [] := by
  induction row generalizing n with
  | nil => simp [fieldPick]
  | cons v vs ih =>
    simp only [List.length_cons] at hn
    have hnk : n < names.length := by omega
    rw [fieldPick.eq_2, Nat.mod_eq_of_lt hnk, ih (n + 1) (by omega), List.getD_eq_getElem _ _ hnk,
      List.getD_eq_getElem _ _ hj]
    by_cases e : n = j
    · subst e
      simp
    · have hne : ¬ names[n] = names[j] := fun h => e ((List.Nodup.getElem_inj_iff hnd).mp h)
      rw [if_neg hne, List.nil_append]
      by_cases hlt : n ≤ j
      · have h1 : n + 1 ≤ j := by omega
        rw [if_pos h1, if_pos hlt]
        obtain ⟨d, hd⟩ : ∃ d, j - n = d + 1 := ⟨j - n - 1, by omega⟩
        rw [hd, show j - (n + 1) = d by omega, List.getElem?_cons_succ]
      · have h1 : ¬ n + 1 ≤ j := by omega
        rw [if_neg h1, if_neg hlt]

/-- Over whole rows, `fillFields` gives field `j` every `k`-th value from the `j`-th on. -/
theorem fieldPick_column (names : List (List Nat)) (j r : Nat) (vals : List QVariant)
    (hnd : names.Nodup) (hj : j < names.length) (hlen : vals.length = r * names.length) :
    fieldPick names (names.getD j []) 0 vals = fieldColumn vals names.length j := by
  have hk : 0 < names.length := by omega
  induction r generalizing vals with
  | zero =>
    have : vals = [] := List.length_eq_zero.mp (by rw [hlen]; simp)
    subst this
    simp [fieldPick, fieldColumn]
  | succ r ih =>
    have hsplit : vals = vals.take names.length ++ vals.drop names.length :=
      (List.take_append_drop _ _).symm
    have hl1 : (vals.take names.length).length = names.length := by
      rw [List.length_take, hlen, Nat.succ_mul]; omega
    have hl2 : (vals.drop names.length).length = r * names.length := by
      rw [List.length_drop, hlen, Nat.succ_mul]; omega
    have hjv : j < vals.length := by rw [hlen, Nat.succ_mul]; omega
    have e1 : fieldPick names (names.getD j []) 0 vals =
        fieldPick names (names.getD j []) 0 (vals.take names.length) ++
          fieldPick names (names.getD j []) 0 (vals.drop names.length) := by
      conv_lhs => rw [hsplit]
      rw [fieldPick_append, hl1]
      have := fieldPick_shift names (names.getD j []) 0 (vals.drop names.length)
      rw [Nat.zero_add] at this ⊢
      rw [this]
    rw [e1, fieldPick_row names j 0 _ hnd hj (by rw [hl1]; omega), ih _ hl2]
    simp only [Nat.zero_le, if_true, Nat.sub_zero]
    unfold fieldColumn
    rw [hl2, hlen, Nat.mul_div_cancel _ hk, Nat.mul_div_cancel _ hk, List.range_succ_eq_map,
      List.filterMap_cons, List.filterMap_map]
    have h0 : vals[j + 0 * names.length]? = some vals[j] := by
      rw [Nat.zero_mul, Nat.add_zero, List.getElem?_eq_getElem hjv]
    have h1 : (vals.take names.length)[j]? = some vals[j] := by
      rw [List.getElem?_take_of_lt hj, List.getElem?_eq_getElem hjv]
    rw [h0, h1]
    simp only [Option.toList, List.singleton_append, List.cons.injEq, true_and]
    apply List.filterMap_congr
    intro i _
    simp only [Function.comp, List.getElem?_drop]
    congr 1
    rw [Nat.succ_mul]
    omega

/-! ## Reading a structure -/

theorem takeWhile_name (f tl : List Nat) (h0 : 0 ∉ f) :
    (f ++ 0 :: tl).takeWhile (fun b => b != 0) = f := by
  induction f with
  | nil => simp [List.takeWhile]
  | cons x xs ih =>
    have hx : x ≠ 0 := fun e => h0 (by rw [e]; exact List.mem_cons_self _ _)
    have hxs : 0 ∉ xs := fun e => h0 (List.mem_cons_of_mem _ e)
    have : (x != 0) = true := by simpa using hx
    rw [List.cons_append, List.takeWhile_cons, this, if_pos rfl, ih hxs]

/-- The loop of `_split` over a names block recovers the names. -/
theorem splitLoop_names (n : Nat) (names : List (List Nat)) (pre : List Nat)
    (res : List (List Nat)) (fuel : Nat)
    (hn : ∀ f ∈ names, f.length < n ∧ 0 ∉ f) (hfuel : names.length < fuel) :
    _splitLoop (pre ++ namesBlock n names) (n : Int) fuel (pre.length : Int) res =
      some (res ++ names) := by
  induction names generalizing pre res fuel with
  | nil =>
    obtain ⟨g, rfl⟩ : ∃ g, fuel = g + 1 := ⟨fuel - 1, by simp at hfuel; omega⟩
    simp [_splitLoop, namesBlock]
  | cons f fs ih =>
    obtain ⟨g, rfl⟩ : ∃ g, fuel = g + 1 := ⟨fuel - 1, by simp at hfuel; omega⟩
    have hf := hn f (List.mem_cons_self _ _)
    obtain ⟨z, hz⟩ : ∃ z, n - f.length = z + 1 := ⟨n - f.length - 1, by omega⟩
    have hblock : namesBlock n (f :: fs) =
        f ++ 0 :: (List.replicate z 0 ++ namesBlock n fs) := by
      simp [namesBlock, hz, List.replicate_succ]
    have hblock2 : pre ++ namesBlock n (f :: fs) =
        (pre ++ (f ++ List.replicate (n - f.length) 0)) ++ namesBlock n fs := by
      simp [namesBlock]
    have hlen : (pre ++ (f ++ List.replicate (n - f.length) 0)).length = pre.length + n := by
      simp only [List.length_append, List.length_replicate]; omega
    have hpos : (pre.length : Int) < ((pre ++ namesBlock n (f :: fs)).length : Int) := by
      rw [hblock]
      simp only [List.length_append, List.length_cons]
      push_cast
      omega
    unfold _splitLoop
    rw [if_pos hpos, Int.toNat_ofNat, List.drop_left, hblock, takeWhile_name f _ hf.2,
      ← hblock, hblock2]
    have := ih (pre ++ (f ++ List.replicate (n - f.length) 0)) (res ++ [f]) g
      (fun f' hf' => hn f' (List.mem_cons_of_mem _ hf')) (by simp at hfuel; omega)
    rw [hlen] at this
    push_cast at this
    rw [this]
    simp

/-- `_split` on a names block recovers the names. -/
theorem split_names (n : Nat) (names : List (List Nat)) (fuel : Nat)
    (hn : ∀ f ∈ names, f.length < n ∧ 0 ∉ f) (hfuel : names.length < fuel) :
    _split fuel (namesBlock n names) (n : Int) = some names := by
  have := splitLoop_names n names [] [] fuel hn hfuel
  simpa [_split] using this


/-- Inside a matrix in front of a nested matrix element, `nextToken` returns `BeginMatrix` and
enters the nested body. -/
theorem nextToken_enter_matrix (qt : Qt) (host : Host) (p : MatParser) (body tl : List Nat)
    (hpeek : p.d_peek = Token.new) (hlen : body.length < 2 ^ 32) :
    MatParser.nextToken qt host (p.enter (wireMatrix host p.d_first.needsByteSwap body ++ tl)) =
      (Token.ofType .BeginMatrix, (p.enter tl).enter body) := by
  rw [nextToken_matrix qt host (p.enter (wireMatrix host p.d_first.needsByteSwap body ++ tl)) body
    tl 0 (by rw [enter_peek, hpeek]; rfl) hlen rfl]
  rfl

/-- Peeking in front of a nested matrix element. -/
theorem peekToken_enter_matrix (qt : Qt) (host : Host) (p : MatParser) (body tl : List Nat)
    (hpeek : p.d_peek = Token.new) (hlen : body.length < 2 ^ 32) :
    MatParser.peekToken qt host (p.enter (wireMatrix host p.d_first.needsByteSwap body ++ tl)) =
      (Token.ofType .BeginMatrix,
        { (p.enter tl).enter body with d_peek := Token.ofType .BeginMatrix }) := by
  rw [peekToken_eq qt host _ (by rw [enter_peek, hpeek]),
    nextToken_enter_matrix qt host p body tl hpeek hlen]

/-- Peeking at the end of a matrix body: `EndMatrix`, and the body's lexer is popped. -/
theorem peekToken_enter_nil (qt : Qt) (host : Host) (p : MatParser)
    (hpeek : p.d_peek = Token.new) :
    MatParser.peekToken qt host (p.enter []) =
      (Token.ofType .EndMatrix, { p with d_peek := Token.ofType .EndMatrix }) := by
  rw [peekToken_eq qt host _ (by rw [enter_peek, hpeek]),
    nextToken_endMatrix qt host (p.enter []) _ p.d_nested (by rw [enter_peek, hpeek]; rfl) rfl rfl]
  rfl

/-- The token buffered by a peek is handed out by the next `nextToken`. -/
theorem nextToken_buffered (qt : Qt) (host : Host) (p : MatParser) (type : TokenType)
    (hpeek : p.d_peek = Token.new) (ht : type ≠ TokenType.Null) :
    MatParser.nextToken qt host { p with d_peek := Token.ofType type } =
      (Token.ofType type, p) := by
  rw [nextToken_peeked qt host _ (by simpa [Token.ofType] using ht)]
  cases p
  simp only at hpeek
  simp only [hpeek]

/-- One round of the loop of `readFields`. -/
theorem fieldLoop_step (qt : Qt) (host : Host)
    (rm : MatReader → Except Fault (QVariant × MatReader)) (names : List (List Nat)) (g : Nat)
    (s q p' q2 : MatParser) (tok : Token) (v : QVariant) (n : Nat)
    (fields : List (List Nat × List QVariant)) (hk : names ≠ [])
    (h1 : MatParser.nextToken qt host s = (tok, q))
    (h2 : rm { d_parser' := q, d_error := [] } = .ok (v, { d_parser' := p', d_error := [] }))
    (h3 : MatParser.nextToken qt host p' = (Token.ofType .EndMatrix, q2)) :
    fieldLoop qt host rm names 0 (g + 1) { d_parser' := s, d_error := [] } n fields =
      if (MatParser.peekToken qt host q2).1.d_type == TokenType.BeginMatrix then
        fieldLoop qt host rm names 0 g
          { d_parser' := (MatParser.peekToken qt host q2).2, d_error := [] } (n + 1)
          (qmapAppend fields (names.getD (n % names.length) []) v)
      else .ok (some (qmapAppend fields (names.getD (n % names.length) []) v, n + 1),
        { d_parser' := (MatParser.peekToken qt host q2).2, d_error := [] }) := by
  have hk2 : (names.length == 0) = false := by
    rw [beq_eq_false_iff_ne]
    exact fun e => hk (List.length_eq_zero.mp e)
  rw [fieldLoop]
  simp only [MatReader.nextToken, MatReader.peekToken, h1, h2, h3, bne_self_eq_false,
    Bool.false_eq_true, if_false, hk2, Token.ofType, Bool.false_and]


theorem wireMatrices_cons (host : Host) (swap : Bool) (b : List Nat) (bs : List (List Nat)) :
    wireMatrices host swap (b :: bs) = wireMatrix host swap b ++ wireMatrices host swap bs := by
  simp [wireMatrices]

/-- The loop of `readFields` over well-formed nested matrices, entered with the first of them
peeked: every value is appended to the field its position selects, and the loop ends with the
`EndMatrix` of the structure peeked. -/
theorem fieldLoop_rows (qt : Qt) (host : Host) (swap : Bool) (k fuelR : Nat)
    (names : List (List Nat)) (hk : names ≠ []) (hfr : k ≤ fuelR) (p : MatParser)
    (hpeek : p.d_peek = Token.new) (hlimit : p.d_limit = 0)
    (hswap : p.d_first.d_needByteSwap = swap)
    (bodies : List (List Nat)) (vals : List QVariant)
    (hdec : List.Forall₂ (DecodesAt qt host swap k) bodies vals)
    (hlen : ∀ b ∈ bodies, b.length < 2 ^ 32) :
    ∀ (b : List Nat) (v : QVariant), DecodesAt qt host swap k b v → b.length < 2 ^ 32 →
      ∀ fuel, bodies.length < fuel → ∀ (n : Nat) (fields : List (List Nat × List QVariant)),
        fieldLoop qt host (MatReader.readMatrix qt host fuelR) names 0 fuel
            { d_parser' := { (p.enter (wireMatrices host swap bodies)).enter b with
                d_peek := Token.ofType .BeginMatrix },
              d_error := [] } n fields =
          .ok (some (fillFields names (v :: vals) n fields, n + 1 + bodies.length),
            { d_parser' := { p with d_peek := Token.ofType .EndMatrix }, d_error := [] }) := by
  induction hdec with
  | nil =>
    intro b v hb hbl fuel hfuel n fields
    obtain ⟨g, rfl⟩ : ∃ g, fuel = g + 1 := ⟨fuel - 1, by omega⟩
    obtain ⟨p', h2, h3⟩ := hb fuelR hfr (p.enter (wireMatrices host swap [])) hpeek hlimit hswap
    rw [fieldLoop_step qt host _ names g _ _ p' _ (Token.ofType .BeginMatrix) v n fields hk
      (nextToken_buffered qt host _ .BeginMatrix (by exact hpeek) (by decide)) h2 h3]
    have hnil : wireMatrices host swap [] = [] := rfl
    rw [hnil, peekToken_enter_nil qt host p hpeek]
    simp [Token.ofType, fillFields]
  | @cons b' v' bs vs hb' _ ih =>
    intro b v hb hbl fuel hfuel n fields
    obtain ⟨g, rfl⟩ : ∃ g, fuel = g + 1 := ⟨fuel - 1, by omega⟩
    obtain ⟨p', h2, h3⟩ := hb fuelR hfr (p.enter (wireMatrices host swap (b' :: bs))) hpeek hlimit
      hswap
    rw [fieldLoop_step qt host _ names g _ _ p' _ (Token.ofType .BeginMatrix) v n fields hk
      (nextToken_buffered qt host _ .BeginMatrix (by exact hpeek) (by decide)) h2 h3]
    have hsw : p.d_first.needsByteSwap = swap := hswap
    rw [wireMatrices_cons, ← hsw,
      peekToken_enter_matrix qt host p b' _ hpeek (hlen b' (List.mem_cons_self _ _))]
    simp only [Token.ofType, beq_self_eq_true, if_true]
    rw [hsw]
    have := ih (fun x hx => hlen x (List.mem_cons_of_mem _ hx)) b' v' hb'
      (hlen b' (List.mem_cons_self _ _)) g (by simp at hfuel; omega) (n + 1)
      (qmapAppend fields (names.getD (n % names.length) []) v)
    simp only [Token.ofType] at this
    rw [this]
    simp only [fillFields, List.length_cons]
    rw [show n + 1 + 1 + bs.length = n + 1 + (bs.length + 1) by omega]


/-- The token of an `miINT32` sub-element holding one value: the scalar. -/
theorem nextToken_int (qt : Qt) (host : Host) (p : MatParser) (lf : TagForm) (n : Nat)
    (tl : List Nat) (hpeek : p.d_peek = Token.new) (hlimit : p.d_limit = 0) (hn : n < 2 ^ 31)
    (hfit : lf.fits 4 = true) :
    MatParser.nextToken qt host
        (p.enter (wireElement host p.d_first.needsByteSwap lf miINT32
          (wireWord host p.d_first.needsByteSwap 4 n) ++ tl)) =
      ({ d_type := .Value, d_value := .int (n : Int) }, p.enter tl) := by
  have hl := wireWord_length host p.d_first.needsByteSwap 4 n
  have e : wireWord host p.d_first.needsByteSwap 4 n =
      wireInts host p.d_first.needsByteSwap [(n : Int)] := by
    simp [wireInts, toUnsigned_ofNat 32 n (by norm_num at hn ⊢; omega)]
  apply nextToken_enter_primitive qt host p lf miINT32 _ tl _ hpeek (by decide) (by decide)
    (by decide) (by rw [hl]; exact hfit)
  rw [readValue_numeric qt host _ _ miINT32 _ _ tl 0 (by decide) ⟨1, by rw [hl]; rfl⟩
    (fun h => by rw [h] at hl; cases hl)]
  rw [hlimit, limited_zero, e, wireScalars_ints host _ [(n : Int)] (by
    intro d hd
    simp only [List.mem_singleton] at hd
    subst hd
    constructor
    · have : (0 : Int) ≤ (n : Int) := Int.natCast_nonneg _
      linarith
    · exact_mod_cast hn)]
  rfl

/-- `readFields` over whole rows of well-formed nested matrices. -/
theorem readFields_rows (qt : Qt) (host : Host) (swap : Bool) (k fuelR fuel r : Nat)
    (names : List (List Nat)) (hk : names ≠ []) (hfr : k ≤ fuelR) (p : MatParser)
    (hpeek : p.d_peek = Token.new) (hlimit : p.d_limit = 0)
    (hswap : p.d_first.d_needByteSwap = swap)
    (bodies : List (List Nat)) (vals : List QVariant)
    (hdec : List.Forall₂ (DecodesAt qt host swap k) bodies vals)
    (hlen : ∀ b ∈ bodies, b.length < 2 ^ 32) (hrows : bodies.length = r * names.length)
    (hfuel : bodies.length ≤ fuel) :
    MatReader.readFields qt host (MatReader.readMatrix qt host fuelR) fuel
        { d_parser' := p.enter (wireMatrices host swap bodies), d_error := [] } names =
      .ok (true, fillFields names vals 0 [],
        { d_parser' := { p with d_peek := Token.ofType .EndMatrix }, d_error := [] }) := by
  have hk2 : (names.length == 0) = false := by
    rw [beq_eq_false_iff_ne]
    exact fun e => hk (List.length_eq_zero.mp e)
  have hsw : p.d_first.needsByteSwap = swap := hswap
  have hlim : ∀ body, ((p.enter body).d_limit * names.length) % 2 ^ 32 = 0 := by
    intro body
    rw [enter_limit, hlimit, Nat.zero_mul, Nat.zero_mod]
  unfold MatReader.readFields
  simp only [hlim]
  cases hdec with
  | nil =>
    have hnil : wireMatrices host swap [] = [] := rfl
    simp only [MatReader.peekToken, hnil, peekToken_enter_nil qt host p hpeek, Token.ofType,
      fillFields]
    simp [hk2]
  | @cons b v bs vs hb hrest =>
    have hbl := hlen b (List.mem_cons_self _ _)
    have hloop := fieldLoop_rows qt host swap k fuelR names hk hfr p hpeek hlimit hswap bs vs
      hrest (fun x hx => hlen x (List.mem_cons_of_mem _ hx)) b v hb hbl fuel
      (by simp at hfuel; omega) 0 []
    have hpk := peekToken_enter_matrix qt host p b (wireMatrices host swap bs) hpeek hbl
    rw [hsw] at hpk
    have hty : (Token.ofType TokenType.BeginMatrix).d_type = TokenType.BeginMatrix := rfl
    simp only [MatReader.peekToken, wireMatrices_cons, hpk, hty, beq_self_eq_true, if_true,
      hloop, Nat.zero_add, hk2, Bool.false_eq_true, if_false]
    have hmod : (1 + bs.length) % names.length = 0 := by
      rw [Nat.add_comm]
      simp only [List.length_cons] at hrows
      rw [hrows]
      exact Nat.mul_mod_left _ _
    simp [hmod]


/-- `readMatrix` on the body of a STRUCT matrix with whole rows of well-formed nested
matrices. -/
theorem readMatrix_struct (qt : Qt) (host : Host) (k fuel r : Nat) (p : MatParser)
    (f0 f1 : Nat) (dims : List Int) (nf : TagForm) (name : List Nat) (lf : TagForm) (n : Nat)
    (bf : TagForm) (names bodies : List (List Nat)) (vals : List QVariant)
    (hpeek : p.d_peek = Token.new) (hlimit : p.d_limit = 0) (h0 : f0 < 2 ^ 32)
    (h1 : f1 < 2 ^ 32) (hd : 2 ≤ dims.length) (hdl : dims.length < 2 ^ 30)
    (hr : ∀ d ∈ dims, -(2 ^ 31 : Int) ≤ d ∧ d < 2 ^ 31) (hnf : nf.fits name.length = true)
    (hcls : f0 &&& 0xff = mxSTRUCT_CLASS) (hlf : lf.fits 4 = true) (hn : n < 2 ^ 31)
    (hbf : bf.fits (namesBlock n names).length = true)
    (hnames : ∀ f ∈ names, f.length < n ∧ 0 ∉ f) (hk : names ≠ [])
    (hdec : List.Forall₂ (DecodesAt qt host p.d_first.needsByteSwap k) bodies vals)
    (hlen : ∀ b ∈ bodies, b.length < 2 ^ 32) (hrows : bodies.length = r * names.length)
    (hf1 : k ≤ fuel) (hf2 : bodies.length ≤ fuel) (hf3 : names.length < fuel) :
    MatReader.readMatrix qt host (fuel + 1)
        { d_parser' := p.enter (structBody host p.d_first.needsByteSwap f0 f1 dims nf name lf n bf
            names bodies),
          d_error := [] } =
      .ok (.matStructure
            { d_name := name, d_logical := f0 &&& 0x200 != 0, d_global := f0 &&& 0x400 != 0,
              d_valid := true }
            [] (fillFields names vals 0 []),
           { d_parser' := { p with d_peek := Token.ofType .EndMatrix }, d_error := [] }) := by
  unfold structBody
  rw [readMatrix_head qt host p [] fuel f0 f1 dims nf name _ hpeek hlimit h0 h1 hd hdl hr hnf]
  unfold MatReader.classSwitch
  rw [hcls]
  have hA : (decide (mxDOUBLE_CLASS ≤ mxSTRUCT_CLASS) &&
      decide (mxSTRUCT_CLASS ≤ mxUINT64_CLASS)) = false := by decide
  have hB : (mxSTRUCT_CLASS == mxSPARSE_CLASS) = false := by decide
  have hC : (mxSTRUCT_CLASS == mxCELL_CLASS) = false := by decide
  have hD : (mxSTRUCT_CLASS == mxCHAR_CLASS) = false := by decide
  have hT1 : ((QVariant.int (n : Int)).type != MetaType.Int) = false := by
    simp [QVariant.type]
  have hT2 : ((QVariant.byteArray (namesBlock n names)).type != MetaType.ByteArray) = false := by
    simp [QVariant.type]
  have hI : (QVariant.int (n : Int)).toInt qt = (n : Int) :=
    int_toInt qt n (by have : (0 : Int) ≤ (n : Int) := Int.natCast_nonneg _; linarith)
      (by exact_mod_cast hn)
  simp only [hA, hB, hC, hD, Bool.false_eq_true, if_false, beq_self_eq_true, if_true,
    MatReader.nextToken, nextToken_int qt host p lf n _ hpeek hlimit hn hlf,
    nextToken_bytes qt host p bf (namesBlock n names) _ hpeek hbf, hT1, hT2,
    bne_self_eq_false, Bool.or_self, hI, QVariant.toByteArray,
    split_names n names fuel hnames hf3,
    readFields_rows qt host p.d_first.needsByteSwap k fuel fuel r names hk hf1 p hpeek hlimit rfl
      bodies vals hdec hlen hrows hf2]

/-! ## Structures at the top level -/

theorem DecodesAt_mono (qt : Qt) (host : Host) (swap : Bool) (k k' : Nat) (body : List Nat)
    (v : QVariant) (h : DecodesAt qt host swap k body v) (hk : k ≤ k') :
    DecodesAt qt host swap k' body v :=
  fun fuel hfuel => h fuel (le_trans hk hfuel)

/-- Finitely many well-formed bodies are decoded with one common number of steps. -/
theorem Decodes_common (qt : Qt) (host : Host) (swap : Bool) (bodies : List (List Nat))
    (vals : List QVariant) (h : List.Forall₂ (Decodes qt host swap) bodies vals) :
    ∃ k, List.Forall₂ (DecodesAt qt host swap k) bodies vals := by
  induction h with
  | nil => exact ⟨0, List.Forall₂.nil⟩
  | @cons b v bs vs hb _ ih =>
    obtain ⟨k1, h1⟩ := hb
    obtain ⟨k2, h2⟩ := ih
    refine ⟨max k1 k2, List.Forall₂.cons (DecodesAt_mono qt host swap _ _ b v h1 (le_max_left _ _))
      ?_⟩
    exact List.Forall₂.imp (fun b v hbv => DecodesAt_mono qt host swap _ _ b v hbv
      (le_max_right _ _)) h2

/-- The body of a STRUCT matrix holds the words of its dimensions. -/
theorem structBody_length (host : Host) (swap : Bool) (f0 f1 : Nat) (dims : List Int)
    (nf : TagForm) (name : List Nat) (lf : TagForm) (n : Nat) (bf : TagForm)
    (names bodies : List (List Nat)) :
    4 * dims.length ≤
      (structBody host swap f0 f1 dims nf name lf n bf names bodies).length := by
  simp only [structBody, wireMatrixHead, wireDims, wireElement, List.length_append,
    wireInts_length]
  omega

/-- C10.  For every STRUCT-class matrix with field-name length `n`, a names block of `k >= 1`
distinct NUL-free names of less than `n` bytes, each padded with NUL bytes to `n` bytes, and
`r * k` well-formed nested matrices denoting the values `vals`, `MatReader::nextElement`
(limit 0), given enough steps, returns without error a Structure with the name and the flags of
the matrix whose mapping sends the `j`-th name to the sequence
`[vals[j], vals[j + k], ..., vals[j + (r - 1) * k]]` and has no other keys; the reader is left
right behind the matrix. -/
theorem C10_struct_fields (qt : Qt) (host : Host) (swap : Bool) (r : Nat)
    (f0 f1 : Nat) (dims : List Int) (nf : TagForm) (name : List Nat) (lf : TagForm) (n : Nat)
    (bf : TagForm) (names bodies : List (List Nat)) (vals : List QVariant) (rest : List Nat)
    (h0 : f0 < 2 ^ 32) (h1 : f1 < 2 ^ 32) (hcls : f0 &&& 0xff = mxSTRUCT_CLASS)
    (hd : 2 ≤ dims.length) (hr : ∀ d ∈ dims, -(2 ^ 31 : Int) ≤ d ∧ d < 2 ^ 31)
    (hnf : nf.fits name.length = true) (hlf : lf.fits 4 = true) (hn : n < 2 ^ 31)
    (hbf : bf.fits (namesBlock n names).length = true)
    (hk : names ≠ []) (hnd : names.Nodup) (hnames : ∀ f ∈ names, f.length < n ∧ 0 ∉ f)
    (hdec : List.Forall₂ (Decodes qt host swap) bodies vals)
    (hlen : ∀ b ∈ bodies, b.length < 2 ^ 32) (hrows : bodies.length = r * names.length)
    (hbody : (structBody host swap f0 f1 dims nf name lf n bf names bodies).length < 2 ^ 32) :
    (∃ k, ∀ fuel, k ≤ fuel →
      MatReader.nextElement qt host fuel
          (MatReader.over (wireMatrix host swap
            (structBody host swap f0 f1 dims nf name lf n bf names bodies) ++ rest) swap 0) =
        .ok (.matStructure
              { d_name := name, d_logical := f0 &&& 0x200 != 0, d_global := f0 &&& 0x400 != 0,
                d_valid := true }
              [] (fillFields names vals 0 []),
             MatReader.over rest swap 0)) ∧
    (∀ j, j < names.length →
      qmapValue (fillFields names vals 0 []) (names.getD j []) =
        fieldColumn vals names.length j) ∧
    (∀ e ∈ fillFields names vals 0 [], e.1 ∈ names) := by
  have hvl : vals.length = r * names.length := by
    rw [← hrows]; exact (List.Forall₂.length_eq hdec).symm
  refine ⟨?_, ?_, ?_⟩
  · obtain ⟨k, hk'⟩ := Decodes_common qt host swap bodies vals hdec
    refine ⟨max k (max bodies.length (names.length + 1)) + 1, fun fuel hfuel => ?_⟩
    obtain ⟨g, rfl⟩ : ∃ g, fuel = g + 1 := ⟨fuel - 1, by omega⟩
    have hg : max k (max bodies.length (names.length + 1)) ≤ g := by omega
    have hdl : dims.length < 2 ^ 30 := by
      have := structBody_length host swap f0 f1 dims nf name lf n bf names bodies
      norm_num at hbody ⊢
      omega
    refine nextElement_matrix_at qt host swap _ rest _ (g + 1)
      { d_first := MatLexer.over rest swap, d_nested := [], d_peek := Token.ofType .EndMatrix,
        d_limit := 0 } hbody ?_ ?_
    · exact readMatrix_struct qt host k g r
        { d_first := MatLexer.over rest swap, d_nested := [], d_peek := Token.new, d_limit := 0 }
        f0 f1 dims nf name lf n bf names bodies vals rfl rfl h0 h1 hd hdl hr hnf hcls hlf hn hbf
        hnames hk hk' hlen hrows (le_trans (le_max_left _ _) hg)
        (le_trans (le_trans (le_max_left _ _) (le_max_right _ _)) hg)
        (lt_of_lt_of_le (Nat.lt_succ_self _)
          (le_trans (le_trans (le_max_right _ _) (le_max_right _ _)) hg))
    · exact nextToken_buffered qt host
        { d_first := MatLexer.over rest swap, d_nested := [], d_peek := Token.new, d_limit := 0 }
        .EndMatrix rfl (by decide)
  · intro j hj
    rw [qmapValue_fillFields names _ vals 0 [] List.Pairwise.nil,
      fieldPick_column names j r vals hnd hj hvl]
    rfl
  · intro e he
    rcases fillFields_keys names vals 0 [] hk e he with h | ⟨e', he', _⟩
    · exact h
    · cases he'


/-- C10 at a concrete input: a STRUCT matrix with the one field "x" (field-name length 2) and
one nested DOUBLE matrix holding the scalar 7.5 (as its IEEE-754 bit pattern), read on a
little-endian host, is the Structure that maps "x" to the one NumericArray with real part
`[7.5]`. -/
theorem C10_struct_fields_witness :
    ∃ k, ∀ fuel, k ≤ fuel →
      MatReader.nextElement Qt.plain Host.linux64 fuel
          (MatReader.over (wireMatrix Host.linux64 false
            (structBody Host.linux64 false 2 0 [1, 1] TagForm.normal [] TagForm.small 2
              TagForm.small [[120]]
              [numericBody Host.linux64 false 6 0 [1, 1] TagForm.normal []
                { form := TagForm.normal, type := miDOUBLE,
                  bytes := [0, 0, 0, 0, 0, 0, 0x1E, 0x40] } none]) ++ []) false 0) =
        .ok (.matStructure
              { d_name := [], d_logical := false, d_global := false, d_valid := true } []
              [([120], [.numericArray
                  { d_name := [], d_logical := false, d_global := false, d_valid := true }
                  [1, 1] [.double 0x401E000000000000] []])],
             MatReader.over [] false 0) :=
  (C10_struct_fields Qt.plain Host.linux64 false 1 2 0 [1, 1] TagForm.normal [] TagForm.small 2
    TagForm.small [[120]]
    [numericBody Host.linux64 false 6 0 [1, 1] TagForm.normal []
      { form := TagForm.normal, type := miDOUBLE, bytes := [0, 0, 0, 0, 0, 0, 0x1E, 0x40] } none]
    _ [] (by decide) (by decide) (by decide) (by decide) (by decide) (by decide) (by decide)
    (by decide) (by decide) (by decide) (by decide) (by decide)
    (List.Forall₂.cons
      (Decodes_numeric Qt.plain Host.linux64 false 6 0 [1, 1] TagForm.normal []
        { form := TagForm.normal, type := miDOUBLE, bytes := [0, 0, 0, 0, 0, 0, 0x1E, 0x40] } none
        (by decide) (by decide) (by decide) (by decide) (by decide) (by decide) (by decide)
        (by decide) (by simp) (by decide) (by decide) (by simp))
      List.Forall₂.nil)
    (by decide) (by decide)
    (by simp [structBody, numericBody, wireMatrixHead, wireFlags, wireDims, wireElement, wireTag,
      wirePadding, wireWord_length, wireInts_length, wireMatrices, wireMatrix, WirePayload.wire,
      namesBlock])).1

/-! ## Scenarios on concrete platforms -/

set_option maxRecDepth 100000

/-- C1.  On a little-endian host with 8-byte `long`, the 2x1 array of the `long` values 1 and 2
named "a", written by `beginNumArray` / `addNumArrayElement` / `endNumArray`, is not decoded:
`nextElement` (limit 0) returns the empty value and reports "Invalid matrix end".  The writer
announces four bytes per value and emits `sizeof(long)` bytes. -/
theorem C1_long_array_not_decoded :
    errorOf (MatReader.nextElement Qt.plain Host.linux64 2
      (MatReader.over
        (MatWriter.endNumArray Qt.plain Host.linux64
          (MatWriter.addNumArrayElement Qt.plain Host.linux64
            (MatWriter.addNumArrayElement Qt.plain Host.linux64
              (MatWriter.beginNumArray Host.linux64 MatWriter.fresh [2, 1] MetaType.Long [97])
              (.long 1))
            (.long 2))
          false).sink false 0)) = some (qstr "Invalid matrix end") ∧
    MatWriter.isNumeric MetaType.Long = true := by
  constructor
  · decide
  · rfl

/-- C2.  On a little-endian host with 8-byte `long`, the structure with the one field "a" and
one row holding the `long` scalar -1, written by `beginStructure` / `addStructureRow` /
`endStructure`, is not decoded: `nextElement` (limit 0) returns the empty value and reports
"Invalid field end". -/
theorem C2_long_cell_not_decoded :
    errorOf (MatReader.nextElement Qt.plain Host.linux64 3
      (MatReader.over
        (MatWriter.endStructure Qt.plain Host.linux64
          (MatWriter.addStructureRow Qt.plain Host.linux64
            (MatWriter.beginStructure Host.linux64 MatWriter.fresh [[97]] 1 [115])
            [.long (-1)])
          false).sink false 0)) = some (qstr "Invalid field end") := by
  decide

/-- C5.  On a big-endian host `setDevice` refuses the well-formed big-endian header (magic text,
version bytes 01 00, marker 4D 49) and accepts the header whose version bytes 00 01 are in the
order opposite to the one the marker 4D 49 fixes. -/
theorem C5_bigEndian_host_version_check :
    (MatLexer.setDevice Host.bigEndian64 (MatLexer.new false)
      (some (QIODevice.closed (scenarioHeader [0x01, 0x00, 0x4D, 0x49]))) false true).1 = false ∧
    (MatLexer.setDevice Host.bigEndian64 (MatLexer.new false)
      (some (QIODevice.closed (scenarioHeader [0x00, 0x01, 0x4D, 0x49]))) false true).1 = true := by
  constructor <;> decide

/-- C6 at concrete inputs: on a little-endian host the header that ends in 00 01 49 4D is
accepted without byte-swap, the header that ends in 01 00 4D 49 with byte-swap, and with nothing
behind the header the first `nextElement` returns the empty value and no error. -/
theorem C6_header_negotiates_byte_swap_witness :
    (MatReader.setDevice Host.linux64
      (some (QIODevice.closed (scenarioHeader [0x00, 0x01, 0x49, 0x4D]))) false
      0).2.d_parser'.d_first.needsByteSwap = false ∧
    (MatReader.setDevice Host.linux64
      (some (QIODevice.closed (scenarioHeader [0x01, 0x00, 0x4D, 0x49]))) false
      0).2.d_parser'.d_first.needsByteSwap = true ∧
    ∃ r', MatReader.nextElement Qt.plain Host.linux64 1
        (MatReader.setDevice Host.linux64
          (some (QIODevice.closed (scenarioHeader [0x00, 0x01, 0x49, 0x4D]))) false 0).2 =
      .ok (.invalid, r') ∧ r'.hasError = false :=
  ⟨(C6_header_negotiates_byte_swap Qt.plain Host.linux64
      (QIODevice.closed (scenarioHeader [0x00, 0x01, 0x49, 0x4D])) false 0 1 (by decide)).1
      (by decide),
    (C6_header_negotiates_byte_swap Qt.plain Host.linux64
      (QIODevice.closed (scenarioHeader [0x01, 0x00, 0x4D, 0x49])) false 0 1 (by decide)).2.1
      (by decide),
    (C6_header_negotiates_byte_swap Qt.plain Host.linux64
      (QIODevice.closed (scenarioHeader [0x00, 0x01, 0x49, 0x4D])) false 0 1 (by decide)).2.2
      (by decide)⟩

/-- C7.  On a big-endian host the 128-byte header that `writeHeader` emits (platform
"Linux64", some timestamp) is refused by `setDevice` on the same host. -/
theorem C7_bigEndian_host_refuses_written_header :
    (MatWriter.setDevice Qt.plain Host.bigEndian64 (qstr "Linux64")
        (qstr "Thu Jan 1 00:00:00 1970") MatWriter.fresh (some (QIODevice.closed [])) false
        true).2.sink.length = 128 ∧
    (MatLexer.setDevice Host.bigEndian64 (MatLexer.new false)
      (some (QIODevice.closed
        (MatWriter.setDevice Qt.plain Host.bigEndian64 (qstr "Linux64")
          (qstr "Thu Jan 1 00:00:00 1970") MatWriter.fresh (some (QIODevice.closed [])) false
          true).2.sink))
      false true).1 = false := by
  constructor <;> decide

/-! ## Primitive elements under a limit -/

theorem limited_pos (limit : Nat) (vals : List QVariant) (h : 0 < limit) :
    limited limit vals = vals.take limit := by
  unfold limited
  have : (limit == 0) = false := by
    rw [beq_eq_false_iff_ne]; omega
  rw [this]
  rfl

/-- The scalars of a payload of `n` whole values. -/
theorem wireScalars_getElem (host : Host) (swap : Bool) (type n : Nat) (payload : List Nat)
    (hsz : wireSize type ≠ 0) (hlen : payload.length = n * wireSize type) :
    (wireScalars host swap type payload).length = n ∧
    ∀ i, i < n → (wireScalars host swap type payload)[i]? =
      some (wireScalar type (wireValue host swap
        ((payload.drop (i * wireSize type)).take (wireSize type)))) := by
  constructor
  · unfold wireScalars
    rw [scalarsOf_length, hlen, Nat.mul_div_cancel _ (Nat.pos_of_ne_zero hsz)]
  · intro i hi
    unfold wireScalars scalarsOf
    rw [List.getElem?_map, List.getElem?_range (by
      rw [hlen, Nat.mul_div_cancel _ (Nat.pos_of_ne_zero hsz)]; exact hi)]
    rfl

/-- C19.  For every limit `L > 0`, every numeric element type other than `miINT8` and every
element of that type (in either tag layout) whose payload holds `n` values, `nextToken` returns
a `Value` token carrying exactly `min n L` values, the first ones in order: the `i`-th is the
decode in file byte order of the payload bytes `[i * sizeof(T), (i + 1) * sizeof(T))`, as the
scalar itself when `min n L = 1` and as the list otherwise.  Payload and padding are consumed:
the current lexer is left right behind the element. -/
theorem C19_limited_element_token (qt : Qt) (host : Host) (p : MatParser) (form : TagForm)
    (type n limit : Nat) (payload rest : List Nat) (m : Nat)
    (hpeek : p.d_peek.d_type = TokenType.Null) (hpos : 0 < limit) (hlimit : p.d_limit = limit)
    (htype : type ∈ [miUINT8, miINT16, miUINT16, miINT32, miUINT32, miSINGLE, miDOUBLE, miINT64,
      miUINT64])
    (hlen : payload.length = n * wireSize type) (hfit : form.fits payload.length = true)
    (hin : p.last.d_in = some
      { bytes := wireElement host p.last.d_needByteSwap form type payload ++ rest, missing := m }) :
    (MatParser.nextToken qt host p).1.d_type = TokenType.Value ∧
    ((wireScalars host p.d_first.needsByteSwap type payload).take limit).length = min n limit ∧
    (∀ i, i < min n limit →
      ((wireScalars host p.d_first.needsByteSwap type payload).take limit)[i]? =
        some (wireScalar type (wireValue host p.d_first.needsByteSwap
          ((payload.drop (i * wireSize type)).take (wireSize type))))) ∧
    (min n limit = 1 → (MatParser.nextToken qt host p).1.d_value =
      wireScalar type (wireValue host p.d_first.needsByteSwap (payload.take (wireSize type)))) ∧
    (min n limit ≠ 1 → (MatParser.nextToken qt host p).1.d_value =
      .list ((wireScalars host p.d_first.needsByteSwap type payload).take limit)) ∧
    (MatParser.nextToken qt host p).2 =
      p.setLast { p.last with d_in := some { bytes := rest, missing := m } } := by
  have hsz : wireSize type ≠ 0 := by
    simp only [List.mem_cons, List.mem_singleton, List.not_mem_nil, or_false] at htype
    rcases htype with h | h | h | h | h | h | h | h | h <;> subst h <;> decide
  have ht : type < 256 := by
    simp only [List.mem_cons, List.mem_singleton, List.not_mem_nil, or_false] at htype
    rcases htype with h | h | h | h | h | h | h | h | h <;> subst h <;> decide
  have hm : type ≠ miMATRIX := by
    intro h; rw [h] at hsz; exact hsz rfl
  have hc : type ≠ miCOMPRESSED := by
    intro h; rw [h] at hsz; exact hsz rfl
  have hval := readValue_numeric qt host p.d_first.needsByteSwap p.d_limit type payload
    (wirePadding form payload.length) rest m hsz ⟨n, by rw [hlen, Nat.mul_comm]⟩
    (wirePadding_nil form payload hfit)
  have hnt := nextToken_primitive qt host p form type payload rest m _ hpeek ht hm hc hfit hin hval
  rw [hnt, hlimit, limited_pos limit _ hpos]
  obtain ⟨hlenS, hget⟩ := wireScalars_getElem host p.d_first.needsByteSwap type n payload hsz hlen
  have hlenT : ((wireScalars host p.d_first.needsByteSwap type payload).take limit).length =
      min n limit := by
    rw [List.length_take, hlenS, Nat.min_comm]
  have hgetT : ∀ i, i < min n limit →
      ((wireScalars host p.d_first.needsByteSwap type payload).take limit)[i]? =
        some (wireScalar type (wireValue host p.d_first.needsByteSwap
          ((payload.drop (i * wireSize type)).take (wireSize type)))) := by
    intro i hi
    rw [List.getElem?_take_of_lt (lt_of_lt_of_le hi (Nat.min_le_right _ _))]
    exact hget i (lt_of_lt_of_le hi (Nat.min_le_left _ _))
  refine ⟨readResult_type _, hlenT, hgetT, ?_, ?_, rfl⟩
  · intro h1
    have h0 := hgetT 0 (by omega)
    rw [Nat.zero_mul, List.drop_zero] at h0
    generalize (wireScalars host p.d_first.needsByteSwap type payload).take limit = S at hlenT h0 ⊢
    match S, hlenT, h0 with
    | [v], _, h0 =>
      simp only [List.getElem?_cons_zero, Option.some.injEq] at h0
      rw [← h0]
      rfl
    | [], hl, _ => simp at hl; omega
    | _ :: _ :: _, hl, _ => simp at hl; omega
  · intro hn
    generalize (wireScalars host p.d_first.needsByteSwap type payload).take limit = S at hlenT ⊢
    unfold _readResult
    split
    · simp at hlenT; omega
    · rfl

/-- C19 at a concrete input: with limit 2, the `miUINT8` element holding 1, 2, 3, 4, 5 (three
padding bytes behind them) yields the list of 1 and 2, and the lexer is left in front of the
byte behind the padding. -/
theorem C19_limited_element_token_witness :
    (MatParser.nextToken Qt.plain Host.linux64
      { d_first := MatLexer.over [2, 0, 0, 0, 5, 0, 0, 0, 1, 2, 3, 4, 5, 0, 0, 0, 9] false,
        d_nested := [], d_peek := Token.new, d_limit := 2 }).1.d_value =
      .list [.int 1, .int 2] ∧
    (MatParser.nextToken Qt.plain Host.linux64
      { d_first := MatLexer.over [2, 0, 0, 0, 5, 0, 0, 0, 1, 2, 3, 4, 5, 0, 0, 0, 9] false,
        d_nested := [], d_peek := Token.new, d_limit := 2 }).2 =
      { d_first := MatLexer.over [9] false, d_nested := [], d_peek := Token.new, d_limit := 2 } :=
  ⟨(C19_limited_element_token Qt.plain Host.linux64
      { d_first := MatLexer.over [2, 0, 0, 0, 5, 0, 0, 0, 1, 2, 3, 4, 5, 0, 0, 0, 9] false,
        d_nested := [], d_peek := Token.new, d_limit := 2 } TagForm.normal miUINT8 5 2
      [1, 2, 3, 4, 5] [9] 0 rfl (by decide) rfl (by decide) (by decide) (by decide)
      (by decide)).2.2.2.2.1 (by decide),
    (C19_limited_element_token Qt.plain Host.linux64
      { d_first := MatLexer.over [2, 0, 0, 0, 5, 0, 0, 0, 1, 2, 3, 4, 5, 0, 0, 0, 9] false,
        d_nested := [], d_peek := Token.new, d_limit := 2 } TagForm.normal miUINT8 5 2
      [1, 2, 3, 4, 5] [9] 0 rfl (by decide) rfl (by decide) (by decide) (by decide)
      (by decide)).2.2.2.2.2⟩

/-! ## Matrices the reader rejects -/

/-- `nextElement` in front of a top-level matrix element returns the empty value and keeps the
error when `readMatrix` sets one for the body. -/
theorem nextElement_matrix_rejected (qt : Qt) (host : Host) (swap : Bool) (body rest : List Nat)
    (v : QVariant) (fuel : Nat) (r1 : MatReader) (hlen : body.length < 2 ^ 32)
    (hread : MatReader.readMatrix qt host fuel
        { d_parser' := MatParser.enter { d_first := MatLexer.over rest swap, d_nested := [],
                                         d_peek := Token.new, d_limit := 0 } body,
          d_error := [] } = .ok (v, r1))
    (herr : r1.d_error ≠ []) :
    MatReader.nextElement qt host fuel (MatReader.over (wireMatrix host swap body ++ rest) swap 0) =
      .ok (.invalid, r1) := by
  have hb : (r1.d_error != []) = true := by simpa using herr
  simp only [MatReader.nextElement, MatReader.over, MatReader.nextToken,
    nextToken_over_matrix qt host swap body rest hlen, Token.ofType, hread, hb, if_true]

/-- The switch over the class code rejects every code outside 1..17. -/
theorem classSwitch_default (qt : Qt) (host : Host)
    (rm : MatReader → Except Fault (QVariant × MatReader)) (fuel limit type : Nat)
    (hdr : Matrix) (complex : Bool) (dims : List Int) (r3 : MatReader)
    (hcls : type = 0 ∨ 18 ≤ type) :
    MatReader.classSwitch qt host rm fuel limit type hdr complex dims r3 =
      .ok (r3.error "Invalid array type") := by
  have h1 : (decide (mxDOUBLE_CLASS ≤ type) && decide (type ≤ mxUINT64_CLASS)) = false := by
    simp only [mxDOUBLE_CLASS, mxUINT64_CLASS, Bool.and_eq_false_imp, decide_eq_true_eq,
      decide_eq_false_iff_not]
    omega
  have h2 : (type == mxSPARSE_CLASS) = false := by
    rw [beq_eq_false_iff_ne]; simp only [mxSPARSE_CLASS]; omega
  have h3 : (type == mxCELL_CLASS) = false := by
    rw [beq_eq_false_iff_ne]; simp only [mxCELL_CLASS]; omega
  have h4 : (type == mxCHAR_CLASS) = false := by
    rw [beq_eq_false_iff_ne]; simp only [mxCHAR_CLASS]; omega
  have h5 : (type == mxSTRUCT_CLASS) = false := by
    rw [beq_eq_false_iff_ne]; simp only [mxSTRUCT_CLASS]; omega
  have h6 : (type == mxUndocumented17) = false := by
    rw [beq_eq_false_iff_ne]; simp only [mxUndocumented17]; omega
  have h7 : (type == mxUndocumented16) = false := by
    rw [beq_eq_false_iff_ne]; simp only [mxUndocumented16]; omega
  have h8 : (type == mxOBJECT_CLASS) = false := by
    rw [beq_eq_false_iff_ne]; simp only [mxOBJECT_CLASS]; omega
  unfold MatReader.classSwitch
  simp only [h1, h2, h3, h4, h5, h6, h7, h8, Bool.false_eq_true, if_false, Bool.or_self]

/-- C17.  For every matrix whose flags, dimensions and name sub-elements are well-formed and
whose class code (the low 8 bits of the first flags word) is not in 1..17, whatever follows the
name, `MatReader::nextElement` (limit 0) returns the empty value and sets the error
"Invalid array type"; the parser is left inside the matrix behind the name. -/
theorem C17_invalid_array_type (qt : Qt) (host : Host) (swap : Bool) (fuel : Nat)
    (f0 f1 : Nat) (dims : List Int) (nf : TagForm) (name tl rest : List Nat)
    (h0 : f0 < 2 ^ 32) (h1 : f1 < 2 ^ 32)
    (hcls : f0 &&& 0xff = 0 ∨ 18 ≤ f0 &&& 0xff)
    (hd : 2 ≤ dims.length) (hr : ∀ d ∈ dims, -(2 ^ 31 : Int) ≤ d ∧ d < 2 ^ 31)
    (hnf : nf.fits name.length = true)
    (hlen : (wireMatrixHead host swap f0 f1 dims nf name ++ tl).length < 2 ^ 32) :
    MatReader.nextElement qt host (fuel + 1)
        (MatReader.over (wireMatrix host swap (wireMatrixHead host swap f0 f1 dims nf name ++ tl) ++
          rest) swap 0) =
      .ok (.invalid,
        { d_parser' := MatParser.enter { d_first := MatLexer.over rest swap, d_nested := [],
                                         d_peek := Token.new, d_limit := 0 } tl,
          d_error := qstr "Invalid array type" }) := by
  have hdl : dims.length < 2 ^ 30 := by
    have e := wireDims_length host swap dims
    simp only [wireMatrixHead, List.length_append] at hlen
    norm_num at hlen ⊢
    omega
  refine nextElement_matrix_rejected qt host swap _ rest .invalid (fuel + 1) _ hlen ?_
    (by simp [qstr])
  have h := readMatrix_head qt host
    { d_first := MatLexer.over rest swap, d_nested := [], d_peek := Token.new, d_limit := 0 }
    [] fuel f0 f1 dims nf name tl rfl rfl h0 h1 hd hdl hr hnf
  rw [classSwitch_default _ _ _ _ _ _ _ _ _ _ hcls] at h
  exact h

/-- C17 at a concrete input: a matrix with class code 18, dims `[1, 1]`, an empty name and one
more element behind the name. -/
theorem C17_invalid_array_type_witness :
    MatReader.nextElement Qt.plain Host.linux64 1
        (MatReader.over (wireMatrix Host.linux64 false
          (wireMatrixHead Host.linux64 false 18 0 [1, 1] TagForm.normal [] ++
            [5, 0, 4, 0, 42, 0, 0, 0]) ++ []) false 0) =
      .ok (.invalid,
        { d_parser' := MatParser.enter { d_first := MatLexer.over [] false, d_nested := [],
                                         d_peek := Token.new, d_limit := 0 }
            [5, 0, 4, 0, 42, 0, 0, 0],
          d_error := qstr "Invalid array type" }) :=
  C17_invalid_array_type Qt.plain Host.linux64 false 0 18 0 [1, 1] TagForm.normal []
    [5, 0, 4, 0, 42, 0, 0, 0] [] (by decide) (by decide) (by decide) (by decide) (by decide)
    (by decide)
    (by simp [wireMatrixHead, wireFlags, wireDims, wireElement, wireTag, wirePadding,
      wireWord_length, wireInts_length])


/-- The token of a dimensions sub-element with fewer than two entries: a value that is no
list, or the empty list. -/
theorem nextToken_dims_short (qt : Qt) (host : Host) (p : MatParser) (dims : List Int)
    (tl : List Nat) (hpeek : p.d_peek = Token.new) (hlimit : p.d_limit = 0)
    (hd : dims.length < 2) (hr : ∀ d ∈ dims, -(2 ^ 31 : Int) ≤ d ∧ d < 2 ^ 31) :
    ∃ tok, MatParser.nextToken qt host (p.enter (wireDims host p.d_first.needsByteSwap dims ++ tl)) =
        (tok, p.enter tl) ∧ tok.d_value.toList = [] := by
  have hl := wireInts_length host p.d_first.needsByteSwap dims
  refine ⟨_readResult (dims.map QVariant.int), ?_, ?_⟩
  · apply nextToken_enter_primitive qt host p .normal miINT32 _ tl _ hpeek (by decide) (by decide)
      (by decide) (fits_normal _ (by rw [hl]; omega))
    rw [readValue_numeric qt host _ _ miINT32 _ _ tl 0 (by decide) ⟨dims.length, by rw [hl]; rfl⟩
      (fun h => by
        rw [h, List.length_nil]
        rfl)]
    rw [hlimit, limited_zero, wireScalars_ints host _ dims hr]
  · match dims, hd with
    | [], _ => rfl
    | [_], _ => rfl
    | _ :: _ :: _, hd => exact absurd hd (by simp)

/-- `readMatrix` in front of well-formed flags with a class code up to 15 and a dimensions
sub-element with fewer than two entries sets the error "Invalid array dimensions". -/
theorem readMatrix_dims_short (qt : Qt) (host : Host) (p : MatParser) (err : List Nat)
    (fuel : Nat) (f0 f1 : Nat) (dims : List Int) (tl : List Nat)
    (hpeek : p.d_peek = Token.new) (hlimit : p.d_limit = 0) (h0 : f0 < 2 ^ 32)
    (h1 : f1 < 2 ^ 32) (hcls : f0 &&& 0xff ≤ 15) (hd : dims.length < 2)
    (hr : ∀ d ∈ dims, -(2 ^ 31 : Int) ≤ d ∧ d < 2 ^ 31) :
    MatReader.readMatrix qt host (fuel + 1)
        { d_parser' := p.enter (wireFlags host p.d_first.needsByteSwap f0 f1 ++
            (wireDims host p.d_first.needsByteSwap dims ++ tl)),
          d_error := err } =
      .ok (.invalid, { d_parser' := p.enter tl, d_error := qstr "Invalid array dimensions" }) := by
  have e1 := nextToken_flags qt host p f0 f1
    (wireDims host p.d_first.needsByteSwap dims ++ tl) hpeek hlimit h0 h1
  obtain ⟨tok, e2, e3⟩ := nextToken_dims_short qt host p dims tl hpeek hlimit hd hr
  have hc : decide (f0 &&& 0xff ≤ 15) = true := by simpa using hcls
  obtain ⟨first, nested, peek, limit⟩ := p
  simp only at hpeek hlimit
  subst hpeek
  subst hlimit
  simp only [MatParser.enter] at e1 e2 ⊢
  unfold MatReader.readMatrix
  simp only [MatReader.peekToken, MatReader.nextToken, MatParser.peekToken, e1]
  rw [nextToken_peeked qt host _ (by simp)]
  have hfl : (QVariant.list [QVariant.uint f0, QVariant.uint f1]).toList =
      [QVariant.uint f0, QVariant.uint f1] := rfl
  simp only [e2, e3, hfl, List.length_cons, List.length_nil, List.headD_cons,
    uint_toUInt qt f0 h0, hc, List.isEmpty_nil, Bool.or_true, Bool.and_self, MatReader.error]
  simp


/-- C16, as amended.  For every matrix with well-formed flags and a class code up to 15 (the
numeric classes, CHAR, STRUCT, OBJECT and CELL among them) whose dimensions sub-element holds
fewer than two integers, whatever follows it, `MatReader::nextElement` (limit 0) returns the
empty value and sets the error "Invalid array dimensions": a single integer is a scalar token
and no integer an empty list, which the test of the dimensions refuses before the class is
looked at. -/
theorem C16_short_dims_rejected (qt : Qt) (host : Host) (swap : Bool) (fuel : Nat)
    (f0 f1 : Nat) (dims : List Int) (tl rest : List Nat)
    (h0 : f0 < 2 ^ 32) (h1 : f1 < 2 ^ 32) (hcls : f0 &&& 0xff ≤ 15) (hd : dims.length < 2)
    (hr : ∀ d ∈ dims, -(2 ^ 31 : Int) ≤ d ∧ d < 2 ^ 31)
    (hlen : (wireFlags host swap f0 f1 ++ (wireDims host swap dims ++ tl)).length < 2 ^ 32) :
    MatReader.nextElement qt host (fuel + 1)
        (MatReader.over (wireMatrix host swap
          (wireFlags host swap f0 f1 ++ (wireDims host swap dims ++ tl)) ++ rest) swap 0) =
      .ok (.invalid,
        { d_parser' := MatParser.enter { d_first := MatLexer.over rest swap, d_nested := [],
                                         d_peek := Token.new, d_limit := 0 } tl,
          d_error := qstr "Invalid array dimensions" }) := by
  refine nextElement_matrix_rejected qt host swap _ rest .invalid (fuel + 1) _ hlen ?_
    (by simp [qstr])
  exact readMatrix_dims_short qt host
    { d_first := MatLexer.over rest swap, d_nested := [], d_peek := Token.new, d_limit := 0 }
    [] fuel f0 f1 dims tl rfl rfl h0 h1 hcls hd hr

/-- C16 at a concrete input: a STRUCT matrix (class 2) whose dimensions sub-element holds the
one integer 3. -/
theorem C16_short_dims_rejected_witness :
    MatReader.nextElement Qt.plain Host.linux64 1
        (MatReader.over (wireMatrix Host.linux64 false
          (wireFlags Host.linux64 false 2 0 ++ (wireDims Host.linux64 false [3] ++
            [1, 0, 0, 0, 0, 0, 0, 0])) ++ []) false 0) =
      .ok (.invalid,
        { d_parser' := MatParser.enter { d_first := MatLexer.over [] false, d_nested := [],
                                         d_peek := Token.new, d_limit := 0 }
            [1, 0, 0, 0, 0, 0, 0, 0],
          d_error := qstr "Invalid array dimensions" }) :=
  C16_short_dims_rejected Qt.plain Host.linux64 false 0 2 0 [3] [1, 0, 0, 0, 0, 0, 0, 0] []
    (by decide) (by decide) (by decide) (by decide) (by decide)
    (by simp [wireFlags, wireDims, wireElement, wireTag, wirePadding, wireWord_length,
      wireInts_length])

/-! ## What an accepted numeric matrix holds -/

set_option maxRecDepth 100000

/-- Outside its numeric case the switch over the class code returns no NumericArray. -/
theorem classSwitch_other (qt : Qt) (host : Host)
    (rm : MatReader → Except Fault (QVariant × MatReader)) (fuel limit type : Nat)
    (hdr : Matrix) (complex : Bool) (dims : List Int) (r3 r' : MatReader)
    (h : Matrix) (d : List Int) (re im : List QVariant)
    (hn : ¬ (mxDOUBLE_CLASS <= type && type <= mxUINT64_CLASS) = true) :
    MatReader.classSwitch qt host rm fuel limit type hdr complex dims r3 ≠
      .ok (.numericArray h d re im, r') := by
  unfold MatReader.classSwitch
  dsimp only
  rw [if_neg hn]
  intro hc
  by_cases c0 : (type == mxSPARSE_CLASS) = true
  · rw [if_pos c0] at hc
    repeat' (split at hc)
    all_goals cases hc
  rw [if_neg c0] at hc
  by_cases c1 : (type == mxCELL_CLASS) = true
  · rw [if_pos c1] at hc
    repeat' (split at hc)
    all_goals cases hc
  rw [if_neg c1] at hc
  by_cases c2 : (type == mxCHAR_CLASS) = true
  · rw [if_pos c2] at hc
    repeat' (split at hc)
    all_goals cases hc
  rw [if_neg c2] at hc
  by_cases c3 : (type == mxSTRUCT_CLASS) = true
  · rw [if_pos c3] at hc
    repeat' (split at hc)
    all_goals cases hc
  rw [if_neg c3] at hc
  by_cases c4 : (type == mxUndocumented17 || type == mxUndocumented16) = true
  · rw [if_pos c4] at hc
    repeat' (split at hc)
    all_goals cases hc
  rw [if_neg c4] at hc
  by_cases c5 : (type == mxOBJECT_CLASS) = true
  · rw [if_pos c5] at hc
    repeat' (split at hc)
    all_goals cases hc
  rw [if_neg c5] at hc
  simp [MatReader.error] at hc


/-- The switch over the class code returns a NumericArray only for what its numeric case has
checked: with no limit, the dims are those of the dimensions sub-element, the real part has
`_totalCount dims` values, and the imaginary part has as many when the complex flag is set and
none otherwise. -/
theorem classSwitch_numericArray (qt : Qt) (host : Host)
    (rm : MatReader → Except Fault (QVariant × MatReader)) (fuel type : Nat)
    (hdr : Matrix) (complex : Bool) (dims : List Int) (r3 r' : MatReader)
    (h : Matrix) (d : List Int) (re im : List QVariant)
    (hres : MatReader.classSwitch qt host rm fuel 0 type hdr complex dims r3 =
      .ok (.numericArray h d re im, r')) :
    d = dims ∧ (re.length : Int) = _totalCount dims ∧
      (complex = true → (im.length : Int) = _totalCount dims) ∧ (complex = false → im = []) := by
  by_cases hn : (mxDOUBLE_CLASS <= type && type <= mxUINT64_CLASS) = true
  swap
  · exact absurd hres (classSwitch_other qt host rm fuel 0 type hdr complex dims r3 r' h d re im hn)
  unfold MatReader.classSwitch at hres
  dsimp only at hres
  rw [if_pos hn] at hres
  by_cases c1 : dims.length < 2
  · rw [if_pos c1] at hres
    cases hres
  rw [if_neg c1] at hres
  split at hres
  · cases hres
  rename_i c2
  split at hres
  · split at hres
    · cases hres
    rename_i c3 c4
    simp only [Except.ok.injEq, Prod.mk.injEq, QVariant.numericArray.injEq] at hres
    obtain ⟨⟨-, hd, hre, him⟩, -⟩ := hres
    simp only [Bool.or_eq_true, bne_iff_ne, ne_eq, Bool.and_eq_true, beq_self_eq_true, true_and,
      not_or, Decidable.not_not] at c2 c4
    subst hd hre him
    exact ⟨rfl, c2.2, fun _ => c4.2, fun hc => by rw [hc] at c3; cases c3⟩
  · rename_i c3
    simp only [Except.ok.injEq, Prod.mk.injEq, QVariant.numericArray.injEq] at hres
    obtain ⟨⟨-, hd, hre, him⟩, -⟩ := hres
    simp only [Bool.or_eq_true, bne_iff_ne, ne_eq, Bool.and_eq_true, beq_self_eq_true, true_and,
      not_or, Decidable.not_not] at c2
    subst hd hre him
    exact ⟨rfl, c2.2, fun hc => absurd hc c3, fun _ => rfl⟩


theorem setLast_limit (p : MatParser) (lex : MatLexer) : (p.setLast lex).d_limit = p.d_limit := by
  unfold MatParser.setLast
  cases p.d_nested <;> rfl

/-- `nextToken` leaves the limit as it is. -/
theorem nextToken_limit (qt : Qt) (host : Host) (p : MatParser) :
    (MatParser.nextToken qt host p).2.d_limit = p.d_limit := by
  unfold MatParser.nextToken
  dsimp only
  repeat' split
  all_goals simp only [setLast_limit]

/-- `peekToken` leaves the limit as it is. -/
theorem peekToken_limit (qt : Qt) (host : Host) (p : MatParser) :
    (MatParser.peekToken qt host p).2.d_limit = p.d_limit := by
  unfold MatParser.peekToken
  exact nextToken_limit qt host { p with d_peek := Token.new }


/-! ### The values of tokens -/

theorem readResult_plain (tmp : List QVariant) (h : ∀ x ∈ tmp, x.type ≠ MetaType.User) :
    (_readResult tmp).d_value.type ≠ MetaType.User := by
  unfold _readResult
  split
  · exact h _ (List.mem_singleton_self _)
  · simp [QVariant.type]

theorem readLoop_plain (host : Host) (size : Nat) (mk : Nat → QVariant) (name : String)
    (swap : Bool) (limit : Nat) (hmk : ∀ v, (mk v).type ≠ MetaType.User) (fuel : Nat) :
    ∀ (s : InStream) (i : Nat) (tmp : List QVariant), (∀ x ∈ tmp, x.type ≠ MetaType.User) →
      (_readLoop host size mk name swap limit fuel s i tmp).1.d_value.type ≠ MetaType.User := by
  induction fuel with
  | zero =>
    intro s i tmp h
    exact readResult_plain tmp h
  | succ n ih =>
    intro s i tmp h
    unfold _readLoop
    dsimp only
    split
    · exact readResult_plain tmp h
    · split
      · exact readResult_plain tmp h
      · split
        · simp [Token.error, QVariant.type]
        · apply ih
          intro x hx
          rcases List.mem_append.mp hx with hx | hx
          · exact h x hx
          · rw [List.mem_singleton.mp hx]
            exact hmk _

/-- A token of `readValue` carries a plain value: a scalar, a list, a byte array or a text. -/
theorem readValue_plain (qt : Qt) (host : Host) (swap : Bool) (limit : Nat) (s : InStream)
    (type : Nat) :
    (MatParser.readValue qt host swap limit s type).1.d_value.type ≠ MetaType.User := by
  unfold MatParser.readValue _read
  dsimp only
  by_cases c0 : (type == miINT8) = true
  · rw [if_pos c0]
    simp [QVariant.type]
  rw [if_neg c0]
  by_cases c1 : (type == miUINT8) = true
  · rw [if_pos c1]
    exact readLoop_plain _ _ _ _ _ _ (fun v => by simp [QVariant.type]) _ _ _ _
      (fun x hx => by cases hx)
  rw [if_neg c1]
  by_cases c2 : (type == miINT16) = true
  · rw [if_pos c2]
    exact readLoop_plain _ _ _ _ _ _ (fun v => by simp [QVariant.type]) _ _ _ _
      (fun x hx => by cases hx)
  rw [if_neg c2]
  by_cases c3 : (type == miUINT16) = true
  · rw [if_pos c3]
    exact readLoop_plain _ _ _ _ _ _ (fun v => by simp [QVariant.type]) _ _ _ _
      (fun x hx => by cases hx)
  rw [if_neg c3]
  by_cases c4 : (type == miINT32) = true
  · rw [if_pos c4]
    exact readLoop_plain _ _ _ _ _ _ (fun v => by simp [QVariant.type]) _ _ _ _
      (fun x hx => by cases hx)
  rw [if_neg c4]
  by_cases c5 : (type == miUINT32) = true
  · rw [if_pos c5]
    exact readLoop_plain _ _ _ _ _ _ (fun v => by simp [QVariant.type]) _ _ _ _
      (fun x hx => by cases hx)
  rw [if_neg c5]
  by_cases c6 : (type == miSINGLE) = true
  · rw [if_pos c6]
    exact readLoop_plain _ _ _ _ _ _ (fun v => by simp [QVariant.type]) _ _ _ _
      (fun x hx => by cases hx)
  rw [if_neg c6]
  by_cases c7 : (type == miDOUBLE) = true
  · rw [if_pos c7]
    exact readLoop_plain _ _ _ _ _ _ (fun v => by simp [QVariant.type]) _ _ _ _
      (fun x hx => by cases hx)
  rw [if_neg c7]
  by_cases c8 : (type == miINT64) = true
  · rw [if_pos c8]
    exact readLoop_plain _ _ _ _ _ _ (fun v => by simp [QVariant.type]) _ _ _ _
      (fun x hx => by cases hx)
  rw [if_neg c8]
  by_cases c9 : (type == miUINT64) = true
  · rw [if_pos c9]
    exact readLoop_plain _ _ _ _ _ _ (fun v => by simp [QVariant.type]) _ _ _ _
      (fun x hx => by cases hx)
  rw [if_neg c9]
  by_cases c10 : (type == miUTF8) = true
  · rw [if_pos c10]
    simp [QVariant.type]
  rw [if_neg c10]
  by_cases c11 : (type == miUTF16) = true
  · rw [if_pos c11]
    generalize _readUnits host _ swap (s.bytesAvailable + 1) s [] = u
    obtain ⟨o, s1⟩ := u
    cases o <;> simp [Token.error, QVariant.type]
  rw [if_neg c11]
  by_cases c12 : (type == miUTF32) = true
  · rw [if_pos c12]
    generalize _readUnits host _ swap (s.bytesAvailable + 1) s [] = u
    obtain ⟨o, s1⟩ := u
    cases o <;> simp [Token.error, QVariant.type]
  rw [if_neg c12]
  simp [Token.error, QVariant.type]

/-- A token of `nextToken` carries a plain value when the buffered token does. -/
theorem nextToken_plain (qt : Qt) (host : Host) (p : MatParser)
    (hpeek : p.d_peek.d_value.type ≠ MetaType.User) :
    (MatParser.nextToken qt host p).1.d_value.type ≠ MetaType.User := by
  unfold MatParser.nextToken
  dsimp only
  repeat' split
  all_goals first
    | exact hpeek
    | exact readValue_plain _ _ _ _ _ _
    | simp [Token.error, Token.ofType, QVariant.type]


/-! ### Inversion of `readMatrix` and `nextElement` -/

/-- When `readMatrix`, with no limit, returns a NumericArray, its real part has `_totalCount`
of its dims values, and its imaginary part has as many when bit 0x800 of the first flags word
is set and none otherwise. -/
theorem readMatrix_numericArray (qt : Qt) (host : Host) (fuel : Nat) (r r' : MatReader)
    (h : Matrix) (d : List Int) (re im : List QVariant) (hlimit : r.d_parser'.d_limit = 0)
    (hres : MatReader.readMatrix qt host fuel r = .ok (.numericArray h d re im, r')) :
    (re.length : Int) = _totalCount d ∧
      ((MatReader.flagsWord qt host r &&& 0x800 != 0) = true →
        (im.length : Int) = _totalCount d) ∧
      ((MatReader.flagsWord qt host r &&& 0x800 != 0) = false → im = []) := by
  cases fuel with
  | zero => cases hres
  | succ n =>
    unfold MatReader.readMatrix at hres
    dsimp only at hres
    rw [hlimit] at hres
    split at hres
    · cases hres
    split at hres
    · cases hres
    split at hres
    · cases hres
    split at hres
    · cases hres
    obtain ⟨hd, hre, him1, him2⟩ := classSwitch_numericArray _ _ _ _ _ _ _ _ _ _ _ _ _ _ hres
    rw [hd]
    exact ⟨hre, him1, him2⟩

/-- `MatReader::nextToken` leaves the limit as it is. -/
theorem reader_nextToken_limit (qt : Qt) (host : Host) (r : MatReader) :
    (MatReader.nextToken qt host r).2.d_parser'.d_limit = r.d_parser'.d_limit :=
  nextToken_limit qt host r.d_parser'

/-- C11, as amended.  For every numeric matrix that `MatReader::nextElement` accepts with
limit 0, the number of decoded real elements equals the product of the decoded dims reduced to
a signed 32-bit value (the mathematical product whenever that lies in the 32-bit range), the
number of decoded imaginary elements equals the same value when the complex flag (bit 0x800 of
the first flags word) is set, and there is no imaginary element when it is clear. -/
theorem C11_numeric_count (qt : Qt) (host : Host) (fuel : Nat) (r r' : MatReader)
    (h : Matrix) (d : List Int) (re im : List QVariant)
    (hpeek : r.d_parser'.d_peek = Token.new) (hlimit : r.d_parser'.d_limit = 0)
    (hres : MatReader.nextElement qt host fuel r = .ok (.numericArray h d re im, r')) :
    (re.length : Int) = wrap32 d.prod ∧
      (-(2 ^ 31 : Int) ≤ d.prod → d.prod < 2 ^ 31 → (re.length : Int) = d.prod) ∧
      ((MatReader.flagsWord qt host (MatReader.nextToken qt host { r with d_error := [] }).2 &&&
          0x800 != 0) = true → (im.length : Int) = wrap32 d.prod) ∧
      ((MatReader.flagsWord qt host (MatReader.nextToken qt host { r with d_error := [] }).2 &&&
          0x800 != 0) = false → im = []) := by
  have hplain := nextToken_plain qt host r.d_parser' (by rw [hpeek]; simp [Token.new, QVariant.type])
  have hlim := reader_nextToken_limit qt host { r with d_error := [] }
  have hmain : (re.length : Int) = _totalCount d ∧
      ((MatReader.flagsWord qt host (MatReader.nextToken qt host { r with d_error := [] }).2 &&&
          0x800 != 0) = true → (im.length : Int) = _totalCount d) ∧
      ((MatReader.flagsWord qt host (MatReader.nextToken qt host { r with d_error := [] }).2 &&&
          0x800 != 0) = false → im = []) := by
    unfold MatReader.nextElement at hres
    dsimp only at hres
    split at hres
    · rename_i hty
      simp only [Except.ok.injEq, Prod.mk.injEq] at hres
      have hv : (MatReader.nextToken qt host { r with d_error := [] }).1.d_value =
          .numericArray h d re im := hres.1
      have : (MatReader.nextToken qt host { r with d_error := [] }).1.d_value.type ≠
          MetaType.User := hplain
      rw [hv] at this
      exact absurd rfl this
    · split at hres
      · cases hres
      · rename_i v r1 hrm
        split at hres
        · cases hres
        · split at hres
          · simp only [Except.ok.injEq, Prod.mk.injEq] at hres
            rw [hres.1] at hrm
            exact readMatrix_numericArray qt host fuel _ r1 h d re im (by rw [hlim]; exact hlimit)
              hrm
          · cases hres
    · cases hres
    · cases hres
    · cases hres
  rw [totalCount_eq_wrap] at hmain
  refine ⟨hmain.1, ?_, hmain.2.1, hmain.2.2⟩
  intro h1 h2
  rw [hmain.1, wrap32_of_range _ h1 h2]


/-- C11 at a concrete input: the 2x2 DOUBLE matrix with the real payload 1.0, 2.0, 3.0, 4.0 is
accepted with four real elements, the product of its dims. -/
theorem C11_numeric_count_witness :
    (([.double 0x3FF0000000000000, .double 0x4000000000000000, .double 0x4008000000000000,
        .double 0x4010000000000000] : List QVariant).length : Int) =
      wrap32 ([2, 2] : List Int).prod :=
  (C11_numeric_count Qt.plain Host.linux64 1
    (MatReader.over (wireMatrix Host.linux64 false
      (numericBody Host.linux64 false 6 0 [2, 2] TagForm.normal []
        { form := TagForm.normal, type := miDOUBLE,
          bytes := [0, 0, 0, 0, 0, 0, 0xF0, 0x3F, 0, 0, 0, 0, 0, 0, 0, 0x40,
                    0, 0, 0, 0, 0, 0, 0x08, 0x40, 0, 0, 0, 0, 0, 0, 0x10, 0x40] }
        none)) false 0)
    (MatReader.over [] false 0)
    { d_name := [], d_logical := false, d_global := false, d_valid := true } [2, 2]
    [.double 0x3FF0000000000000, .double 0x4000000000000000, .double 0x4008000000000000,
      .double 0x4010000000000000] [] rfl rfl rfl).1

/-! ## The fields of structures and objects -/

set_option maxRecDepth 100000

/-- `readMatrix` on the body of an OBJECT matrix with whole rows of well-formed nested
matrices. -/
theorem readMatrix_object (qt : Qt) (host : Host) (k fuel r : Nat) (p : MatParser)
    (f0 f1 : Nat) (dims : List Int) (nf : TagForm) (name : List Nat) (cf : TagForm)
    (className : List Nat) (lf : TagForm) (n : Nat)
    (bf : TagForm) (names bodies : List (List Nat)) (vals : List QVariant)
    (hpeek : p.d_peek = Token.new) (hlimit : p.d_limit = 0) (h0 : f0 < 2 ^ 32)
    (h1 : f1 < 2 ^ 32) (hd : 2 ≤ dims.length) (hdl : dims.length < 2 ^ 30)
    (hr : ∀ d ∈ dims, -(2 ^ 31 : Int) ≤ d ∧ d < 2 ^ 31) (hnf : nf.fits name.length = true)
    (hcls : f0 &&& 0xff = mxOBJECT_CLASS) (hcf : cf.fits className.length = true)
    (hlf : lf.fits 4 = true) (hn : n < 2 ^ 31)
    (hbf : bf.fits (namesBlock n names).length = true)
    (hnames : ∀ f ∈ names, f.length < n ∧ 0 ∉ f) (hk : names ≠ [])
    (hdec : List.Forall₂ (DecodesAt qt host p.d_first.needsByteSwap k) bodies vals)
    (hlen : ∀ b ∈ bodies, b.length < 2 ^ 32) (hrows : bodies.length = r * names.length)
    (hf1 : k ≤ fuel) (hf2 : bodies.length ≤ fuel) (hf3 : names.length < fuel) :
    MatReader.readMatrix qt host (fuel + 1)
        { d_parser' := p.enter (objectBody host p.d_first.needsByteSwap f0 f1 dims nf name cf
            className lf n bf names bodies),
          d_error := [] } =
      .ok (.matStructure
            { d_name := name, d_logical := f0 &&& 0x200 != 0, d_global := f0 &&& 0x400 != 0,
              d_valid := true }
            className (fillFields names vals 0 []),
           { d_parser' := { p with d_peek := Token.ofType .EndMatrix }, d_error := [] }) := by
  unfold objectBody
  rw [readMatrix_head qt host p [] fuel f0 f1 dims nf name _ hpeek hlimit h0 h1 hd hdl hr hnf]
  unfold MatReader.classSwitch
  rw [hcls]
  have hA : (decide (mxDOUBLE_CLASS ≤ mxOBJECT_CLASS) &&
      decide (mxOBJECT_CLASS ≤ mxUINT64_CLASS)) = false := by decide
  have hB : (mxOBJECT_CLASS == mxSPARSE_CLASS) = false := by decide
  have hC : (mxOBJECT_CLASS == mxCELL_CLASS) = false := by decide
  have hD : (mxOBJECT_CLASS == mxCHAR_CLASS) = false := by decide
  have hE : (mxOBJECT_CLASS == mxSTRUCT_CLASS) = false := by decide
  have hF : (mxOBJECT_CLASS == mxUndocumented17 || mxOBJECT_CLASS == mxUndocumented16) =
      false := by decide
  have hT0 : ((QVariant.byteArray className).type != MetaType.ByteArray) = false := by
    simp [QVariant.type]
  have hT1 : ((QVariant.int (n : Int)).type != MetaType.Int) = false := by
    simp [QVariant.type]
  have hT2 : ((QVariant.byteArray (namesBlock n names)).type != MetaType.ByteArray) = false := by
    simp [QVariant.type]
  have hI : (QVariant.int (n : Int)).toInt qt = (n : Int) :=
    int_toInt qt n (by have : (0 : Int) ≤ (n : Int) := Int.natCast_nonneg _; linarith)
      (by exact_mod_cast hn)
  simp only [hA, hB, hC, hD, hE, hF, Bool.false_eq_true, if_false, beq_self_eq_true, if_true,
    MatReader.nextToken, nextToken_bytes qt host p cf className _ hpeek hcf,
    nextToken_int qt host p lf n _ hpeek hlimit hn hlf,
    nextToken_bytes qt host p bf (namesBlock n names) _ hpeek hbf, hT0, hT1, hT2,
    bne_self_eq_false, Bool.or_self, hI, QVariant.toByteArray,
    split_names n names fuel hnames hf3,
    readFields_rows qt host p.d_first.needsByteSwap k fuel fuel r names hk hf1 p hpeek hlimit rfl
      bodies vals hdec hlen hrows hf2]


/-- Over `r` whole rows of `k` cells a column has `r` cells. -/
theorem fieldColumn_length (vals : List QVariant) (k j r : Nat) (hj : j < k)
    (hlen : vals.length = r * k) : (fieldColumn vals k j).length = r := by
  have hk : 0 < k := by omega
  unfold fieldColumn
  rw [hlen, Nat.mul_div_cancel _ hk]
  have hc : (List.range r).filterMap (fun i => vals[j + i * k]?) =
      (List.range r).filterMap (some ∘ fun i => vals.getD (j + i * k) default) := by
    apply List.filterMap_congr
    intro i hi
    have hir : i < r := List.mem_range.mp hi
    have hlt : j + i * k < vals.length := by
      rw [hlen]
      calc j + i * k < k + i * k := by omega
        _ = (i + 1) * k := by ring
        _ ≤ r * k := Nat.mul_le_mul_right k hir
    simp only [Function.comp, List.getElem?_eq_getElem hlt, List.getD_eq_getElem _ _ hlt]
  rw [hc, List.filterMap_eq_map, List.length_map, List.length_range]

/-- After whole rows every field name holds as many cells as there are rows. -/
theorem fillFields_lengths (names : List (List Nat)) (vals : List QVariant) (r : Nat)
    (hk : names ≠ []) (hnd : names.Nodup) (hlen : vals.length = r * names.length) :
    (∀ key ∈ names, (qmapValue (fillFields names vals 0 []) key).length = r) ∧
    ∀ e ∈ fillFields names vals 0 [], e.1 ∈ names := by
  constructor
  · intro key hkey
    obtain ⟨j, hj, rfl⟩ := List.getElem_of_mem hkey
    have hget : names.getD j [] = names[j] := List.getD_eq_getElem _ _ hj
    rw [← hget, qmapValue_fillFields names _ vals 0 [] List.Pairwise.nil,
      fieldPick_column names j r vals hnd hj hlen]
    simp only [qmapValue, List.nil_append]
    exact fieldColumn_length vals names.length j r hj hlen
  · intro e he
    rcases fillFields_keys names vals 0 [] hk e he with h | ⟨e', he', _⟩
    · exact h
    · cases he'


/-- The body of an OBJECT matrix holds the words of its dimensions. -/
theorem objectBody_length (host : Host) (swap : Bool) (f0 f1 : Nat) (dims : List Int)
    (nf : TagForm) (name : List Nat) (cf : TagForm) (className : List Nat) (lf : TagForm)
    (n : Nat) (bf : TagForm) (names bodies : List (List Nat)) :
    4 * dims.length ≤
      (objectBody host swap f0 f1 dims nf name cf className lf n bf names bodies).length := by
  simp only [objectBody, wireMatrixHead, wireDims, wireElement, List.length_append,
    wireInts_length]
  omega

/-- C12, as amended.  For every STRUCT or OBJECT matrix with `k >= 1` distinct field names
whose body holds `product(dims) * k` well-formed nested matrices, `MatReader::nextElement`
(limit 0), given enough steps, accepts the matrix, and every field of the decoded Structure
maps to a sequence whose length equals the product of the matrix's dimensions sub-element; the
decoded Structure has no other fields. -/
theorem C12_field_lengths (qt : Qt) (host : Host) (swap : Bool) (r : Nat) (body : List Nat)
    (f0 f1 : Nat) (dims : List Int) (nf : TagForm) (name : List Nat) (cf : TagForm)
    (className : List Nat) (lf : TagForm) (n : Nat)
    (bf : TagForm) (names bodies : List (List Nat)) (vals : List QVariant) (rest : List Nat)
    (h0 : f0 < 2 ^ 32) (h1 : f1 < 2 ^ 32)
    (hbody : (f0 &&& 0xff = mxSTRUCT_CLASS ∧
        body = structBody host swap f0 f1 dims nf name lf n bf names bodies) ∨
      (f0 &&& 0xff = mxOBJECT_CLASS ∧ cf.fits className.length = true ∧
        body = objectBody host swap f0 f1 dims nf name cf className lf n bf names bodies))
    (hd : 2 ≤ dims.length) (hr : ∀ d ∈ dims, -(2 ^ 31 : Int) ≤ d ∧ d < 2 ^ 31)
    (hprod : dims.prod = (r : Int))
    (hnf : nf.fits name.length = true) (hlf : lf.fits 4 = true) (hn : n < 2 ^ 31)
    (hbf : bf.fits (namesBlock n names).length = true)
    (hk : names ≠ []) (hnd : names.Nodup) (hnames : ∀ f ∈ names, f.length < n ∧ 0 ∉ f)
    (hdec : List.Forall₂ (Decodes qt host swap) bodies vals)
    (hlen : ∀ b ∈ bodies, b.length < 2 ^ 32) (hrows : bodies.length = r * names.length)
    (hsize : body.length < 2 ^ 32) :
    (∃ k, ∀ fuel, k ≤ fuel →
      MatReader.nextElement qt host fuel
          (MatReader.over (wireMatrix host swap body ++ rest) swap 0) =
        .ok (.matStructure
              { d_name := name, d_logical := f0 &&& 0x200 != 0, d_global := f0 &&& 0x400 != 0,
                d_valid := true }
              (if f0 &&& 0xff = mxOBJECT_CLASS then className else [])
              (fillFields names vals 0 []),
             MatReader.over rest swap 0)) ∧
    (∀ key ∈ names, ((qmapValue (fillFields names vals 0 []) key).length : Int) = dims.prod) ∧
    (∀ e ∈ fillFields names vals 0 [], e.1 ∈ names) := by
  have hvl : vals.length = r * names.length := by
    rw [← hrows]; exact (List.Forall₂.length_eq hdec).symm
  obtain ⟨hl1, hl2⟩ := fillFields_lengths names vals r hk hnd hvl
  refine ⟨?_, fun key hkey => by rw [hl1 key hkey, hprod], hl2⟩
  obtain ⟨k, hk'⟩ := Decodes_common qt host swap bodies vals hdec
  refine ⟨max k (max bodies.length (names.length + 1)) + 1, fun fuel hfuel => ?_⟩
  obtain ⟨g, rfl⟩ : ∃ g, fuel = g + 1 := ⟨fuel - 1, by omega⟩
  have hg : max k (max bodies.length (names.length + 1)) ≤ g := by omega
  have hg1 : k ≤ g := le_trans (le_max_left _ _) hg
  have hg2 : bodies.length ≤ g := le_trans (le_trans (le_max_left _ _) (le_max_right _ _)) hg
  have hg3 : names.length < g :=
    lt_of_lt_of_le (Nat.lt_succ_self _) (le_trans (le_trans (le_max_right _ _) (le_max_right _ _)) hg)
  refine nextElement_matrix_at qt host swap _ rest _ (g + 1)
    { d_first := MatLexer.over rest swap, d_nested := [], d_peek := Token.ofType .EndMatrix,
      d_limit := 0 } hsize ?_
    (nextToken_buffered qt host
      { d_first := MatLexer.over rest swap, d_nested := [], d_peek := Token.new, d_limit := 0 }
      .EndMatrix rfl (by decide))
  rcases hbody with ⟨hcls, rfl⟩ | ⟨hcls, hcf, rfl⟩
  · have hdl : dims.length < 2 ^ 30 := by
      have := structBody_length host swap f0 f1 dims nf name lf n bf names bodies
      norm_num at hsize ⊢
      omega
    have hne : ¬ (f0 &&& 0xff = mxOBJECT_CLASS) := by rw [hcls]; decide
    rw [if_neg hne]
    exact readMatrix_struct qt host k g r
      { d_first := MatLexer.over rest swap, d_nested := [], d_peek := Token.new, d_limit := 0 }
      f0 f1 dims nf name lf n bf names bodies vals rfl rfl h0 h1 hd hdl hr hnf hcls hlf hn hbf
      hnames hk hk' hlen hrows hg1 hg2 hg3
  · have hdl : dims.length < 2 ^ 30 := by
      have := objectBody_length host swap f0 f1 dims nf name cf className lf n bf names bodies
      norm_num at hsize ⊢
      omega
    rw [if_pos hcls]
    exact readMatrix_object qt host k g r
      { d_first := MatLexer.over rest swap, d_nested := [], d_peek := Token.new, d_limit := 0 }
      f0 f1 dims nf name cf className lf n bf names bodies vals rfl rfl h0 h1 hd hdl hr hnf hcls
      hcf hlf hn hbf hnames hk hk' hlen hrows hg1 hg2 hg3


/-- Witness for C12: the 1x1 OBJECT matrix of class "c" with the one field "x" and one nested
DOUBLE matrix holding the scalar 7.5 (as its IEEE-754 bit pattern), read on a little-endian
host, is accepted, and its field "x" holds one value, the product of the dims `[1, 1]`. -/
theorem C12_field_lengths_witness :
    (∃ k, ∀ fuel, k ≤ fuel →
      MatReader.nextElement Qt.plain Host.linux64 fuel
          (MatReader.over (wireMatrix Host.linux64 false
            (objectBody Host.linux64 false 3 0 [1, 1] TagForm.normal [] TagForm.small [99]
              TagForm.small 2 TagForm.small [[120]]
              [numericBody Host.linux64 false 6 0 [1, 1] TagForm.normal []
                { form := TagForm.normal, type := miDOUBLE,
                  bytes := [0, 0, 0, 0, 0, 0, 0x1E, 0x40] } none]) ++ []) false 0) =
        .ok (.matStructure
              { d_name := [], d_logical := false, d_global := false, d_valid := true } [99]
              [([120], [.numericArray
                  { d_name := [], d_logical := false, d_global := false, d_valid := true }
                  [1, 1] [.double 0x401E000000000000] []])],
             MatReader.over [] false 0)) ∧
    (∀ key ∈ [[120]],
      ((qmapValue [([120], [QVariant.numericArray
          { d_name := [], d_logical := false, d_global := false, d_valid := true }
          [1, 1] [.double 0x401E000000000000] []])] key).length : Int) =
        ([1, 1] : List Int).prod) :=
  let h := C12_field_lengths Qt.plain Host.linux64 false 1
    (objectBody Host.linux64 false 3 0 [1, 1] TagForm.normal [] TagForm.small [99]
      TagForm.small 2 TagForm.small [[120]]
      [numericBody Host.linux64 false 6 0 [1, 1] TagForm.normal []
        { form := TagForm.normal, type := miDOUBLE,
          bytes := [0, 0, 0, 0, 0, 0, 0x1E, 0x40] } none])
    3 0 [1, 1] TagForm.normal [] TagForm.small [99] TagForm.small 2
    TagForm.small [[120]]
    [numericBody Host.linux64 false 6 0 [1, 1] TagForm.normal []
      { form := TagForm.normal, type := miDOUBLE, bytes := [0, 0, 0, 0, 0, 0, 0x1E, 0x40] } none]
    _ [] (by decide) (by decide) (Or.inr ⟨by decide, by decide, rfl⟩)
    (by decide) (by decide) (by decide) (by decide) (by decide) (by decide) (by decide)
    (by decide) (by decide) (by decide)
    (List.Forall₂.cons
      (Decodes_numeric Qt.plain Host.linux64 false 6 0 [1, 1] TagForm.normal []
        { form := TagForm.normal, type := miDOUBLE, bytes := [0, 0, 0, 0, 0, 0, 0x1E, 0x40] } none
        (by decide) (by decide) (by decide) (by decide) (by decide) (by decide) (by decide)
        (by decide) (by simp) (by decide) (by decide) (by simp))
      List.Forall₂.nil)
    (by decide) (by decide)
    (by simp [objectBody, numericBody, wireMatrixHead, wireFlags, wireDims, wireElement, wireTag,
      wirePadding, wireWord_length, wireInts_length, wireMatrices, wireMatrix, WirePayload.wire,
      namesBlock])
  ⟨h.1, h.2.1⟩

set_option maxRecDepth 100000

/-! ## Scenarios on malformed tags and under a limit -/

/-- C13.  The lexer reports an error for a stream of three bytes, for a normal tag whose length
word is cut short and for a small tag of length 5, and `MatParser::nextToken` answers `Null` at
the top level and `EndMatrix` inside a matrix, not the `Error` token "Lexer Error": the
constructor `DataElement(bool)` sets `d_end`, which `nextToken` tests first. -/
theorem C13_lexer_error_read_as_end :
    (MatLexer.nextElement Qt.plain Host.linux64 (MatLexer.over [1, 2, 3] false)).1.d_error = true ∧
    (MatParser.nextToken Qt.plain Host.linux64
      (MatReader.over [1, 2, 3] false 0).d_parser').1.d_type = TokenType.Null ∧
    (MatLexer.nextElement Qt.plain Host.linux64
      (MatLexer.over [5, 0, 0, 0, 1, 2] false)).1.d_error = true ∧
    (MatParser.nextToken Qt.plain Host.linux64
      (MatReader.over [5, 0, 0, 0, 1, 2] false 0).d_parser').1.d_type = TokenType.Null ∧
    (MatLexer.nextElement Qt.plain Host.linux64
      (MatLexer.over [1, 0, 5, 0, 104, 101, 108, 108, 111, 0, 0, 0] false)).1.d_error = true ∧
    (MatParser.nextToken Qt.plain Host.linux64
      (MatReader.over [1, 0, 5, 0, 104, 101, 108, 108, 111, 0, 0, 0] false 0).d_parser').1.d_type =
        TokenType.Null ∧
    (MatParser.nextToken Qt.plain Host.linux64
      ((MatReader.over [] false 0).d_parser'.enter
        [1, 0, 5, 0, 104, 101, 108, 108, 111, 0, 0, 0])).1.d_type = TokenType.EndMatrix := by
  refine ⟨?_, ?_, ?_, ?_, ?_, ?_, ?_⟩ <;> decide

/-- C14.  On a little-endian host the small tag word 0x80010001 (type 1, length field 0x8001)
is not rejected: `nextElement` returns an element of type 1 with no error flag and a sub-stream
of 4294934529 bytes, because the length is held in a `qint16` and tested as -32767.  The length
field 5 is rejected. -/
theorem C14_small_length_sign :
    (MatLexer.nextElement Qt.plain Host.linux64
      (MatLexer.over [0x01, 0x00, 0x01, 0x80, 7, 7, 7, 7] false)).1 =
      { d_type := 1, d_error := false, d_end := false,
        d_stream := some { d_in := { bytes := [7, 7, 7, 7], missing := 0 }, d_len := 4294934529,
                           d_padding := 3, d_compressed := false, d_plain := [] } } ∧
    (MatLexer.nextElement Qt.plain Host.linux64
      (MatLexer.over [0x01, 0x00, 0x05, 0x00, 7, 7, 7, 7] false)).1 = DataElement.ofError true := by
  constructor <;> decide

/-- C15.  On a little-endian host a small tag with type field 0x0105 and a normal tag with type
word 0x01000005, each with the four payload bytes of 42, yield `Value` tokens, and a normal tag
with type word 0x0100000E yields `BeginMatrix`: the type is kept in a `quint8`, so 0x0105 and
0x01000005 are read as `miINT32` and 0x0100000E as `miMATRIX`. -/
theorem C15_type_truncated_to_byte :
    (MatParser.nextToken Qt.plain Host.linux64
      (MatReader.over [0x05, 0x01, 0x04, 0x00, 42, 0, 0, 0] false 0).d_parser').1.d_type =
        TokenType.Value ∧
    (MatParser.nextToken Qt.plain Host.linux64
      (MatReader.over [0x05, 0x00, 0x00, 0x01, 4, 0, 0, 0, 42, 0, 0, 0, 0, 0, 0, 0] false
        0).d_parser').1.d_type = TokenType.Value ∧
    (MatParser.nextToken Qt.plain Host.linux64
      (MatReader.over [0x0E, 0x00, 0x00, 0x01, 0, 0, 0, 0] false 0).d_parser').1.d_type =
        TokenType.BeginMatrix := by
  refine ⟨?_, ?_, ?_⟩ <;> decide

/-- C20.  With limit 1 the well-formed 2x2 DOUBLE matrix is rejected with "Invalid array flags":
the limit cuts the flags sub-element to one value, which is no list of two.  With limit 2 a
2x3x1 matrix is accepted with the dims `[2, 3]`, and the 2x2 matrix with its dims and its
first two values. -/
theorem C20_limit_cuts_flags_and_dims :
    errorOf (MatReader.nextElement Qt.plain Host.linux64 1
      (MatReader.over (wireMatrix Host.linux64 false
        (numericBody Host.linux64 false 6 0 [2, 2] TagForm.normal []
          { form := TagForm.normal, type := miDOUBLE,
            bytes := [0, 0, 0, 0, 0, 0, 0xF0, 0x3F, 0, 0, 0, 0, 0, 0, 0, 0x40,
                      0, 0, 0, 0, 0, 0, 0x08, 0x40, 0, 0, 0, 0, 0, 0, 0x10, 0x40] }
          none)) false 1)) = some (qstr "Invalid array flags") ∧
    valueOf (MatReader.nextElement Qt.plain Host.linux64 1
      (MatReader.over (wireMatrix Host.linux64 false
        (numericBody Host.linux64 false 6 0 [2, 3, 1] TagForm.normal []
          { form := TagForm.normal, type := miUINT8, bytes := [1, 2, 3, 4, 5, 6] }
          none)) false 2)) =
      some (.numericArray { d_name := [], d_logical := false, d_global := false, d_valid := true }
        [2, 3] [.int 1, .int 2] []) ∧
    valueOf (MatReader.nextElement Qt.plain Host.linux64 1
      (MatReader.over (wireMatrix Host.linux64 false
        (numericBody Host.linux64 false 6 0 [2, 2] TagForm.normal []
          { form := TagForm.normal, type := miDOUBLE,
            bytes := [0, 0, 0, 0, 0, 0, 0xF0, 0x3F, 0, 0, 0, 0, 0, 0, 0, 0x40,
                      0, 0, 0, 0, 0, 0, 0x08, 0x40, 0, 0, 0, 0, 0, 0, 0x10, 0x40] }
          none)) false 2)) =
      some (.numericArray { d_name := [], d_logical := false, d_global := false, d_valid := true }
        [2, 2] [.double 0x3FF0000000000000, .double 0x4000000000000000] []) := by
  refine ⟨?_, ?_, ?_⟩
  · decide
  · rfl
  · rfl


/-- C16 as stated fails: the DOUBLE matrix whose dimensions sub-element holds the one integer 3
(empty name, three values) is rejected with the error "Invalid array dimensions", not with
"At least two dimensions required". -/
theorem C16_error_text_counterexample :
    errorOf (MatReader.nextElement Qt.plain Host.linux64 1
      (MatReader.over (wireMatrix Host.linux64 false
        (numericBody Host.linux64 false 6 0 [3] TagForm.normal []
          { form := TagForm.normal, type := miUINT8, bytes := [1, 2, 3] } none)) false 0)) =
      some (qstr "Invalid array dimensions") ∧
    errorOf (MatReader.nextElement Qt.plain Host.linux64 1
      (MatReader.over (wireMatrix Host.linux64 false
        (numericBody Host.linux64 false 6 0 [3] TagForm.normal []
          { form := TagForm.normal, type := miUINT8, bytes := [1, 2, 3] } none)) false 0)) ≠
      some (qstr "At least two dimensions required") := by
  constructor <;> decide


/-- C18 as stated fails: in front of a MATRIX element with an empty body followed by a small
`miINT32` element holding 42, `nextElement` returns the empty value without error, and the next
call returns 42.  The same holds in front of a small tag with the length 5, on which the lexer
sets its error flag, followed by that element.  And in front of a MATRIX element that holds 42
where the array flags belong, followed by a small `miINT32` element holding 43, the first call
sets the error "Invalid array flags" and leaves the matrix open, the second call returns the
empty value without error, and the third returns 43. -/
theorem C18_empty_value_counterexample :
    MatReader.nextElement Qt.plain Host.linux64 1
        (MatReader.over [14, 0, 0, 0, 0, 0, 0, 0, 5, 0, 4, 0, 42, 0, 0, 0] false 0) =
      .ok (.invalid, MatReader.over [5, 0, 4, 0, 42, 0, 0, 0] false 0) ∧
    MatReader.hasError (MatReader.over [5, 0, 4, 0, 42, 0, 0, 0] false 0) = false ∧
    MatReader.nextElement Qt.plain Host.linux64 1
        (MatReader.over [5, 0, 4, 0, 42, 0, 0, 0] false 0) =
      .ok (.int 42, MatReader.over [] false 0) ∧
    MatReader.nextElement Qt.plain Host.linux64 1
        (MatReader.over [1, 0, 5, 0, 5, 0, 4, 0, 42, 0, 0, 0] false 0) =
      .ok (.invalid, MatReader.over [5, 0, 4, 0, 42, 0, 0, 0] false 0) ∧
    (MatLexer.nextElement Qt.plain Host.linux64
      (MatLexer.over [1, 0, 5, 0, 5, 0, 4, 0, 42, 0, 0, 0] false)).1.d_error = true ∧
    MatReader.nextElement Qt.plain Host.linux64 1
        (MatReader.over [14, 0, 0, 0, 8, 0, 0, 0, 5, 0, 4, 0, 42, 0, 0, 0,
          5, 0, 4, 0, 43, 0, 0, 0] false 0) =
      .ok (.invalid,
        { d_parser' := (MatReader.over [5, 0, 4, 0, 43, 0, 0, 0] false 0).d_parser'.enter [],
          d_error := qstr "Invalid array flags" }) ∧
    MatReader.nextElement Qt.plain Host.linux64 1
        { d_parser' := (MatReader.over [5, 0, 4, 0, 43, 0, 0, 0] false 0).d_parser'.enter [],
          d_error := qstr "Invalid array flags" } =
      .ok (.invalid, MatReader.over [5, 0, 4, 0, 43, 0, 0, 0] false 0) ∧
    MatReader.nextElement Qt.plain Host.linux64 1
        (MatReader.over [5, 0, 4, 0, 43, 0, 0, 0] false 0) =
      .ok (.int 43, MatReader.over [] false 0) :=
  ⟨rfl, rfl, rfl, rfl, rfl, rfl, rfl, rfl⟩


/-- C11 as stated fails: the DOUBLE matrix with dims `[65536, 65536]` and an empty real payload
is accepted with no real element, while the product of its dims is 4294967296 (0 in 32-bit
arithmetic). -/
theorem C11_overflow_counterexample :
    MatReader.nextElement Qt.plain Host.linux64 1
        (MatReader.over (wireMatrix Host.linux64 false
          (numericBody Host.linux64 false 6 0 [65536, 65536] TagForm.normal []
            { form := TagForm.normal, type := miDOUBLE, bytes := [] } none)) false 0) =
      .ok (.numericArray { d_name := [], d_logical := false, d_global := false, d_valid := true }
            [65536, 65536] [] [],
           MatReader.over [] false 0) ∧
    (([] : List QVariant).length : Int) ≠ ([65536, 65536] : List Int).prod :=
  ⟨rfl, by decide⟩


/-- C12 as stated fails: the STRUCT matrix with dims `[1, 1]`, the one field "x" and two nested
DOUBLE matrices (7.5 and 2.0) is accepted, and its field "x" holds two values, while the product
of its dims is 1. -/
theorem C12_extra_rows_counterexample :
    MatReader.nextElement Qt.plain Host.linux64 3
        (MatReader.over (wireMatrix Host.linux64 false
          (structBody Host.linux64 false 2 0 [1, 1] TagForm.normal [] TagForm.small 2
            TagForm.small [[120]]
            [numericBody Host.linux64 false 6 0 [1, 1] TagForm.normal []
               { form := TagForm.normal, type := miDOUBLE,
                 bytes := [0, 0, 0, 0, 0, 0, 0x1E, 0x40] } none,
             numericBody Host.linux64 false 6 0 [1, 1] TagForm.normal []
               { form := TagForm.normal, type := miDOUBLE,
                 bytes := [0, 0, 0, 0, 0, 0, 0, 0x40] } none])) false 0) =
      .ok (.matStructure
            { d_name := [], d_logical := false, d_global := false, d_valid := true } []
            [([120], [.numericArray
                { d_name := [], d_logical := false, d_global := false, d_valid := true }
                [1, 1] [.double 0x401E000000000000] [],
              .numericArray
                { d_name := [], d_logical := false, d_global := false, d_valid := true }
                [1, 1] [.double 0x4000000000000000] []])],
           MatReader.over [] false 0) ∧
    MatReader.hasError (MatReader.over [] false 0) = false ∧
    ((qmapValue [([120], [QVariant.numericArray
          { d_name := [], d_logical := false, d_global := false, d_valid := true }
          [1, 1] [.double 0x401E000000000000] [],
        QVariant.numericArray
          { d_name := [], d_logical := false, d_global := false, d_valid := true }
          [1, 1] [.double 0x4000000000000000] []])] [120]).length : Int) ≠
      ([1, 1] : List Int).prod :=
  ⟨rfl, rfl, by decide⟩

/-! ## Peeking -/

/-- `nextToken` leaves an empty token buffer empty. -/
theorem nextToken_peek_new (qt : Qt) (host : Host) (p : MatParser) (hpeek : p.d_peek = Token.new) :
    (MatParser.nextToken qt host p).2.d_peek = Token.new := by
  obtain ⟨first, nested, peek, limit⟩ := p
  simp only at hpeek
  subst hpeek
  unfold MatParser.nextToken
  simp only [Token.new, bne_self_eq_false, Bool.false_eq_true, if_false]
  cases nested <;> simp only [MatParser.setLast, MatParser.last] <;>
    (repeat' split) <;> rfl

/-- C27, as amended.  On a parser with no buffered token, `peekToken` returns the token
`nextToken` would return; when that token is not `Null`, the next `nextToken` call returns it
and leaves the parser in the state `nextToken` alone would have left it in, so that the tokens
returned afterwards are those returned had no peek been made.  A second consecutive
`peekToken` does not return the buffered token: it acts as `peekToken` does once the first
token has been consumed. -/
theorem C27_single_peek (qt : Qt) (host : Host) (p : MatParser) (hpeek : p.d_peek = Token.new) :
    (MatParser.peekToken qt host p).1 = (MatParser.nextToken qt host p).1 ∧
    ((MatParser.nextToken qt host p).1.d_type ≠ TokenType.Null →
      MatParser.nextToken qt host (MatParser.peekToken qt host p).2 =
        MatParser.nextToken qt host p) ∧
    MatParser.peekToken qt host (MatParser.peekToken qt host p).2 =
      MatParser.peekToken qt host (MatParser.nextToken qt host p).2 := by
  refine ⟨?_, ?_, ?_⟩
  · rw [peekToken_eq qt host p hpeek]
  · intro h
    exact nextToken_peekToken qt host p hpeek h (nextToken_peek_new qt host p hpeek)
  · rw [peekToken_eq qt host p hpeek]
    rfl


/-- C27 at a concrete input: in front of a small `miINT32` element holding 42, a peek followed
by `nextToken` is `nextToken`. -/
theorem C27_single_peek_witness :
    MatParser.nextToken Qt.plain Host.linux64
        (MatParser.peekToken Qt.plain Host.linux64
          (MatReader.over [5, 0, 4, 0, 42, 0, 0, 0] false 0).d_parser').2 =
      MatParser.nextToken Qt.plain Host.linux64
        (MatReader.over [5, 0, 4, 0, 42, 0, 0, 0] false 0).d_parser' :=
  (C27_single_peek Qt.plain Host.linux64
    (MatReader.over [5, 0, 4, 0, 42, 0, 0, 0] false 0).d_parser' rfl).2.1 (by decide)

/-! ## The device of the writer -/

/-- Given a closed device that cannot be opened for writing, `MatWriter::setDevice` returns
false and leaves the writer as it was; given no device (a null pointer) it leaves the writer as
it was too, and returns true. -/
theorem setDevice_without_sink (qt : Qt) (host : Host) (osName now : List Nat)
    (w : MatWriter) (own writeHeader : Bool) :
    MatWriter.setDevice qt host osName now w none own writeHeader = (true, w) ∧
    ∀ q : QIODevice, q.isOpen = false → q.canOpen = false →
      MatWriter.setDevice qt host osName now w (some q) own writeHeader = (false, w) := by
  refine ⟨rfl, ?_⟩
  intro q h1 h2
  unfold MatWriter.setDevice
  simp [h1, h2]

/-! ## Alignment of what the writer emits -/

/-- The length of what `writeTag` appends: one word up to 4 payload bytes, two words beyond. -/
theorem writeTag_length (host : Host) (out : List Nat) (miType byteLen : Nat) :
    (MatWriter.writeTag host out miType byteLen).length =
      out.length + (if byteLen % 2 ^ 32 ≤ 4 then 4 else 8) := by
  unfold MatWriter.writeTag MatWriter.write
  dsimp only
  split <;> simp only [List.length_append, hostBytes_length]

/-- What `writePadding` appends. -/
theorem writePadding_eq (out : List Nat) (len : Int) :
    MatWriter.writePadding out len =
      out ++ List.replicate (if len ≤ 4 then (4 - len).toNat else ((8 - len % 8) % 8).toNat) 0 := by
  unfold MatWriter.writePadding zeros
  split <;> rfl

/-- C21.  For every payload length `len >= 0`, `writePadding` appends zero bytes only, and the
payload plus that padding is exactly 4 bytes when `len <= 4` and the least multiple of 8 not
below `len` otherwise.  Hence what `writeDataElement` and `writeArrayDims` append to a device
(tag, payload and padding) is a multiple of 8 bytes. -/
theorem C21_writer_alignment (host : Host) (out : List Nat) :
    (∀ len : Int, 0 ≤ len → ∃ pad : Nat,
      MatWriter.writePadding out len = out ++ List.replicate pad 0 ∧
      (len ≤ 4 → len + pad = 4) ∧
      (4 < len → (8 : Int) ∣ len + pad ∧ (pad : Int) < 8)) ∧
    (∀ (miType : Nat) (data : List Nat), data.length < 2 ^ 31 →
      ∃ k, (MatWriter.writeDataElement host out miType data).length = out.length + 8 * k) ∧
    (∀ dims : List Int, dims.length < 2 ^ 29 →
      ∃ k, (MatWriter.writeArrayDims host out dims).length = out.length + 8 * k) := by
  refine ⟨?_, ?_, ?_⟩
  · intro len h
    refine ⟨_, writePadding_eq out len, ?_, ?_⟩
    · intro h4
      rw [if_pos h4]
      omega
    · intro h4
      rw [if_neg (by omega)]
      omega
  · intro miType data hlen
    unfold MatWriter.writeDataElement
    dsimp only
    rw [toSigned_length data hlen, toUnsigned_length data hlen,
      writePadding_eq]
    simp only [List.length_append, List.length_replicate, writeTag_length]
    have e2 : data.length % 2 ^ 32 = data.length := Nat.mod_eq_of_lt (by omega)
    rw [e2]
    by_cases h4 : data.length ≤ 4
    · have hi : (data.length : Int) ≤ 4 := by omega
      rw [if_pos h4, if_pos hi]
      exact ⟨1, by omega⟩
    · have hi : ¬ (data.length : Int) ≤ 4 := by omega
      rw [if_neg h4, if_neg hi]
      exact ⟨1 + (data.length + 7) / 8, by omega⟩
  · intro dims hdl
    unfold MatWriter.writeArrayDims
    have hw : wrap32 (4 * (dims.length : Int)) = ((4 * dims.length : Nat) : Int) := by
      rw [wrap32_of_range _ (by omega) (by norm_num at hdl ⊢; omega)]
      push_cast
      ring
    have hu : toUnsigned 32 ((4 * dims.length : Nat) : Int) = 4 * dims.length :=
      toUnsigned_ofNat 32 _ (by norm_num at hdl ⊢; omega)
    rw [hw]
    dsimp only
    rw [hu, foldl_write_dims, writePadding_eq]
    simp only [List.length_append, List.length_replicate, writeTag_length, wireInts_length]
    have e2 : (4 * dims.length) % 2 ^ 32 = 4 * dims.length :=
      Nat.mod_eq_of_lt (by norm_num at hdl ⊢; omega)
    rw [e2]
    by_cases h4 : 4 * dims.length ≤ 4
    · have hi : ((4 * dims.length : Nat) : Int) ≤ 4 := by omega
      rw [if_pos h4, if_pos hi]
      exact ⟨1, by omega⟩
    · have hi : ¬ ((4 * dims.length : Nat) : Int) ≤ 4 := by omega
      rw [if_neg h4, if_neg hi]
      exact ⟨1 + (4 * dims.length + 7) / 8, by omega⟩


/-- C21 at a concrete input: the `miINT8` element with the five bytes of "hello" is 16 bytes
long, and the dimensions `[2, 3, 4]` make an element of 24 bytes. -/
theorem C21_writer_alignment_witness :
    (∃ k, (MatWriter.writeDataElement Host.linux64 [] miINT8 [104, 101, 108, 108, 111]).length =
      ([] : List Nat).length + 8 * k) ∧
    (∃ k, (MatWriter.writeArrayDims Host.linux64 [] [2, 3, 4]).length =
      ([] : List Nat).length + 8 * k) :=
  ⟨(C21_writer_alignment Host.linux64 []).2.1 miINT8 [104, 101, 108, 108, 111] (by decide),
   (C21_writer_alignment Host.linux64 []).2.2 [2, 3, 4] (by decide)⟩

/-! ## The frame of an element -/

theorem getD_take_four (l : List Nat) (i : Nat) (hi : i < 4) :
    (l.take 4).getD i 0 = l.getD i 0 := by
  simp only [List.getD_eq_getElem?_getD, List.getElem?_take, hi, if_true]

/-- A stream the lexer reads reports the kind it was built as. -/
theorem readStream_compressed (host : Host) (s : InStream) (size : Nat) (swap : Bool)
    (h : s.d_compressed = true) : (MatLexer.readStream host s size swap).2.2.d_compressed = true := by
  unfold MatLexer.readStream InStream.read
  simp only [h, if_true]
  split <;> rfl

/-- The frame `MatLexer::nextElement` builds for an element that is not compressed: behind a
one-word tag in the small layout, behind a two-word tag in the normal one. -/
theorem nextElement_frame (qt : Qt) (host : Host) (lex : MatLexer) (d : Dev) (s : InStream)
    (hin : lex.d_in = some d)
    (hs : (MatLexer.nextElement qt host lex).1.d_stream = some s)
    (hplain : s.d_compressed = false) :
    tagSize d.bytes ≤ d.bytes.length ∧
    s.d_in = { bytes := d.bytes.drop (tagSize d.bytes), missing := d.missing } ∧
    s.d_padding = calcPadding s.d_len (tagSize d.bytes) ∧
    (tagSize d.bytes = 8 →
      s.d_len = wireValue host lex.d_needByteSwap ((d.bytes.drop 4).take 4)) ∧
    (tagSize d.bytes = 4 →
      s.d_len = toUnsigned 32 (toSigned 16
        (wireValue host lex.d_needByteSwap (d.bytes.take 4) / 65536))) := by
  unfold MatLexer.nextElement at hs
  rw [hin] at hs
  dsimp only at hs
  by_cases hend : d.atEnd = true
  · rw [if_pos hend] at hs
    cases hs
  rw [if_neg hend] at hs
  by_cases hpk : (d.peek 4).length < 4
  · rw [if_pos hpk] at hs
    cases hs
  rw [if_neg hpk] at hs
  have h4 : 4 ≤ d.bytes.length := by
    unfold Dev.peek at hpk
    rw [List.length_take] at hpk
    omega
  have hread : ∀ swap, MatLexer.read host d 4 swap =
      (4, wireValue host swap (d.bytes.take 4), { d with bytes := d.bytes.drop 4 }) := by
    intro swap
    unfold MatLexer.read Dev.read
    have : (List.take 4 d.bytes).length = 4 := by rw [List.length_take]; omega
    simp only [this, bne_self_eq_false, Bool.false_eq_true, if_false]
    rfl
  have hg1 : (d.peek 4).getD 1 0 = d.bytes.getD 1 0 := getD_take_four _ _ (by decide)
  have hg2 : (d.peek 4).getD 2 0 = d.bytes.getD 2 0 := getD_take_four _ _ (by decide)
  rw [hg1, hg2] at hs
  by_cases hsm : (d.bytes.getD 1 0 != 0 || d.bytes.getD 2 0 != 0) = true
  · rw [if_pos hsm] at hs
    have hts : tagSize d.bytes = 4 := by unfold tagSize; rw [if_pos hsm]
    rw [hread] at hs
    simp only [bne_self_eq_false, Bool.false_eq_true, if_false] at hs
    split at hs
    · cases hs
    · simp only [Option.some.injEq] at hs
      subst hs
      rw [hts]
      exact ⟨h4, rfl, rfl, fun h => absurd h (by decide), fun _ => rfl⟩
  · rw [if_neg hsm] at hs
    have hts : tagSize d.bytes = 8 := by unfold tagSize; rw [if_neg hsm]
    rw [hread] at hs
    simp only [bne_self_eq_false, Bool.false_eq_true, if_false] at hs
    by_cases hl : (MatLexer.read host { d with bytes := d.bytes.drop 4 } 4 lex.d_needByteSwap).1 = 4
    · have h8 : 8 ≤ d.bytes.length := by
        unfold MatLexer.read Dev.read at hl
        dsimp only at hl
        split at hl
        · rename_i hne
          simp only [bne_iff_ne, ne_eq] at hne
          exact absurd hl hne
        · simp only [List.length_take, List.length_drop] at hl
          omega
      have hread2 : MatLexer.read host { d with bytes := d.bytes.drop 4 } 4 lex.d_needByteSwap =
          (4, wireValue host lex.d_needByteSwap ((d.bytes.drop 4).take 4),
            { d with bytes := d.bytes.drop 8 }) := by
        unfold MatLexer.read Dev.read
        have : (List.take 4 (List.drop 4 d.bytes)).length = 4 := by
          rw [List.length_take, List.length_drop]; omega
        simp only [this, bne_self_eq_false, Bool.false_eq_true, if_false, List.drop_drop]
        rfl
      rw [hread2] at hs
      simp only [bne_self_eq_false, Bool.false_eq_true, if_false] at hs
      by_cases hc : (wireValue host lex.d_needByteSwap (d.bytes.take 4) == miCOMPRESSED) = true
      · rw [if_pos hc] at hs
        exfalso
        have hcomp : (InStream.new qt { d with bytes := d.bytes.drop 8 }
            (wireValue host lex.d_needByteSwap ((d.bytes.drop 4).take 4)) 0 true).d_compressed =
            true := rfl
        have h1 := readStream_compressed host _ 4 lex.d_needByteSwap hcomp
        have h2 := readStream_compressed host _ 4 lex.d_needByteSwap h1
        split at hs
        · cases hs
        · split at hs
          · cases hs
          · simp only [Option.some.injEq] at hs
            rw [← hs, h2] at hplain
            cases hplain
      · rw [if_neg hc] at hs
        simp only [Option.some.injEq] at hs
        subst hs
        rw [hts]
        exact ⟨h8, rfl, rfl, fun _ => rfl, fun h => absurd h (by decide)⟩
    · have hl2 : ((MatLexer.read host { d with bytes := d.bytes.drop 4 } 4
          lex.d_needByteSwap).1 != 4) = true := by simpa using hl
      rw [if_pos hl2] at hs
      cases hs


theorem drop_eq_drop (l : List Nat) (a b : Nat) (h : min a l.length = min b l.length) :
    l.drop a = l.drop b := by
  by_cases ha : a ≤ l.length
  · by_cases hb : b ≤ l.length
    · have : a = b := by omega
      rw [this]
    · have : a = l.length := by omega
      rw [this, List.drop_length, List.drop_eq_nil_of_le (by omega)]
  · by_cases hb : b ≤ l.length
    · have : b = l.length := by omega
      rw [this, List.drop_length, List.drop_eq_nil_of_le (by omega)]
    · rw [List.drop_eq_nil_of_le (by omega), List.drop_eq_nil_of_le (by omega)]

/-- One `read` on a stream that is not compressed: the bytes delivered come off the front of
the enclosing device, the frame shrinks by them, and no more than the frame and its padding is
taken from the device. -/
theorem read_plain (s : InStream) (n : Nat) (hc : s.d_compressed = false)
    (hI : s.d_len = 0 → s.d_padding = 0) :
    (s.read n).2.d_compressed = false ∧
    ((s.read n).2.d_len = 0 → (s.read n).2.d_padding = 0) ∧
    (s.read n).1.length + (s.read n).2.d_len = s.d_len ∧
    (s.read n).1 = s.d_in.bytes.take (s.read n).1.length ∧
    ((s.read n).2.d_len ≠ 0 →
      (s.read n).2.d_in.bytes = s.d_in.bytes.drop (s.read n).1.length) ∧
    s.d_in.bytes.length + (s.read n).2.d_len + (s.read n).2.d_padding ≤
      (s.read n).2.d_in.bytes.length + s.d_len + s.d_padding ∧
    (s.d_len + s.d_padding ≤ s.d_in.bytes.length →
      (s.read n).2.d_len + (s.read n).2.d_padding ≤ (s.read n).2.d_in.bytes.length ∧
      s.d_in.bytes.length + (s.read n).2.d_len + (s.read n).2.d_padding =
        (s.read n).2.d_in.bytes.length + s.d_len + s.d_padding) := by
  obtain ⟨⟨bytes, missing⟩, len, pad, comp, plain⟩ := s
  simp only at hc hI
  subst hc
  unfold InStream.read
  simp only [Bool.false_eq_true, if_false]
  by_cases hl : len > 0
  · rw [if_pos hl]
    simp only [Dev.read, List.length_take]
    by_cases hz : len - min (min n len) bytes.length = 0
    · have hz2 : (len - min (min n len) bytes.length == 0) = true := by simpa using hz
      rw [if_pos hz2]
      unfold InStream.eatPadding
      by_cases hp : pad = 0
      · subst hp
        simp only [bne_self_eq_false, Bool.false_eq_true, if_false, List.length_drop,
          List.take_take]
        refine ⟨trivial, fun _ => trivial, by omega, ?_, fun h => absurd hz h, by omega,
          fun _ => by omega⟩
        exact List.take_eq_take.mpr (by omega)
      · have hp2 : (pad != 0) = true := by simpa using hp
        simp only [hp2, if_true, Dev.read, List.length_drop, List.take_take]
        refine ⟨trivial, fun _ => trivial, by omega, ?_, fun h => absurd hz h, by omega,
          fun _ => by omega⟩
        exact List.take_eq_take.mpr (by omega)
    · have hz2 : (len - min (min n len) bytes.length == 0) = false := by simpa using hz
      rw [hz2]
      simp only [Bool.false_eq_true, if_false, List.length_drop, List.take_take]
      refine ⟨trivial, fun h => absurd h hz, by omega, ?_, fun _ => ?_, by omega,
        fun _ => by omega⟩
      · exact List.take_eq_take.mpr (by omega)
      · exact drop_eq_drop _ _ _ (by omega)
  · rw [if_neg hl]
    have h0 : len = 0 := by omega
    subst h0
    exact ⟨rfl, hI, Nat.zero_add _, rfl, fun h => absurd rfl h, le_refl _, fun h => ⟨h, rfl⟩⟩

/-- A stream with nothing left in its frame delivers nothing and stays as it is. -/
theorem reads_empty (s : InStream) (hc : s.d_compressed = false) (h0 : s.d_len = 0) :
    ∀ ns, s.reads ns = ([], s) := by
  intro ns
  induction ns with
  | nil => rfl
  | cons n ns ih =>
    have : s.read n = ([], s) := by
      unfold InStream.read
      simp [hc, h0]
    unfold InStream.reads
    rw [this]
    simp only [ih, List.append_nil]

/-- Any sequence of `read` calls on a stream that is not compressed: what is delivered is a
prefix of the payload, and no more than the frame and its padding is taken from the enclosing
device; all of it once the frame is read to its end, if the device holds it. -/
theorem reads_plain (ns : List Nat) :
    ∀ (s : InStream), s.d_compressed = false → (s.d_len = 0 → s.d_padding = 0) →
      (s.reads ns).2.d_compressed = false ∧
      (s.reads ns).1.length + (s.reads ns).2.d_len = s.d_len ∧
      (s.reads ns).1 = s.d_in.bytes.take (s.reads ns).1.length ∧
      ((s.reads ns).2.d_len = 0 → (s.reads ns).2.d_padding = 0) ∧
      s.d_in.bytes.length + (s.reads ns).2.d_len + (s.reads ns).2.d_padding ≤
        (s.reads ns).2.d_in.bytes.length + s.d_len + s.d_padding ∧
      (s.d_len + s.d_padding ≤ s.d_in.bytes.length →
        s.d_in.bytes.length + (s.reads ns).2.d_len + (s.reads ns).2.d_padding =
          (s.reads ns).2.d_in.bytes.length + s.d_len + s.d_padding) := by
  induction ns with
  | nil =>
    intro s hc hI
    exact ⟨hc, Nat.zero_add _, rfl, hI, le_refl _, fun _ => rfl⟩
  | cons n ns ih =>
    intro s hc hI
    obtain ⟨r1, r2, r3, r4, r5, r6, r7⟩ := read_plain s n hc hI
    unfold InStream.reads
    dsimp only
    by_cases hz : (s.read n).2.d_len = 0
    · rw [reads_empty _ r1 hz ns]
      simp only [List.append_nil]
      exact ⟨r1, r3, r4, r2, r6, fun h => (r7 h).2⟩
    · obtain ⟨i0, i1, i2, i3, i4, i5⟩ := ih (s.read n).2 r1 r2
      refine ⟨i0, ?_, ?_, i3, by omega, ?_⟩
      · rw [List.length_append]
        omega
      · have hb := i2
        rw [r5 hz] at hb
        rw [List.length_append, List.take_add]
        exact congrArg₂ (· ++ ·) r4 hb
      · intro h
        have := (r7 h)
        have := i5 this.1
        omega


theorem calcPadding_tagSize (len : Nat) (bytes : List Nat) :
    calcPadding len (tagSize bytes) = (tagSize bytes - len % tagSize bytes) % tagSize bytes ∧
    tagSize bytes ∣ tagSize bytes + len + calcPadding len (tagSize bytes) := by
  have key : ∀ b : Nat, b = 4 ∨ b = 8 →
      calcPadding len b = (b - len % b) % b ∧ b ∣ b + len + calcPadding len b := by
    intro b hb
    unfold calcPadding
    dsimp only
    have hlt : len % b < b := Nat.mod_lt _ (by omega)
    by_cases h : len % b = 0
    · have hb0 : (len % b != 0) = false := by simpa using h
      rw [hb0]
      simp only [Bool.false_eq_true, if_false, Nat.add_zero, h, Nat.sub_zero, Nat.mod_self]
      exact ⟨trivial, (Nat.dvd_add_right (dvd_refl b)).mpr (Nat.dvd_of_mod_eq_zero h)⟩
    · have hb0 : (len % b != 0) = true := by simpa using h
      rw [hb0]
      simp only [if_true]
      have e1 : (b - len % b) % 256 = b - len % b := Nat.mod_eq_of_lt (by omega)
      have e2 : (b - len % b) % b = b - len % b := Nat.mod_eq_of_lt (by omega)
      rw [e1, e2]
      refine ⟨rfl, ?_⟩
      have hd := Nat.div_add_mod len b
      refine ⟨len / b + 2, ?_⟩
      have : b * (len / b + 2) = b * (len / b) + b + b := by ring
      omega
  unfold tagSize
  split
  · exact key 4 (Or.inl rfl)
  · exact key 8 (Or.inr rfl)

/-- C22.  For every element the lexer frames that is not compressed, with the tag of 8 bytes
in the normal layout and of 4 bytes in the small one: the padding of the frame is
`(b - len mod b) mod b` for the frame length `len` and the boundary `b` that equals the tag
size, so that tag, payload and padding make a multiple of `b`; `len` is the length word of a
normal tag and the length field of a small tag (a field of up to 4).  Whatever sequence of
reads is made on the sub-stream, it delivers no more than `len` bytes and takes no more than
`len` bytes and the padding from the enclosing stream; and once it is read to its end, if the
enclosing stream holds the element, exactly tag, payload and padding have been consumed and
the bytes delivered are the payload. -/
theorem C22_frame_consumption (qt : Qt) (host : Host) (lex : MatLexer) (d : Dev) (s : InStream)
    (hin : lex.d_in = some d)
    (hs : (MatLexer.nextElement qt host lex).1.d_stream = some s)
    (hplain : s.d_compressed = false) :
    s.d_padding = (tagSize d.bytes - s.d_len % tagSize d.bytes) % tagSize d.bytes ∧
    tagSize d.bytes ∣ tagSize d.bytes + s.d_len + s.d_padding ∧
    (tagSize d.bytes = 8 →
      s.d_len = wireValue host lex.d_needByteSwap ((d.bytes.drop 4).take 4)) ∧
    (tagSize d.bytes = 4 →
      wireValue host lex.d_needByteSwap (d.bytes.take 4) / 65536 ≤ 4 →
      s.d_len = wireValue host lex.d_needByteSwap (d.bytes.take 4) / 65536) ∧
    ∀ ns : List Nat,
      (s.reads ns).1.length ≤ s.d_len ∧
      d.bytes.length ≤
        (s.reads ns).2.d_in.bytes.length + (tagSize d.bytes + s.d_len + s.d_padding) ∧
      (tagSize d.bytes + s.d_len + s.d_padding ≤ d.bytes.length →
        (s.reads ns).2.atEnd = true →
        d.bytes.length =
          (s.reads ns).2.d_in.bytes.length + (tagSize d.bytes + s.d_len + s.d_padding) ∧
        (s.reads ns).1 = (d.bytes.drop (tagSize d.bytes)).take s.d_len) := by
  obtain ⟨f1, f2, f3, f4, f5⟩ := nextElement_frame qt host lex d s hin hs hplain
  obtain ⟨c1, c2⟩ := calcPadding_tagSize s.d_len d.bytes
  have hI : s.d_len = 0 → s.d_padding = 0 := by
    intro h
    rw [f3, h]
    rfl
  refine ⟨f3.trans c1, by rw [f3]; exact c2, f4, ?_, ?_⟩
  · intro h4 hle
    rw [f5 h4, toSigned_of_lt 16 _ (by norm_num; omega)]
    exact toUnsigned_ofNat 32 _ (by norm_num; omega)
  · intro ns
    obtain ⟨hcomp, i1, i2, i3, i4, i5⟩ := reads_plain ns s hplain hI
    have hlen : s.d_in.bytes.length + tagSize d.bytes = d.bytes.length := by
      rw [f2]
      simp only [List.length_drop]
      omega
    refine ⟨by omega, by omega, ?_⟩
    intro hhold hend
    have h0 : (s.reads ns).2.d_len = 0 := by
      unfold InStream.atEnd InStream.bytesAvailable at hend
      rw [hcomp] at hend
      simpa using hend
    have hp0 := i3 h0
    have heq := i5 (by omega)
    refine ⟨by omega, ?_⟩
    rw [i2, f2]
    congr 1
    omega


/-- C22 at a concrete input: the element with a normal tag of type `miINT8` and the five
payload bytes of "hello", three padding bytes and one more byte behind them.  The padding of
the frame is 3, and two reads, of 2 and of 10 bytes, deliver the payload and leave the one
byte: 16 of the 17 bytes are consumed. -/
theorem C22_frame_consumption_witness :
    (InStream.framed [104, 101, 108, 108, 111] [0, 0, 0] [9] 0).d_padding = 3 ∧
    ((InStream.framed [104, 101, 108, 108, 111] [0, 0, 0] [9] 0).reads [2, 10]).1 =
      [104, 101, 108, 108, 111] ∧
    ((InStream.framed [104, 101, 108, 108, 111] [0, 0, 0] [9] 0).reads [2, 10]).2.d_in.bytes =
      [9] :=
  ⟨(C22_frame_consumption Qt.plain Host.linux64
      (MatLexer.over [1, 0, 0, 0, 5, 0, 0, 0, 104, 101, 108, 108, 111, 0, 0, 0, 9] false)
      { bytes := [1, 0, 0, 0, 5, 0, 0, 0, 104, 101, 108, 108, 111, 0, 0, 0, 9], missing := 0 }
      (InStream.framed [104, 101, 108, 108, 111] [0, 0, 0] [9] 0) rfl rfl rfl).1,
   (((C22_frame_consumption Qt.plain Host.linux64
      (MatLexer.over [1, 0, 0, 0, 5, 0, 0, 0, 104, 101, 108, 108, 111, 0, 0, 0, 9] false)
      { bytes := [1, 0, 0, 0, 5, 0, 0, 0, 104, 101, 108, 108, 111, 0, 0, 0, 9], missing := 0 }
      (InStream.framed [104, 101, 108, 108, 111] [0, 0, 0] [9] 0) rfl rfl rfl).2.2.2.2
        [2, 10]).2.2 (by decide) (by decide)).2,
   rfl⟩

/-! ## Compressed matrices -/

theorem before_last (p : MatParser) (bytes : List Nat) (m : Nat) :
    (p.before bytes m).last = { p.last with d_in := some { bytes := bytes, missing := m } } :=
  setLast_last _ _

theorem before_before (p : MatParser) (a b : List Nat) (m k : Nat) :
    (p.before a m).before b k = p.before b k := by
  unfold MatParser.before
  rw [setLast_last, setLast_setLast]

theorem before_peek (p : MatParser) (bytes : List Nat) (m : Nat) :
    (p.before bytes m).d_peek = p.d_peek := by
  unfold MatParser.before MatParser.setLast
  cases p.d_nested <;> rfl

theorem before_limit (p : MatParser) (bytes : List Nat) (m : Nat) :
    (p.before bytes m).d_limit = p.d_limit := by
  unfold MatParser.before MatParser.setLast
  cases p.d_nested <;> rfl

theorem before_first_swap (p : MatParser) (bytes : List Nat) (m : Nat) :
    (p.before bytes m).d_first.needsByteSwap = p.d_first.needsByteSwap := by
  unfold MatParser.before MatParser.setLast MatParser.last
  cases p.d_nested <;> rfl

theorem before_last_swap (p : MatParser) (bytes : List Nat) (m : Nat) :
    (p.before bytes m).last.d_needByteSwap = p.last.d_needByteSwap := by
  rw [before_last]

theorem before_last_in (p : MatParser) (bytes : List Nat) (m : Nat) :
    (p.before bytes m).last.d_in = some { bytes := bytes, missing := m } := by
  rw [before_last]

/-- The lexer stack of a parser set in front of other bytes keeps its depth. -/
theorem before_nested_length (p : MatParser) (bytes : List Nat) (m : Nat) :
    (p.before bytes m).d_nested.length = p.d_nested.length := by
  unfold MatParser.before MatParser.setLast
  cases p.d_nested <;> rfl

/-- `MatLexer::read` of a 4-byte word from a compressed stream. -/
theorem readStream_plain_word (host : Host) (swap : Bool) (v : Nat) (hv : v < 2 ^ 32)
    (d : Dev) (tl : List Nat) :
    MatLexer.readStream host
        { d_in := d, d_len := 0, d_padding := 0, d_compressed := true,
          d_plain := wireWord host swap 4 v ++ tl } 4 swap =
      (4, v, { d_in := d, d_len := 0, d_padding := 0, d_compressed := true, d_plain := tl }) := by
  have hl := wireWord_length host swap 4 v
  unfold MatLexer.readStream InStream.read
  simp only [if_true, List.take_left' hl, List.drop_left' hl, hl, bne_self_eq_false,
    Bool.false_eq_true, if_false]
  have := wireValue_wireWord_of_lt host swap 4 v (by simpa using hv)
  unfold wireValue at this
  rw [this]

/-- `MatLexer::nextElement` in front of a compressed element whose bytes inflate to a normal
tag of type `miMATRIX` followed by `body`: the element is a matrix, its stream delivers `body`,
and the lexer is left behind the compressed bytes. -/
theorem nextElement_compressed (qt : Qt) (host : Host) (lex : MatLexer) (z body rest : List Nat)
    (n m : Nat) (hz : z.length < 2 ^ 32) (hn : n < 2 ^ 32)
    (hinf : qt.inflate z = wireTag host lex.d_needByteSwap .normal miMATRIX n ++ body)
    (hin : lex.d_in = some
      { bytes := wireTag host lex.d_needByteSwap .normal miCOMPRESSED z.length ++ z ++ rest,
        missing := m }) :
    MatLexer.nextElement qt host lex =
      ({ d_type := miMATRIX, d_error := false, d_end := false,
         d_stream := some { d_in := { bytes := rest, missing := m }, d_len := 0, d_padding := 0,
                            d_compressed := true, d_plain := body } },
       { lex with d_in := some { bytes := rest, missing := m } }) := by
  unfold MatLexer.nextElement
  simp only [hin, wireTag, List.append_assoc]
  have hne : Dev.atEnd { bytes := wireWord host lex.d_needByteSwap 4 miCOMPRESSED ++
      (wireWord host lex.d_needByteSwap 4 z.length ++ (z ++ rest)), missing := m } = false := by
    unfold Dev.atEnd
    rw [wireWord_four]
    split <;> simp
  rw [hne, peek_word]
  have hpk : (wireWord host lex.d_needByteSwap 4 miCOMPRESSED).length = 4 :=
    wireWord_length _ _ _ _
  have hb1 : (wireWord host lex.d_needByteSwap 4 miCOMPRESSED).getD 1 0 = 0 := by
    rw [wireWord_four]; split <;> rfl
  have hb2 : (wireWord host lex.d_needByteSwap 4 miCOMPRESSED).getD 2 0 = 0 := by
    rw [wireWord_four]; split <;> rfl
  simp only [hpk, hb1, hb2, lt_irrefl, if_false, bne_self_eq_false, Bool.false_eq_true,
    Bool.or_self]
  rw [read_wireWord host _ miCOMPRESSED (by decide)]
  simp only [bne_self_eq_false, Bool.false_eq_true, if_false]
  rw [read_wireWord host _ z.length hz]
  simp only [bne_self_eq_false, Bool.false_eq_true, if_false, beq_self_eq_true, if_true]
  have hnew : InStream.new qt { bytes := z ++ rest, missing := m } z.length 0 true =
      { d_in := { bytes := rest, missing := m }, d_len := 0, d_padding := 0,
        d_compressed := true,
        d_plain := wireWord host lex.d_needByteSwap 4 miMATRIX ++
          (wireWord host lex.d_needByteSwap 4 n ++ body) } := by
    unfold InStream.new Dev.read
    simp only [if_true, List.take_left' rfl, List.drop_left' rfl, List.drop_zero, hinf, wireTag,
      List.append_assoc]
  rw [hnew, readStream_plain_word host _ miMATRIX (by decide)]
  simp only [bne_self_eq_false, Bool.false_eq_true, if_false]
  rw [readStream_plain_word host _ n hn]
  simp only [bne_self_eq_false, Bool.false_eq_true, if_false]
  rfl

/-- `nextToken` in front of a compressed element whose bytes inflate to a matrix:
`BeginMatrix`, with a lexer for the body on the stack and the enclosing lexer left behind the
compressed bytes. -/
theorem nextToken_compressed (qt : Qt) (host : Host) (p : MatParser) (z body rest : List Nat)
    (n m : Nat) (hpeek : p.d_peek.d_type = TokenType.Null) (hz : z.length < 2 ^ 32)
    (hn : n < 2 ^ 32)
    (hinf : qt.inflate z = wireTag host p.last.d_needByteSwap .normal miMATRIX n ++ body)
    (hin : p.last.d_in = some
      { bytes := wireTag host p.last.d_needByteSwap .normal miCOMPRESSED z.length ++ z ++ rest,
        missing := m }) :
    MatParser.nextToken qt host p =
      (Token.ofType .BeginMatrix,
        { (p.setLast { p.last with d_in := some { bytes := rest, missing := m } }) with
          d_nested := { d_in := some { bytes := body, missing := 0 },
                        d_needByteSwap := p.d_first.needsByteSwap, d_owner := false } ::
            (p.setLast { p.last with d_in := some { bytes := rest, missing := m } }).d_nested }) := by
  unfold MatParser.nextToken
  rw [nextElement_compressed qt host p.last z body rest n m hz hn hinf hin]
  simp only [hpeek, bne_self_eq_false, Bool.false_eq_true, if_false, beq_self_eq_true, if_true,
    setLast_setLast]
  have htd : InStream.toDev
      { d_in := { bytes := rest, missing := m }, d_len := 0, d_padding := 0,
        d_compressed := true, d_plain := body } =
      ({ bytes := body, missing := 0 }, { bytes := rest, missing := m }) := by
    unfold InStream.toDev InStream.readAll InStream.read InStream.bytesAvailable
    simp
  rw [htd]


/-- `nextToken` in front of a matrix element, in terms of `before` and `enter`. -/
theorem nextToken_before_matrix (qt : Qt) (host : Host) (p : MatParser) (body rest : List Nat)
    (m : Nat) (hpeek : p.d_peek.d_type = TokenType.Null) (hlen : body.length < 2 ^ 32) :
    MatParser.nextToken qt host
        (p.before (wireMatrix host p.last.d_needByteSwap body ++ rest) m) =
      (Token.ofType .BeginMatrix, (p.before rest m).enter body) := by
  have h := nextToken_matrix qt host
    (p.before (wireMatrix host p.last.d_needByteSwap body ++ rest) m) body rest m
    (by rw [before_peek]; exact hpeek) hlen (by rw [before_last_in, before_last_swap]; rfl)
  rw [h, before_first_swap]
  unfold MatParser.enter
  rw [before_first_swap]
  have e : (p.before (wireMatrix host p.last.d_needByteSwap body ++ rest) m).setLast
      { (p.before (wireMatrix host p.last.d_needByteSwap body ++ rest) m).last with
        d_in := some { bytes := rest, missing := m } } = p.before rest m := by
    unfold MatParser.before
    rw [setLast_last, setLast_setLast]
  rw [e]

/-- `nextToken` in front of a compressed matrix, in terms of `before` and `enter`. -/
theorem nextToken_before_compressed (qt : Qt) (host : Host) (p : MatParser)
    (body rest : List Nat) (m : Nat) (hcodec : ∀ b, qt.inflate (qt.deflate b) = b)
    (hpeek : p.d_peek.d_type = TokenType.Null) (hlen : body.length < 2 ^ 32)
    (hz : (qt.deflate
      (wireTag host p.last.d_needByteSwap .normal miMATRIX body.length ++ body)).length < 2 ^ 32) :
    MatParser.nextToken qt host
        (p.before (wireCompressed qt host p.last.d_needByteSwap
          (wireTag host p.last.d_needByteSwap .normal miMATRIX body.length ++ body) ++ rest) m) =
      (Token.ofType .BeginMatrix, (p.before rest m).enter body) := by
  have h := nextToken_compressed qt host
    (p.before (wireCompressed qt host p.last.d_needByteSwap
      (wireTag host p.last.d_needByteSwap .normal miMATRIX body.length ++ body) ++ rest) m)
    (qt.deflate (wireTag host p.last.d_needByteSwap .normal miMATRIX body.length ++ body))
    body rest body.length m (by rw [before_peek]; exact hpeek) hz hlen
    (by rw [hcodec, before_last_swap])
    (by rw [before_last_in, before_last_swap]; rfl)
  rw [h, before_first_swap]
  unfold MatParser.enter
  rw [before_first_swap]
  have e : ∀ x, (p.before x m).setLast
      { (p.before x m).last with d_in := some { bytes := rest, missing := m } } =
      p.before rest m := by
    intro x
    unfold MatParser.before
    rw [setLast_last, setLast_setLast]
  rw [e]

/-- C24.  With the zlib codec an inverse pair (`inflate (deflate b) = b`), for every MATRIX
element `E` with a two-word tag and any body, wherever the parser stands and whatever follows:
from a COMPRESSED element whose payload is `deflate (tag of E ++ body of E)` and from `E`
stored uncompressed, `nextToken` returns `BeginMatrix` and leaves the parser in one and the
same state, inside the body with the enclosing lexer right behind the element; so every
sequence of tokens read from there on is the same in both cases. -/
theorem C24_compressed_matrix (qt : Qt) (host : Host) (p : MatParser) (body rest : List Nat)
    (m : Nat) (hcodec : ∀ b, qt.inflate (qt.deflate b) = b)
    (hpeek : p.d_peek.d_type = TokenType.Null) (hlen : body.length < 2 ^ 32)
    (hz : (qt.deflate
      (wireTag host p.last.d_needByteSwap .normal miMATRIX body.length ++ body)).length < 2 ^ 32) :
    MatParser.nextToken qt host
        (p.before (wireCompressed qt host p.last.d_needByteSwap
          (wireTag host p.last.d_needByteSwap .normal miMATRIX body.length ++ body) ++ rest) m) =
      (Token.ofType .BeginMatrix, (p.before rest m).enter body) ∧
    MatParser.nextToken qt host
        (p.before (wireMatrix host p.last.d_needByteSwap body ++ rest) m) =
      (Token.ofType .BeginMatrix, (p.before rest m).enter body) ∧
    ∀ fuel, MatParser.tokens qt host fuel
        (p.before (wireCompressed qt host p.last.d_needByteSwap
          (wireTag host p.last.d_needByteSwap .normal miMATRIX body.length ++ body) ++ rest) m) =
      MatParser.tokens qt host fuel
        (p.before (wireMatrix host p.last.d_needByteSwap body ++ rest) m) := by
  have h1 := nextToken_before_compressed qt host p body rest m hcodec hpeek hlen hz
  have h2 := nextToken_before_matrix qt host p body rest m hpeek hlen
  refine ⟨h1, h2, ?_⟩
  intro fuel
  cases fuel with
  | zero => rfl
  | succ k =>
    unfold MatParser.tokens
    rw [h1, h2]


/-- C24 at a concrete input, with the stored (identity) codec: a matrix whose body is a small
`miINT32` element holding 42, followed by a small `miUINT32` element holding 7, read at nesting
level 0.  Compressed or not, the tokens are `BeginMatrix`, 42, `EndMatrix`, 7. -/
theorem C24_compressed_matrix_witness :
    MatParser.tokens Qt.plain Host.linux64 5
        ((MatReader.over [] false 0).d_parser'.before
          (wireCompressed Qt.plain Host.linux64 false
            (wireTag Host.linux64 false .normal miMATRIX 8 ++ [5, 0, 4, 0, 42, 0, 0, 0]) ++
            [6, 0, 4, 0, 7, 0, 0, 0]) 0) =
      MatParser.tokens Qt.plain Host.linux64 5
        ((MatReader.over [] false 0).d_parser'.before
          (wireMatrix Host.linux64 false [5, 0, 4, 0, 42, 0, 0, 0] ++
            [6, 0, 4, 0, 7, 0, 0, 0]) 0) ∧
    MatParser.tokens Qt.plain Host.linux64 5
        ((MatReader.over [] false 0).d_parser'.before
          (wireMatrix Host.linux64 false [5, 0, 4, 0, 42, 0, 0, 0] ++
            [6, 0, 4, 0, 7, 0, 0, 0]) 0) =
      [Token.ofType .BeginMatrix, { d_type := .Value, d_value := .int 42 },
        Token.ofType .EndMatrix, { d_type := .Value, d_value := .uint 7 }] :=
  ⟨(C24_compressed_matrix Qt.plain Host.linux64 (MatReader.over [] false 0).d_parser'
      [5, 0, 4, 0, 42, 0, 0, 0] [6, 0, 4, 0, 7, 0, 0, 0] 0 (fun _ => rfl) rfl (by decide)
      (by decide)).2.2 5,
   rfl⟩

/-! ## Element streams and their tokens -/

/-- The payload of `vals.length` scalars of `size` bytes. -/
theorem flatMap_wireWord_length (host : Host) (swap : Bool) (size : Nat) (vals : List Nat) :
    (vals.flatMap (wireWord host swap size)).length = vals.length * size := by
  induction vals with
  | nil => simp
  | cons v vs ih =>
    rw [List.flatMap_cons, List.length_append, ih, wireWord_length, List.length_cons]
    ring

/-- The scalars of a payload written word by word are the words. -/
theorem scalarsOf_flatMap (host : Host) (swap : Bool) (size : Nat) (mk : Nat → QVariant)
    (hs : 1 ≤ size) (vals : List Nat) (hv : ∀ v ∈ vals, v < 256 ^ size) :
    scalarsOf host swap size mk (vals.flatMap (wireWord host swap size)) = vals.map mk := by
  induction vals with
  | nil => simp [scalarsOf]
  | cons v vs ih =>
    have hl := wireWord_length host swap size v
    rw [List.flatMap_cons, scalarsOf_step host swap size mk _ hs (by
        rw [List.length_append, hl]; omega),
      List.take_left' hl, List.drop_left' hl, ih (fun x hx => hv x (List.mem_cons_of_mem _ hx)),
      wireValue_wireWord_of_lt host swap size v (hv v (List.mem_cons_self _ _))]
    rfl

/-- A payload of bytes written byte by byte is the bytes. -/
theorem flatMap_wireWord_one (host : Host) (swap : Bool) (vals : List Nat)
    (hv : ∀ v ∈ vals, v < 256) : vals.flatMap (wireWord host swap 1) = vals := by
  induction vals with
  | nil => rfl
  | cons v vs ih =>
    have h1 : wireWord host swap 1 v = [v] := by
      have hm : v % 256 = v := Nat.mod_eq_of_lt (hv v (List.mem_cons_self _ _))
      unfold wireWord hostBytes swapByteOrder leBytes leBytes
      rw [hm]
      cases host.bigEndian <;> cases swap <;> rfl
    rw [List.flatMap_cons, h1, ih (fun x hx => hv x (List.mem_cons_of_mem _ hx))]
    rfl

/-- The loop of the `miUTF16` and `miUTF32` cases over a payload of whole code units. -/
theorem readUnits_framed (host : Host) (size : Nat) (swap : Bool) (hs : 1 ≤ size)
    (rest : List Nat) (m : Nat) :
    ∀ (vals : List Nat) (fuel : Nat) (pad : List Nat) (tmp : List Nat),
      (∀ v ∈ vals, v < 256 ^ size) → vals.length + 1 ≤ fuel → (vals = [] → pad = []) →
      _readUnits host size swap fuel
          (InStream.framed (vals.flatMap (wireWord host swap size)) pad rest m) tmp =
        (some (tmp ++ vals), InStream.framed [] [] rest m) := by
  intro vals
  induction vals with
  | nil =>
    intro fuel pad tmp _ hf h0
    obtain ⟨f, rfl⟩ : ∃ f, fuel = f + 1 := ⟨fuel - 1, by simp at hf; omega⟩
    rw [h0 rfl]
    unfold _readUnits
    simp [framed_atEnd]
  | cons v vs ih =>
    intro fuel pad tmp hv hf _
    obtain ⟨f, rfl⟩ : ∃ f, fuel = f + 1 := ⟨fuel - 1, by simp at hf; omega⟩
    have hl := wireWord_length host swap size v
    have hne : (wireWord host swap size v ++ vs.flatMap (wireWord host swap size)).isEmpty =
        false := by
      cases hw : wireWord host swap size v with
      | nil => rw [hw] at hl; simp at hl; omega
      | cons _ _ => rfl
    unfold _readUnits
    rw [List.flatMap_cons, framed_atEnd, hne]
    simp only [Bool.false_eq_true, if_false]
    rw [framed_readStream host swap _ pad rest m size hs (by
      rw [List.length_append, hl]; omega)]
    simp only [bne_self_eq_false, Bool.false_eq_true, if_false, List.take_left' hl,
      List.drop_left' hl, List.length_append, hl, flatMap_wireWord_length,
      wireValue_wireWord_of_lt host swap size v (hv v (List.mem_cons_self _ _))]
    have hvs : ∀ x ∈ vs, x < 256 ^ size := fun x hx => hv x (List.mem_cons_of_mem _ hx)
    have hf' : vs.length + 1 ≤ f := by simp at hf; omega
    by_cases hlt : size < size + vs.length * size
    · rw [if_pos hlt]
      have hne2 : vs ≠ [] := by
        intro h; subst h; simp at hlt
      rw [ih f pad (tmp ++ [v]) hvs hf' (fun h => absurd h hne2)]
      simp
    · rw [if_neg hlt]
      have hvs0 : vs = [] := by
        cases vs with
        | nil => rfl
        | cons a as =>
          exfalso
          apply hlt
          simp only [List.length_cons]
          have : 0 < (as.length + 1) * size := Nat.mul_pos (by omega) (by omega)
          omega
      subst hvs0
      have := ih f [] (tmp ++ [v]) hvs hf' (fun _ => rfl)
      simp only [List.flatMap_nil] at this
      rw [this]
      simp


theorem pow_bits (size : Nat) : 2 ^ (8 * size) = 256 ^ size := by
  rw [Nat.pow_mul]

/-- `readValue` on a primitive element written scalar by scalar: the token of the scalars, and
the stream read to its end. -/
theorem readValue_prim (qt : Qt) (host : Host) (swap : Bool) (limit type : Nat)
    (vals pad rest : List Nat) (m : Nat) (hsz : scalarSize type ≠ 0)
    (hv : ∀ v ∈ vals, v < 2 ^ (8 * scalarSize type)) (h0 : vals = [] → pad = []) :
    MatParser.readValue qt host swap limit
        (InStream.framed (vals.flatMap (wireWord host swap (scalarSize type))) pad rest m) type =
      (primToken qt limit type vals, InStream.framed [] [] rest m) := by
  have hv' : ∀ v ∈ vals, v < 256 ^ scalarSize type := by
    intro v h
    rw [← pow_bits]
    exact hv v h
  have hp0 : ∀ size : Nat, 1 ≤ size → vals.flatMap (wireWord host swap size) = [] → pad = [] := by
    intro size hs h
    apply h0
    have hl := flatMap_wireWord_length host swap size vals
    rw [h] at hl
    simp only [List.length_nil] at hl
    cases vals with
    | nil => rfl
    | cons a as =>
      exfalso
      simp only [List.length_cons] at hl
      have : 0 < (as.length + 1) * size := Nat.mul_pos (by omega) (by omega)
      omega
  by_cases h8 : type = miINT8
  · subst h8
    rw [show scalarSize miINT8 = 1 from rfl] at hv' ⊢
    have hone := flatMap_wireWord_one host swap vals (by simpa using hv')
    rw [hone, readValue_int8 qt host swap limit vals pad rest m h0]
    rfl
  by_cases hu8 : type = miUTF8
  · subst hu8
    rw [show scalarSize miUTF8 = 1 from rfl] at hv' ⊢
    have hone := flatMap_wireWord_one host swap vals (by simpa using hv')
    rw [hone, readValue_utf8 qt host swap limit vals pad rest m h0]
    rfl
  by_cases hu16 : type = miUTF16
  · subst hu16
    rw [show scalarSize miUTF16 = 2 from rfl] at hv' ⊢
    unfold MatParser.readValue
    simp only [show (miUTF16 == miINT8) = false from rfl, show (miUTF16 == miUINT8) = false from rfl,
      show (miUTF16 == miINT16) = false from rfl, show (miUTF16 == miUINT16) = false from rfl,
      show (miUTF16 == miINT32) = false from rfl, show (miUTF16 == miUINT32) = false from rfl,
      show (miUTF16 == miSINGLE) = false from rfl, show (miUTF16 == miDOUBLE) = false from rfl,
      show (miUTF16 == miINT64) = false from rfl, show (miUTF16 == miUINT64) = false from rfl,
      show (miUTF16 == miUTF8) = false from rfl, beq_self_eq_true, Bool.false_eq_true, if_false,
      if_true]
    rw [readUnits_framed host 2 swap (by norm_num) rest m vals _ pad [] hv' (by
      rw [framed_bytesAvailable, flatMap_wireWord_length]; omega) h0]
    rfl
  by_cases hu32 : type = miUTF32
  · subst hu32
    rw [show scalarSize miUTF32 = 4 from rfl] at hv' ⊢
    unfold MatParser.readValue
    simp only [show (miUTF32 == miINT8) = false from rfl, show (miUTF32 == miUINT8) = false from rfl,
      show (miUTF32 == miINT16) = false from rfl, show (miUTF32 == miUINT16) = false from rfl,
      show (miUTF32 == miINT32) = false from rfl, show (miUTF32 == miUINT32) = false from rfl,
      show (miUTF32 == miSINGLE) = false from rfl, show (miUTF32 == miDOUBLE) = false from rfl,
      show (miUTF32 == miINT64) = false from rfl, show (miUTF32 == miUINT64) = false from rfl,
      show (miUTF32 == miUTF8) = false from rfl, show (miUTF32 == miUTF16) = false from rfl,
      beq_self_eq_true, Bool.false_eq_true, if_false, if_true]
    rw [readUnits_framed host 4 swap (by norm_num) rest m vals _ pad [] hv' (by
      rw [framed_bytesAvailable, flatMap_wireWord_length]; omega) h0]
    rfl
  have hb8 : (type == miINT8) = false := by simpa using h8
  have hbu8 : (type == miUTF8) = false := by simpa using hu8
  have hbu16 : (type == miUTF16) = false := by simpa using hu16
  have hbu32 : (type == miUTF32) = false := by simpa using hu32
  have hss : scalarSize type = wireSize type := by
    unfold scalarSize
    simp only [hb8, hbu8, hbu16, hbu32, Bool.or_self, Bool.false_eq_true, if_false]
  rw [hss] at hsz hv' ⊢
  have hs1 : 1 ≤ wireSize type := by omega
  rw [readValue_numeric qt host swap limit type _ pad rest m hsz
    ⟨vals.length, by rw [flatMap_wireWord_length, Nat.mul_comm]⟩ (hp0 _ hs1)]
  unfold wireScalars primToken
  rw [scalarsOf_flatMap host swap _ _ hs1 vals hv']
  simp only [hb8, hbu8, hbu16, hbu32, Bool.false_eq_true, if_false]


/-- The types with scalars are element types other than `miMATRIX` and `miCOMPRESSED`. -/
theorem scalarSize_type (type : Nat) (hsz : scalarSize type ≠ 0) :
    type < 256 ∧ type ≠ miMATRIX ∧ type ≠ miCOMPRESSED := by
  by_cases h : type < 19
  · refine ⟨by omega, ?_, ?_⟩ <;> intro he <;> subst he <;> exact hsz rfl
  · exfalso
    apply hsz
    have hk : ∀ k : Nat, k < 19 → (type == k) = false := by
      intro k hk; rw [beq_eq_false_iff_ne]; omega
    unfold scalarSize wireSize
    simp only [miINT8, miUINT8, miINT16, miUINT16, miINT32, miUINT32, miSINGLE, miDOUBLE, miINT64,
      miUINT64, miUTF8, miUTF16, miUTF32]
    simp [hk]

theorem primToken_type (qt : Qt) (limit type : Nat) (vals : List Nat) :
    (primToken qt limit type vals).d_type = TokenType.Value := by
  unfold primToken
  split_ifs <;> first | rfl | exact readResult_type _

/-- `nextToken` in front of a primitive element written scalar by scalar. -/
theorem nextToken_before_prim (qt : Qt) (host : Host) (p : MatParser) (form : TagForm)
    (type : Nat) (vals rest : List Nat) (m : Nat)
    (hpeek : p.d_peek.d_type = TokenType.Null)
    (hsw : p.d_first.needsByteSwap = p.last.d_needByteSwap)
    (hsz : scalarSize type ≠ 0) (hfit : form.fits (vals.length * scalarSize type) = true)
    (hv : ∀ v ∈ vals, v < 2 ^ (8 * scalarSize type)) :
    MatParser.nextToken qt host
        (p.before (wireElement host p.last.d_needByteSwap form type
          (vals.flatMap (wireWord host p.last.d_needByteSwap (scalarSize type))) ++ rest) m) =
      (primToken qt p.d_limit type vals, p.before rest m) := by
  obtain ⟨ht, hm, hc⟩ := scalarSize_type type hsz
  have hl := flatMap_wireWord_length host p.last.d_needByteSwap (scalarSize type) vals
  have hfit' : form.fits
      (vals.flatMap (wireWord host p.last.d_needByteSwap (scalarSize type))).length = true := by
    rw [hl]; exact hfit
  have h := nextToken_primitive qt host
    (p.before (wireElement host p.last.d_needByteSwap form type
      (vals.flatMap (wireWord host p.last.d_needByteSwap (scalarSize type))) ++ rest) m)
    form type (vals.flatMap (wireWord host p.last.d_needByteSwap (scalarSize type))) rest m
    (primToken qt p.d_limit type vals)
    (by rw [before_peek]; exact hpeek) ht hm hc hfit'
    (by rw [before_last_in, before_last_swap])
    (by
      rw [before_first_swap, before_limit, hsw]
      exact readValue_prim qt host _ _ type vals _ rest m hsz hv (fun h0 => by
        apply wirePadding_nil form _ hfit'
        rw [h0]
        rfl))
  rw [h]
  congr 1
  unfold MatParser.before
  rw [setLast_last, setLast_setLast]

/-- One step of `tokens`. -/
theorem tokens_step (qt : Qt) (host : Host) (fuel : Nat) (p q : MatParser) (t : Token)
    (h : MatParser.nextToken qt host p = (t, q)) (hn : t.d_type ≠ TokenType.Null) :
    MatParser.tokens qt host (fuel + 1) p = t :: MatParser.tokens qt host fuel q := by
  conv_lhs => rw [MatParser.tokens]
  rw [h]
  have : (t.d_type == TokenType.Null) = false := by simpa using hn
  simp only [this, Bool.false_eq_true, if_false]

theorem enter_before (p : MatParser) (a b : List Nat) : (p.enter a).before b 0 = p.enter b := rfl

/-- The encoding of an element stream has the size of the stream. -/
theorem encode_length (host : Host) (swap : Bool) (es : Elems) :
    (es.encode host swap).length = es.size := by
  induction es with
  | done => rfl
  | prim form type vals next ih =>
    unfold Elems.encode Elems.size
    rw [List.length_append, ih]
    congr 1
    cases form <;>
      simp only [wireElement, wireTag, wirePadding, List.length_append, wireWord_length,
        List.length_replicate, flatMap_wireWord_length, elementSize]
  | matrix body next ihb ihn =>
    unfold Elems.encode Elems.size
    rw [List.length_append, ihn]
    congr 1
    simp only [wireMatrix, wireElement, wireTag, wirePadding, List.length_append,
      wireWord_length, List.length_replicate, elementSize, ihb]

/-- Parsing the encoding of a well-formed element stream: wherever the parser stands, with an
empty token buffer and lexers that swap as the encoding needs, it returns the tokens of the
stream and is then left behind the encoding. -/
theorem tokens_encode (qt : Qt) (host : Host) (swap : Bool) (es : Elems) :
    ∀ (p : MatParser) (rest : List Nat) (m fuel : Nat), es.wellFormed = true →
      p.d_peek = Token.new → p.d_first.needsByteSwap = swap → p.last.d_needByteSwap = swap →
      MatParser.tokens qt host ((es.tokens qt p.d_limit).length + fuel)
          (p.before (es.encode host swap ++ rest) m) =
        es.tokens qt p.d_limit ++ MatParser.tokens qt host fuel (p.before rest m) := by
  induction es with
  | done =>
    intro p rest m fuel _ _ _ _
    simp [Elems.tokens, Elems.encode]
  | prim form type vals next ih =>
    intro p rest m fuel hwf hpeek hf hl
    unfold Elems.wellFormed at hwf
    simp only [Bool.and_eq_true, bne_iff_ne, ne_eq, List.all_eq_true, decide_eq_true_eq] at hwf
    obtain ⟨⟨⟨hsz, hfit⟩, hv⟩, hnext⟩ := hwf
    have hpk : p.d_peek.d_type = TokenType.Null := by rw [hpeek]; rfl
    have hstep := nextToken_before_prim qt host p form type vals
      (next.encode host swap ++ rest) m hpk (by rw [hf, hl]) hsz hfit hv
    rw [hl] at hstep
    have hfuel : (Elems.tokens qt p.d_limit (.prim form type vals next)).length + fuel =
        ((next.tokens qt p.d_limit).length + fuel) + 1 := by
      simp only [Elems.tokens, List.length_cons]
      omega
    rw [hfuel]
    unfold Elems.encode
    rw [List.append_assoc, tokens_step qt host _ _ _ _ hstep (by rw [primToken_type]; decide),
      ih p rest m fuel hnext hpeek hf hl]
    rfl
  | matrix body next ihb ihn =>
    intro p rest m fuel hwf hpeek hf hl
    unfold Elems.wellFormed at hwf
    simp only [Bool.and_eq_true, decide_eq_true_eq] at hwf
    obtain ⟨⟨hbody, hsize⟩, hnext⟩ := hwf
    have hpk : p.d_peek.d_type = TokenType.Null := by rw [hpeek]; rfl
    have hbegin := nextToken_before_matrix qt host p (body.encode host swap)
      (next.encode host swap ++ rest) m hpk (by rw [encode_length]; exact hsize)
    rw [hl] at hbegin
    have hpk2 : (p.before (next.encode host swap ++ rest) m).d_peek = Token.new := by
      rw [before_peek]; exact hpeek
    have hend := nextToken_endMatrix qt host
      ((p.before (next.encode host swap ++ rest) m).enter [])
      _ _ (by rw [enter_peek, hpk2]; rfl) rfl rfl
    have hinner := ihb ((p.before (next.encode host swap ++ rest) m).enter []) [] 0
      (1 + ((next.tokens qt p.d_limit).length + fuel)) hbody
      (by rw [enter_peek]; exact hpk2)
      (by rw [enter_first, before_first_swap]; exact hf)
      (by rw [enter_last]; exact (before_first_swap _ _ _).trans hf)
    rw [enter_before, enter_before, List.append_nil, enter_limit, before_limit] at hinner
    have hfuel : (Elems.tokens qt p.d_limit (.matrix body next)).length + fuel =
        ((body.tokens qt p.d_limit).length +
          (1 + ((next.tokens qt p.d_limit).length + fuel))) + 1 := by
      simp only [Elems.tokens, List.length_cons, List.length_append]
      omega
    rw [hfuel]
    unfold Elems.encode
    rw [List.append_assoc, tokens_step qt host _ _ _ _ hbegin (by decide), hinner,
      Nat.add_comm 1, tokens_step qt host _ _ _ _ hend (by decide)]
    have hpop : ({ (p.before (next.encode host swap ++ rest) m).enter [] with
        d_nested := (p.before (next.encode host swap ++ rest) m).d_nested } : MatParser) =
        p.before (next.encode host swap ++ rest) m := rfl
    rw [hpop, ihn p rest m fuel hnext hpeek hf hl]
    simp [Elems.tokens]


/-- At the end of the top-level stream there is no token left. -/
theorem tokens_at_end (qt : Qt) (host : Host) (swap : Bool) (limit fuel : Nat) :
    MatParser.tokens qt host fuel (MatReader.over [] swap limit).d_parser' = [] := by
  cases fuel with
  | zero => rfl
  | succ k => rfl

/-- C23.  For every well-formed element stream -- primitive elements of the defined types in
the small or the normal tag layout, and matrices nested to any depth -- and every limit:
parsing the encoding in which every tag word and every scalar is byte-reversed, with byte-swap
enabled, yields the same token sequence as parsing the encoding in host byte order with
byte-swap disabled, namely the tokens of the stream, one `Value` for each primitive element and
`BeginMatrix` and `EndMatrix` around those of each matrix body. -/
theorem C23_byte_swap (qt : Qt) (host : Host) (limit : Nat) (es : Elems) (fuel : Nat)
    (hwf : es.wellFormed = true) (hfuel : (es.tokens qt limit).length < fuel) :
    MatParser.tokens qt host fuel (MatReader.over (es.encode host true) true limit).d_parser' =
      MatParser.tokens qt host fuel
        (MatReader.over (es.encode host false) false limit).d_parser' ∧
    MatParser.tokens qt host fuel (MatReader.over (es.encode host false) false limit).d_parser' =
      es.tokens qt limit := by
  have key : ∀ swap, MatParser.tokens qt host fuel
      (MatReader.over (es.encode host swap) swap limit).d_parser' = es.tokens qt limit := by
    intro swap
    obtain ⟨k, rfl⟩ : ∃ k, fuel = (es.tokens qt limit).length + k := ⟨_, (Nat.add_sub_cancel'
      (Nat.le_of_lt hfuel)).symm⟩
    have h := tokens_encode qt host swap es (MatReader.over [] swap limit).d_parser' [] 0 k hwf
      rfl rfl rfl
    rw [List.append_nil] at h
    have e : ∀ b, (MatReader.over [] swap limit).d_parser'.before b 0 =
        (MatReader.over b swap limit).d_parser' := fun _ => rfl
    rw [e, e] at h
    have hl : (MatReader.over [] swap limit).d_parser'.d_limit = limit := rfl
    rw [hl] at h
    rw [h, tokens_at_end, List.append_nil]
  exact ⟨(key true).trans (key false).symm, key false⟩

/-- C23 at a concrete input, on a little-endian host: a small `miINT16` element holding 1 and
2, and a matrix holding a `miDOUBLE` element with the pattern of 7.5 and an empty matrix.  The
two encodings differ in every tag and scalar and yield the same five tokens. -/
theorem C23_byte_swap_witness :
    Elems.encode Host.linux64 false
        (.prim .small miINT16 [1, 2]
          (.matrix (.prim .normal miDOUBLE [0x401E000000000000] (.matrix .done .done)) .done)) =
      [3, 0, 4, 0, 1, 0, 2, 0,
       14, 0, 0, 0, 24, 0, 0, 0,
       9, 0, 0, 0, 8, 0, 0, 0, 0, 0, 0, 0, 0, 0, 0x1E, 0x40,
       14, 0, 0, 0, 0, 0, 0, 0] ∧
    Elems.encode Host.linux64 true
        (.prim .small miINT16 [1, 2]
          (.matrix (.prim .normal miDOUBLE [0x401E000000000000] (.matrix .done .done)) .done)) =
      [0, 4, 0, 3, 0, 1, 0, 2,
       0, 0, 0, 14, 0, 0, 0, 24,
       0, 0, 0, 9, 0, 0, 0, 8, 0x40, 0x1E, 0, 0, 0, 0, 0, 0,
       0, 0, 0, 14, 0, 0, 0, 0] ∧
    MatParser.tokens Qt.plain Host.linux64 7
        (MatReader.over (Elems.encode Host.linux64 true
          (.prim .small miINT16 [1, 2]
            (.matrix (.prim .normal miDOUBLE [0x401E000000000000] (.matrix .done .done))
              .done))) true 0).d_parser' =
      MatParser.tokens Qt.plain Host.linux64 7
        (MatReader.over (Elems.encode Host.linux64 false
          (.prim .small miINT16 [1, 2]
            (.matrix (.prim .normal miDOUBLE [0x401E000000000000] (.matrix .done .done))
              .done))) false 0).d_parser' :=
  ⟨by decide, by decide,
   (C23_byte_swap Qt.plain Host.linux64 0
      (.prim .small miINT16 [1, 2]
        (.matrix (.prim .normal miDOUBLE [0x401E000000000000] (.matrix .done .done)) .done))
      7 (by decide) (by decide)).1⟩

/-! ## Numeric matrices under a limit -/

/-- `_toList` decodes bytes as the unsigned or the two's complement value. -/
theorem toList_byteValues (cls limit : Nat) (bytes : List Nat) (hb : ∀ b ∈ bytes, b < 256) :
    _toList bytes (cls != mxUINT8_CLASS) limit = byteValues cls limit bytes := by
  unfold _toList byteValues
  have hl : (if (limit == 0) = true then bytes else List.take limit bytes) =
      (if limit = 0 then bytes else List.take limit bytes) := by
    by_cases h : limit = 0 <;> simp [h]
  rw [hl]
  apply List.map_congr_left
  intro b hmem
  have hb256 : b < 256 := by
    apply hb
    by_cases h : limit = 0
    · rw [if_pos h] at hmem; exact hmem
    · rw [if_neg h] at hmem; exact List.mem_of_mem_take hmem
  by_cases hc : cls = mxUINT8_CLASS
  · simp [hc, Nat.mod_eq_of_lt hb256]
  · have : (cls != mxUINT8_CLASS) = true := by simpa using hc
    simp only [this, if_true, hc, if_false]
    congr 1
    unfold toSigned
    have e : b % 2 ^ 8 = b := Nat.mod_eq_of_lt (by norm_num; exact hb256)
    rw [e]
    by_cases h : b < 128
    · simp [h]
    · simp only [h, if_false]
      have : ¬ b < 2 ^ (8 - 1) := by norm_num; omega
      simp only [this, if_false]
      norm_num

/-- The token of the array flags sub-element under a limit of 0 or at least 2. -/
theorem nextToken_flags_limited (qt : Qt) (host : Host) (p : MatParser) (f0 f1 : Nat)
    (tl : List Nat) (hpeek : p.d_peek = Token.new) (hlimit : p.d_limit = 0 ∨ 2 ≤ p.d_limit)
    (h0 : f0 < 2 ^ 32) (h1 : f1 < 2 ^ 32) :
    MatParser.nextToken qt host (p.enter (wireFlags host p.d_first.needsByteSwap f0 f1 ++ tl)) =
      ({ d_type := .Value, d_value := .list [.uint f0, .uint f1] }, p.enter tl) := by
  have hl : (wireWord host p.d_first.needsByteSwap 4 f0 ++
      wireWord host p.d_first.needsByteSwap 4 f1).length = 8 := by
    rw [List.length_append, wireWord_length, wireWord_length]
  apply nextToken_enter_primitive qt host p .normal miUINT32 _ tl _ hpeek (by decide) (by decide)
    (by decide) (fits_normal _ (by rw [hl]; norm_num))
  rw [readValue_numeric qt host _ _ miUINT32 _ _ tl 0 (by decide) ⟨2, by rw [hl]; rfl⟩
    (fun h => by rw [h] at hl; cases hl)]
  rw [wireScalars_flags host _ f0 f1 h0 h1]
  have : limited p.d_limit [QVariant.uint f0, QVariant.uint f1] =
      [QVariant.uint f0, QVariant.uint f1] := by
    unfold limited
    rcases hlimit with h | h
    · rw [h]; rfl
    · split
      · rfl
      · exact List.take_of_length_le (by simpa using h)
  rw [this]
  rfl

/-- The token of a dimensions sub-element with at least two entries, under a limit of 0 or at
least their number. -/
theorem nextToken_dims_limited (qt : Qt) (host : Host) (p : MatParser) (dims : List Int)
    (tl : List Nat) (hpeek : p.d_peek = Token.new)
    (hlimit : p.d_limit = 0 ∨ dims.length ≤ p.d_limit) (hd : 2 ≤ dims.length)
    (hdl : dims.length < 2 ^ 30) (hr : ∀ d ∈ dims, -(2 ^ 31 : Int) ≤ d ∧ d < 2 ^ 31) :
    MatParser.nextToken qt host (p.enter (wireDims host p.d_first.needsByteSwap dims ++ tl)) =
      ({ d_type := .Value, d_value := .list (dims.map QVariant.int) }, p.enter tl) := by
  have hl := wireInts_length host p.d_first.needsByteSwap dims
  apply nextToken_enter_primitive qt host p .normal miINT32 _ tl _ hpeek (by decide) (by decide)
    (by decide) (fits_normal _ (by rw [hl]; norm_num at hdl ⊢; omega))
  rw [readValue_numeric qt host _ _ miINT32 _ _ tl 0 (by decide) ⟨dims.length, by rw [hl]; rfl⟩
    (fun h => by rw [h] at hl; simp only [List.length_nil] at hl; omega)]
  rw [wireScalars_ints host _ dims hr]
  have : limited p.d_limit (dims.map QVariant.int) = dims.map QVariant.int := by
    unfold limited
    rcases hlimit with h | h
    · rw [h]; rfl
    · split
      · rfl
      · exact List.take_of_length_le (by simpa using h)
  rw [this, readResult_list _ (by rw [List.length_map]; omega)]

/-- `readMatrix` in front of a well-formed head, under a limit that leaves flags and dimensions
whole: it reads the three sub-elements and enters the switch over the class code. -/
theorem readMatrix_head_limited (qt : Qt) (host : Host) (p : MatParser) (err : List Nat)
    (fuel : Nat) (f0 f1 : Nat) (dims : List Int) (nf : TagForm) (name tl : List Nat)
    (hpeek : p.d_peek = Token.new)
    (hlimit : p.d_limit = 0 ∨ (2 ≤ p.d_limit ∧ dims.length ≤ p.d_limit)) (h0 : f0 < 2 ^ 32)
    (h1 : f1 < 2 ^ 32) (hd : 2 ≤ dims.length) (hdl : dims.length < 2 ^ 30)
    (hr : ∀ d ∈ dims, -(2 ^ 31 : Int) ≤ d ∧ d < 2 ^ 31) (hnf : nf.fits name.length = true) :
    MatReader.readMatrix qt host (fuel + 1)
        { d_parser' := p.enter (wireMatrixHead host p.d_first.needsByteSwap f0 f1 dims nf name ++ tl),
          d_error := err } =
      MatReader.classSwitch qt host (MatReader.readMatrix qt host fuel) fuel p.d_limit
        (f0 &&& 0xff)
        { d_name := name, d_logical := f0 &&& 0x200 != 0, d_global := f0 &&& 0x400 != 0,
          d_valid := true }
        (f0 &&& 0x800 != 0) dims { d_parser' := p.enter tl, d_error := err } := by
  have e1 := nextToken_flags_limited qt host p f0 f1
    (wireDims host p.d_first.needsByteSwap dims ++
      (wireElement host p.d_first.needsByteSwap nf miINT8 name ++ tl)) hpeek
    (hlimit.imp id (fun h => h.1)) h0 h1
  have e2 := nextToken_dims_limited qt host p dims
    (wireElement host p.d_first.needsByteSwap nf miINT8 name ++ tl) hpeek
    (hlimit.imp id (fun h => h.2)) hd hdl hr
  have e3 := nextToken_bytes qt host p nf name tl hpeek hnf
  have hassoc : wireMatrixHead host p.d_first.needsByteSwap f0 f1 dims nf name ++ tl =
      wireFlags host p.d_first.needsByteSwap f0 f1 ++
        (wireDims host p.d_first.needsByteSwap dims ++
          (wireElement host p.d_first.needsByteSwap nf miINT8 name ++ tl)) := by
    simp only [wireMatrixHead, List.append_assoc]
  rw [hassoc]
  obtain ⟨first, nested, peek, limit⟩ := p
  simp only at hpeek
  subst hpeek
  simp only [MatParser.enter] at e1 e2 e3 ⊢
  have hne : (dims.map QVariant.int).isEmpty = false := by
    cases dims with
    | nil => simp at hd
    | cons _ _ => rfl
  unfold MatReader.readMatrix
  simp only [MatReader.peekToken, MatReader.nextToken, MatParser.peekToken, e1]
  rw [nextToken_peeked qt host _ (by simp)]
  simp only [e2, e3, QVariant.toList, List.length_cons, List.length_nil, List.headD_cons,
    uint_toUInt qt f0 h0, map_int_toInt qt dims hr, QVariant.type, QVariant.toByteArray, hne]
  simp


theorem toList_length_zero (a : List Nat) (sg : Bool) : (_toList a sg 0).length = a.length := by
  unfold _toList
  simp

theorem payloadList_bytes (bytes : List Nat) (cls limit : Nat) :
    payloadList { d_type := .Value, d_value := .byteArray bytes } cls limit =
      _toList bytes (cls != mxUINT8_CLASS) limit := rfl

/-- `readMatrix` on a numeric matrix whose payload sub-elements are of type `miINT8`, under a
limit that leaves flags and dimensions whole. -/
theorem readMatrix_bytePayload (qt : Qt) (host : Host) (p : MatParser) (err : List Nat)
    (fuel : Nat) (f0 f1 : Nat) (dims : List Int) (nf : TagForm) (name : List Nat)
    (re : WirePayload) (im : Option WirePayload)
    (hpeek : p.d_peek = Token.new)
    (hlimit : p.d_limit = 0 ∨ (2 ≤ p.d_limit ∧ dims.length ≤ p.d_limit)) (h0 : f0 < 2 ^ 32)
    (h1 : f1 < 2 ^ 32) (hd : 2 ≤ dims.length) (hdl : dims.length < 2 ^ 30)
    (hr : ∀ d ∈ dims, -(2 ^ 31 : Int) ≤ d ∧ d < 2 ^ 31) (hnf : nf.fits name.length = true)
    (hcls : 6 ≤ f0 &&& 0xff ∧ f0 &&& 0xff ≤ 15)
    (hre : re.type = miINT8 ∧ re.form.fits re.bytes.length = true)
    (him : ∀ e, im = some e → e.type = miINT8 ∧ e.form.fits e.bytes.length = true)
    (hcomplex : (f0 &&& 0x800 != 0) = im.isSome)
    (hcount : p.d_limit = 0 → (re.bytes.length : Int) = _totalCount dims ∧
      ∀ e, im = some e → (e.bytes.length : Int) = _totalCount dims) :
    MatReader.readMatrix qt host (fuel + 1)
        { d_parser' := p.enter (numericBody host p.d_first.needsByteSwap f0 f1 dims nf name re im),
          d_error := err } =
      .ok (.numericArray
            { d_name := name, d_logical := f0 &&& 0x200 != 0, d_global := f0 &&& 0x400 != 0,
              d_valid := true }
            dims (_toList re.bytes (f0 &&& 0xff != mxUINT8_CLASS) p.d_limit)
            ((im.map fun e => _toList e.bytes (f0 &&& 0xff != mxUINT8_CLASS) p.d_limit).getD []),
           { d_parser' := p.enter [], d_error := err }) := by
  unfold numericBody
  rw [readMatrix_head_limited qt host p err fuel f0 f1 dims nf name _ hpeek hlimit h0 h1 hd hdl
    hr hnf]
  unfold MatReader.classSwitch
  have hc1 : (decide (mxDOUBLE_CLASS ≤ f0 &&& 0xff) && decide (f0 &&& 0xff ≤ mxUINT64_CLASS)) =
      true := by
    simp only [mxDOUBLE_CLASS, mxUINT64_CLASS, Bool.and_eq_true, decide_eq_true_eq]
    exact hcls
  have hd2 : ¬ dims.length < 2 := by omega
  have hchk : ∀ bytes : List Nat, (p.d_limit = 0 → (bytes.length : Int) = _totalCount dims) →
      (p.d_limit == 0 && ((_toList bytes (f0 &&& 0xff != mxUINT8_CLASS) p.d_limit).length : Int)
        != _totalCount dims) = false := by
    intro bytes hb
    by_cases hl : p.d_limit = 0
    · rw [hl, toList_length_zero, hb hl]
      simp
    · have : (p.d_limit == 0) = false := by simpa using hl
      rw [this]
      rfl
  simp only [hc1, if_true, hd2, if_false, MatReader.nextToken]
  obtain ⟨hret, hrefit⟩ := hre
  cases im with
  | none =>
    have htok := nextToken_bytes qt host p re.form re.bytes [] hpeek hrefit
    unfold WirePayload.wire
    rw [hret]
    simp only [List.append_nil] at htok ⊢
    simp only [htok, payloadList_bytes, hchk re.bytes (fun h => (hcount h).1), bne_self_eq_false,
      Bool.or_self, Bool.false_eq_true, if_false, hcomplex, Option.isSome_none,
      Option.map_none', Option.getD_none]
  | some e =>
    obtain ⟨het, hefit⟩ := him e rfl
    have htok := nextToken_bytes qt host p re.form re.bytes
      (wireElement host p.d_first.needsByteSwap e.form miINT8 e.bytes) hpeek hrefit
    have htok2 := nextToken_bytes qt host p e.form e.bytes [] hpeek hefit
    unfold WirePayload.wire
    dsimp only
    rw [hret, het]
    simp only [List.append_nil] at htok2 ⊢
    simp only [htok, htok2, payloadList_bytes, hchk re.bytes (fun h => (hcount h).1),
      hchk e.bytes (fun h => (hcount h).2 e rfl), bne_self_eq_false,
      Bool.or_self, Bool.false_eq_true, if_false, hcomplex, Option.isSome_some, if_true,
      Option.map_some', Option.getD_some]

/-- `nextElement` in front of a top-level matrix element, under any limit, returns what
`readMatrix` makes of the body, if that is followed by the end of the matrix. -/
theorem nextElement_matrix_limited (qt : Qt) (host : Host) (swap : Bool) (limit : Nat)
    (body rest : List Nat) (v : QVariant) (fuel : Nat) (q : MatParser)
    (hlen : body.length < 2 ^ 32)
    (hread : MatReader.readMatrix qt host fuel
        { d_parser' := (MatReader.over rest swap limit).d_parser'.enter body,
          d_error := [] } = .ok (v, { d_parser' := q, d_error := [] }))
    (hend : MatParser.nextToken qt host q =
      (Token.ofType .EndMatrix, (MatReader.over rest swap limit).d_parser')) :
    MatReader.nextElement qt host fuel
        (MatReader.over (wireMatrix host swap body ++ rest) swap limit) =
      .ok (v, MatReader.over rest swap limit) := by
  have hb : MatParser.nextToken qt host
      (MatReader.over (wireMatrix host swap body ++ rest) swap limit).d_parser' =
      (Token.ofType .BeginMatrix, (MatReader.over rest swap limit).d_parser'.enter body) := by
    rw [nextToken_matrix qt host
      (MatReader.over (wireMatrix host swap body ++ rest) swap limit).d_parser' body rest 0 rfl
      hlen rfl]
    rfl
  unfold MatReader.nextElement
  simp only [MatReader.nextToken]
  have e0 : ({ MatReader.over (wireMatrix host swap body ++ rest) swap limit with
      d_error := [] } : MatReader).d_parser' =
      (MatReader.over (wireMatrix host swap body ++ rest) swap limit).d_parser' := rfl
  rw [e0, hb]
  simp only [Token.ofType]
  have e1 : ({ ({ MatReader.over (wireMatrix host swap body ++ rest) swap limit with
      d_error := [] } : MatReader) with
      d_parser' := (MatReader.over rest swap limit).d_parser'.enter body } : MatReader) =
      { d_parser' := (MatReader.over rest swap limit).d_parser'.enter body, d_error := [] } := rfl
  rw [e1, hread]
  simp only [bne_self_eq_false, Bool.false_eq_true, if_false, hend, Token.ofType,
    beq_self_eq_true, if_true]
  rfl


/-- For every numeric matrix (class code 6..15) with a well-formed head whose payload
sub-elements, the real one and the imaginary one if the complex flag is set, are of wire type
`miINT8`, `MatReader::nextElement` returns the NumericArray in which each payload byte `b` is
the unsigned value `b` when the class is UINT8 and the two's complement value of `b` (-128..127)
for every other class, in payload order: all of the bytes with limit 0, when their number is
the product of the dims, and the first `limit` of them under a limit that leaves flags and
dims whole (at least 2 and at least the number of dims). -/
theorem nextElement_bytePayload (qt : Qt) (host : Host) (swap : Bool) (limit fuel : Nat)
    (f0 f1 : Nat) (dims : List Int) (nf : TagForm) (name : List Nat) (re : WirePayload)
    (im : Option WirePayload) (rest : List Nat)
    (h0 : f0 < 2 ^ 32) (h1 : f1 < 2 ^ 32)
    (hcls : 6 ≤ f0 &&& 0xff ∧ f0 &&& 0xff ≤ 15)
    (hd : 2 ≤ dims.length)
    (hr : ∀ d ∈ dims, -(2 ^ 31 : Int) ≤ d ∧ d < 2 ^ 31)
    (hnf : nf.fits name.length = true)
    (hlimit : limit = 0 ∨ (2 ≤ limit ∧ dims.length ≤ limit))
    (hre : re.type = miINT8 ∧ re.form.fits re.bytes.length = true ∧ ∀ b ∈ re.bytes, b < 256)
    (him : ∀ e, im = some e →
      e.type = miINT8 ∧ e.form.fits e.bytes.length = true ∧ ∀ b ∈ e.bytes, b < 256)
    (hcomplex : (f0 &&& 0x800 != 0) = im.isSome)
    (hcount : limit = 0 → (re.bytes.length : Int) = dims.prod ∧ re.bytes.length < 2 ^ 31 ∧
      ∀ e, im = some e → (e.bytes.length : Int) = dims.prod)
    (hlen : (numericBody host swap f0 f1 dims nf name re im).length < 2 ^ 32) :
    MatReader.nextElement qt host (fuel + 1)
        (MatReader.over (wireMatrix host swap (numericBody host swap f0 f1 dims nf name re im) ++
          rest) swap limit) =
      .ok (.numericArray
            { d_name := name, d_logical := f0 &&& 0x200 != 0, d_global := f0 &&& 0x400 != 0,
              d_valid := true }
            dims (byteValues (f0 &&& 0xff) limit re.bytes)
            ((im.map fun e => byteValues (f0 &&& 0xff) limit e.bytes).getD []),
           MatReader.over rest swap limit) := by
  have hdl : dims.length < 2 ^ 30 := by
    have := numericBody_length host swap f0 f1 dims nf name re im
    norm_num at hlen ⊢
    omega
  have hread := readMatrix_bytePayload qt host (MatReader.over rest swap limit).d_parser' []
    fuel f0 f1 dims nf name re im rfl hlimit h0 h1 hd hdl hr hnf hcls ⟨hre.1, hre.2.1⟩
    (fun e he => ⟨(him e he).1, (him e he).2.1⟩) hcomplex
    (fun hl => by
      obtain ⟨c1, c2, c3⟩ := hcount hl
      have htot : _totalCount dims = (re.bytes.length : Int) :=
        totalCount_of_prod dims _ c1.symm c2
      exact ⟨htot.symm, fun e he => (c3 e he).trans (c1.symm.trans htot.symm)⟩)
  have hl : (MatReader.over rest swap limit).d_parser'.d_limit = limit := rfl
  have hs : (MatReader.over rest swap limit).d_parser'.d_first.needsByteSwap = swap := rfl
  rw [hl, hs, toList_byteValues _ _ _ hre.2.2] at hread
  have himap : (im.map fun e => _toList e.bytes (f0 &&& 0xff != mxUINT8_CLASS) limit) =
      im.map fun e => byteValues (f0 &&& 0xff) limit e.bytes := by
    cases im with
    | none => rfl
    | some e =>
      simp only [Option.map_some']
      rw [toList_byteValues _ _ _ (him e rfl).2.2]
  rw [himap] at hread
  refine nextElement_matrix_limited qt host swap limit _ rest _ (fuel + 1)
    ((MatReader.over rest swap limit).d_parser'.enter []) hlen hread ?_
  rw [nextToken_endMatrix qt host _ _ [] rfl rfl rfl]
  rfl

/-! ## Delivery in chunks -/

/-- A rule that serves every read call for up to 8 bytes in full, or with all the bytes that
remain, serves it as a source that delivers everything does. -/
theorem readOn_small (rule : Nat → Nat → Nat)
    (hrule : ∀ rem req, req ≤ 8 → min req rem ≤ rule rem req) (d : Dev) (n : Nat) (hn : n ≤ 8) :
    d.readOn rule n = d.read n := by
  have h := hrule d.bytes.length n hn
  unfold Dev.readOn Dev.read
  have e1 : List.take (min n (rule d.bytes.length n)) d.bytes = List.take n d.bytes :=
    List.take_eq_take.mpr (by omega)
  have e2 : List.drop (min n (rule d.bytes.length n)) d.bytes = List.drop n d.bytes :=
    drop_eq_drop _ _ _ (by omega)
  rw [e1, e2]

theorem lexer_readOn_small (rule : Nat → Nat → Nat)
    (hrule : ∀ rem req, req ≤ 8 → min req rem ≤ rule rem req) (host : Host) (d : Dev)
    (size : Nat) (swap : Bool) (hn : size ≤ 8) :
    MatLexer.readOn rule host d size swap = MatLexer.read host d size swap := by
  unfold MatLexer.readOn MatLexer.read
  rw [readOn_small rule hrule d size hn]

theorem eatPaddingOn_small (rule : Nat → Nat → Nat)
    (hrule : ∀ rem req, req ≤ 8 → min req rem ≤ rule rem req) (s : InStream)
    (hp : s.d_padding ≤ 8) : s.eatPaddingOn rule = s.eatPadding := by
  unfold InStream.eatPaddingOn InStream.eatPadding
  rw [readOn_small rule hrule _ _ hp]


theorem stream_readOn_small (rule : Nat → Nat → Nat)
    (hrule : ∀ rem req, req ≤ 8 → min req rem ≤ rule rem req) (s : InStream) (n : Nat)
    (hn : n ≤ 8) (hs : s.small) : s.readOn rule n = s.read n ∧ (s.read n).2.small := by
  unfold InStream.readOn InStream.read
  rcases hs with hc | hp
  · simp only [hc, if_true]
    exact ⟨trivial, Or.inl rfl⟩
  · by_cases hc : s.d_compressed = true
    · simp only [hc, if_true]
      exact ⟨trivial, Or.inl rfl⟩
    · simp only [hc, Bool.false_eq_true, if_false]
      by_cases hl : s.d_len > 0
      · simp only [hl, if_true]
        have he : ∀ (a : Dev) (b : Nat) (c : Bool) (e : List Nat),
            InStream.eatPaddingOn rule
              { d_in := a, d_len := b, d_padding := s.d_padding, d_compressed := c,
                d_plain := e } =
            InStream.eatPadding
              { d_in := a, d_len := b, d_padding := s.d_padding, d_compressed := c,
                d_plain := e } :=
          fun a b c e => eatPaddingOn_small rule hrule _ hp
        rw [readOn_small rule hrule _ _ (le_trans (Nat.min_le_left _ _) hn), he]
        refine ⟨rfl, ?_⟩
        split
        · right
          unfold InStream.eatPadding
          split
          · exact Nat.zero_le _
          · exact hp
        · exact Or.inr hp
      · simp only [hl, if_false]
        exact ⟨trivial, Or.inr hp⟩

theorem stream_readAllOn_small (rule : Nat → Nat → Nat)
    (hrule : ∀ rem req, req ≤ 8 → min req rem ≤ rule rem req) (s : InStream) (hs : s.small) :
    s.readAllOn rule = s.readAll := by
  unfold InStream.readAllOn
  by_cases hc : s.d_compressed = true
  · simp only [hc, if_true]
  · simp only [hc, Bool.false_eq_true, if_false]
    have hp : s.d_padding ≤ 8 := by
      rcases hs with h | h
      · exact absurd h hc
      · exact h
    unfold InStream.readAll InStream.read InStream.bytesAvailable
    simp only [hc, Bool.false_eq_true, if_false, Nat.min_self]
    by_cases hl : s.d_len > 0
    · simp only [hl, if_true]
      have he : ∀ (a : Dev) (b : Nat) (c : Bool) (e : List Nat),
          InStream.eatPaddingOn rule
            { d_in := a, d_len := b, d_padding := s.d_padding, d_compressed := c,
              d_plain := e } =
          InStream.eatPadding
            { d_in := a, d_len := b, d_padding := s.d_padding, d_compressed := c,
              d_plain := e } :=
        fun a b c e => eatPaddingOn_small rule hrule _ hp
      rw [he]
    · simp only [hl, if_false]

theorem readStreamOn_small (rule : Nat → Nat → Nat)
    (hrule : ∀ rem req, req ≤ 8 → min req rem ≤ rule rem req) (host : Host) (s : InStream)
    (size : Nat) (swap : Bool) (hn : size ≤ 8) (hs : s.small) :
    MatLexer.readStreamOn rule host s size swap = MatLexer.readStream host s size swap ∧
      (MatLexer.readStream host s size swap).2.2.small := by
  obtain ⟨h1, h2⟩ := stream_readOn_small rule hrule s size hn hs
  unfold MatLexer.readStreamOn MatLexer.readStream
  rw [h1]
  refine ⟨rfl, ?_⟩
  dsimp only
  split <;> exact h2

theorem readLoopOn_small (rule : Nat → Nat → Nat)
    (hrule : ∀ rem req, req ≤ 8 → min req rem ≤ rule rem req) (host : Host) (size : Nat)
    (mk : Nat → QVariant) (name : String) (swap : Bool) (limit : Nat) (hn : size ≤ 8) :
    ∀ (fuel : Nat) (s : InStream) (i : Nat) (tmp : List QVariant), s.small →
      _readLoopOn rule host size mk name swap limit fuel s i tmp =
        _readLoop host size mk name swap limit fuel s i tmp := by
  intro fuel
  induction fuel with
  | zero => intro s i tmp _; rfl
  | succ k ih =>
    intro s i tmp hs
    obtain ⟨h1, h2⟩ := readStreamOn_small rule hrule host s size swap hn hs
    unfold _readLoopOn _readLoop
    rw [stream_readAllOn_small rule hrule s hs, h1]
    dsimp only
    split
    · rfl
    · split
      · rfl
      · split
        · rfl
        · exact ih _ _ _ h2

theorem readUnitsOn_small (rule : Nat → Nat → Nat)
    (hrule : ∀ rem req, req ≤ 8 → min req rem ≤ rule rem req) (host : Host) (size : Nat)
    (swap : Bool) (hn : size ≤ 8) :
    ∀ (fuel : Nat) (s : InStream) (tmp : List Nat), s.small →
      _readUnitsOn rule host size swap fuel s tmp = _readUnits host size swap fuel s tmp := by
  intro fuel
  induction fuel with
  | zero => intro s tmp _; rfl
  | succ k ih =>
    intro s tmp hs
    obtain ⟨h1, h2⟩ := readStreamOn_small rule hrule host s size swap hn hs
    unfold _readUnitsOn _readUnits
    rw [h1]
    dsimp only
    split
    · rfl
    · split
      · rfl
      · exact ih _ _ h2

theorem readValueOn_small (rule : Nat → Nat → Nat)
    (hrule : ∀ rem req, req ≤ 8 → min req rem ≤ rule rem req) (qt : Qt) (host : Host)
    (swap : Bool) (limit : Nat) (s : InStream) (type : Nat) (hs : s.small) :
    MatParser.readValueOn rule qt host swap limit s type =
      MatParser.readValue qt host swap limit s type := by
  unfold MatParser.readValueOn MatParser.readValue _readOn _read
  rw [stream_readAllOn_small rule hrule s hs]
  simp only [readLoopOn_small rule hrule host _ _ _ swap limit (by norm_num : 1 ≤ 8) _ s 0 [] hs,
    readLoopOn_small rule hrule host _ _ _ swap limit (by norm_num : 2 ≤ 8) _ s 0 [] hs,
    readLoopOn_small rule hrule host _ _ _ swap limit (by norm_num : 4 ≤ 8) _ s 0 [] hs,
    readLoopOn_small rule hrule host _ _ _ swap limit (le_refl 8) _ s 0 [] hs,
    readUnitsOn_small rule hrule host _ swap (by norm_num : 2 ≤ 8) _ s [] hs,
    readUnitsOn_small rule hrule host _ swap (by norm_num : 4 ≤ 8) _ s [] hs]
  try rfl


theorem nextElementOn_small (rule : Nat → Nat → Nat)
    (hrule : ∀ rem req, req ≤ 8 → min req rem ≤ rule rem req) (qt : Qt) (host : Host)
    (lex : MatLexer) : lex.nextElementOn rule qt host = lex.nextElement qt host := by
  unfold MatLexer.nextElementOn MatLexer.nextElement
  cases hin : lex.d_in with
  | none => rfl
  | some d =>
    have hpk : d.peekOn rule 4 = d.peek 4 := by
      unfold Dev.peekOn
      rw [readOn_small rule hrule d 4 (by norm_num)]
      rfl
    have hc1 := fun (dev : Dev) (len : Nat) => readStreamOn_small rule hrule host
      (InStream.new qt dev len 0 true) 4 lex.d_needByteSwap (by norm_num) (Or.inl rfl)
    have hc2 := fun (dev : Dev) (len : Nat) => (readStreamOn_small rule hrule host
      (MatLexer.readStream host (InStream.new qt dev len 0 true) 4 lex.d_needByteSwap).2.2 4
      lex.d_needByteSwap (by norm_num) (hc1 dev len).2).1
    simp only [hpk, lexer_readOn_small rule hrule host _ 4 _ (by norm_num : 4 ≤ 8),
      (hc1 _ _).1, hc2]

/-- The streams `nextElement` builds are compressed or have a padding of less than 8 bytes. -/
theorem nextElement_small_stream (qt : Qt) (host : Host) (lex : MatLexer) (s : InStream)
    (hs : (MatLexer.nextElement qt host lex).1.d_stream = some s) : s.small := by
  by_cases hc : s.d_compressed = true
  · exact Or.inl hc
  · right
    cases hin : lex.d_in with
    | none =>
      unfold MatLexer.nextElement at hs
      rw [hin] at hs
      cases hs
    | some d =>
      obtain ⟨-, -, f3, -, -⟩ := nextElement_frame qt host lex d s hin hs (by simpa using hc)
      obtain ⟨c1, -⟩ := calcPadding_tagSize s.d_len d.bytes
      rw [f3, c1]
      have hb : tagSize d.bytes ≤ 8 := by
        unfold tagSize
        split <;> omega
      have hpos : 0 < tagSize d.bytes := by
        unfold tagSize
        split <;> omega
      exact le_trans (Nat.le_of_lt (Nat.mod_lt _ hpos)) hb

theorem toDevOn_small (rule : Nat → Nat → Nat)
    (hrule : ∀ rem req, req ≤ 8 → min req rem ≤ rule rem req) (s : InStream) (hs : s.small) :
    s.toDevOn rule = s.toDev := by
  unfold InStream.toDevOn InStream.toDev
  rw [stream_readAllOn_small rule hrule s hs]

/-- Under a rule that serves every read call for up to 8 bytes in full, `nextToken` is what it
is on a source that delivers everything asked for. -/
theorem nextTokenOn_small (rule : Nat → Nat → Nat)
    (hrule : ∀ rem req, req ≤ 8 → min req rem ≤ rule rem req) (qt : Qt) (host : Host)
    (p : MatParser) : p.nextTokenOn rule qt host = p.nextToken qt host := by
  unfold MatParser.nextTokenOn MatParser.nextToken
  rw [nextElementOn_small rule hrule]
  have hsmall : ∀ s, (MatLexer.nextElement qt host p.last).1.d_stream = some s → s.small :=
    fun s hs => nextElement_small_stream qt host p.last s hs
  generalize MatLexer.nextElement qt host p.last = r at hsmall
  cases hst : r.1.d_stream with
  | none =>
    simp only [hst]
    try rfl
  | some s =>
    simp only [hst, toDevOn_small rule hrule s (hsmall s hst),
      readValueOn_small rule hrule qt host _ _ s _ (hsmall s hst)]
    try rfl

theorem tokensOn_small (rule : Nat → Nat → Nat)
    (hrule : ∀ rem req, req ≤ 8 → min req rem ≤ rule rem req) (qt : Qt) (host : Host) :
    ∀ (fuel : Nat) (p : MatParser),
      MatParser.tokensOn rule qt host fuel p = MatParser.tokens qt host fuel p := by
  intro fuel
  induction fuel with
  | zero => intro p; rfl
  | succ k ih =>
    intro p
    unfold MatParser.tokensOn MatParser.tokens
    rw [nextTokenOn_small rule hrule, ih]


/-- For every file and every delivery rule under which every read call for up to 8 bytes is
served in full or with all the bytes that remain (as a file and a memory buffer serve it), the
token sequence is the one of a source that delivers all the bytes asked for, and that is the
token sequence of the parser over a device that is not chunked: under such a rule no call of
the lexer and the parser is served short. -/
theorem tokensOn_served_in_full (rule : Nat → Nat → Nat)
    (hrule : ∀ rem req, req ≤ 8 → min req rem ≤ rule rem req) (qt : Qt) (host : Host)
    (bytes : List Nat) (swap : Bool) (limit fuel : Nat) :
    MatParser.tokensOn rule qt host fuel (MatReader.over bytes swap limit).d_parser' =
      MatParser.tokensOn wholeReads qt host fuel (MatReader.over bytes swap limit).d_parser' ∧
    MatParser.tokensOn wholeReads qt host fuel (MatReader.over bytes swap limit).d_parser' =
      MatParser.tokens qt host fuel (MatReader.over bytes swap limit).d_parser' := by
  have hw : ∀ rem req, req ≤ 8 → min req rem ≤ wholeReads rem req :=
    fun rem req _ => Nat.min_le_left _ _
  rw [tokensOn_small rule hrule, tokensOn_small wholeReads hw]
  exact ⟨rfl, rfl⟩

set_option maxRecDepth 100000

/-! ## Scenarios on peeking, on the writer and on the end of a matrix -/

/-- C27 as stated fails: in front of two small `miINT32` elements holding 42 and 43, the first
`peekToken` returns 42, a second consecutive `peekToken` returns 43, and the `nextToken` call
after them returns 43, not the token of the first peek; the element 42 is lost. -/
theorem C27_double_peek_counterexample :
    (MatParser.peekToken Qt.plain Host.linux64
      (MatReader.over [5, 0, 4, 0, 42, 0, 0, 0, 5, 0, 4, 0, 43, 0, 0, 0] false 0).d_parser').1 =
      { d_type := .Value, d_value := .int 42 } ∧
    (MatParser.nextToken Qt.plain Host.linux64
      (MatParser.peekToken Qt.plain Host.linux64
        (MatParser.peekToken Qt.plain Host.linux64
          (MatReader.over [5, 0, 4, 0, 42, 0, 0, 0, 5, 0, 4, 0, 43, 0, 0, 0] false
            0).d_parser').2).2).1 =
      { d_type := .Value, d_value := .int 43 } ∧
    (MatParser.nextToken Qt.plain Host.linux64
      (MatParser.nextToken Qt.plain Host.linux64
        (MatParser.peekToken Qt.plain Host.linux64
          (MatParser.peekToken Qt.plain Host.linux64
            (MatReader.over [5, 0, 4, 0, 42, 0, 0, 0, 5, 0, 4, 0, 43, 0, 0, 0] false
              0).d_parser').2).2).2).1.d_type = TokenType.Null :=
  ⟨rfl, rfl, rfl⟩

/-- C29.  Given no device (a null pointer), `MatWriter::setDevice` leaves a writer with two
open levels as it was and returns true, where `MatLexer::setDevice` returns false; given a
closed device that cannot be opened it returns false and leaves the writer as it was. -/
theorem C29_null_device_accepted :
    MatWriter.setDevice Qt.plain Host.linux64 [] []
        { d_level := [Level.new, Level.new], d_owner := true } none false true =
      (true, { d_level := [Level.new, Level.new], d_owner := true }) ∧
    (MatLexer.setDevice Host.linux64 (MatLexer.new false) none false true).1 = false ∧
    MatWriter.setDevice Qt.plain Host.linux64 [] []
        { d_level := [Level.new, Level.new], d_owner := true }
        (some { data := [], isOpen := false, canOpen := false }) false true =
      (false, { d_level := [Level.new, Level.new], d_owner := true }) :=
  ⟨rfl, rfl, rfl⟩

/-- C26.  For the field names "abc" and "b", `beginStructure` writes the name length 4 and the
block `abc\0 b\0\0\0`.  For a name of 32 bytes `a` and the name "b" it writes the name length
32 and a block of 63 bytes, not 64: the 31 bytes kept of the first name are followed by no NUL
byte, so the first 32-byte chunk is `a...ab`, and `_split` of MatReader.cpp reads the names
`a...ab` and the empty name from the block. -/
theorem C26_long_name_not_padded :
    ((MatWriter.beginStructure Host.linux64 MatWriter.fresh [[97, 98, 99], [98]] 1 []).d_level.map
      fun l => l.d_out.drop 40) =
      [[5, 0, 4, 0, 4, 0, 0, 0, 1, 0, 0, 0, 8, 0, 0, 0, 97, 98, 99, 0, 98, 0, 0, 0], []] ∧
    ((MatWriter.beginStructure Host.linux64 MatWriter.fresh [List.replicate 32 97, [98]] 1
        []).d_level.map fun l => l.d_out.drop 40) =
      [[5, 0, 4, 0, 32, 0, 0, 0, 1, 0, 0, 0, 63, 0, 0, 0] ++
        (List.replicate 31 97 ++ [98] ++ List.replicate 31 0) ++ [0], []] ∧
    _split 3 (List.replicate 31 97 ++ [98] ++ List.replicate 31 0) 32 =
      some [List.replicate 31 97 ++ [98], []] := by
  refine ⟨?_, ?_, ?_⟩ <;> decide

/-- C30.  The body of the matrix is a small tag of type 1 with the length field 5, the bytes
of "hello" and a small `miINT32` element.  After `BeginMatrix`, the lexer of the body reports
an error for the tag and is left in front of 16 unread bytes; `nextToken` answers `EndMatrix`
and pops it, and the tokens of the stream are `BeginMatrix` and `EndMatrix` alone. -/
theorem C30_popped_with_unread_bytes :
    (MatParser.nextToken Qt.plain Host.linux64
      (MatReader.over (wireMatrix Host.linux64 false
        [1, 0, 5, 0, 104, 101, 108, 108, 111, 0, 0, 0, 5, 0, 4, 0, 42, 0, 0, 0]) false
        0).d_parser') =
      (Token.ofType .BeginMatrix,
        (MatReader.over [] false 0).d_parser'.enter
          [1, 0, 5, 0, 104, 101, 108, 108, 111, 0, 0, 0, 5, 0, 4, 0, 42, 0, 0, 0]) ∧
    (MatLexer.nextElement Qt.plain Host.linux64
      ((MatReader.over [] false 0).d_parser'.enter
        [1, 0, 5, 0, 104, 101, 108, 108, 111, 0, 0, 0, 5, 0, 4, 0, 42, 0, 0, 0]).last) =
      (DataElement.ofError true,
        { d_in := some { bytes := [104, 101, 108, 108, 111, 0, 0, 0, 5, 0, 4, 0, 42, 0, 0, 0],
                         missing := 0 },
          d_needByteSwap := false, d_owner := false }) ∧
    (MatParser.nextToken Qt.plain Host.linux64
      ((MatReader.over [] false 0).d_parser'.enter
        [1, 0, 5, 0, 104, 101, 108, 108, 111, 0, 0, 0, 5, 0, 4, 0, 42, 0, 0, 0])) =
      (Token.ofType .EndMatrix, (MatReader.over [] false 0).d_parser') ∧
    (MatParser.tokens Qt.plain Host.linux64 6
      (MatReader.over (wireMatrix Host.linux64 false
        [1, 0, 5, 0, 104, 101, 108, 108, 111, 0, 0, 0, 5, 0, 4, 0, 42, 0, 0, 0]) false
        0).d_parser') =
      [Token.ofType .BeginMatrix, Token.ofType .EndMatrix] :=
  ⟨rfl, rfl, rfl, rfl⟩

/-! ## Indexing numeric arrays and cell arrays -/

/-- `getReal(i)` for an index inside the list. -/
theorem getReal_inside (a : NumericArray) (i : Nat) (h : i < a.d_real.length) :
    a.getReal (i : Int) = a.d_real[i]? := by
  unfold NumericArray.getReal qlistAt
  have h1 : ¬ ((i : Int) ≥ (a.d_real.length : Int)) := by omega
  have h2 : (0 : Int) ≤ (i : Int) ∧ (i : Int) < (a.d_real.length : Int) := by omega
  rw [if_neg h1, if_pos h2, Int.toNat_ofNat]

/-- `getReal(i)` for an index at or beyond the end of the list. -/
theorem getReal_beyond (a : NumericArray) (i : Int) (h : (a.d_real.length : Int) ≤ i) :
    a.getReal i = some .invalid := by
  unfold NumericArray.getReal
  rw [if_pos h]

/-- `getReal(i)` for a natural index: the element if there is one, else the empty value. -/
theorem getReal_nat (a : NumericArray) (i : Int) (h0 : 0 ≤ i) :
    a.getReal i = some (a.d_real.getD i.toNat .invalid) := by
  obtain ⟨n, rfl⟩ := Int.eq_ofNat_of_zero_le h0
  rw [Int.toNat_ofNat]
  by_cases h : n < a.d_real.length
  · rw [getReal_inside a n h, List.getD_eq_getElem _ _ h, List.getElem?_eq_getElem h]
  · rw [getReal_beyond a n (by omega), List.getD_eq_default _ _ (by omega)]

/-- `getValue(i)` for an index below 2^31: the cell if there is one, else the empty value. -/
theorem getValue_small (a : CellArray) (i : Nat) (h : i < 2 ^ 31) :
    a.getValue i = some (a.d_cells.getD i .invalid) := by
  unfold CellArray.getValue qlistAt
  rw [Nat.mod_eq_of_lt (show i < 2 ^ 32 by omega), toSigned_of_lt 32 i (by simpa using h)]
  by_cases hc : i < a.d_cells.length
  · have h1 : (i : Int) < (a.d_cells.length : Int) := by omega
    have h2 : (0 : Int) ≤ (i : Int) ∧ (i : Int) < (a.d_cells.length : Int) := by omega
    rw [if_pos h1, if_pos h2, Int.toNat_ofNat, List.getD_eq_getElem _ _ hc,
      List.getElem?_eq_getElem hc]
  · have h1 : ¬ (i : Int) < (a.d_cells.length : Int) := by omega
    rw [if_neg h1, List.getD_eq_default _ _ (by omega)]

/-- `getValue(i)` for an index of 2^31 or more: `int(i)` is negative, the test against the
number of cells passes and the list is indexed out of range. -/
theorem getValue_large (a : CellArray) (i : Nat) (h1 : 2 ^ 31 ≤ i) (h2 : i < 2 ^ 32) :
    a.getValue i = none := by
  unfold CellArray.getValue qlistAt
  rw [Nat.mod_eq_of_lt h2]
  have hs : toSigned 32 i = (i : Int) - 2 ^ 32 := by
    unfold toSigned
    rw [Nat.mod_eq_of_lt h2]
    have : ¬ i < 2 ^ (32 - 1) := by norm_num at h1 ⊢; omega
    rw [if_neg this]
    norm_num
  rw [hs]
  have hneg : (i : Int) - 2 ^ 32 < (a.d_cells.length : Int) := by
    have : (i : Int) < 2 ^ 32 := by exact_mod_cast h2
    have : (0 : Int) ≤ (a.d_cells.length : Int) := Int.natCast_nonneg _
    linarith
  have hout : ¬ ((0 : Int) ≤ (i : Int) - 2 ^ 32 ∧ (i : Int) - 2 ^ 32 < (a.d_cells.length : Int)) := by
    have : (i : Int) < 2 ^ 32 := by exact_mod_cast h2
    intro h
    linarith [h.1]
  rw [if_pos hneg, if_neg hout]

/-- C40.  On a cell array with the dims `[1, 1]` and the one cell 7, `getValue(0)` returns the
cell and `getValue(1)` the empty value, but `getValue(0x80000000)` and `getValue(0xFFFFFFFF)`
index the cell list out of range, as do `getValue(0x80000000, 0)` and `getValue(0, 0xFFFFFFFF)`:
the index is compared as `int(i)`, which is negative from 2^31 on. -/
theorem C40_large_index_out_of_range :
    CellArray.getValue { base := Matrix.new, d_dims := [1, 1], d_cells := [.int 7] } 0 =
      some (.int 7) ∧
    CellArray.getValue { base := Matrix.new, d_dims := [1, 1], d_cells := [.int 7] } 1 =
      some .invalid ∧
    CellArray.getValue { base := Matrix.new, d_dims := [1, 1], d_cells := [.int 7] }
      0x80000000 = none ∧
    CellArray.getValue { base := Matrix.new, d_dims := [1, 1], d_cells := [.int 7] }
      0xFFFFFFFF = none ∧
    CellArray.getValue2 { base := Matrix.new, d_dims := [1, 1], d_cells := [.int 7] }
      0x80000000 0 = none ∧
    CellArray.getValue2 { base := Matrix.new, d_dims := [1, 1], d_cells := [.int 7] }
      0 0xFFFFFFFF = none ∧
    CellArray.getValue2 { base := Matrix.new, d_dims := [1, 1], d_cells := [.int 7] } 0 0 =
      some (.int 7) :=
  ⟨rfl, rfl, rfl, rfl, rfl, rfl, rfl⟩

/-! ## The bytes of one value and the declared payload length -/

/-- For every scalar kind `isNumeric` accepts, `matTypeFromMetaType` gives a numeric class, and
`writeData` emits the bytes per element it gives, except for `long` and `unsigned long`, which
are written with `sizeof(long)` bytes. -/
theorem writeData_length (qt : Qt) (host : Host) (out : List Nat) (v : QVariant)
    (hn : MatWriter.isNumeric v.type = true) :
    (MatWriter.matTypeFromMetaType v.type).isNumArray = true ∧
      (MatWriter.writeData qt host out v).length = out.length +
        (if v.type = MetaType.Long ∨ v.type = MetaType.ULong then host.sizeofLong
          else (MatWriter.matTypeFromMetaType v.type).d_len) := by
  cases v <;> first
    | (simp [QVariant.type, MatWriter.isNumeric] at hn; done)
    | (refine ⟨rfl, ?_⟩
       simp [MatWriter.writeData, MatWriter.write, hostBytes_length, QVariant.type,
         MatWriter.matTypeFromMetaType])

/-- With 4-byte `long` the bytes per element agree with `writeData` for every scalar kind. -/
theorem writeData_length_long4 (qt : Qt) (host : Host) (out : List Nat) (v : QVariant)
    (hn : MatWriter.isNumeric v.type = true) (hl : host.sizeofLong = 4) :
    (MatWriter.writeData qt host out v).length =
      out.length + (MatWriter.matTypeFromMetaType v.type).d_len := by
  rw [(writeData_length qt host out v hn).2]
  split
  · rename_i h
    rcases h with h | h <;> rw [h, hl] <;> rfl
  · rfl

set_option maxRecDepth 100000

/-- C34.  `isNumeric` accepts `long` and `unsigned long`, and `matTypeFromMetaType` gives four
bytes per element for them, but on a host with 8-byte `long` `writeData` emits eight bytes for
one value.  The 1x1 array of the `long` value 1 declares a payload of 4 bytes in its tag and
holds 8 payload bytes once its one element is added (no element is left to add). -/
theorem C34_long_written_with_eight_bytes :
    MatWriter.isNumeric MetaType.Long = true ∧
    (MatWriter.matTypeFromMetaType MetaType.Long).isNumArray = true ∧
    (MatWriter.matTypeFromMetaType MetaType.Long).d_len = 4 ∧
    (MatWriter.writeData Qt.plain Host.linux64 [] (.long 1)).length = 8 ∧
    MatWriter.isNumeric MetaType.ULong = true ∧
    (MatWriter.matTypeFromMetaType MetaType.ULong).d_len = 4 ∧
    (MatWriter.writeData Qt.plain Host.linux64 [] (.uLong 1)).length = 8 ∧
    ((MatWriter.beginNumArray Host.linux64 MatWriter.fresh [1, 1] MetaType.Long []).d_level.map
      fun l => (l.d_out.drop 40, l.d_type.d_len, l.d_dims)) =
      [([5, 0, 4, 0], 4, [1]), ([], 0, [])] ∧
    ((MatWriter.addNumArrayElement Qt.plain Host.linux64
      (MatWriter.beginNumArray Host.linux64 MatWriter.fresh [1, 1] MetaType.Long [])
      (.long 1)).d_level.map fun l => (l.d_out.drop 40, l.d_type.d_len, l.d_dims)) =
      [([5, 0, 4, 0, 1, 0, 0, 0, 0, 0, 0, 0], 4, [0]), ([], 0, [])] := by
  refine ⟨rfl, rfl, rfl, ?_, rfl, rfl, ?_, ?_, ?_⟩ <;> decide

/-! ## Rejected elements of a numeric array -/

/-- The loop over a list stops at the first incompatible element, after writing the elements
before it. -/
theorem addListElements_reject (qt : Qt) (host : Host) (mx : Nat) (pre : List QVariant)
    (bad : QVariant) (post : List QVariant) (out : List Nat)
    (hpre : ∀ v ∈ pre, (MatWriter.matTypeFromMetaType v.type).d_mxType = mx)
    (hbad : (MatWriter.matTypeFromMetaType bad.type).d_mxType ≠ mx) :
    addListElements qt host mx (pre ++ bad :: post) out =
      (pre.foldl (MatWriter.writeData qt host) out, false) := by
  induction pre generalizing out with
  | nil =>
    have : ((MatWriter.matTypeFromMetaType bad.type).d_mxType != mx) = true := by simpa using hbad
    simp [addListElements, this]
  | cons v vs ih =>
    have hv : ((MatWriter.matTypeFromMetaType v.type).d_mxType != mx) = false := by
      simpa using hpre v (List.mem_cons_self _ _)
    rw [List.cons_append, addListElements, hv]
    simp only [Bool.false_eq_true, if_false, List.foldl_cons]
    exact ih _ (fun x hx => hpre x (List.mem_cons_of_mem _ hx))

/-- What `addNumArrayElement` leaves behind when it rejects its argument.  The writer is
unchanged when the current level is not a numeric array, when a scalar is of an incompatible
type and when a byte sequence is added to an array of another class than UINT8.  For a list
whose first incompatible element follows the elements `pre`, the element count of the level is
unchanged, but the bytes of `pre` have been written to it. -/
theorem addNumArrayElement_rejected (qt : Qt) (host : Host) (l : Level) (rest : List Level)
    (own : Bool) :
    (∀ v, l.d_type.isNumArray = false →
      MatWriter.addNumArrayElement qt host { d_level := l :: rest, d_owner := own } v =
        { d_level := l :: rest, d_owner := own }) ∧
    (∀ v, v.type ≠ MetaType.List → v.type ≠ MetaType.ByteArray →
      (MatWriter.matTypeFromMetaType v.type).d_mxType ≠ l.d_type.d_mxType →
      MatWriter.addNumArrayElement qt host { d_level := l :: rest, d_owner := own } v =
        { d_level := l :: rest, d_owner := own }) ∧
    (∀ b, l.d_type.d_mxType ≠ mxUINT8_CLASS →
      MatWriter.addNumArrayElement qt host { d_level := l :: rest, d_owner := own }
          (.byteArray b) =
        { d_level := l :: rest, d_owner := own }) ∧
    (∀ pre bad post, l.d_type.isNumArray = true →
      (∀ v ∈ pre, (MatWriter.matTypeFromMetaType v.type).d_mxType = l.d_type.d_mxType) →
      (MatWriter.matTypeFromMetaType bad.type).d_mxType ≠ l.d_type.d_mxType →
      MatWriter.addNumArrayElement qt host { d_level := l :: rest, d_owner := own }
          (.list (pre ++ bad :: post)) =
        { d_level :=
            { l with d_out := pre.foldl (MatWriter.writeData qt host) l.d_out } :: rest,
          d_owner := own }) := by
  refine ⟨?_, ?_, ?_, ?_⟩
  · intro v h
    simp [MatWriter.addNumArrayElement, MatWriter.onLast, h]
  · intro v h1 h2 h3
    have e1 : (v.type == MetaType.List) = false := by simpa using h1
    have e2 : (v.type == MetaType.ByteArray) = false := by simpa using h2
    have e3 : ((MatWriter.matTypeFromMetaType v.type).d_mxType != l.d_type.d_mxType) = true := by
      simpa using h3
    simp [MatWriter.addNumArrayElement, MatWriter.onLast, e1, e2, e3]
  · intro b h
    have e3 : (l.d_type.d_mxType == mxUINT8_CLASS) = false := by simpa using h
    simp [MatWriter.addNumArrayElement, MatWriter.onLast, QVariant.type, e3]
  · intro pre bad post h hpre hbad
    simp [MatWriter.addNumArrayElement, MatWriter.onLast, QVariant.type, QVariant.toList, h,
      addListElements_reject qt host _ pre bad post l.d_out hpre hbad]

/-- C38.  An array of two `int` elements is begun on a little-endian host, which leaves a level
of 48 bytes with the element count 2.  Adding the list of the `int` 1 and a `double` is
rejected for its second element: the count stays 2, but the four bytes of the first element
have been written to the level.  A list whose first element is the `double`, a `double`
scalar and a byte sequence are rejected with the level unchanged, and so is an element added
to a level that is no numeric array. -/
theorem C38_list_start_written :
    ((MatWriter.beginNumArray Host.linux64 MatWriter.fresh [2, 1] MetaType.Int []).d_level.map
      fun l => (l.d_out.drop 40, l.d_dims)) = [([5, 0, 0, 0, 8, 0, 0, 0], [2]), ([], [])] ∧
    ((MatWriter.addNumArrayElement Qt.plain Host.linux64
      (MatWriter.beginNumArray Host.linux64 MatWriter.fresh [2, 1] MetaType.Int [])
      (.list [.int 1, .double 0])).d_level.map fun l => (l.d_out.drop 40, l.d_dims)) =
      [([5, 0, 0, 0, 8, 0, 0, 0, 1, 0, 0, 0], [2]), ([], [])] ∧
    MatWriter.addNumArrayElement Qt.plain Host.linux64
      (MatWriter.beginNumArray Host.linux64 MatWriter.fresh [2, 1] MetaType.Int [])
      (.list [.double 0, .int 1]) =
      MatWriter.beginNumArray Host.linux64 MatWriter.fresh [2, 1] MetaType.Int [] ∧
    MatWriter.addNumArrayElement Qt.plain Host.linux64
      (MatWriter.beginNumArray Host.linux64 MatWriter.fresh [2, 1] MetaType.Int [])
      (.double 0) =
      MatWriter.beginNumArray Host.linux64 MatWriter.fresh [2, 1] MetaType.Int [] ∧
    MatWriter.addNumArrayElement Qt.plain Host.linux64
      (MatWriter.beginNumArray Host.linux64 MatWriter.fresh [2, 1] MetaType.Int [])
      (.byteArray [1, 2]) =
      MatWriter.beginNumArray Host.linux64 MatWriter.fresh [2, 1] MetaType.Int [] ∧
    MatWriter.addNumArrayElement Qt.plain Host.linux64 MatWriter.fresh (.int 1) =
      MatWriter.fresh := by
  refine ⟨?_, ?_, ?_, ?_, ?_, ?_⟩ <;> decide

/-! ## The field-name split on any names block -/

/-- For a chunk length of at least 1, the `k`-th chunk starts inside a block of `len` bytes if
and only if `k` is below `len / n` rounded up. -/
theorem chunk_start_lt (n len k : Nat) (hn : 1 ≤ n) : k * n < len ↔ k < (len + n - 1) / n := by
  have h1 : k < (len + n - 1) / n ↔ (k + 1) * n ≤ len + n - 1 := by
    rw [Nat.lt_iff_add_one_le, Nat.le_div_iff_mul_le (by omega)]
  rw [h1, Nat.add_mul, Nat.one_mul]
  omega

/-- The loop of `_split` for a positive chunk length, entered at the start of the `k`-th chunk
with `d` chunks to go: it appends, for each of them, the bytes from the start of the chunk up
to the first NUL byte of the block behind that start. -/
theorem splitLoop_chunks (n : Nat) (hn : 1 ≤ n) (B : List Nat) :
    ∀ (d k fuel : Nat) (res : List (List Nat)), (B.length + n - 1) / n = k + d → d < fuel →
      _splitLoop B (n : Int) fuel ((k * n : Nat) : Int) res =
        some (res ++ (List.range' k d).map
          (fun i => (B.drop (i * n)).takeWhile (fun b => b != 0))) := by
  intro d
  induction d with
  | zero =>
    intro k fuel res hc hf
    obtain ⟨g, rfl⟩ : ∃ g, fuel = g + 1 := ⟨fuel - 1, by omega⟩
    have hnot : ¬ k * n < B.length := by
      rw [chunk_start_lt n B.length k hn, hc]
      omega
    have hnot2 : ¬ ((k * n : Nat) : Int) < (B.length : Int) := by omega
    rw [_splitLoop, if_neg hnot2]
    simp
  | succ d ih =>
    intro k fuel res hc hf
    obtain ⟨g, rfl⟩ : ∃ g, fuel = g + 1 := ⟨fuel - 1, by omega⟩
    have hlt : k * n < B.length := by
      rw [chunk_start_lt n B.length k hn, hc]
      omega
    have hlt2 : ((k * n : Nat) : Int) < (B.length : Int) := by omega
    have hpos : ((k * n : Nat) : Int) + (n : Int) = (((k + 1) * n : Nat) : Int) := by
      push_cast
      ring
    rw [_splitLoop, if_pos hlt2, Int.toNat_ofNat, hpos,
      ih (k + 1) g _ (by omega) (by omega), List.range'_succ]
    simp

/-- `_split` for a chunk length `n` of at least 1 returns after at most `|B| + 1` tests of its
loop condition, with `|B| / n` rounded up names; the `i`-th of them holds the bytes from the
start of the `i`-th chunk up to the first NUL byte of the block behind that start, or up to
the end of the block if there is none. -/
theorem split_chunks (n : Nat) (hn : 1 ≤ n) (B : List Nat) (fuel : Nat)
    (hf : (B.length + n - 1) / n < fuel) :
    _split fuel B (n : Int) =
      some ((List.range ((B.length + n - 1) / n)).map
        (fun i => (B.drop (i * n)).takeWhile (fun b => b != 0))) := by
  have := splitLoop_chunks n hn B ((B.length + n - 1) / n) 0 fuel [] (by omega) hf
  rw [Nat.zero_mul] at this
  rw [_split, List.range_eq_range']
  simpa using this

/-- The bytes of a list up to the first that fails a test lie within the first `n` bytes if
one of these fails the test. -/
theorem takeWhile_take (p : Nat → Bool) (l : List Nat) (n : Nat)
    (h : ∃ x ∈ l.take n, p x = false) : l.takeWhile p = (l.take n).takeWhile p := by
  induction l generalizing n with
  | nil => simp
  | cons a as ih =>
    cases n with
    | zero => simp at h
    | succ m =>
      rw [List.take_succ_cons, List.takeWhile_cons, List.takeWhile_cons]
      cases hp : p a with
      | true =>
        simp only [if_true]
        congr 1
        apply ih
        obtain ⟨x, hx, hpx⟩ := h
        rw [List.take_succ_cons, List.mem_cons] at hx
        rcases hx with rfl | hx
        · rw [hp] at hpx; cases hpx
        · exact ⟨x, hx, hpx⟩
      | false => simp

/-- Where every chunk of the block holds a NUL byte, the `i`-th name `_split` returns is the
`i`-th chunk up to its first NUL byte. -/
theorem split_chunks_terminated (n : Nat) (hn : 1 ≤ n) (B : List Nat) (fuel : Nat)
    (hf : (B.length + n - 1) / n < fuel)
    (hz : ∀ i, i < (B.length + n - 1) / n → 0 ∈ (B.drop (i * n)).take n) :
    _split fuel B (n : Int) =
      some ((List.range ((B.length + n - 1) / n)).map
        (fun i => ((B.drop (i * n)).take n).takeWhile (fun b => b != 0))) := by
  rw [split_chunks n hn B fuel hf]
  congr 1
  apply List.map_congr_left
  intro i hi
  exact takeWhile_take _ _ n ⟨0, hz i (List.mem_range.mp hi), rfl⟩

/-- For the chunk length 0 the loop of `_split` never ends on a block that is not empty: the
position stays 0. -/
theorem splitLoop_zero (B : List Nat) (hB : B ≠ []) (fuel : Nat) (res : List (List Nat)) :
    _splitLoop B 0 fuel 0 res = none := by
  induction fuel generalizing res with
  | zero => rfl
  | succ g ih =>
    have hlt : (0 : Int) < (B.length : Int) := by
      have := List.length_pos.mpr hB
      omega
    rw [_splitLoop, if_pos hlt, Int.zero_add]
    exact ih _

/-- `_split` with the chunk length 0 does not return for a block that is not empty. -/
theorem split_zero (B : List Nat) (hB : B ≠ []) (fuel : Nat) : _split fuel B 0 = none :=
  splitLoop_zero B hB fuel []

/-- For a negative chunk length the loop of `_split` never ends on a block that is not empty:
the position, once at or below 0, only falls. -/
theorem splitLoop_negative (B : List Nat) (hB : B ≠ []) (n : Int) (hn : n < 0) (fuel : Nat)
    (pos : Int) (hpos : pos ≤ 0) (res : List (List Nat)) :
    _splitLoop B n fuel pos res = none := by
  induction fuel generalizing pos res with
  | zero => rfl
  | succ g ih =>
    have hlt : pos < (B.length : Int) := by
      have := List.length_pos.mpr hB
      omega
    rw [_splitLoop, if_pos hlt]
    exact ih _ (by omega) _

/-- `_split` with a negative chunk length returns no result for a block that is not empty,
whatever the step budget. -/
theorem split_negative (B : List Nat) (hB : B ≠ []) (n : Int) (hn : n < 0) (fuel : Nat) :
    _split fuel B n = none :=
  splitLoop_negative B hB n hn fuel 0 (le_refl _) []

/-! ## Reading a structure with any names block -/

/-- `readMatrix` on the body of a STRUCT matrix -- head, field-name length `n`, names block --
hands the block to `_split` and the names to `readFields`. -/
theorem readMatrix_struct_block (qt : Qt) (host : Host) (fuel : Nat) (p : MatParser)
    (f0 f1 : Nat) (dims : List Int) (nf : TagForm) (name : List Nat) (lf : TagForm) (n : Nat)
    (bf : TagForm) (block tl : List Nat)
    (hpeek : p.d_peek = Token.new) (hlimit : p.d_limit = 0) (h0 : f0 < 2 ^ 32)
    (h1 : f1 < 2 ^ 32) (hd : 2 ≤ dims.length) (hdl : dims.length < 2 ^ 30)
    (hr : ∀ d ∈ dims, -(2 ^ 31 : Int) ≤ d ∧ d < 2 ^ 31) (hnf : nf.fits name.length = true)
    (hcls : f0 &&& 0xff = mxSTRUCT_CLASS) (hlf : lf.fits 4 = true) (hn : n < 2 ^ 31)
    (hbf : bf.fits block.length = true) :
    MatReader.readMatrix qt host (fuel + 1)
        { d_parser' := p.enter (wireMatrixHead host p.d_first.needsByteSwap f0 f1 dims nf name ++
            (wireElement host p.d_first.needsByteSwap lf miINT32
                (wireWord host p.d_first.needsByteSwap 4 n) ++
              (wireElement host p.d_first.needsByteSwap bf miINT8 block ++ tl))),
          d_error := [] } =
      match _split fuel block (n : Int) with
      | none => .error .fuel
      | some names =>
        match MatReader.readFields qt host (MatReader.readMatrix qt host fuel) fuel
            { d_parser' := p.enter tl, d_error := [] } names with
        | .error e => .error e
        | .ok (false, _, r6) => .ok (.invalid, r6)
        | .ok (true, fields, r6) =>
          .ok (.matStructure
            { d_name := name, d_logical := f0 &&& 0x200 != 0, d_global := f0 &&& 0x400 != 0,
              d_valid := true } [] fields, r6) := by
  rw [readMatrix_head qt host p [] fuel f0 f1 dims nf name _ hpeek hlimit h0 h1 hd hdl hr hnf]
  unfold MatReader.classSwitch
  rw [hcls]
  have hA : (decide (mxDOUBLE_CLASS ≤ mxSTRUCT_CLASS) &&
      decide (mxSTRUCT_CLASS ≤ mxUINT64_CLASS)) = false := by decide
  have hB : (mxSTRUCT_CLASS == mxSPARSE_CLASS) = false := by decide
  have hC : (mxSTRUCT_CLASS == mxCELL_CLASS) = false := by decide
  have hD : (mxSTRUCT_CLASS == mxCHAR_CLASS) = false := by decide
  have hT1 : ((QVariant.int (n : Int)).type != MetaType.Int) = false := by
    simp [QVariant.type]
  have hT2 : ((QVariant.byteArray block).type != MetaType.ByteArray) = false := by
    simp [QVariant.type]
  have hI : (QVariant.int (n : Int)).toInt qt = (n : Int) :=
    int_toInt qt n (by have : (0 : Int) ≤ (n : Int) := Int.natCast_nonneg _; linarith)
      (by exact_mod_cast hn)
  simp only [hA, hB, hC, hD, Bool.false_eq_true, if_false, beq_self_eq_true, if_true,
    MatReader.nextToken, nextToken_int qt host p lf n _ hpeek hlimit hn hlf,
    nextToken_bytes qt host p bf block _ hpeek hbf, hT1, hT2,
    bne_self_eq_false, Bool.or_self, hI, QVariant.toByteArray]

/-- `nextElement` in front of a top-level matrix element on whose body `readMatrix` does not
return: it does not return either. -/
theorem nextElement_matrix_fault (qt : Qt) (host : Host) (swap : Bool) (limit : Nat)
    (body rest : List Nat) (f : Fault) (fuel : Nat) (hlen : body.length < 2 ^ 32)
    (hread : MatReader.readMatrix qt host fuel
        { d_parser' := (MatReader.over rest swap limit).d_parser'.enter body,
          d_error := [] } = .error f) :
    MatReader.nextElement qt host fuel
        (MatReader.over (wireMatrix host swap body ++ rest) swap limit) = .error f := by
  have hb : MatParser.nextToken qt host
      (MatReader.over (wireMatrix host swap body ++ rest) swap limit).d_parser' =
      (Token.ofType .BeginMatrix, (MatReader.over rest swap limit).d_parser'.enter body) := by
    rw [nextToken_matrix qt host
      (MatReader.over (wireMatrix host swap body ++ rest) swap limit).d_parser' body rest 0 rfl
      hlen rfl]
    rfl
  unfold MatReader.nextElement
  simp only [MatReader.nextToken]
  have e0 : ({ MatReader.over (wireMatrix host swap body ++ rest) swap limit with
      d_error := [] } : MatReader).d_parser' =
      (MatReader.over (wireMatrix host swap body ++ rest) swap limit).d_parser' := rfl
  rw [e0, hb]
  simp only [Token.ofType]
  have e1 : ({ ({ MatReader.over (wireMatrix host swap body ++ rest) swap limit with
      d_error := [] } : MatReader) with
      d_parser' := (MatReader.over rest swap limit).d_parser'.enter body } : MatReader) =
      { d_parser' := (MatReader.over rest swap limit).d_parser'.enter body, d_error := [] } := rfl
  rw [e1, hread]

/-- A STRUCT matrix with the field-name length 0 and a names block that is not empty is never
read to its end, whatever the step budget. -/
theorem nextElement_struct_zero (qt : Qt) (host : Host) (swap : Bool) (fuel : Nat)
    (f0 f1 : Nat) (dims : List Int) (nf : TagForm) (name : List Nat) (lf bf : TagForm)
    (block tl rest : List Nat) (h0 : f0 < 2 ^ 32) (h1 : f1 < 2 ^ 32) (hd : 2 ≤ dims.length)
    (hdl : dims.length < 2 ^ 30) (hr : ∀ d ∈ dims, -(2 ^ 31 : Int) ≤ d ∧ d < 2 ^ 31)
    (hnf : nf.fits name.length = true) (hcls : f0 &&& 0xff = mxSTRUCT_CLASS)
    (hlf : lf.fits 4 = true) (hbf : bf.fits block.length = true) (hB : block ≠ [])
    (hlen : (wireMatrixHead host swap f0 f1 dims nf name ++
      (wireElement host swap lf miINT32 (wireWord host swap 4 0) ++
        (wireElement host swap bf miINT8 block ++ tl))).length < 2 ^ 32) :
    MatReader.nextElement qt host fuel
        (MatReader.over (wireMatrix host swap
          (wireMatrixHead host swap f0 f1 dims nf name ++
            (wireElement host swap lf miINT32 (wireWord host swap 4 0) ++
              (wireElement host swap bf miINT8 block ++ tl))) ++ rest) swap 0) =
      .error .fuel := by
  apply nextElement_matrix_fault qt host swap 0 _ rest .fuel fuel hlen
  cases fuel with
  | zero => rfl
  | succ g =>
    have := readMatrix_struct_block qt host g (MatReader.over rest swap 0).d_parser' f0 f1 dims
      nf name lf 0 bf block tl rfl rfl h0 h1 hd hdl hr hnf hcls hlf (by norm_num) hbf
    rw [show ((0 : Nat) : Int) = 0 from rfl, split_zero block hB g] at this
    exact this

/-! ## The nesting level of the parser -/

theorem readLoop_type (host : Host) (size : Nat) (mk : Nat → QVariant) (name : String)
    (swap : Bool) (limit fuel : Nat) (s : InStream) (i : Nat) (tmp : List QVariant) :
    (_readLoop host size mk name swap limit fuel s i tmp).1.d_type = TokenType.Value ∨
      (_readLoop host size mk name swap limit fuel s i tmp).1.d_type = TokenType.Error := by
  induction fuel generalizing s i tmp with
  | zero => exact Or.inl (readResult_type tmp)
  | succ g ih =>
    rw [_readLoop]
    split
    · exact Or.inl (readResult_type tmp)
    · split
      · exact Or.inl (readResult_type tmp)
      · dsimp only
        split
        · exact Or.inr rfl
        · exact ih _ _ _

/-- A token `readValue` returns is a `Value` or an `Error`. -/
theorem readValue_type (qt : Qt) (host : Host) (swap : Bool) (limit : Nat) (s : InStream)
    (type : Nat) :
    (MatParser.readValue qt host swap limit s type).1.d_type = TokenType.Value ∨
      (MatParser.readValue qt host swap limit s type).1.d_type = TokenType.Error := by
  unfold MatParser.readValue _read
  dsimp only
  by_cases c0 : (type == miINT8) = true
  · rw [if_pos c0]
    exact Or.inl rfl
  rw [if_neg c0]
  by_cases c1 : (type == miUINT8) = true
  · rw [if_pos c1]
    exact readLoop_type _ _ _ _ _ _ _ _ _ _
  rw [if_neg c1]
  by_cases c2 : (type == miINT16) = true
  · rw [if_pos c2]
    exact readLoop_type _ _ _ _ _ _ _ _ _ _
  rw [if_neg c2]
  by_cases c3 : (type == miUINT16) = true
  · rw [if_pos c3]
    exact readLoop_type _ _ _ _ _ _ _ _ _ _
  rw [if_neg c3]
  by_cases c4 : (type == miINT32) = true
  · rw [if_pos c4]
    exact readLoop_type _ _ _ _ _ _ _ _ _ _
  rw [if_neg c4]
  by_cases c5 : (type == miUINT32) = true
  · rw [if_pos c5]
    exact readLoop_type _ _ _ _ _ _ _ _ _ _
  rw [if_neg c5]
  by_cases c6 : (type == miSINGLE) = true
  · rw [if_pos c6]
    exact readLoop_type _ _ _ _ _ _ _ _ _ _
  rw [if_neg c6]
  by_cases c7 : (type == miDOUBLE) = true
  · rw [if_pos c7]
    exact readLoop_type _ _ _ _ _ _ _ _ _ _
  rw [if_neg c7]
  by_cases c8 : (type == miINT64) = true
  · rw [if_pos c8]
    exact readLoop_type _ _ _ _ _ _ _ _ _ _
  rw [if_neg c8]
  by_cases c9 : (type == miUINT64) = true
  · rw [if_pos c9]
    exact readLoop_type _ _ _ _ _ _ _ _ _ _
  rw [if_neg c9]
  by_cases c10 : (type == miUTF8) = true
  · rw [if_pos c10]
    exact Or.inl rfl
  rw [if_neg c10]
  by_cases c11 : (type == miUTF16) = true
  · rw [if_pos c11]
    generalize _readUnits host _ swap (s.bytesAvailable + 1) s [] = u
    obtain ⟨o, s1⟩ := u
    cases o
    · exact Or.inr rfl
    · exact Or.inl rfl
  rw [if_neg c11]
  by_cases c12 : (type == miUTF32) = true
  · rw [if_pos c12]
    generalize _readUnits host _ swap (s.bytesAvailable + 1) s [] = u
    obtain ⟨o, s1⟩ := u
    cases o
    · exact Or.inr rfl
    · exact Or.inl rfl
  rw [if_neg c12]
  exact Or.inr rfl

theorem setLast_nested_length (p : MatParser) (lex : MatLexer) :
    (p.setLast lex).d_nested.length = p.d_nested.length := by
  unfold MatParser.setLast
  cases p.d_nested <;> rfl

/-- What a token read from the lexers does to the nesting level: `BeginMatrix` raises it by
one, `EndMatrix` is read above level 0 only and lowers it by one, `Null` is read at level 0
only, and a `Value` or an `Error` leaves the level as it is. -/
theorem nextToken_level (qt : Qt) (host : Host) (p : MatParser)
    (hpeek : p.d_peek.d_type = TokenType.Null) :
    ((MatParser.nextToken qt host p).1.d_type = TokenType.BeginMatrix ∧
        (MatParser.nextToken qt host p).2.level = p.level + 1) ∨
    ((MatParser.nextToken qt host p).1.d_type = TokenType.EndMatrix ∧
        p.level = (MatParser.nextToken qt host p).2.level + 1) ∨
    ((MatParser.nextToken qt host p).1.d_type = TokenType.Null ∧ p.level = 0 ∧
        (MatParser.nextToken qt host p).2.level = 0) ∨
    (((MatParser.nextToken qt host p).1.d_type = TokenType.Value ∨
        (MatParser.nextToken qt host p).1.d_type = TokenType.Error) ∧
        (MatParser.nextToken qt host p).2.level = p.level) := by
  unfold MatParser.nextToken MatParser.level
  rw [hpeek]
  simp only [bne_self_eq_false, Bool.false_eq_true, if_false]
  have hl := setLast_nested_length p (MatLexer.nextElement qt host p.last).2
  split
  · split
    · rename_i rest hn
      rw [hn] at hl
      simp only [List.length_cons] at hl
      exact Or.inr (Or.inl ⟨rfl, hl.symm⟩)
    · rename_i hn
      rw [hn] at hl
      simp only [List.length_nil] at hl
      exact Or.inr (Or.inr (Or.inl ⟨rfl, hl.symm, by rw [hn]; rfl⟩))
  · split
    · exact Or.inr (Or.inr (Or.inr ⟨Or.inr rfl, hl⟩))
    · split
      · exact Or.inr (Or.inr (Or.inr ⟨Or.inr rfl, hl⟩))
      · split
        · refine Or.inl ⟨rfl, ?_⟩
          simp only [List.length_cons, setLast_nested_length]
        · split
          · refine Or.inr (Or.inr (Or.inr ⟨Or.inr rfl, ?_⟩))
            simp only [setLast_nested_length]
          · refine Or.inr (Or.inr (Or.inr ⟨readValue_type _ _ _ _ _ _, ?_⟩))
            simp only [setLast_nested_length]

/-- What one call does to the nesting level.  A call that produces no token leaves the level
as it is; a call that produces one changes it as `nextToken_level` says. -/
theorem call_level (qt : Qt) (host : Host) (c : ParserCall) (p : MatParser) :
    ((p.call qt host c).1 = none ∧ (p.call qt host c).2.level = p.level) ∨
    ∃ t, (p.call qt host c).1 = some t ∧
      ((t.d_type = TokenType.BeginMatrix ∧ (p.call qt host c).2.level = p.level + 1) ∨
       (t.d_type = TokenType.EndMatrix ∧ p.level = (p.call qt host c).2.level + 1) ∨
       (t.d_type = TokenType.Null ∧ p.level = 0 ∧ (p.call qt host c).2.level = 0) ∨
       ((t.d_type = TokenType.Value ∨ t.d_type = TokenType.Error) ∧
         (p.call qt host c).2.level = p.level)) := by
  cases c with
  | nextToken =>
    by_cases hb : p.d_peek.d_type = TokenType.Null
    · have hc : (p.d_peek.d_type != TokenType.Null) = false := by simp [hb]
      refine Or.inr ⟨(p.nextToken qt host).1, ?_, ?_⟩
      · simp only [MatParser.call, hc, Bool.false_eq_true, if_false]
      · simp only [MatParser.call, hc, Bool.false_eq_true, if_false]
        exact nextToken_level qt host p hb
    · have hc : (p.d_peek.d_type != TokenType.Null) = true := by simp [hb]
      refine Or.inl ⟨?_, ?_⟩
      · simp only [MatParser.call, hc, if_true]
      · simp only [MatParser.call, hc, if_true]
        rw [nextToken_peeked qt host p hb]
        rfl
  | peekToken =>
    refine Or.inr ⟨(p.peekToken qt host).1, rfl, ?_⟩
    have := nextToken_level qt host { p with d_peek := Token.new } rfl
    exact this
  | skipLevel =>
    refine Or.inl ⟨rfl, ?_⟩
    obtain ⟨first, nested, peek, limit⟩ := p
    cases nested <;> rfl

theorem producedOf_append (type : TokenType) (a b : List (Nat × Token)) :
    producedOf type (a ++ b) = producedOf type a + producedOf type b := by
  unfold producedOf
  rw [List.countP_append]

/-- Over a run of calls from any parser, the `BeginMatrix` tokens produced and the level at the
start add up to the `EndMatrix` tokens produced and the level at the end; an `EndMatrix` is
produced above level 0 only and a `Null` at level 0 only. -/
theorem run_level (qt : Qt) (host : Host) (calls : List ParserCall) (p : MatParser) :
    producedOf .BeginMatrix (p.run qt host calls).1 + p.level =
      producedOf .EndMatrix (p.run qt host calls).1 + (p.run qt host calls).2.level ∧
    ∀ x ∈ (p.run qt host calls).1,
      (x.2.d_type = TokenType.EndMatrix → 0 < x.1) ∧ (x.2.d_type = TokenType.Null → x.1 = 0) := by
  induction calls generalizing p with
  | nil =>
    refine ⟨rfl, ?_⟩
    intro x hx
    cases hx
  | cons c cs ih =>
    obtain ⟨ih1, ih2⟩ := ih (p.call qt host c).2
    rw [MatParser.run]
    dsimp only
    rcases call_level qt host c p with ⟨hn, hl⟩ | ⟨t, ht, hcase⟩
    · rw [hn]
      dsimp only
      rw [List.nil_append]
      refine ⟨?_, ih2⟩
      rw [← hl]
      exact ih1
    · rw [ht]
      dsimp only
      constructor
      · rw [producedOf_append, producedOf_append]
        have hB : producedOf .BeginMatrix [(p.level, t)] =
            if t.d_type = TokenType.BeginMatrix then 1 else 0 := by
          unfold producedOf
          by_cases h : t.d_type = TokenType.BeginMatrix <;> simp [h]
        have hE : producedOf .EndMatrix [(p.level, t)] =
            if t.d_type = TokenType.EndMatrix then 1 else 0 := by
          unfold producedOf
          by_cases h : t.d_type = TokenType.EndMatrix <;> simp [h]
        rw [hB, hE]
        rcases hcase with ⟨h1, h2⟩ | ⟨h1, h2⟩ | ⟨h1, h2, h3⟩ | ⟨h1 | h1, h2⟩ <;>
          simp only [h1, if_true, if_false, reduceCtorEq] <;> omega
      · intro x hx
        rcases List.mem_append.mp hx with hx | hx
        · rw [List.mem_singleton.mp hx]
          dsimp only
          rcases hcase with ⟨h1, h2⟩ | ⟨h1, h2⟩ | ⟨h1, h2, h3⟩ | ⟨h1 | h1, h2⟩
          · exact ⟨fun h => absurd (h1.symm.trans h) (by decide),
              fun h => absurd (h1.symm.trans h) (by decide)⟩
          · exact ⟨fun _ => (by omega), fun h => absurd (h1.symm.trans h) (by decide)⟩
          · exact ⟨fun h => absurd (h1.symm.trans h) (by decide), fun _ => h2⟩
          · exact ⟨fun h => absurd (h1.symm.trans h) (by decide),
              fun h => absurd (h1.symm.trans h) (by decide)⟩
          · exact ⟨fun h => absurd (h1.symm.trans h) (by decide),
              fun h => absurd (h1.symm.trans h) (by decide)⟩
        · exact ih2 x hx

/-- C37.  Over every run of `nextToken`, `peekToken` and `skipLevel` calls on a parser that
starts at nesting level 0 (one lexer on the stack, as `setDevice` leaves it), the number of
`BeginMatrix` tokens produced so far is the number of `EndMatrix` tokens produced so far plus
the nesting level (the size of the lexer stack minus 1), so their difference is the level and
never negative; every `EndMatrix` is produced at a level above 0 and every `Null` at level 0.
A token is produced when it is read from the lexers, be it by `nextToken` or by `peekToken`;
handing out the buffered token produces none. -/
theorem C37_nesting_level (qt : Qt) (host : Host) (calls : List ParserCall) (p : MatParser)
    (h0 : p.d_nested = []) :
    producedOf .BeginMatrix (p.run qt host calls).1 =
      producedOf .EndMatrix (p.run qt host calls).1 + (p.run qt host calls).2.d_nested.length ∧
    producedOf .EndMatrix (p.run qt host calls).1 ≤
      producedOf .BeginMatrix (p.run qt host calls).1 ∧
    ∀ x ∈ (p.run qt host calls).1,
      (x.2.d_type = TokenType.EndMatrix → 0 < x.1) ∧ (x.2.d_type = TokenType.Null → x.1 = 0) := by
  obtain ⟨h1, h2⟩ := run_level qt host calls p
  have hl : p.level = 0 := by unfold MatParser.level; rw [h0]; rfl
  rw [hl, Nat.add_zero] at h1
  exact ⟨h1, by rw [h1]; exact Nat.le_add_right _ _, h2⟩

/-- C37 at a concrete input: a peek and two `nextToken` calls in front of a matrix element
that holds one small `miINT32` element.  The peek produces `BeginMatrix`, the first `nextToken`
hands it out, the second produces the value 42 at level 1. -/
theorem C37_nesting_level_witness :
    (MatReader.over (wireMatrix Host.linux64 false [5, 0, 4, 0, 42, 0, 0, 0]) false
      0).d_parser'.d_nested = [] ∧
    producedOf .BeginMatrix
      ((MatReader.over (wireMatrix Host.linux64 false [5, 0, 4, 0, 42, 0, 0, 0]) false
        0).d_parser'.run Qt.plain Host.linux64 [.peekToken, .nextToken, .nextToken]).1 =
      producedOf .EndMatrix
        ((MatReader.over (wireMatrix Host.linux64 false [5, 0, 4, 0, 42, 0, 0, 0]) false
          0).d_parser'.run Qt.plain Host.linux64 [.peekToken, .nextToken, .nextToken]).1 +
      ((MatReader.over (wireMatrix Host.linux64 false [5, 0, 4, 0, 42, 0, 0, 0]) false
        0).d_parser'.run Qt.plain Host.linux64
          [.peekToken, .nextToken, .nextToken]).2.d_nested.length :=
  ⟨rfl,
    (C37_nesting_level Qt.plain Host.linux64 [.peekToken, .nextToken, .nextToken]
      (MatReader.over (wireMatrix Host.linux64 false [5, 0, 4, 0, 42, 0, 0, 0]) false
        0).d_parser' rfl).1⟩

/-! ## The matrix of a cell -/

theorem writeArrayFlags_length (host : Host) (out : List Nat) (type : Nat) :
    (MatWriter.writeArrayFlags host out type).length = out.length + 16 := by
  unfold MatWriter.writeArrayFlags MatWriter.write
  rw [List.length_append, List.length_append, writeTag_length, hostBytes_length,
    hostBytes_length]
  norm_num

theorem writePadding_length (out : List Nat) (len : Int) (h0 : 0 ≤ len) :
    out.length ≤ (MatWriter.writePadding out len).length ∧
      (MatWriter.writePadding out len).length ≤ out.length + 7 := by
  rw [writePadding_eq, List.length_append, List.length_replicate]
  split <;> omega

theorem writeDataElement_length (host : Host) (out : List Nat) (t : Nat) (data : List Nat)
    (hlen : data.length < 2 ^ 31) :
    out.length + data.length + 4 ≤ (MatWriter.writeDataElement host out t data).length ∧
      (MatWriter.writeDataElement host out t data).length ≤ out.length + data.length + 15 := by
  unfold MatWriter.writeDataElement
  dsimp only
  rw [toSigned_length data hlen]
  have h := writePadding_length
    (MatWriter.writeTag host out (t % 2 ^ 16) (toUnsigned 32 (data.length : Int)) ++ data)
    (data.length : Int) (Int.natCast_nonneg _)
  rw [List.length_append, writeTag_length] at h
  split at h <;> omega

theorem writeArrayDims_length (host : Host) (out : List Nat) (dims : List Int)
    (hdl : dims.length < 2 ^ 29) :
    out.length + 4 * dims.length + 4 ≤ (MatWriter.writeArrayDims host out dims).length ∧
      (MatWriter.writeArrayDims host out dims).length ≤ out.length + 4 * dims.length + 15 := by
  unfold MatWriter.writeArrayDims
  dsimp only
  have hw : wrap32 (4 * (dims.length : Int)) = ((4 * dims.length : Nat) : Int) := by
    rw [wrap32_of_range _ (by omega) (by norm_num at hdl ⊢; omega)]
    push_cast
    ring
  rw [hw, foldl_write_dims]
  have h := writePadding_length
    (MatWriter.writeTag host out miINT32 (toUnsigned 32 ((4 * dims.length : Nat) : Int)) ++
      wireInts host false dims)
    ((4 * dims.length : Nat) : Int) (Int.natCast_nonneg _)
  rw [List.length_append, wireInts_length, writeTag_length] at h
  split at h <;> omega

/-- `endNumArray` on a numeric array whose elements have all been added wraps what the inner
level holds, padded, into a matrix element behind what the outer level holds. -/
theorem endNumArray_wire (qt : Qt) (host : Host) (src dst : Level) (rest : List Level)
    (own : Bool) (hnum : src.d_type.isNumArray = true) (hcount : src.d_dims.headD 0 ≤ 0)
    (hd : src.d_type.d_len < 2 ^ 31) (h5 : 5 ≤ src.d_out.length)
    (hlen : src.d_out.length + 8 ≤ 2 ^ 31) :
    ∃ body, 5 ≤ body.length ∧ body.length < 2 ^ 31 ∧
      MatWriter.endNumArray qt host { d_level := src :: dst :: rest, d_owner := own } false =
        { d_level := { dst with d_out := dst.d_out ++ wireMatrix host false body } :: rest,
          d_owner := own } := by
  have hp := writePadding_length src.d_out (toSigned 32 src.d_type.d_len) (by
    rw [toSigned_of_lt 32 _ (by simpa using hd)]
    exact Int.natCast_nonneg _)
  refine ⟨MatWriter.writePadding src.d_out (toSigned 32 src.d_type.d_len), by omega, by omega, ?_⟩
  unfold MatWriter.endNumArray
  have hc : ¬ src.d_dims.headD 0 > 0 := by omega
  simp only [hnum, Bool.not_true, Bool.false_eq_true, if_false, hc, MatWriter.onLast]
  exact endMatrix_wire qt host _ dst rest own (by dsimp only; omega) (by dsimp only; omega)

/-- The level `beginNumArray` opens for an array without a name: the class and the wire type
of the scalar kind, the payload length announced, the number of elements to come, and a head
of 28 to 62 bytes for two dimensions. -/
theorem beginNumArray_level (host : Host) (l : Level) (rest : List Level) (own : Bool)
    (dims : List Int) (numType : MetaType) (hdl : dims.length = 2) :
    ∃ out, 28 ≤ out.length ∧ out.length ≤ 62 ∧
      MatWriter.beginNumArray host { d_level := l :: rest, d_owner := own } dims numType [] =
        { d_level :=
            { d_out := out,
              d_type :=
                { MatWriter.matTypeFromMetaType numType with
                  d_len := toUnsigned 32
                    ((MatWriter.matTypeFromMetaType numType).d_len * MatWriter._totalCount dims) },
              d_dims := [MatWriter._totalCount dims] } :: l :: rest,
          d_owner := own } := by
  refine ⟨_, ?_, ?_, rfl⟩
  all_goals
    dsimp only [Level.new]
    have h1 := writeArrayFlags_length host []
      (MatWriter.matTypeFromMetaType numType).d_mxType
    have h2 := writeArrayDims_length host
      (MatWriter.writeArrayFlags host [] (MatWriter.matTypeFromMetaType numType).d_mxType) dims
      (by rw [hdl]; norm_num)
    have h3 := writeDataElement_length host
      (MatWriter.writeArrayDims host
        (MatWriter.writeArrayFlags host [] (MatWriter.matTypeFromMetaType numType).d_mxType) dims)
      miINT8 [] (by norm_num)
    rw [writeTag_length]
    simp only [List.length_nil] at h1 h2 h3
    split <;> omega

/-- A scalar of the kind of the array is written to the level and counted. -/
theorem addNumArrayElement_scalar (qt : Qt) (host : Host) (L : Level) (rest : List Level)
    (own : Bool) (v : QVariant) (hnum : L.d_type.isNumArray = true)
    (h1 : v.type ≠ MetaType.List) (h2 : v.type ≠ MetaType.ByteArray)
    (h3 : (MatWriter.matTypeFromMetaType v.type).d_mxType = L.d_type.d_mxType) :
    MatWriter.addNumArrayElement qt host { d_level := L :: rest, d_owner := own } v =
      { d_level :=
          ({ L with d_out := MatWriter.writeData qt host L.d_out v }).countDown 1 :: rest,
        d_owner := own } := by
  have e1 : (v.type == MetaType.List) = false := by simpa using h1
  have e2 : (v.type == MetaType.ByteArray) = false := by simpa using h2
  simp [MatWriter.addNumArrayElement, MatWriter.onLast, hnum, e1, e2, h3]

/-- A byte sequence is written to the level of a UINT8 array, and its bytes are counted. -/
theorem addNumArrayElement_bytes (qt : Qt) (host : Host) (L : Level) (rest : List Level)
    (own : Bool) (b : List Nat) (hnum : L.d_type.isNumArray = true)
    (h3 : L.d_type.d_mxType = mxUINT8_CLASS) :
    MatWriter.addNumArrayElement qt host { d_level := L :: rest, d_owner := own }
        (.byteArray b) =
      { d_level := ({ L with d_out := L.d_out ++ b }).countDown (b.length : Int) :: rest,
        d_owner := own } := by
  simp [MatWriter.addNumArrayElement, MatWriter.onLast, hnum, h3, QVariant.type,
    QVariant.toByteArray, MatWriter.writeData]

/-- The loop over a list of scalars of the kind of the array writes them all. -/
theorem addListElements_accept (qt : Qt) (host : Host) (mx : Nat) (vs : List QVariant)
    (out : List Nat) (h : ∀ v ∈ vs, (MatWriter.matTypeFromMetaType v.type).d_mxType = mx) :
    addListElements qt host mx vs out = (vs.foldl (MatWriter.writeData qt host) out, true) := by
  induction vs generalizing out with
  | nil => rfl
  | cons v vs ih =>
    have hv : ((MatWriter.matTypeFromMetaType v.type).d_mxType != mx) = false := by
      simpa using h v (List.mem_cons_self _ _)
    rw [addListElements, hv]
    simp only [Bool.false_eq_true, if_false, List.foldl_cons]
    exact ih _ (fun x hx => h x (List.mem_cons_of_mem _ hx))

/-- A list of scalars of the kind of the array is written to the level, and its elements are
counted. -/
theorem addNumArrayElement_list (qt : Qt) (host : Host) (L : Level) (rest : List Level)
    (own : Bool) (vs : List QVariant) (hnum : L.d_type.isNumArray = true)
    (h : ∀ v ∈ vs, (MatWriter.matTypeFromMetaType v.type).d_mxType = L.d_type.d_mxType) :
    MatWriter.addNumArrayElement qt host { d_level := L :: rest, d_owner := own } (.list vs) =
      { d_level :=
          ({ L with d_out := vs.foldl (MatWriter.writeData qt host) L.d_out }).countDown
            (vs.length : Int) :: rest,
        d_owner := own } := by
  simp [MatWriter.addNumArrayElement, MatWriter.onLast, hnum, QVariant.type, QVariant.toList,
    addListElements_accept qt host _ vs L.d_out h]

/-- The bytes of a list of numeric scalars: at most 8 for each. -/
theorem foldl_writeData_length (qt : Qt) (host : Host) (hl : host.sizeofLong ≤ 8)
    (vs : List QVariant) (out : List Nat) (h : ∀ v ∈ vs, MatWriter.isNumeric v.type = true) :
    out.length ≤ (vs.foldl (MatWriter.writeData qt host) out).length ∧
      (vs.foldl (MatWriter.writeData qt host) out).length ≤ out.length + 8 * vs.length := by
  induction vs generalizing out with
  | nil => simp
  | cons v vs ih =>
    have hv := (writeData_length qt host out v (h v (List.mem_cons_self _ _))).2
    have ht : (MatWriter.matTypeFromMetaType v.type).d_len ≤ 8 := by
      cases v.type <;> decide
    have := ih (MatWriter.writeData qt host out v) (fun x hx => h x (List.mem_cons_of_mem _ hx))
    rw [List.foldl_cons, List.length_cons]
    split at hv <;> omega

/-- A numeric array begun with two dimensions, filled by one `addNumArrayElement` call that
supplies all of its `c` elements, and ended: one matrix element is appended to the level the
writer was at, and the level stack is as before. -/
theorem numCell_matrix (qt : Qt) (host : Host) (l : Level) (rest : List Level) (own : Bool)
    (dims : List Int) (numType : MetaType) (elem : QVariant) (c : Nat)
    (hdl : dims.length = 2) (hT : (MatWriter.matTypeFromMetaType numType).isNumArray = true)
    (hc : MatWriter._totalCount dims = (c : Int)) (hcb : c < 2 ^ 27)
    (hadd : ∀ L : Level, L.d_type.isNumArray = true →
      L.d_type.d_mxType = (MatWriter.matTypeFromMetaType numType).d_mxType →
      L.d_dims = [(c : Int)] →
      ∃ out', L.d_out.length ≤ out'.length ∧ out'.length ≤ L.d_out.length + 2 ^ 30 ∧
        MatWriter.addNumArrayElement qt host { d_level := L :: l :: rest, d_owner := own }
            elem =
          { d_level := { L with d_out := out', d_dims := [0] } :: l :: rest,
            d_owner := own }) :
    ∃ body, 5 ≤ body.length ∧ body.length < 2 ^ 31 ∧
      MatWriter.endNumArray qt host
          (MatWriter.addNumArrayElement qt host
            (MatWriter.beginNumArray host { d_level := l :: rest, d_owner := own } dims numType
              [])
            elem)
          false =
        { d_level := { l with d_out := l.d_out ++ wireMatrix host false body } :: rest,
          d_owner := own } := by
  obtain ⟨out, hlo, hhi, hb⟩ := beginNumArray_level host l rest own dims numType hdl
  rw [hb]
  obtain ⟨out', h1, h2, ha⟩ := hadd
    { d_out := out,
      d_type :=
        { MatWriter.matTypeFromMetaType numType with
          d_len := toUnsigned 32
            ((MatWriter.matTypeFromMetaType numType).d_len * MatWriter._totalCount dims) },
      d_dims := [MatWriter._totalCount dims] } hT rfl (by rw [hc])
  dsimp only at h1 h2
  rw [ha]
  have hlenT : (MatWriter.matTypeFromMetaType numType).d_len ≤ 8 := by
    cases numType <;> decide
  apply endNumArray_wire qt host _ l rest own hT (by simp)
  · dsimp only
    rw [hc]
    have e : (((MatWriter.matTypeFromMetaType numType).d_len : Int) * (c : Int)) =
        (((MatWriter.matTypeFromMetaType numType).d_len * c : Nat) : Int) := by push_cast; rfl
    have hb2 : (MatWriter.matTypeFromMetaType numType).d_len * c ≤ 8 * 2 ^ 27 :=
      Nat.mul_le_mul hlenT (le_of_lt hcb)
    rw [e, toUnsigned_ofNat 32 _ (by norm_num at hb2 ⊢; omega)]
    norm_num at hb2 ⊢
    omega
  · dsimp only
    omega
  · dsimp only
    norm_num at h2 ⊢
    omega

theorem numeric_type (t : MetaType) (h : MatWriter.isNumeric t = true) :
    MatWriter.isString t = false ∧ t ≠ MetaType.List ∧ t ≠ MetaType.ByteArray ∧
      t ≠ MetaType.Invalid ∧ (MatWriter.matTypeFromMetaType t).isNumArray = true := by
  cases t <;> first
    | (simp [MatWriter.isNumeric] at h; done)
    | exact ⟨rfl, by decide, by decide, by decide, rfl⟩

theorem totalCount_one_n (n : Nat) (hn : n < 2 ^ 31) :
    MatWriter._totalCount [1, (n : Int)] = (n : Int) ∧
      MatWriter._totalCount [(n : Int), 1] = (n : Int) := by
  have h1 : mul32 1 1 = 1 := by decide
  have h2 : mul32 1 (n : Int) = (n : Int) := by
    show wrap32 (1 * (n : Int)) = _
    rw [Int.one_mul]
    exact wrap32_of_range _ (by have := Int.natCast_nonneg n; linarith) (by exact_mod_cast hn)
  have h3 : mul32 (n : Int) 1 = (n : Int) := by
    show wrap32 ((n : Int) * 1) = _
    rw [Int.mul_one]
    exact wrap32_of_range _ (by have := Int.natCast_nonneg n; linarith) (by exact_mod_cast hn)
  constructor
  · show (if ([1, (n : Int)] : List Int).isEmpty then 0 else List.foldl mul32 1 [1, (n : Int)]) = _
    simp only [List.isEmpty_cons, Bool.false_eq_true, if_false, List.foldl_cons, List.foldl_nil,
      h1, h2]
  · show (if ([(n : Int), 1] : List Int).isEmpty then 0 else List.foldl mul32 1 [(n : Int), 1]) = _
    simp only [List.isEmpty_cons, Bool.false_eq_true, if_false, List.foldl_cons, List.foldl_nil,
      h2, h3]

theorem countDown_all (L : Level) (out : List Nat) (c : Nat) (hd : L.d_dims = [(c : Int)]) :
    ({ L with d_out := out }).countDown (c : Int) = { L with d_out := out, d_dims := [0] } := by
  unfold Level.countDown
  dsimp only
  rw [hd]
  simp only [List.headD_cons, sub_self, List.set_cons_zero]
  rfl

/-- The cell of a numeric scalar: a 1x1 array. -/
theorem scalarCell_matrix (qt : Qt) (host : Host) (hl : host.sizeofLong ≤ 8) (l : Level)
    (rest : List Level) (own : Bool) (v : QVariant) (hn : MatWriter.isNumeric v.type = true) :
    ∃ body, 5 ≤ body.length ∧ body.length < 2 ^ 31 ∧
      MatWriter.endNumArray qt host
          (MatWriter.addNumArrayElement qt host
            (MatWriter.beginNumArray host { d_level := l :: rest, d_owner := own } [1, 1] v.type
              [])
            v)
          false =
        { d_level := { l with d_out := l.d_out ++ wireMatrix host false body } :: rest,
          d_owner := own } := by
  obtain ⟨_, h1, h2, _, h4⟩ := numeric_type v.type hn
  apply numCell_matrix qt host l rest own [1, 1] v.type v 1 rfl h4
    (totalCount_one_n 1 (by norm_num)).1 (by norm_num)
  intro L hnum hmx hd
  refine ⟨MatWriter.writeData qt host L.d_out v, ?_, ?_, ?_⟩
  · have := (writeData_length qt host L.d_out v hn).2
    omega
  · have := (writeData_length qt host L.d_out v hn).2
    have ht : (MatWriter.matTypeFromMetaType v.type).d_len ≤ 8 := by
      cases v.type <;> decide
    split at this <;> omega
  · rw [addNumArrayElement_scalar qt host L _ own v hnum h1 h2 hmx.symm]
    have := countDown_all L (MatWriter.writeData qt host L.d_out v) 1 hd
    rw [show ((1 : Nat) : Int) = 1 from rfl] at this
    rw [this]

/-- The cell of a byte sequence: a UINT8 array of one row. -/
theorem bytesCell_matrix (qt : Qt) (host : Host) (l : Level) (rest : List Level) (own : Bool)
    (b : List Nat) (hb : b.length < 2 ^ 27) :
    ∃ body, 5 ≤ body.length ∧ body.length < 2 ^ 31 ∧
      MatWriter.endNumArray qt host
          (MatWriter.addNumArrayElement qt host
            (MatWriter.beginNumArray host { d_level := l :: rest, d_owner := own }
              [1, (b.length : Int)] MetaType.UChar [])
            (.byteArray b))
          false =
        { d_level := { l with d_out := l.d_out ++ wireMatrix host false body } :: rest,
          d_owner := own } := by
  apply numCell_matrix qt host l rest own [1, (b.length : Int)] MetaType.UChar (.byteArray b)
    b.length rfl rfl (totalCount_one_n b.length (by norm_num at hb ⊢; omega)).1 hb
  intro L hnum hmx hd
  refine ⟨L.d_out ++ b, by simp, by rw [List.length_append]; norm_num at hb ⊢; omega, ?_⟩
  rw [addNumArrayElement_bytes qt host L _ own b hnum hmx, countDown_all L _ b.length hd]

/-- The cell of a list of scalars of one numeric kind: an array of one column. -/
theorem listCell_matrix (qt : Qt) (host : Host) (hl : host.sizeofLong ≤ 8) (l : Level)
    (rest : List Level) (own : Bool) (vs : List QVariant) (t : MetaType)
    (ht : MatWriter.isNumeric t = true) (hvs : ∀ v ∈ vs, v.type = t)
    (hlen : vs.length < 2 ^ 27) :
    ∃ body, 5 ≤ body.length ∧ body.length < 2 ^ 31 ∧
      MatWriter.endNumArray qt host
          (MatWriter.addNumArrayElement qt host
            (MatWriter.beginNumArray host { d_level := l :: rest, d_owner := own }
              [(vs.length : Int), 1] t [])
            (.list vs))
          false =
        { d_level := { l with d_out := l.d_out ++ wireMatrix host false body } :: rest,
          d_owner := own } := by
  obtain ⟨_, _, _, _, h4⟩ := numeric_type t ht
  apply numCell_matrix qt host l rest own [(vs.length : Int), 1] t (.list vs) vs.length rfl h4
    (totalCount_one_n vs.length (by norm_num at hlen ⊢; omega)).2 hlen
  intro L hnum hmx hd
  have hb := foldl_writeData_length qt host hl vs L.d_out (fun v hv => by rw [hvs v hv]; exact ht)
  refine ⟨vs.foldl (MatWriter.writeData qt host) L.d_out, hb.1, by
    norm_num at hlen ⊢; omega, ?_⟩
  rw [addNumArrayElement_list qt host L _ own vs hnum (fun v hv => by rw [hvs v hv, hmx]),
    countDown_all L _ vs.length hd]

/-- The loop of `writeCell` over a data stream of variants of one type collects them all. -/
theorem collectStream_same (vs : List QVariant) (t : MetaType) (acc : List QVariant)
    (ht : t ≠ MetaType.Invalid) (hvs : ∀ v ∈ vs, v.type = t) :
    collectStream vs t acc = (acc ++ vs, t, true) := by
  induction vs generalizing acc with
  | nil => simp [collectStream]
  | cons v vs ih =>
    have e1 : (t == MetaType.Invalid) = false := by simpa using ht
    have e2 : (v.type != t) = false := by simp [hvs v (List.mem_cons_self _ _)]
    rw [collectStream, e1, e2]
    simp only [Bool.false_eq_true, if_false]
    rw [ih _ (fun x hx => hvs x (List.mem_cons_of_mem _ hx))]
    simp

/-- The cell of a text: what `addCharArray` writes without a name is one matrix element
appended to the level the writer is at. -/
theorem addCharArray_matrix (qt : Qt) (host : Host) (l : Level) (rest : List Level) (own : Bool)
    (str : List Nat) (hu : (qt.toUtf8 str).length < 2 ^ 27) :
    ∃ body, 5 ≤ body.length ∧ body.length < 2 ^ 31 ∧
      MatWriter.addCharArray qt host { d_level := l :: rest, d_owner := own } str [] =
        { d_level := { l with d_out := l.d_out ++ wireMatrix host false body } :: rest,
          d_owner := own } := by
  have h1 := writeArrayFlags_length host [] mxCHAR_CLASS
  have h2 := writeArrayDims_length host (MatWriter.writeArrayFlags host [] mxCHAR_CLASS)
    [1, (str.length : Int)] (by norm_num)
  have h3 := writeDataElement_length host
    (MatWriter.writeArrayDims host (MatWriter.writeArrayFlags host [] mxCHAR_CLASS)
      [1, (str.length : Int)]) miINT8 [] (by norm_num)
  have h4 := writeDataElement_length host
    (MatWriter.writeDataElement host
      (MatWriter.writeArrayDims host (MatWriter.writeArrayFlags host [] mxCHAR_CLASS)
        [1, (str.length : Int)]) miINT8 []) miUTF8 (qt.toUtf8 str)
    (by norm_num at hu ⊢; omega)
  simp only [List.length_nil, List.length_cons] at h1 h2 h3 h4
  have b1 : 5 ≤ (MatWriter.writeDataElement host
    (MatWriter.writeDataElement host
      (MatWriter.writeArrayDims host (MatWriter.writeArrayFlags host [] mxCHAR_CLASS)
        [1, (str.length : Int)]) miINT8 []) miUTF8 (qt.toUtf8 str)).length := by omega
  have b2 : (MatWriter.writeDataElement host
    (MatWriter.writeDataElement host
      (MatWriter.writeArrayDims host (MatWriter.writeArrayFlags host [] mxCHAR_CLASS)
        [1, (str.length : Int)]) miINT8 []) miUTF8 (qt.toUtf8 str)).length < 2 ^ 31 := by
    norm_num at hu ⊢
    omega
  refine ⟨_, b1, b2, ?_⟩
  unfold MatWriter.addCharArray
  simp only [MatWriter.beginMatrix, MatWriter.onLast, List.isEmpty_cons, Bool.false_eq_true,
    if_false, Level.new]
  exact endMatrix_wire qt host _ l rest own b1 b2

/-- For a cell value of a kind `writeCell` supports -- a text, a numeric scalar, a byte
sequence, a list or a data stream of scalars of one numeric kind that is not empty -- with
fewer than 2^27 payload units, `writeCell` appends one matrix element to the level the writer
is at and leaves the level stack as it was. -/
theorem writeCell_matrix (qt : Qt) (host : Host) (hl : host.sizeofLong ≤ 8) (l : Level)
    (rest : List Level) (own : Bool) (v : QVariant) (hw : MatWriter.writesCell v = true)
    (hu : MatWriter.cellUnits qt v < 2 ^ 27) :
    ∃ body, 5 ≤ body.length ∧ body.length < 2 ^ 31 ∧
      MatWriter.writeCell qt host { d_level := l :: rest, d_owner := own } v [] =
        { d_level := { l with d_out := l.d_out ++ wireMatrix host false body } :: rest,
          d_owner := own } := by
  by_cases hs : MatWriter.isString v.type = true
  · have e : MatWriter.writeCell qt host { d_level := l :: rest, d_owner := own } v [] =
        MatWriter.addCharArray qt host { d_level := l :: rest, d_owner := own }
          (v.toString qt) [] := by
      unfold MatWriter.writeCell
      rw [if_pos hs]
    rw [e]
    apply addCharArray_matrix
    cases v <;> first
      | (simp [QVariant.type, MatWriter.isString] at hs; done)
      | (simp only [MatWriter.cellUnits, QVariant.toString] at hu ⊢; omega)
  by_cases hn : MatWriter.isNumeric v.type = true
  · have e : MatWriter.writeCell qt host { d_level := l :: rest, d_owner := own } v [] =
        MatWriter.endNumArray qt host
          (MatWriter.addNumArrayElement qt host
            (MatWriter.beginNumArray host { d_level := l :: rest, d_owner := own } [1, 1] v.type
              [])
            v)
          false := by
      unfold MatWriter.writeCell
      rw [if_neg hs, if_pos hn]
    rw [e]
    exact scalarCell_matrix qt host hl l rest own v hn
  cases v with
  | byteArray b =>
    have e : MatWriter.writeCell qt host { d_level := l :: rest, d_owner := own }
        (.byteArray b) [] =
        MatWriter.endNumArray qt host
          (MatWriter.addNumArrayElement qt host
            (MatWriter.beginNumArray host { d_level := l :: rest, d_owner := own }
              [1, (b.length : Int)] MetaType.UChar [])
            (.byteArray b))
          false := by
      unfold MatWriter.writeCell
      rw [if_neg hs, if_neg hn]
      rfl
    rw [e]
    exact bytesCell_matrix qt host l rest own b hu
  | list vs =>
    cases vs with
    | nil => exact absurd hw (by decide)
    | cons first rest' =>
      have hw' : MatWriter.isNumeric first.type = true ∧
          rest'.all (fun x => x.type == first.type) = true := by
        simpa [MatWriter.writesCell] using hw
      have e : MatWriter.writeCell qt host { d_level := l :: rest, d_owner := own }
          (.list (first :: rest')) [] =
          MatWriter.endNumArray qt host
            (MatWriter.addNumArrayElement qt host
              (MatWriter.beginNumArray host { d_level := l :: rest, d_owner := own }
                [((first :: rest').length : Int), 1] first.type [])
              (.list (first :: rest')))
            false := by
        unfold MatWriter.writeCell
        rw [if_neg hs, if_neg hn]
        have t1 : ((QVariant.list (first :: rest')).type == MetaType.ByteArray) = false := rfl
        have t2 : ((QVariant.list (first :: rest')).type == MetaType.List) = true := rfl
        simp only [t1, t2, Bool.false_eq_true, if_false, if_true, QVariant.toList, hw'.1, hw'.2,
          Bool.not_true, Bool.or_self]
      rw [e]
      apply listCell_matrix qt host hl l rest own (first :: rest') first.type hw'.1 _ hu
      intro x hx
      rcases List.mem_cons.mp hx with rfl | hx
      · rfl
      · have := List.all_eq_true.mp hw'.2 x hx
        simpa using this
  | device vs =>
    cases vs with
    | nil => exact absurd hw (by decide)
    | cons first rest' =>
      have hw' : MatWriter.isNumeric first.type = true ∧
          rest'.all (fun x => x.type == first.type) = true := by
        simpa [MatWriter.writesCell] using hw
      have hsame : ∀ x ∈ first :: rest', x.type = first.type := by
        intro x hx
        rcases List.mem_cons.mp hx with rfl | hx
        · rfl
        · have := List.all_eq_true.mp hw'.2 x hx
          simpa using this
      have hne := (numeric_type first.type hw'.1).2.2.2.1
      have hc : collectStream (first :: rest') MetaType.Invalid [] =
          (first :: rest', first.type, true) := by
        rw [collectStream]
        simp only [beq_self_eq_true, if_true]
        rw [collectStream_same rest' first.type _ hne
          (fun x hx => hsame x (List.mem_cons_of_mem _ hx))]
        simp
      have e : MatWriter.writeCell qt host { d_level := l :: rest, d_owner := own }
          (.device (first :: rest')) [] =
          MatWriter.endNumArray qt host
            (MatWriter.addNumArrayElement qt host
              (MatWriter.beginNumArray host { d_level := l :: rest, d_owner := own }
                [((first :: rest').length : Int), 1] first.type [])
              (.list (first :: rest')))
            false := by
        unfold MatWriter.writeCell
        rw [if_neg hs, if_neg hn]
        have t1 : ((QVariant.device (first :: rest')).type == MetaType.ByteArray) = false := rfl
        have t2 : ((QVariant.device (first :: rest')).type == MetaType.List) = false := rfl
        simp only [t1, t2, Bool.false_eq_true, if_false, List.isEmpty_cons, hc, hw'.1,
          Bool.not_true, Bool.or_self]
      rw [e]
      exact listCell_matrix qt host hl l rest own (first :: rest') first.type hw'.1 hsame hu
  | _ => first
    | exact absurd rfl hs
    | exact absurd rfl hn
    | simp [MatWriter.writesCell, QVariant.type, MatWriter.isString, MatWriter.isNumeric] at hw

/-- A cell value `writeCell` refuses leaves the writer as it was. -/
theorem writeCell_refused (qt : Qt) (host : Host) (w : MatWriter) (v : QVariant)
    (name : List Nat) (hr : MatWriter.refusesCell v = true) :
    MatWriter.writeCell qt host w v name = w := by
  cases v with
  | list vs =>
    cases vs with
    | nil => rfl
    | cons first rest' =>
      have hr' : (!rest'.all (fun x => x.type == first.type) ||
          !MatWriter.isNumeric first.type) = true := hr
      unfold MatWriter.writeCell
      have t0 : MatWriter.isString (QVariant.list (first :: rest')).type = false := rfl
      have t00 : MatWriter.isNumeric (QVariant.list (first :: rest')).type = false := rfl
      have t1 : ((QVariant.list (first :: rest')).type == MetaType.ByteArray) = false := rfl
      have t2 : ((QVariant.list (first :: rest')).type == MetaType.List) = true := rfl
      simp only [t0, t00, t1, t2, Bool.false_eq_true, if_false, if_true, QVariant.toList, hr']
  | device vs =>
    have hr' : (vs.isEmpty || !(collectStream vs MetaType.Invalid []).2.2 ||
        !MatWriter.isNumeric (collectStream vs MetaType.Invalid []).2.1) = true := hr
    unfold MatWriter.writeCell
    have t0 : MatWriter.isString (QVariant.device vs).type = false := rfl
    have t00 : MatWriter.isNumeric (QVariant.device vs).type = false := rfl
    have t1 : ((QVariant.device vs).type == MetaType.ByteArray) = false := rfl
    have t2 : ((QVariant.device vs).type == MetaType.List) = false := rfl
    simp only [t0, t00, t1, t2, Bool.false_eq_true, if_false]
    cases hv : vs.isEmpty with
    | true => simp only [if_true]
    | false =>
      rw [hv, Bool.false_or] at hr'
      simp only [Bool.false_eq_true, if_false, hr', if_true]
  | _ => first
    | (simp [MatWriter.refusesCell, QVariant.type, MatWriter.isString, MatWriter.isNumeric] at hr
       done)
    | rfl

/-- A cell value `writeCell` writes a matrix for is not one it refuses. -/
theorem writes_not_refused (v : QVariant) (hw : MatWriter.writesCell v = true) :
    MatWriter.refusesCell v = false := by
  cases v with
  | list vs =>
    cases vs with
    | nil => exact absurd hw (by decide)
    | cons first rest' =>
      have hw' : MatWriter.isNumeric first.type = true ∧
          rest'.all (fun x => x.type == first.type) = true := by
        simpa [MatWriter.writesCell] using hw
      show (!rest'.all (fun x => x.type == first.type) || !MatWriter.isNumeric first.type) = false
      rw [hw'.1, hw'.2]
      rfl
  | device vs =>
    cases vs with
    | nil => exact absurd hw (by decide)
    | cons first rest' =>
      have hw' : MatWriter.isNumeric first.type = true ∧
          rest'.all (fun x => x.type == first.type) = true := by
        simpa [MatWriter.writesCell] using hw
      have hne := (numeric_type first.type hw'.1).2.2.2.1
      have hc : collectStream (first :: rest') MetaType.Invalid [] =
          (first :: rest', first.type, true) := by
        rw [collectStream]
        simp only [beq_self_eq_true, if_true]
        rw [collectStream_same rest' first.type _ hne (fun x hx => by
          have := List.all_eq_true.mp hw'.2 x hx
          simpa using this)]
        simp
      show ((first :: rest').isEmpty ||
        !(collectStream (first :: rest') MetaType.Invalid []).2.2 ||
        !MatWriter.isNumeric (collectStream (first :: rest') MetaType.Invalid []).2.1) = false
      rw [hc]
      simp only [List.isEmpty_cons, hw'.1]
      rfl
  | _ => first
    | rfl
    | simp [MatWriter.writesCell, QVariant.type, MatWriter.isString, MatWriter.isNumeric] at hw

theorem wireMatrices_append (host : Host) (swap : Bool) (a b : List (List Nat)) :
    wireMatrices host swap (a ++ b) = wireMatrices host swap a ++ wireMatrices host swap b := by
  simp [wireMatrices]

/-- The loop of `addStructureRow` over cell values that `writeCell` writes or refuses: one
matrix element is appended to the level of the structure for each value written, none for a
value refused. -/
theorem writeCells_matrices (qt : Qt) (host : Host) (hl : host.sizeofLong ≤ 8)
    (rest : List Level) (own : Bool) (cells : List QVariant)
    (hcells : ∀ v ∈ cells, (MatWriter.writesCell v = true ∧ MatWriter.cellUnits qt v < 2 ^ 27) ∨
      MatWriter.refusesCell v = true) (l : Level) :
    ∃ bodies : List (List Nat),
      bodies.length = cells.countP MatWriter.writesCell ∧
      (∀ b ∈ bodies, 5 ≤ b.length ∧ b.length < 2 ^ 31) ∧
      writeCells qt host cells { d_level := l :: rest, d_owner := own } =
        { d_level := { l with d_out := l.d_out ++ wireMatrices host false bodies } :: rest,
          d_owner := own } := by
  induction cells generalizing l with
  | nil =>
    refine ⟨[], rfl, fun b hb => absurd hb (List.not_mem_nil b), ?_⟩
    simp [writeCells, wireMatrices]
  | cons v vs ih =>
    have hvs : ∀ x ∈ vs, (MatWriter.writesCell x = true ∧ MatWriter.cellUnits qt x < 2 ^ 27) ∨
        MatWriter.refusesCell x = true := fun x hx => hcells x (List.mem_cons_of_mem _ hx)
    by_cases hwv : MatWriter.writesCell v = true
    · have hu : MatWriter.cellUnits qt v < 2 ^ 27 := by
        rcases hcells v (List.mem_cons_self _ _) with h | h
        · exact h.2
        · exfalso
          rw [writes_not_refused v hwv] at h
          cases h
      obtain ⟨body, hb1, hb2, hwr⟩ := writeCell_matrix qt host hl l rest own v hwv hu
      obtain ⟨bodies, hcnt, hsz, hres⟩ := ih hvs
        { l with d_out := l.d_out ++ wireMatrix host false body }
      refine ⟨body :: bodies, ?_, ?_, ?_⟩
      · rw [List.countP_cons_of_pos _ _ hwv, List.length_cons, hcnt]
      · intro b hb
        rcases List.mem_cons.mp hb with rfl | hb
        · exact ⟨hb1, hb2⟩
        · exact hsz b hb
      · rw [writeCells, hwr, hres]
        simp [wireMatrices]
    · have hrv : MatWriter.refusesCell v = true := by
        rcases hcells v (List.mem_cons_self _ _) with h | h
        · exact absurd h.1 hwv
        · exact h
      obtain ⟨bodies, hcnt, hsz, hres⟩ := ih hvs l
      refine ⟨bodies, ?_, hsz, ?_⟩
      · rw [List.countP_cons_of_neg _ _ hwv, hcnt]
      · rw [writeCells, writeCell_refused qt host _ v [] hrv, hres]

/-- The rows of a structure: `addStructureRow` for as many rows as the structure was begun
with, each as wide as the structure has fields and holding values that `writeCell` writes or
refuses, appends one matrix element for each value written to the level of the structure and
counts the rows down to 0. -/
theorem addStructureRows_matrices (qt : Qt) (host : Host) (hl : host.sizeofLong ≤ 8)
    (rest : List Level) (own : Bool) (k : Nat) (rows : List (List QVariant))
    (hlen : rows.length < 2 ^ 31) (hwidth : ∀ row ∈ rows, row.length = k)
    (hcells : ∀ row ∈ rows, ∀ v ∈ row,
      (MatWriter.writesCell v = true ∧ MatWriter.cellUnits qt v < 2 ^ 27) ∨
        MatWriter.refusesCell v = true)
    (lv : Level) (hst : lv.d_type.d_mxType = mxSTRUCT_CLASS)
    (hd : lv.d_dims = [(rows.length : Int), (k : Int)]) :
    ∃ bodies : List (List Nat),
      bodies.length = (rows.map (fun row => row.countP MatWriter.writesCell)).sum ∧
      (∀ b ∈ bodies, 5 ≤ b.length ∧ b.length < 2 ^ 31) ∧
      rows.foldl (MatWriter.addStructureRow qt host) { d_level := lv :: rest, d_owner := own } =
        { d_level :=
            { lv with d_out := lv.d_out ++ wireMatrices host false bodies,
                      d_dims := [0, (k : Int)] } :: rest,
          d_owner := own } := by
  induction rows generalizing lv with
  | nil =>
    refine ⟨[], rfl, fun b hb => absurd hb (List.not_mem_nil b), ?_⟩
    obtain ⟨o, t, d⟩ := lv
    simp only at hd
    subst hd
    simp [wireMatrices]
  | cons row rows' ih =>
    obtain ⟨b1, hc1, hs1, hw1⟩ := writeCells_matrices qt host hl rest own row
      (hcells row (List.mem_cons_self _ _)) lv
    have hrowlen : row.length = k := hwidth row (List.mem_cons_self _ _)
    have hstep : MatWriter.addStructureRow qt host { d_level := lv :: rest, d_owner := own } row =
        { d_level :=
            { lv with d_out := lv.d_out ++ wireMatrices host false b1,
                      d_dims := [(rows'.length : Int), (k : Int)] } :: rest,
          d_owner := own } := by
      unfold MatWriter.addStructureRow
      have g1 : (lv.d_type.d_mxType != mxSTRUCT_CLASS || decide (lv.d_dims.length < 2)) =
          false := by
        rw [hst, hd]
        rfl
      have g2 : (((row.length : Nat) : Int) != lv.d_dims.getD 1 0) = false := by
        rw [hd, hrowlen]
        simp
      have g3 : ¬ lv.d_dims.headD 0 ≤ 0 := by
        rw [hd]
        simp only [List.headD_cons, List.length_cons]
        push_cast
        have := Int.natCast_nonneg rows'.length
        linarith
      simp only [g1, g2, g3, Bool.false_eq_true, if_false, hw1, MatWriter.onLast,
        Level.countDown]
      simp only [hd, List.headD_cons, List.set_cons_zero, List.length_cons]
      have hw : wrap32 (((rows'.length + 1 : Nat) : Int) - 1) = (rows'.length : Int) := by
        push_cast
        rw [add_sub_cancel_right]
        exact wrap32_of_range _ (by have := Int.natCast_nonneg rows'.length; linarith)
          (by
            have : rows'.length < 2 ^ 31 := by
              simp only [List.length_cons] at hlen
              omega
            exact_mod_cast this)
      rw [hw]
    rw [List.foldl_cons, hstep]
    obtain ⟨b2, hc2, hs2, hw2⟩ := ih (by simp only [List.length_cons] at hlen; omega)
      (fun r hr => hwidth r (List.mem_cons_of_mem _ hr))
      (fun r hr => hcells r (List.mem_cons_of_mem _ hr))
      { lv with d_out := lv.d_out ++ wireMatrices host false b1,
                d_dims := [(rows'.length : Int), (k : Int)] } hst rfl
    refine ⟨b1 ++ b2, ?_, ?_, ?_⟩
    · rw [List.length_append, hc1, hc2, List.map_cons, List.sum_cons]
    · intro b hb
      rcases List.mem_append.mp hb with hb | hb
      · exact hs1 b hb
      · exact hs2 b hb
    · rw [hw2, wireMatrices_append]
      simp

theorem sum_countP_rows (k : Nat) (rows : List (List QVariant))
    (hwidth : ∀ row ∈ rows, row.length = k)
    (hall : ∀ row ∈ rows, ∀ v ∈ row, MatWriter.writesCell v = true) :
    (rows.map (fun row => row.countP MatWriter.writesCell)).sum = rows.length * k := by
  induction rows with
  | nil => simp
  | cons row rows' ih =>
    have h1 : row.countP MatWriter.writesCell = k := by
      rw [← hwidth row (List.mem_cons_self _ _)]
      exact List.countP_eq_length.mpr (hall row (List.mem_cons_self _ _))
    rw [List.map_cons, List.sum_cons, h1,
      ih (fun r hr => hwidth r (List.mem_cons_of_mem _ hr))
        (fun r hr => hall r (List.mem_cons_of_mem _ hr)), List.length_cons]
    ring

/-- C33, as amended.  A structure is begun with as many rows as are then added, each row as
wide as the structure has fields and holding cell values that `writeCell` either writes (a
text, a numeric scalar, a byte sequence, a list or a data stream of scalars of one numeric kind
that is not empty; fewer than 2^27 payload units each) or refuses with a warning.  Then
`addStructureRow` accepts every row, the level of the structure holds, behind what
`beginStructure` wrote up to the field-name block, one nested matrix element for each cell
value written and nothing for a value refused, which makes `rowCount * fieldCount` nested
matrices when no value is refused, and `endStructure` closes the structure. -/
theorem C33_structure_cells (qt : Qt) (host : Host) (dst : Level) (rest : List Level)
    (own compress : Bool) (fieldNames : List (List Nat)) (name : List Nat)
    (rows : List (List QVariant)) (hl : host.sizeofLong ≤ 8) (hrows : rows.length < 2 ^ 31)
    (hwidth : ∀ row ∈ rows, row.length = fieldNames.length)
    (hcells : ∀ row ∈ rows, ∀ v ∈ row,
      (MatWriter.writesCell v = true ∧ MatWriter.cellUnits qt v < 2 ^ 27) ∨
        MatWriter.refusesCell v = true) :
    ∃ (head : List Nat) (bodies : List (List Nat)),
      (MatWriter.beginStructure host { d_level := dst :: rest, d_owner := own } fieldNames
          (rows.length : Int) name).d_level =
        { d_out := head, d_type := { d_miType := 0, d_mxType := mxSTRUCT_CLASS, d_len := 0 },
          d_dims := [(rows.length : Int), (fieldNames.length : Int)] } :: dst :: rest ∧
      (rows.foldl (MatWriter.addStructureRow qt host)
          (MatWriter.beginStructure host { d_level := dst :: rest, d_owner := own } fieldNames
            (rows.length : Int) name)).d_level =
        { d_out := head ++ wireMatrices host false bodies,
          d_type := { d_miType := 0, d_mxType := mxSTRUCT_CLASS, d_len := 0 },
          d_dims := [0, (fieldNames.length : Int)] } :: dst :: rest ∧
      bodies.length = (rows.map (fun row => row.countP MatWriter.writesCell)).sum ∧
      ((∀ row ∈ rows, ∀ v ∈ row, MatWriter.writesCell v = true) →
        bodies.length = rows.length * fieldNames.length) ∧
      (∀ b ∈ bodies, 5 ≤ b.length ∧ b.length < 2 ^ 31) ∧
      MatWriter.endStructure qt host
          (rows.foldl (MatWriter.addStructureRow qt host)
            (MatWriter.beginStructure host { d_level := dst :: rest, d_owner := own } fieldNames
              (rows.length : Int) name)) compress =
        MatWriter.endMatrix qt host
          (rows.foldl (MatWriter.addStructureRow qt host)
            (MatWriter.beginStructure host { d_level := dst :: rest, d_owner := own } fieldNames
              (rows.length : Int) name)) compress := by
  have hb : ∃ head, MatWriter.beginStructure host { d_level := dst :: rest, d_owner := own }
      fieldNames (rows.length : Int) name =
      { d_level :=
          { d_out := head, d_type := { d_miType := 0, d_mxType := mxSTRUCT_CLASS, d_len := 0 },
            d_dims := [(rows.length : Int), (fieldNames.length : Int)] } :: dst :: rest,
        d_owner := own } := ⟨_, rfl⟩
  obtain ⟨head, hb⟩ := hb
  obtain ⟨bodies, hc, hs, hw⟩ := addStructureRows_matrices qt host hl (dst :: rest) own
    fieldNames.length rows hrows hwidth hcells
    { d_out := head, d_type := { d_miType := 0, d_mxType := mxSTRUCT_CLASS, d_len := 0 },
      d_dims := [(rows.length : Int), (fieldNames.length : Int)] } rfl rfl
  refine ⟨head, bodies, ?_, ?_, hc, ?_, hs, ?_⟩
  · rw [hb]
  · rw [hb, hw]
  · intro hall
    rw [hc, sum_countP_rows fieldNames.length rows hwidth hall]
  · rw [hb, hw]
    rfl

/-! ## Cell arrays -/

/-- After `skipLevel` inside a matrix the next token is the `EndMatrix` of that matrix. -/
theorem nextToken_skipLevel (qt : Qt) (host : Host) (p : MatParser) (bytes : List Nat)
    (hpeek : p.d_peek = Token.new) :
    MatParser.nextToken qt host (p.enter bytes).skipLevel = (Token.ofType .EndMatrix, p) := by
  rw [nextToken_endMatrix qt host (p.enter bytes).skipLevel
    { d_in := some { bytes := [], missing := 0 }, d_needByteSwap := p.d_first.needsByteSwap,
      d_owner := false } p.d_nested (by
        show p.d_peek.d_type = TokenType.Null
        rw [hpeek]
        rfl) rfl rfl]
  rfl

/-- One round of the loop of the CELL case. -/
theorem cellLoop_step (qt : Qt) (host : Host)
    (rm : MatReader → Except Fault (QVariant × MatReader)) (limit g : Nat)
    (s q p' q2 : MatParser) (tok : Token) (v : QVariant) (i : Nat) (cells : List QVariant)
    (h1 : MatParser.nextToken qt host s = (tok, q))
    (h2 : rm { d_parser' := q, d_error := [] } = .ok (v, { d_parser' := p', d_error := [] }))
    (h3 : MatParser.nextToken qt host p' = (Token.ofType .EndMatrix, q2)) :
    cellLoop qt host rm limit (g + 1) { d_parser' := s, d_error := [] } i cells =
      if limit != 0 && i + 1 >= limit then
        .ok (some (cells ++ [v]), { d_parser' := q2.skipLevel, d_error := [] })
      else if (MatParser.peekToken qt host q2).1.d_type == TokenType.BeginMatrix then
        cellLoop qt host rm limit g
          { d_parser' := (MatParser.peekToken qt host q2).2, d_error := [] } (i + 1)
          (cells ++ [v])
      else .ok (some (cells ++ [v]),
        { d_parser' := (MatParser.peekToken qt host q2).2, d_error := [] }) := by
  rw [cellLoop]
  simp only [MatReader.nextToken, MatReader.peekToken, MatReader.skipLevel, h1, h2, h3,
    bne_self_eq_false, Bool.false_eq_true, if_false, Token.ofType]

/-- The loop of the CELL case over well-formed nested matrices, entered with the first of
them peeked and `i` cells read: it appends the values of all the matrices with limit 0, and of
those up to the `limit`-th cell otherwise, and ends in front of the `EndMatrix` of the cell
matrix. -/
theorem cellLoop_cells (qt : Qt) (host : Host) (swap : Bool) (limit k fuelR : Nat)
    (hfr : k ≤ fuelR) (p : MatParser)
    (hpeek : p.d_peek = Token.new) (hlimit : p.d_limit = limit)
    (hswap : p.d_first.d_needByteSwap = swap)
    (bodies : List (List Nat)) (vals : List QVariant)
    (hdec : List.Forall₂ (DecodesUnder qt host swap limit k) bodies vals)
    (hlen : ∀ b ∈ bodies, b.length < 2 ^ 32) :
    ∀ (b : List Nat) (v : QVariant), DecodesUnder qt host swap limit k b v → b.length < 2 ^ 32 →
      ∀ fuel, bodies.length < fuel → ∀ (i : Nat) (cells : List QVariant),
        (limit = 0 ∨ i < limit) →
        ∃ q, cellLoop qt host (MatReader.readMatrix qt host fuelR) limit fuel
            { d_parser' := { (p.enter (wireMatrices host swap bodies)).enter b with
                d_peek := Token.ofType .BeginMatrix },
              d_error := [] } i cells =
            .ok (some (cells ++ (if limit = 0 then v :: vals else (v :: vals).take (limit - i))),
              { d_parser' := q, d_error := [] }) ∧
          MatParser.nextToken qt host q = (Token.ofType .EndMatrix, p) := by
  induction hdec with
  | nil =>
    intro b v hb hbl fuel hfuel i cells hi
    obtain ⟨g, rfl⟩ : ∃ g, fuel = g + 1 := ⟨fuel - 1, by omega⟩
    obtain ⟨p', h2, h3⟩ := hb fuelR hfr (p.enter (wireMatrices host swap [])) hpeek hlimit hswap
    rw [cellLoop_step qt host _ limit g _ _ p' _ (Token.ofType .BeginMatrix) v i cells
      (nextToken_buffered qt host _ .BeginMatrix (by exact hpeek) (by decide)) h2 h3]
    have hnil : wireMatrices host swap [] = [] := rfl
    have htake : (if limit = 0 then [v] else [v].take (limit - i)) = [v] := by
      split
      · rfl
      · exact List.take_of_length_le (by simp only [List.length_singleton]; omega)
    rw [htake]
    by_cases hc : (limit != 0 && decide (i + 1 ≥ limit)) = true
    · rw [if_pos hc]
      exact ⟨_, rfl, nextToken_skipLevel qt host p _ hpeek⟩
    · rw [if_neg hc, hnil, peekToken_enter_nil qt host p hpeek]
      refine ⟨{ p with d_peek := Token.ofType .EndMatrix }, by simp [Token.ofType], ?_⟩
      exact nextToken_buffered qt host p .EndMatrix hpeek (by decide)
  | @cons b' v' bs vs hb' _ ih =>
    intro b v hb hbl fuel hfuel i cells hi
    obtain ⟨g, rfl⟩ : ∃ g, fuel = g + 1 := ⟨fuel - 1, by omega⟩
    obtain ⟨p', h2, h3⟩ := hb fuelR hfr (p.enter (wireMatrices host swap (b' :: bs))) hpeek hlimit
      hswap
    rw [cellLoop_step qt host _ limit g _ _ p' _ (Token.ofType .BeginMatrix) v i cells
      (nextToken_buffered qt host _ .BeginMatrix (by exact hpeek) (by decide)) h2 h3]
    by_cases hc : (limit != 0 && decide (i + 1 ≥ limit)) = true
    · rw [if_pos hc]
      have hc' : limit ≠ 0 ∧ i + 1 ≥ limit := by simpa using hc
      have htake : (if limit = 0 then v :: v' :: vs else (v :: v' :: vs).take (limit - i)) =
          [v] := by
        rw [if_neg hc'.1]
        have : limit - i = 1 := by omega
        rw [this]
        rfl
      rw [htake]
      exact ⟨_, rfl, nextToken_skipLevel qt host p _ hpeek⟩
    · rw [if_neg hc]
      have hsw : p.d_first.needsByteSwap = swap := hswap
      rw [wireMatrices_cons, ← hsw,
        peekToken_enter_matrix qt host p b' _ hpeek (hlen b' (List.mem_cons_self _ _))]
      simp only [Token.ofType, beq_self_eq_true, if_true]
      rw [hsw]
      have hi' : limit = 0 ∨ i + 1 < limit := by
        rcases hi with h | h
        · exact Or.inl h
        · by_cases h0 : limit = 0
          · exact Or.inl h0
          · right
            by_contra hge
            apply hc
            simp [h0]
            omega
      obtain ⟨q, hq1, hq2⟩ := ih (fun x hx => hlen x (List.mem_cons_of_mem _ hx)) b' v' hb'
        (hlen b' (List.mem_cons_self _ _)) g (by simp at hfuel; omega) (i + 1) (cells ++ [v]) hi'
      simp only [Token.ofType] at hq1
      refine ⟨q, ?_, hq2⟩
      rw [hq1]
      congr 3
      rw [List.append_assoc]
      congr 1
      by_cases h0 : limit = 0
      · rw [if_pos h0, if_pos h0]
        rfl
      · rw [if_neg h0, if_neg h0]
        have : limit - i = (limit - (i + 1)) + 1 := by
          rcases hi' with h | h
          · exact absurd h h0
          · omega
        rw [this, List.take_succ_cons]
        rfl

/-- `readMatrix` on the body of a CELL matrix with well-formed nested matrices: a CellArray
of their values, all of them with limit 0 and the first `limit` under a limit that leaves the
flags and the dims whole; the next token is the `EndMatrix` of the cell matrix. -/
theorem readMatrix_cell (qt : Qt) (host : Host) (k fuel : Nat) (p : MatParser)
    (f0 f1 : Nat) (dims : List Int) (nf : TagForm) (name : List Nat)
    (bodies : List (List Nat)) (vals : List QVariant)
    (hpeek : p.d_peek = Token.new)
    (hlimit : p.d_limit = 0 ∨ (2 ≤ p.d_limit ∧ dims.length ≤ p.d_limit)) (h0 : f0 < 2 ^ 32)
    (h1 : f1 < 2 ^ 32) (hd : 2 ≤ dims.length) (hdl : dims.length < 2 ^ 30)
    (hr : ∀ d ∈ dims, -(2 ^ 31 : Int) ≤ d ∧ d < 2 ^ 31) (hnf : nf.fits name.length = true)
    (hcls : f0 &&& 0xff = mxCELL_CLASS)
    (hdec : List.Forall₂ (DecodesUnder qt host p.d_first.needsByteSwap p.d_limit k) bodies vals)
    (hlen : ∀ b ∈ bodies, b.length < 2 ^ 32) (hf1 : k ≤ fuel) (hf2 : bodies.length ≤ fuel) :
    ∃ q, MatReader.readMatrix qt host (fuel + 1)
        { d_parser' := p.enter (cellBody host p.d_first.needsByteSwap f0 f1 dims nf name bodies),
          d_error := [] } =
      .ok (.cellArray
            { d_name := name, d_logical := f0 &&& 0x200 != 0, d_global := f0 &&& 0x400 != 0,
              d_valid := true }
            dims (limitedCells p.d_limit vals),
           { d_parser' := q, d_error := [] }) ∧
      MatParser.nextToken qt host q = (Token.ofType .EndMatrix, p) := by
  unfold cellBody
  rw [readMatrix_head_limited qt host p [] fuel f0 f1 dims nf name _ hpeek hlimit h0 h1 hd hdl hr
    hnf]
  unfold MatReader.classSwitch
  rw [hcls]
  have hA : (decide (mxDOUBLE_CLASS ≤ mxCELL_CLASS) &&
      decide (mxCELL_CLASS ≤ mxUINT64_CLASS)) = false := by decide
  have hB : (mxCELL_CLASS == mxSPARSE_CLASS) = false := by decide
  have hD : ¬ dims.length < 2 := by omega
  simp only [hA, hB, hD, Bool.false_eq_true, if_false, beq_self_eq_true, if_true,
    MatReader.peekToken]
  cases hdec with
  | nil =>
    have hnil : wireMatrices host p.d_first.needsByteSwap [] = [] := rfl
    rw [hnil, peekToken_enter_nil qt host p hpeek]
    refine ⟨{ p with d_peek := Token.ofType .EndMatrix }, ?_,
      nextToken_buffered qt host p .EndMatrix hpeek (by decide)⟩
    have hl : limitedCells p.d_limit [] = [] := by
      unfold limitedCells
      split <;> simp
    rw [hl]
    simp [Token.ofType]
  | @cons b v bs vs hb hrest =>
    have hbl := hlen b (List.mem_cons_self _ _)
    obtain ⟨q, hq1, hq2⟩ := cellLoop_cells qt host p.d_first.needsByteSwap p.d_limit k fuel hf1
      p hpeek rfl rfl bs vs hrest (fun x hx => hlen x (List.mem_cons_of_mem _ hx)) b v hb hbl
      fuel (by simp at hf2; omega) 0 []
      (by rcases hlimit with h | h; exact Or.inl h; exact Or.inr (by omega))
    rw [wireMatrices_cons, peekToken_enter_matrix qt host p b _ hpeek hbl]
    simp only [Token.ofType, beq_self_eq_true, if_true] at hq1 ⊢
    rw [hq1]
    refine ⟨q, ?_, hq2⟩
    simp only [List.nil_append, Nat.sub_zero, limitedCells]

/-- A CELL matrix with well-formed nested matrices is itself well-formed under the limit. -/
theorem DecodesUnder_cell (qt : Qt) (host : Host) (swap : Bool) (limit k : Nat)
    (f0 f1 : Nat) (dims : List Int) (nf : TagForm) (name : List Nat)
    (bodies : List (List Nat)) (vals : List QVariant)
    (hlimit : limit = 0 ∨ (2 ≤ limit ∧ dims.length ≤ limit)) (h0 : f0 < 2 ^ 32)
    (h1 : f1 < 2 ^ 32) (hd : 2 ≤ dims.length) (hdl : dims.length < 2 ^ 30)
    (hr : ∀ d ∈ dims, -(2 ^ 31 : Int) ≤ d ∧ d < 2 ^ 31) (hnf : nf.fits name.length = true)
    (hcls : f0 &&& 0xff = mxCELL_CLASS)
    (hdec : List.Forall₂ (DecodesUnder qt host swap limit k) bodies vals)
    (hlen : ∀ b ∈ bodies, b.length < 2 ^ 32) :
    DecodesUnder qt host swap limit (max k bodies.length + 1)
      (cellBody host swap f0 f1 dims nf name bodies)
      (.cellArray
        { d_name := name, d_logical := f0 &&& 0x200 != 0, d_global := f0 &&& 0x400 != 0,
          d_valid := true }
        dims (limitedCells limit vals)) := by
  intro fuel hfuel p hpeek hlim hswap
  obtain ⟨g, rfl⟩ : ∃ g, fuel = g + 1 := ⟨fuel - 1, by omega⟩
  have hsw : p.d_first.needsByteSwap = swap := hswap
  subst hlim
  subst hsw
  exact readMatrix_cell qt host k g p f0 f1 dims nf name bodies vals hpeek hlimit h0 h1 hd hdl
    hr hnf hcls hdec hlen (by omega) (by omega)

/-- A top-level CELL matrix with well-formed nested matrices: `nextElement` returns the
CellArray of their values -- all of them with limit 0, the first `limit` of them under a limit
that leaves the flags and the dims whole -- without error, and the reader is left right
behind the matrix. -/
theorem nextElement_cell (qt : Qt) (host : Host) (swap : Bool) (limit k fuel : Nat)
    (f0 f1 : Nat) (dims : List Int) (nf : TagForm) (name : List Nat)
    (bodies : List (List Nat)) (vals : List QVariant) (rest : List Nat)
    (hlimit : limit = 0 ∨ (2 ≤ limit ∧ dims.length ≤ limit)) (h0 : f0 < 2 ^ 32)
    (h1 : f1 < 2 ^ 32) (hd : 2 ≤ dims.length) (hdl : dims.length < 2 ^ 30)
    (hr : ∀ d ∈ dims, -(2 ^ 31 : Int) ≤ d ∧ d < 2 ^ 31) (hnf : nf.fits name.length = true)
    (hcls : f0 &&& 0xff = mxCELL_CLASS)
    (hdec : List.Forall₂ (DecodesUnder qt host swap limit k) bodies vals)
    (hlen : ∀ b ∈ bodies, b.length < 2 ^ 32)
    (hbody : (cellBody host swap f0 f1 dims nf name bodies).length < 2 ^ 32)
    (hfuel : max k bodies.length + 1 ≤ fuel) :
    MatReader.nextElement qt host fuel
        (MatReader.over (wireMatrix host swap (cellBody host swap f0 f1 dims nf name bodies) ++
          rest) swap limit) =
      .ok (.cellArray
            { d_name := name, d_logical := f0 &&& 0x200 != 0, d_global := f0 &&& 0x400 != 0,
              d_valid := true }
            dims (limitedCells limit vals),
           MatReader.over rest swap limit) := by
  obtain ⟨q, hq1, hq2⟩ := DecodesUnder_cell qt host swap limit k f0 f1 dims nf name bodies vals
    hlimit h0 h1 hd hdl hr hnf hcls hdec hlen fuel hfuel (MatReader.over rest swap limit).d_parser'
    rfl rfl rfl
  exact nextElement_matrix_limited qt host swap limit _ rest _ fuel q hbody hq1 hq2

set_option maxRecDepth 100000

/-! ## Scenarios on field names -/

/-- C31.  The names block `abc\0` with the field-name length 2 holds the chunks `ab` and `c\0`.
`_split` returns two names, as many as there are chunks, but the first name is `abc`: the
first chunk holds no NUL byte, and the name runs on through the second chunk up to the NUL
byte there.  A STRUCT matrix with this block and two nested 1x1 matrices is read as a
Structure with the fields `abc` and `c`. -/
theorem C31_name_runs_into_next_chunk :
    _split 3 [97, 98, 99, 0] 2 = some [[97, 98, 99], [99]] ∧
    ([97, 98, 99, 0].take 2).takeWhile (fun b => b != 0) = [97, 98] ∧
    valueOf (MatReader.nextElement Qt.plain Host.linux64 4
      (MatReader.over (wireMatrix Host.linux64 false
        (wireMatrixHead Host.linux64 false 2 0 [1, 1] .small [115] ++
          (wireElement Host.linux64 false .small miINT32 (wireWord Host.linux64 false 4 2) ++
            (wireElement Host.linux64 false .small miINT8 [97, 98, 99, 0] ++
              wireMatrices Host.linux64 false
                [numericBody Host.linux64 false 6 0 [1, 1] .small [120]
                  ⟨.normal, miDOUBLE, hostBytes Host.linux64 8 7⟩ none,
                 numericBody Host.linux64 false 6 0 [1, 1] .small [121]
                  ⟨.normal, miDOUBLE, hostBytes Host.linux64 8 8⟩ none])))) false 0)) =
      some (.matStructure
        { d_name := [115], d_logical := false, d_global := false, d_valid := true } []
        [([97, 98, 99],
            [.numericArray
              { d_name := [120], d_logical := false, d_global := false, d_valid := true }
              [1, 1] [.double 7] []]),
         ([99],
            [.numericArray
              { d_name := [121], d_logical := false, d_global := false, d_valid := true }
              [1, 1] [.double 8] []])]) :=
  ⟨by decide, by decide, rfl⟩

/-- C35.  With the field-name length 0 the loop of `_split` does not end on the names block
`a\0`, whatever the number of steps allowed: the position stays 0.  So `nextElement` does
not return on the STRUCT matrix named `s` with the dims 1x1, the field-name length 0 and that
block, for any step budget; with the field-name length 2 the split returns the name `a`. -/
theorem C35_zero_name_length_never_returns :
    (∀ fuel, _split fuel [97, 0] 0 = none) ∧
    (∀ fuel, MatReader.nextElement Qt.plain Host.linux64 fuel
      (MatReader.over (wireMatrix Host.linux64 false
        (wireMatrixHead Host.linux64 false 2 0 [1, 1] .small [115] ++
          (wireElement Host.linux64 false .small miINT32 (wireWord Host.linux64 false 4 0) ++
            (wireElement Host.linux64 false .small miINT8 [97, 0] ++ []))) ++ []) false 0) =
      .error .fuel) ∧
    _split 2 [97, 0] 2 = some [[97]] :=
  ⟨fun fuel => split_zero [97, 0] (by decide) fuel,
   fun fuel => nextElement_struct_zero Qt.plain Host.linux64 false fuel 2 0 [1, 1] .small [115]
     .small .small [97, 0] [] [] (by decide) (by decide) (by decide) (by decide)
     (by decide) (by decide) (by decide) (by decide) (by decide) (by decide) (by decide),
   by decide⟩

/-- C36.  A STRUCT matrix named `s` whose names block is empty and which holds one nested 1x1
matrix: `_split` returns no name, `readFields` reads the nested matrix and then computes
`n % names.size()` with `names.size()` 0, a division by zero.  Without the nested matrix the
same structure is read as a Structure without fields. -/
theorem C36_empty_names_division_by_zero :
    _split 1 [] 4 = some [] ∧
    MatReader.nextElement Qt.plain Host.linux64 3
      (MatReader.over (wireMatrix Host.linux64 false
        (structBody Host.linux64 false 2 0 [1, 1] .small [115] .small 4 .normal []
          [numericBody Host.linux64 false 6 0 [1, 1] .small [120]
            ⟨.normal, miDOUBLE, hostBytes Host.linux64 8 7⟩ none])) false 0) =
      .error .divisionByZero ∧
    valueOf (MatReader.nextElement Qt.plain Host.linux64 3
      (MatReader.over (wireMatrix Host.linux64 false
        (structBody Host.linux64 false 2 0 [1, 1] .small [115] .small 4 .normal [] []))
        false 0)) =
      some (.matStructure
        { d_name := [115], d_logical := false, d_global := false, d_valid := true } [] []) :=
  ⟨by decide, rfl, rfl⟩

/-! ## Scenarios on the rows of a structure -/

/-- C33 at a concrete input: a structure with the fields `a` and `b` and one row holding the
`int` 1 and the text "h" holds two nested matrices behind its field-name block. -/
theorem C33_structure_cells_witness :
    Host.linux64.sizeofLong ≤ 8 ∧
    ∃ bodies : List (List Nat), bodies.length = 1 * 2 ∧ ∃ head : List Nat,
      ([[QVariant.int 1, QVariant.string [104]]].foldl
          (MatWriter.addStructureRow Qt.plain Host.linux64)
          (MatWriter.beginStructure Host.linux64 { d_level := [Level.new], d_owner := false }
            [[97], [98]] ((1 : Nat) : Int) [115])).d_level =
        [{ d_out := head ++ wireMatrices Host.linux64 false bodies,
           d_type := { d_miType := 0, d_mxType := mxSTRUCT_CLASS, d_len := 0 },
           d_dims := [0, ((2 : Nat) : Int)] }, Level.new] := by
  obtain ⟨head, bodies, _, h2, _, h4, _, _⟩ :=
    C33_structure_cells Qt.plain Host.linux64 Level.new [] false false [[97], [98]] [115]
      [[QVariant.int 1, QVariant.string [104]]] (by decide) (by decide)
      (by
        intro row hr
        rw [List.mem_singleton] at hr
        subst hr
        rfl)
      (by
        intro row hr v hv
        rw [List.mem_singleton] at hr
        subst hr
        simp only [List.mem_cons, List.mem_singleton, List.not_mem_nil, or_false] at hv
        rcases hv with rfl | rfl
        · exact Or.inl ⟨rfl, by decide⟩
        · exact Or.inl ⟨rfl, by decide⟩)
  refine ⟨by decide, bodies, h4 ?_, head, h2⟩
  intro row hr v hv
  rw [List.mem_singleton] at hr
  subst hr
  simp only [List.mem_cons, List.mem_singleton, List.not_mem_nil, or_false] at hv
  rcases hv with rfl | rfl <;> rfl

/-- C33 as stated fails.  A structure with the fields `a` and `b` is begun for one row, and
the row of the `int` 1 and an empty list is added.  `addStructureRow` accepts the row (the row
count goes from 1 to 0), `writeCell` refuses the empty list, `endStructure` closes the
structure, and behind the field-name block the structure holds one nested matrix, the 1x1
array of the `int`, where `rowCount * fieldCount` is 2.  `MatReader` rejects the structure,
one value for two fields, as inconsistent. -/
theorem C33_refused_cell_counterexample :
    ((MatWriter.beginStructure Host.linux64 MatWriter.fresh [[97], [98]] 1 [115]).d_level.map
      fun l => (l.d_out.length, l.d_dims)) = [(56, [1, 2]), (0, [])] ∧
    ((MatWriter.addStructureRow Qt.plain Host.linux64
        (MatWriter.beginStructure Host.linux64 MatWriter.fresh [[97], [98]] 1 [115])
        [.int 1, .list []]).d_level.map fun l => (l.d_out.drop 56, l.d_dims)) =
      [(wireMatrix Host.linux64 false
          (numericBody Host.linux64 false 12 0 [1, 1] .normal []
            ⟨.small, miINT32, hostBytes Host.linux64 4 1⟩ none), [0, 2]), ([], [])] ∧
    ((MatWriter.endStructure Qt.plain Host.linux64
        (MatWriter.addStructureRow Qt.plain Host.linux64
          (MatWriter.beginStructure Host.linux64 MatWriter.fresh [[97], [98]] 1 [115])
          [.int 1, .list []]) false).d_level.map fun l => l.d_out.length) = [120] ∧
    errorOf (MatReader.nextElement Qt.plain Host.linux64 5
      (MatReader.over
        (MatWriter.endStructure Qt.plain Host.linux64
          (MatWriter.addStructureRow Qt.plain Host.linux64
            (MatWriter.beginStructure Host.linux64 MatWriter.fresh [[97], [98]] 1 [115])
            [.int 1, .list []]) false).sink false 0)) =
      some (qstr "Fields and names not consistent") := by
  refine ⟨?_, ?_, ?_, ?_⟩ <;> decide

/-! ## Scenarios on cell arrays -/

/-- C32.  A CELL matrix named `c` with the dims 1x3 holds three nested 1x1 DOUBLE matrices
`x`, `y` and `z` and is followed by a small `miINT32` element holding 42.  With the limit 1
`nextElement` returns the empty value and sets the error "Invalid array flags": the limit cuts
the two flags words to one.  The lexer of the matrix stays on the stack, and the next
`nextElement` returns 1, the first of the dims of the cell matrix, not 42.  With the limit 2
the CellArray holds `x` and `y` and the next element is 42; with the limit 0 it holds all
three. -/
theorem C32_limit_one_rejects_cell_matrix :
    errorOf (MatReader.nextElement Qt.plain Host.linux64 5
      (MatReader.over (wireMatrix Host.linux64 false
        (cellBody Host.linux64 false 1 0 [1, 3] .small [99]
          [numericBody Host.linux64 false 6 0 [1, 1] .small [120]
            ⟨.normal, miDOUBLE, hostBytes Host.linux64 8 1⟩ none,
           numericBody Host.linux64 false 6 0 [1, 1] .small [121]
            ⟨.normal, miDOUBLE, hostBytes Host.linux64 8 2⟩ none,
           numericBody Host.linux64 false 6 0 [1, 1] .small [122]
            ⟨.normal, miDOUBLE, hostBytes Host.linux64 8 3⟩ none]) ++
        [5, 0, 4, 0, 42, 0, 0, 0]) false 1)) = some (qstr "Invalid array flags") ∧
    (match MatReader.nextElement Qt.plain Host.linux64 5
      (MatReader.over (wireMatrix Host.linux64 false
        (cellBody Host.linux64 false 1 0 [1, 3] .small [99]
          [numericBody Host.linux64 false 6 0 [1, 1] .small [120]
            ⟨.normal, miDOUBLE, hostBytes Host.linux64 8 1⟩ none,
           numericBody Host.linux64 false 6 0 [1, 1] .small [121]
            ⟨.normal, miDOUBLE, hostBytes Host.linux64 8 2⟩ none,
           numericBody Host.linux64 false 6 0 [1, 1] .small [122]
            ⟨.normal, miDOUBLE, hostBytes Host.linux64 8 3⟩ none]) ++
        [5, 0, 4, 0, 42, 0, 0, 0]) false 1) with
      | .ok (_, r1) =>
        (r1.d_parser'.d_nested.length, valueOf (MatReader.nextElement Qt.plain Host.linux64 5 r1))
      | .error _ => (0, none)) = (1, some (.int 1)) ∧
    (match MatReader.nextElement Qt.plain Host.linux64 5
      (MatReader.over (wireMatrix Host.linux64 false
        (cellBody Host.linux64 false 1 0 [1, 3] .small [99]
          [numericBody Host.linux64 false 6 0 [1, 1] .small [120]
            ⟨.normal, miDOUBLE, hostBytes Host.linux64 8 1⟩ none,
           numericBody Host.linux64 false 6 0 [1, 1] .small [121]
            ⟨.normal, miDOUBLE, hostBytes Host.linux64 8 2⟩ none,
           numericBody Host.linux64 false 6 0 [1, 1] .small [122]
            ⟨.normal, miDOUBLE, hostBytes Host.linux64 8 3⟩ none]) ++
        [5, 0, 4, 0, 42, 0, 0, 0]) false 2) with
      | .ok (v, r1) => (some v, valueOf (MatReader.nextElement Qt.plain Host.linux64 5 r1))
      | .error _ => (none, none)) =
      (some (.cellArray
        { d_name := [99], d_logical := false, d_global := false, d_valid := true } [1, 3]
        [.numericArray
            { d_name := [120], d_logical := false, d_global := false, d_valid := true }
            [1, 1] [.double 1] [],
         .numericArray
            { d_name := [121], d_logical := false, d_global := false, d_valid := true }
            [1, 1] [.double 2] []]), some (.int 42)) ∧
    valueOf (MatReader.nextElement Qt.plain Host.linux64 5
      (MatReader.over (wireMatrix Host.linux64 false
        (cellBody Host.linux64 false 1 0 [1, 3] .small [99]
          [numericBody Host.linux64 false 6 0 [1, 1] .small [120]
            ⟨.normal, miDOUBLE, hostBytes Host.linux64 8 1⟩ none,
           numericBody Host.linux64 false 6 0 [1, 1] .small [121]
            ⟨.normal, miDOUBLE, hostBytes Host.linux64 8 2⟩ none,
           numericBody Host.linux64 false 6 0 [1, 1] .small [122]
            ⟨.normal, miDOUBLE, hostBytes Host.linux64 8 3⟩ none]) ++
        [5, 0, 4, 0, 42, 0, 0, 0]) false 0)) =
      some (.cellArray
        { d_name := [99], d_logical := false, d_global := false, d_valid := true } [1, 3]
        [.numericArray
            { d_name := [120], d_logical := false, d_global := false, d_valid := true }
            [1, 1] [.double 1] [],
         .numericArray
            { d_name := [121], d_logical := false, d_global := false, d_valid := true }
            [1, 1] [.double 2] [],
         .numericArray
            { d_name := [122], d_logical := false, d_global := false, d_valid := true }
            [1, 1] [.double 3] []]) :=
  ⟨by decide, rfl, rfl, rfl⟩

/-! ## What an empty value without an error tells -/

/-- An element the lexer returns without the end flag has a stream. -/
theorem nextElement_stream (qt : Qt) (host : Host) (lex : MatLexer)
    (h : (MatLexer.nextElement qt host lex).1.d_end = false) :
    ∃ s, (MatLexer.nextElement qt host lex).1.d_stream = some s := by
  revert h
  generalize hx : MatLexer.nextElement qt host lex = x
  intro h
  unfold MatLexer.nextElement at hx
  dsimp only at hx
  repeat' (split at hx)
  all_goals subst hx
  all_goals first
    | exact ⟨_, rfl⟩
    | (simp [DataElement.new, DataElement.ofError] at h)

/-- The lexer sets the end flag without the error flag only when it has no device or the
device is at its end. -/
theorem nextElement_end (qt : Qt) (host : Host) (lex : MatLexer)
    (h : (MatLexer.nextElement qt host lex).1.d_end = true)
    (he : (MatLexer.nextElement qt host lex).1.d_error = false) :
    ∀ d, lex.d_in = some d → d.atEnd = true := by
  intro d hd
  revert h he
  generalize hx : MatLexer.nextElement qt host lex = x
  intro h he
  unfold MatLexer.nextElement at hx
  rw [hd] at hx
  dsimp only at hx
  by_cases ha : d.atEnd = true
  · exact ha
  · rw [if_neg ha] at hx
    repeat' (split at hx)
    all_goals subst hx
    all_goals first
      | (simp [DataElement.ofError] at he; done)
      | (simp at h)

/-- The value of `_readResult` is valid when the values read are. -/
theorem readResult_valid (tmp : List QVariant) (h : ∀ v ∈ tmp, v ≠ QVariant.invalid) :
    (_readResult tmp).d_value ≠ QVariant.invalid := by
  unfold _readResult
  split
  · rename_i v
    exact h v (by simp)
  · intro hc
    cases hc

/-- A token of `_read<T>` is a `Value` that is valid or the `Error` with the name of the type. -/
theorem readLoop_token (host : Host) (size : Nat) (mk : Nat → QVariant) (name : String)
    (swap : Bool) (limit fuel : Nat) (s : InStream) (i : Nat) (tmp : List QVariant)
    (hmk : ∀ x, mk x ≠ QVariant.invalid) (htmp : ∀ v ∈ tmp, v ≠ QVariant.invalid) :
    ((_readLoop host size mk name swap limit fuel s i tmp).1.d_type = TokenType.Value ∧
      (_readLoop host size mk name swap limit fuel s i tmp).1.d_value ≠ QVariant.invalid) ∨
    (_readLoop host size mk name swap limit fuel s i tmp).1 = Token.error name := by
  induction fuel generalizing s i tmp with
  | zero => exact Or.inl ⟨readResult_type tmp, readResult_valid tmp htmp⟩
  | succ g ih =>
    rw [_readLoop]
    split
    · exact Or.inl ⟨readResult_type tmp, readResult_valid tmp htmp⟩
    · split
      · exact Or.inl ⟨readResult_type tmp, readResult_valid tmp htmp⟩
      · dsimp only
        split
        · exact Or.inr rfl
        · apply ih
          intro v hv
          rcases List.mem_append.mp hv with h | h
          · exact htmp v h
          · rw [List.mem_singleton.mp h]
            exact hmk _

/-- A token of `_read<T>` is a `Value` that is valid or an `Error` with a text. -/
theorem read_token (qt : Qt) (host : Host) (size : Nat) (mk : Nat → QVariant) (name : String)
    (swap : Bool) (limit fuel : Nat) (s : InStream)
    (hmk : ∀ x, mk x ≠ QVariant.invalid) (hn : qstr name ≠ []) :
    ((_readLoop host size mk name swap limit fuel s 0 []).1.d_type = TokenType.Value ∧
      (_readLoop host size mk name swap limit fuel s 0 []).1.d_value ≠ QVariant.invalid) ∨
    ((_readLoop host size mk name swap limit fuel s 0 []).1.d_type = TokenType.Error ∧
      (_readLoop host size mk name swap limit fuel s 0 []).1.d_value.toString qt ≠ []) := by
  rcases readLoop_token host size mk name swap limit fuel s 0 [] hmk
    (fun _ h => absurd h (List.not_mem_nil _)) with h | h
  · exact Or.inl h
  · rw [h]
    exact Or.inr ⟨rfl, hn⟩

/-- A token `readValue` returns is a `Value` that is valid or an `Error` with a text. -/
theorem readValue_token (qt : Qt) (host : Host) (swap : Bool) (limit : Nat) (s : InStream)
    (type : Nat) :
    ((MatParser.readValue qt host swap limit s type).1.d_type = TokenType.Value ∧
      (MatParser.readValue qt host swap limit s type).1.d_value ≠ QVariant.invalid) ∨
    ((MatParser.readValue qt host swap limit s type).1.d_type = TokenType.Error ∧
      (MatParser.readValue qt host swap limit s type).1.d_value.toString qt ≠ []) := by
  unfold MatParser.readValue _read
  dsimp only
  by_cases c0 : (type == miINT8) = true
  · rw [if_pos c0]
    exact Or.inl ⟨rfl, fun h => by cases h⟩
  rw [if_neg c0]
  by_cases c1 : (type == miUINT8) = true
  · rw [if_pos c1]
    exact read_token qt host _ _ _ swap limit _ s (fun _ h => by cases h) (by decide)
  rw [if_neg c1]
  by_cases c2 : (type == miINT16) = true
  · rw [if_pos c2]
    exact read_token qt host _ _ _ swap limit _ s (fun _ h => by cases h) (by decide)
  rw [if_neg c2]
  by_cases c3 : (type == miUINT16) = true
  · rw [if_pos c3]
    exact read_token qt host _ _ _ swap limit _ s (fun _ h => by cases h) (by decide)
  rw [if_neg c3]
  by_cases c4 : (type == miINT32) = true
  · rw [if_pos c4]
    exact read_token qt host _ _ _ swap limit _ s (fun _ h => by cases h) (by decide)
  rw [if_neg c4]
  by_cases c5 : (type == miUINT32) = true
  · rw [if_pos c5]
    exact read_token qt host _ _ _ swap limit _ s (fun _ h => by cases h) (by decide)
  rw [if_neg c5]
  by_cases c6 : (type == miSINGLE) = true
  · rw [if_pos c6]
    exact read_token qt host _ _ _ swap limit _ s (fun _ h => by cases h) (by decide)
  rw [if_neg c6]
  by_cases c7 : (type == miDOUBLE) = true
  · rw [if_pos c7]
    exact read_token qt host _ _ _ swap limit _ s (fun _ h => by cases h) (by decide)
  rw [if_neg c7]
  by_cases c8 : (type == miINT64) = true
  · rw [if_pos c8]
    exact read_token qt host _ _ _ swap limit _ s (fun _ h => by cases h) (by decide)
  rw [if_neg c8]
  by_cases c9 : (type == miUINT64) = true
  · rw [if_pos c9]
    exact read_token qt host _ _ _ swap limit _ s (fun _ h => by cases h) (by decide)
  rw [if_neg c9]
  by_cases c10 : (type == miUTF8) = true
  · rw [if_pos c10]
    exact Or.inl ⟨rfl, fun h => by cases h⟩
  rw [if_neg c10]
  by_cases c11 : (type == miUTF16) = true
  · rw [if_pos c11]
    generalize _readUnits host _ swap (s.bytesAvailable + 1) s [] = u
    obtain ⟨o, s1⟩ := u
    cases o
    · exact Or.inr ⟨rfl, (by decide : qstr "miUTF16" ≠ [])⟩
    · exact Or.inl ⟨rfl, fun h => by cases h⟩
  rw [if_neg c11]
  by_cases c12 : (type == miUTF32) = true
  · rw [if_pos c12]
    generalize _readUnits host _ swap (s.bytesAvailable + 1) s [] = u
    obtain ⟨o, s1⟩ := u
    cases o
    · exact Or.inr ⟨rfl, (by decide : qstr "miUTF32" ≠ [])⟩
    · exact Or.inl ⟨rfl, fun h => by cases h⟩
  rw [if_neg c12]
  exact Or.inr ⟨rfl, (by decide : qstr "Invalid type" ≠ [])⟩

/-- What a token read from the lexers is: the end of the level, read when the lexer sets the
end flag; a `BeginMatrix`; a `Value` that is valid; or an `Error` with a text. -/
theorem nextToken_kind (qt : Qt) (host : Host) (p : MatParser)
    (hpeek : p.d_peek.d_type = TokenType.Null) :
    (((MatParser.nextToken qt host p).1.d_type = TokenType.Null ∨
        (MatParser.nextToken qt host p).1.d_type = TokenType.EndMatrix) ∧
      (MatLexer.nextElement qt host p.last).1.d_end = true) ∨
    (MatParser.nextToken qt host p).1.d_type = TokenType.BeginMatrix ∨
    ((MatParser.nextToken qt host p).1.d_type = TokenType.Value ∧
      (MatParser.nextToken qt host p).1.d_value ≠ QVariant.invalid) ∨
    ((MatParser.nextToken qt host p).1.d_type = TokenType.Error ∧
      (MatParser.nextToken qt host p).1.d_value.toString qt ≠ []) := by
  by_cases hend : (MatLexer.nextElement qt host p.last).1.d_end = true
  · refine Or.inl ⟨?_, hend⟩
    unfold MatParser.nextToken
    rw [hpeek]
    simp only [bne_self_eq_false, Bool.false_eq_true, if_false, hend, if_true]
    split
    · exact Or.inr rfl
    · exact Or.inl rfl
  · refine Or.inr ?_
    obtain ⟨s, hs⟩ := nextElement_stream qt host p.last (by simpa using hend)
    unfold MatParser.nextToken
    rw [hpeek]
    simp only [bne_self_eq_false, Bool.false_eq_true, if_false, hend, hs]
    by_cases herr : (MatLexer.nextElement qt host p.last).1.d_error = true
    · rw [if_pos herr]
      exact Or.inr (Or.inr ⟨rfl, (by decide : qstr "Lexer Error" ≠ [])⟩)
    · rw [if_neg herr]
      by_cases hm : ((MatLexer.nextElement qt host p.last).1.d_type == miMATRIX) = true
      · rw [if_pos hm]
        exact Or.inl rfl
      · rw [if_neg hm]
        by_cases hc : ((MatLexer.nextElement qt host p.last).1.d_type == miCOMPRESSED) = true
        · rw [if_pos hc]
          exact Or.inr (Or.inr ⟨rfl, (by decide : qstr "miCOMPRESSED" ≠ [])⟩)
        · rw [if_neg hc]
          exact Or.inr (readValue_token qt host _ _ _ _)

/-- When the loop over the cells gives up, the reader holds an error text. -/
theorem cellLoop_none (qt : Qt) (host : Host)
    (rm : MatReader → Except Fault (QVariant × MatReader)) (limit : Nat) :
    ∀ (fuel : Nat) (r : MatReader) (i : Nat) (cells : List QVariant) (r' : MatReader),
      cellLoop qt host rm limit fuel r i cells = .ok (none, r') → r'.d_error ≠ [] := by
  intro fuel
  induction fuel with
  | zero =>
    intro r i cells r' h
    rw [cellLoop] at h
    cases h
  | succ g ih =>
    intro r i cells r' h
    rw [cellLoop] at h
    dsimp only at h
    split at h
    · cases h
    · rename_i v r1 hrm
      split at h
      · rename_i he
        simp only [Except.ok.injEq, Prod.mk.injEq, true_and] at h
        subst h
        simpa using he
      · split at h
        · simp only [Except.ok.injEq, Prod.mk.injEq, true_and] at h
          subst h
          exact (by decide : qstr "Invalid cell end" ≠ [])
        · split at h
          · simp at h
          · split at h
            · exact ih _ _ _ _ h
            · simp at h

/-- When the loop over the fields gives up, the reader holds an error text. -/
theorem fieldLoop_none (qt : Qt) (host : Host)
    (rm : MatReader → Except Fault (QVariant × MatReader)) (names : List (List Nat))
    (limit : Nat) :
    ∀ (fuel : Nat) (r : MatReader) (n : Nat) (fields : List (List Nat × List QVariant))
      (r' : MatReader),
      fieldLoop qt host rm names limit fuel r n fields = .ok (none, r') → r'.d_error ≠ [] := by
  intro fuel
  induction fuel with
  | zero =>
    intro r n fields r' h
    rw [fieldLoop] at h
    cases h
  | succ g ih =>
    intro r n fields r' h
    rw [fieldLoop] at h
    dsimp only at h
    split at h
    · cases h
    · rename_i v r1 hrm
      split at h
      · rename_i he
        simp only [Except.ok.injEq, Prod.mk.injEq, true_and] at h
        subst h
        simpa using he
      · split at h
        · cases h
        · split at h
          · simp only [Except.ok.injEq, Prod.mk.injEq, true_and] at h
            subst h
            exact (by decide : qstr "Invalid field end" ≠ [])
          · split at h
            · simp at h
            · split at h
              · exact ih _ _ _ _ h
              · simp at h

/-- When `readFields` returns false, the reader holds an error text. -/
theorem readFields_false (qt : Qt) (host : Host)
    (rm : MatReader → Except Fault (QVariant × MatReader)) (fuel : Nat) (r : MatReader)
    (names : List (List Nat)) (fields : List (List Nat × List QVariant)) (r' : MatReader)
    (h : MatReader.readFields qt host rm fuel r names = .ok (false, fields, r')) :
    r'.d_error ≠ [] := by
  unfold MatReader.readFields at h
  dsimp only at h
  split at h
  · cases h
  · rename_i r1 hl
    simp only [Except.ok.injEq, Prod.mk.injEq, true_and] at h
    rw [← h.2]
    split at hl
    · exact fieldLoop_none qt host rm names _ fuel _ 0 [] r1 hl
    · simp at hl
  · split at h
    · split at h
      · cases h
      · split at h
        · simp only [Except.ok.injEq, Prod.mk.injEq] at h
          rw [← h.2.2]
          exact (by decide : qstr "Fields and names not consistent" ≠ [])
        · simp at h
    · simp at h


/-- The error text `MatReader::error` sets is not empty. -/
theorem error_text (r : MatReader) (msg : String) (v : QVariant) (r' : MatReader)
    (hm : qstr msg ≠ [])
    (h : (Except.ok (r.error msg) : Except Fault (QVariant × MatReader)) = .ok (v, r')) :
    r'.d_error ≠ [] := by
  simp only [MatReader.error, Except.ok.injEq, Prod.mk.injEq] at h
  rw [← h.2]
  exact hm

/-- When the switch over the class of a matrix returns the empty value, the reader holds an
error text. -/
theorem classSwitch_invalid (qt : Qt) (host : Host)
    (rm : MatReader → Except Fault (QVariant × MatReader)) (fuel limit type : Nat)
    (hdr : Matrix) (complex : Bool) (dims : List Int) (r3 r' : MatReader)
    (h : MatReader.classSwitch qt host rm fuel limit type hdr complex dims r3 =
      .ok (.invalid, r')) :
    r'.d_error ≠ [] := by
  unfold MatReader.classSwitch at h
  dsimp only at h
  by_cases c1 : (decide (mxDOUBLE_CLASS ≤ type) && decide (type ≤ mxUINT64_CLASS)) = true
  · rw [if_pos c1] at h
    repeat' (split at h)
    all_goals first
      | exact error_text _ _ _ _ (by decide) h
      | (simp at h)
  rw [if_neg c1] at h
  by_cases c2 : (type == mxSPARSE_CLASS) = true
  · rw [if_pos c2] at h
    repeat' (split at h)
    all_goals first
      | exact error_text _ _ _ _ (by decide) h
      | (simp at h)
  rw [if_neg c2] at h
  by_cases c3 : (type == mxCELL_CLASS) = true
  · rw [if_pos c3] at h
    repeat' (split at h)
    all_goals first
      | exact error_text _ _ _ _ (by decide) h
      | (simp only [Except.ok.injEq, Prod.mk.injEq, true_and] at h; subst h
         exact cellLoop_none _ _ _ _ _ _ _ _ _ (by assumption))
      | (simp at h)
  rw [if_neg c3] at h
  by_cases c4 : (type == mxCHAR_CLASS) = true
  · rw [if_pos c4] at h
    repeat' (split at h)
    all_goals first
      | exact error_text _ _ _ _ (by decide) h
      | (simp at h)
  rw [if_neg c4] at h
  by_cases c5 : (type == mxSTRUCT_CLASS) = true
  · rw [if_pos c5] at h
    repeat' (split at h)
    all_goals first
      | exact error_text _ _ _ _ (by decide) h
      | (simp only [Except.ok.injEq, Prod.mk.injEq, true_and] at h; subst h
         exact readFields_false _ _ _ _ _ _ _ _ (by assumption))
      | (simp at h)
  rw [if_neg c5] at h
  by_cases c6 : (type == mxUndocumented17 || type == mxUndocumented16) = true
  · rw [if_pos c6] at h
    repeat' (split at h)
    all_goals first
      | exact error_text _ _ _ _ (by decide) h
      | (simp only [Except.ok.injEq, Prod.mk.injEq, true_and] at h; subst h
         rename_i he
         simpa using he)
      | (simp at h)
  rw [if_neg c6] at h
  by_cases c7 : (type == mxOBJECT_CLASS) = true
  · rw [if_pos c7] at h
    repeat' (split at h)
    all_goals first
      | exact error_text _ _ _ _ (by decide) h
      | (simp only [Except.ok.injEq, Prod.mk.injEq, true_and] at h; subst h
         exact readFields_false _ _ _ _ _ _ _ _ (by assumption))
      | (simp at h)
  rw [if_neg c7] at h
  exact error_text _ _ _ _ (by decide) h


/-- When `readMatrix` returns the empty value and the reader holds no error text, the first
token peeked in the matrix was its end. -/
theorem readMatrix_invalid (qt : Qt) (host : Host) (fuel : Nat) (r r' : MatReader)
    (h : MatReader.readMatrix qt host fuel r = .ok (.invalid, r')) (he : r'.d_error = []) :
    (r.peekToken qt host).1.d_type = TokenType.EndMatrix ∧ r' = (r.peekToken qt host).2 := by
  cases fuel with
  | zero =>
    rw [MatReader.readMatrix] at h
    cases h
  | succ g =>
    rw [MatReader.readMatrix] at h
    dsimp only at h
    by_cases c : ((r.peekToken qt host).1.d_type == TokenType.EndMatrix) = true
    · rw [if_pos c] at h
      simp only [Except.ok.injEq, Prod.mk.injEq, true_and] at h
      exact ⟨by simpa using c, h.symm⟩
    · rw [if_neg c] at h
      exfalso
      split at h
      · exact error_text _ _ _ _ (by decide) h he
      · split at h
        · exact error_text _ _ _ _ (by decide) h he
        · split at h
          · exact error_text _ _ _ _ (by decide) h he
          · exact classSwitch_invalid _ _ _ _ _ _ _ _ _ _ _ h he

/-- At the end of the top-level stream `nextElement` returns the empty value and leaves the
reader as it was, but for the cleared error text. -/
theorem nextElement_exhausted (qt : Qt) (host : Host) (fuel : Nat) (r : MatReader)
    (h1 : r.d_parser'.d_nested = []) (h2 : r.d_parser'.d_peek.d_type = TokenType.Null)
    (h3 : ∀ d, r.d_parser'.d_first.d_in = some d → d.atEnd = true) :
    MatReader.nextElement qt host fuel r = .ok (.invalid, { r with d_error := [] }) := by
  have hne : (MatLexer.nextElement qt host r.d_parser'.d_first) =
      (DataElement.new, r.d_parser'.d_first) := by
    unfold MatLexer.nextElement
    cases hd : r.d_parser'.d_first.d_in with
    | none => rfl
    | some d => simp [h3 d hd]
  obtain ⟨⟨first, nested, peek, limit⟩, err⟩ := r
  simp only at h1 h2 h3 hne
  subst h1
  unfold MatReader.nextElement MatReader.nextToken MatParser.nextToken
  simp only [h2, MatParser.last, hne, MatParser.setLast, DataElement.new, Token.ofType,
    bne_self_eq_false, Bool.false_eq_true, if_false, if_true]

/-- C18, as amended.  When `MatReader::nextElement` returns the empty value and `hasError()` is
false, one of four holds.  Either the top-level stream is exhausted: the device is at its end,
so no element remains to be read, the reader is left as it was but for the cleared error text,
and every later call returns the empty value without error again.  Or the element read is a
MATRIX element in whose body the parser finds no sub-element, which `readMatrix` returns as the
empty value.  Or the lexer has set its error flag on the tag of the element.  Or the call was
not made at the top level: a matrix was still open or a token was still peeked. -/
theorem C18_empty_value_means_end (qt : Qt) (host : Host) (fuel : Nat) (r r' : MatReader)
    (h : MatReader.nextElement qt host fuel r = .ok (.invalid, r'))
    (he : MatReader.hasError r' = false) :
    ((∀ d, r.d_parser'.d_first.d_in = some d → d.atEnd = true) ∧
      r' = { r with d_error := [] } ∧
      ∀ fuel', MatReader.nextElement qt host fuel' r' = .ok (.invalid, r')) ∨
    ((MatParser.nextToken qt host r.d_parser').1.d_type = TokenType.BeginMatrix ∧
      (MatParser.peekToken qt host (MatParser.nextToken qt host r.d_parser').2).1.d_type =
        TokenType.EndMatrix) ∨
    (MatLexer.nextElement qt host r.d_parser'.d_first).1.d_error = true ∨
    (r.d_parser'.d_nested ≠ [] ∨ r.d_parser'.d_peek.d_type ≠ TokenType.Null) := by
  by_cases h1 : r.d_parser'.d_nested = []
  swap
  · exact Or.inr (Or.inr (Or.inr (Or.inl h1)))
  by_cases h2 : r.d_parser'.d_peek.d_type = TokenType.Null
  swap
  · exact Or.inr (Or.inr (Or.inr (Or.inr h2)))
  have he' : r'.d_error = [] := by
    simpa [MatReader.hasError] using he
  have hlast : r.d_parser'.last = r.d_parser'.d_first := by
    unfold MatParser.last
    rw [h1]
  rcases nextToken_kind qt host r.d_parser' h2 with ⟨_, hend⟩ | hB | ⟨hV, hval⟩ | ⟨hE, htxt⟩
  · rw [hlast] at hend
    by_cases herr : (MatLexer.nextElement qt host r.d_parser'.d_first).1.d_error = true
    · exact Or.inr (Or.inr (Or.inl herr))
    · have h3 := nextElement_end qt host r.d_parser'.d_first hend (by simpa using herr)
      rw [nextElement_exhausted qt host fuel r h1 h2 h3] at h
      simp only [Except.ok.injEq, Prod.mk.injEq, true_and] at h
      subst h
      exact Or.inl ⟨h3, rfl, fun fuel' => nextElement_exhausted qt host fuel' _ h1 h2 h3⟩
  · refine Or.inr (Or.inl ⟨hB, ?_⟩)
    unfold MatReader.nextElement at h
    simp only [MatReader.nextToken, hB] at h
    split at h
    · cases h
    · rename_i v r1 hrm
      split at h
      · rename_i hne
        simp only [Except.ok.injEq, Prod.mk.injEq, true_and] at h
        subst h
        simp [he'] at hne
      · rename_i hne
        split at h
        · simp only [Except.ok.injEq, Prod.mk.injEq] at h
          rw [h.1] at hrm
          exact (readMatrix_invalid qt host fuel _ r1 hrm (by simpa using hne)).1
        · exact absurd he' (error_text _ _ _ _ (by decide) h)
  · exfalso
    unfold MatReader.nextElement at h
    simp only [MatReader.nextToken, hV, Except.ok.injEq, Prod.mk.injEq] at h
    exact hval h.1
  · exfalso
    unfold MatReader.nextElement at h
    simp only [MatReader.nextToken, hE, Except.ok.injEq, Prod.mk.injEq, true_and] at h
    rw [← h] at he'
    exact htxt he'

/-- C18 at a concrete input: a reader at the end of an empty top-level stream; the first of the
four cases holds. -/
theorem C18_empty_value_means_end_witness :
    ((∀ d, (MatReader.over [] false 0).d_parser'.d_first.d_in = some d → d.atEnd = true) ∧
      MatReader.over [] false 0 = { MatReader.over [] false 0 with d_error := [] } ∧
      ∀ fuel', MatReader.nextElement Qt.plain Host.linux64 fuel' (MatReader.over [] false 0) =
        .ok (.invalid, MatReader.over [] false 0)) ∨
    ((MatParser.nextToken Qt.plain Host.linux64 (MatReader.over [] false 0).d_parser').1.d_type =
        TokenType.BeginMatrix ∧
      (MatParser.peekToken Qt.plain Host.linux64
        (MatParser.nextToken Qt.plain Host.linux64
          (MatReader.over [] false 0).d_parser').2).1.d_type = TokenType.EndMatrix) ∨
    (MatLexer.nextElement Qt.plain Host.linux64
      (MatReader.over [] false 0).d_parser'.d_first).1.d_error = true ∨
    ((MatReader.over [] false 0).d_parser'.d_nested ≠ [] ∨
      (MatReader.over [] false 0).d_parser'.d_peek.d_type ≠ TokenType.Null) :=
  C18_empty_value_means_end Qt.plain Host.linux64 0 (MatReader.over [] false 0)
    (MatReader.over [] false 0) rfl rfl

set_option maxRecDepth 100000

/-! ## Scenarios on texts, delivery in single bytes and byte payloads under a limit -/

/-- With the codec `Qt.nulTerminated` a text without U+0000 comes back unchanged from its own
encoding. -/
theorem nulTerminated_codec (s : List Nat) (h : ∀ c ∈ s, c ≠ 0) :
    Qt.nulTerminated.fromUtf8 (Qt.nulTerminated.toUtf8 s) = s := by
  show (id s).takeWhile (fun c => c != 0) = s
  rw [id, List.takeWhile_eq_self_iff]
  intro c hc
  simpa using h c hc

/-- With the codec `Qt.nulTerminated` every text without U+0000 written by `addCharArray` is
read back by `nextElement` as the String with that text and that name. -/
theorem addCharArray_nextElement_nulTerminated (host : Host) (s name rest : List Nat)
    (fuel : Nat) (h0 : ∀ c ∈ s, c ≠ 0) (hs : s.length < 2 ^ 31)
    (hn : name.length + s.length + 72 ≤ 2 ^ 31) :
    MatReader.nextElement Qt.nulTerminated host (fuel + 1)
        (MatReader.over
          ((MatWriter.addCharArray Qt.nulTerminated host MatWriter.fresh s name).sink ++ rest)
          false 0) =
      .ok (.matString { d_name := name, d_logical := false, d_global := false, d_valid := true } s,
           MatReader.over rest false 0) :=
  (addCharArray_nextElement Qt.nulTerminated host s name rest fuel (nulTerminated_codec s h0) hs
    hn).1

/-- C3.  For the text of the three characters `a`, U+0000, `b` and the name `v`,
`addCharArray` announces the dims `[1, 3]` and writes the three payload bytes 61 00 62.
`QString::fromUtf8(const QByteArray&)` ends the text at the zero byte, so the reader counts one
character where the dims announce three: `nextElement` returns the empty value and sets the
error "Invalid char array".  The text `ab` under the same name is read back as written. -/
theorem C3_text_with_nul_refused :
    (MatWriter.addCharArray Qt.nulTerminated Host.linux64 MatWriter.fresh [97, 0, 98] [118]).sink =
      [14, 0, 0, 0, 48, 0, 0, 0, 6, 0, 0, 0, 8, 0, 0, 0, 4, 0, 0, 0, 0, 0, 0, 0,
       5, 0, 0, 0, 8, 0, 0, 0, 1, 0, 0, 0, 3, 0, 0, 0, 1, 0, 1, 0, 118, 0, 0, 0,
       16, 0, 3, 0, 97, 0, 98, 0] ∧
    errorOf (MatReader.nextElement Qt.nulTerminated Host.linux64 1
      (MatReader.over
        (MatWriter.addCharArray Qt.nulTerminated Host.linux64 MatWriter.fresh [97, 0, 98]
          [118]).sink false 0)) = some (qstr "Invalid char array") ∧
    valueOf (MatReader.nextElement Qt.nulTerminated Host.linux64 1
      (MatReader.over
        (MatWriter.addCharArray Qt.nulTerminated Host.linux64 MatWriter.fresh [97, 0, 98]
          [118]).sink false 0)) = some .invalid ∧
    MatReader.nextElement Qt.nulTerminated Host.linux64 1
      (MatReader.over
        (MatWriter.addCharArray Qt.nulTerminated Host.linux64 MatWriter.fresh [97, 98]
          [118]).sink false 0) =
      .ok (.matString { d_name := [118], d_logical := false, d_global := false, d_valid := true }
            [97, 98],
           MatReader.over [] false 0) := by
  refine ⟨?_, ?_, ?_, ?_⟩
  · decide
  · decide
  · rfl
  · rfl

/-- C28.  An INT8 matrix (class 8) with the dims 1x3 and an empty name holds its payload in a
small `miINT8` element with the bytes 1, 200 and 255.  With the limit 1 `nextElement` returns
the empty value and sets the error "Invalid array flags": the limit cuts the two flags words to
one.  The UINT8 matrix (class 9) with the same payload is rejected likewise.  With the limit 0
the real part of the INT8 matrix is 1, -56, -1 and with the limit 2 it is 1, -56; the real part
of the UINT8 matrix with the limit 2 is 1, 200. -/
theorem C28_limit_one_rejects_byte_matrix :
    errorOf (MatReader.nextElement Qt.plain Host.linux64 1
      (MatReader.over (wireMatrix Host.linux64 false
        (numericBody Host.linux64 false 8 0 [1, 3] TagForm.normal []
          { form := TagForm.small, type := miINT8, bytes := [1, 200, 255] } none)) false 1)) =
      some (qstr "Invalid array flags") ∧
    valueOf (MatReader.nextElement Qt.plain Host.linux64 1
      (MatReader.over (wireMatrix Host.linux64 false
        (numericBody Host.linux64 false 8 0 [1, 3] TagForm.normal []
          { form := TagForm.small, type := miINT8, bytes := [1, 200, 255] } none)) false 1)) =
      some .invalid ∧
    errorOf (MatReader.nextElement Qt.plain Host.linux64 1
      (MatReader.over (wireMatrix Host.linux64 false
        (numericBody Host.linux64 false 9 0 [1, 3] TagForm.normal []
          { form := TagForm.small, type := miINT8, bytes := [1, 200, 255] } none)) false 1)) =
      some (qstr "Invalid array flags") ∧
    valueOf (MatReader.nextElement Qt.plain Host.linux64 1
      (MatReader.over (wireMatrix Host.linux64 false
        (numericBody Host.linux64 false 8 0 [1, 3] TagForm.normal []
          { form := TagForm.small, type := miINT8, bytes := [1, 200, 255] } none)) false 0)) =
      some (.numericArray { d_name := [], d_logical := false, d_global := false, d_valid := true }
        [1, 3] [.int 1, .int (-56), .int (-1)] []) ∧
    valueOf (MatReader.nextElement Qt.plain Host.linux64 1
      (MatReader.over (wireMatrix Host.linux64 false
        (numericBody Host.linux64 false 8 0 [1, 3] TagForm.normal []
          { form := TagForm.small, type := miINT8, bytes := [1, 200, 255] } none)) false 2)) =
      some (.numericArray { d_name := [], d_logical := false, d_global := false, d_valid := true }
        [1, 3] [.int 1, .int (-56)] []) ∧
    valueOf (MatReader.nextElement Qt.plain Host.linux64 1
      (MatReader.over (wireMatrix Host.linux64 false
        (numericBody Host.linux64 false 9 0 [1, 3] TagForm.normal []
          { form := TagForm.small, type := miINT8, bytes := [1, 200, 255] } none)) false 2)) =
      some (.numericArray { d_name := [], d_logical := false, d_global := false, d_valid := true }
        [1, 3] [.uint 1, .uint 200] []) := by
  refine ⟨?_, ?_, ?_, ?_, ?_, ?_⟩
  · decide
  · rfl
  · decide
  · rfl
  · rfl
  · rfl

end Mat
